import Mathlib

/-!
# AudioScout index (Redis module `auscout`) — verification development

Shallow embedding of `auscout_redis.cpp`.

* The C heap restricted to `Entry` objects is an arena `Heap`; a pointer is an
  index into it (`Addr`), `NULL` is `none`.  Reading through a null, freed or
  unallocated pointer is undefined behaviour and yields `none` (a fault).
* A `RedisModuleDict` is a list of bindings kept in the radix tree's iteration
  order (byte-lexicographic on the key bytes).  The `EntryList` a dictionary slot
  points to is stored by value in the binding.
* Machine integers are `Nat`/`Int` with explicit wrap-around.
* `double` scores are exact rationals.
-/

set_option linter.unusedSectionVars false
set_option maxRecDepth 1000000

namespace AudioScout

/-! ## Constants -/

def AUSCOUT_ENCODING_VERSION : Int := 0

def LOOKUP_ENTRIES_PER_FRAME_LIMIT : Nat := 10

def LOOKUP_BLOCK : Int := 100

def LOOKUP_STEPS : Int := 16

def REDISMODULE_OK : Int := 0

def REDISMODULE_ERR : Int := 1

/-! ## Machine integers -/

/-- The 64-bit pattern of a signed value (cast `int64_t -> uint64_t`). -/
def toU64 (z : Int) : Nat := (z % 2 ^ 64).toNat

/-- The signed reading of a 64-bit pattern (cast `uint64_t -> int64_t`). -/
def toI64 (n : Nat) : Int :=
  if n % 2 ^ 64 < 2 ^ 63 then ((n % 2 ^ 64 : Nat) : Int) else ((n % 2 ^ 64 : Nat) : Int) - 2 ^ 64

/-- The signed reading of a 32-bit pattern (cast `uint32_t -> int`). -/
def toI32 (n : Nat) : Int :=
  if n % 2 ^ 32 < 2 ^ 31 then ((n % 2 ^ 32 : Nat) : Int) else ((n % 2 ^ 32 : Nat) : Int) - 2 ^ 32

/-- The 32-bit pattern of a signed value (cast `int -> uint32_t`). -/
def toU32 (z : Int) : Nat := (z % 2 ^ 32).toNat

/-! ## Data model -/

abbrev Addr := Nat

/-- A byte string (`RedisModuleString` contents); each element is read modulo 256. -/
abbrev Bytes := List Nat

/-- `struct entry_t`. -/
structure Entry where
  prev : Option Addr
  next : Option Addr
  succ : Option Addr
  id : Int
  pos : Nat
  hash_value : Nat
deriving DecidableEq, Repr

/-- `struct entry_list_t`. -/
structure EntryList where
  head : Option Addr
  length : Nat
deriving DecidableEq, Repr

/-- The entry pool: cell `a` holds the entry allocated at address `a`, or `none` once freed. -/
abbrev Heap := List (Option Entry)

/-- Read `*a`; `none` when `a` is not a live entry. -/
def load (mem : Heap) (a : Addr) : Option Entry :=
  match mem[a]? with
  | some (some e) => some e
  | _ => none

/-- Write `*a = e`. -/
def store (mem : Heap) (a : Addr) (e : Entry) : Heap := mem.set a (some e)

/-- `RedisModule_Free` of an entry. -/
def free (mem : Heap) (a : Addr) : Heap := mem.set a none

/-- `RedisModule_Calloc(1, sizeof(Entry))` followed by the assignments of `id`, `hash_value`
and `pos`: a fresh cell with null links. The new address is `mem.length`. -/
def new_entry (mem : Heap) (id : Int) (pos hash_value : Nat) : Heap :=
  mem ++ [some ⟨none, none, none, id, pos, hash_value⟩]

/-! ## RedisModuleDict -/

abbrev Dict (K V : Type) := List (K × V)

/-- Lexicographic order on byte strings. -/
def bytesLt : List Nat → List Nat → Bool
  | [], [] => false
  | [], _ :: _ => true
  | _ :: _, [] => false
  | a :: as, b :: bs => if a < b then true else if b < a then false else bytesLt as bs

/-- The `n` in-memory bytes of an integer key (little-endian host). -/
def keyBytes (n : Nat) (x : Nat) : List Nat := (List.range n).map (fun i => x / 256 ^ i % 256)

/-- Iteration order of `hash_dict` keys (`uint32_t`). -/
def hashKeyLt (a b : Nat) : Bool := bytesLt (keyBytes 4 a) (keyBytes 4 b)

/-- Iteration order of `id_dict` keys (`int64_t`). -/
def idKeyLt (a b : Int) : Bool := bytesLt (keyBytes 8 (toU64 a)) (keyBytes 8 (toU64 b))

section DictOps
variable {K V : Type} [DecidableEq K]

/-- `RedisModule_DictGetC`: the value bound to `k`, `none` for `NULL`. -/
def DictGetC : Dict K V → K → Option V
  | [], _ => none
  | (k', v) :: rest, k => if k' = k then some v else DictGetC rest k

/-- Insert a binding for an absent key at its place in iteration order. -/
def dictInsert (lt : K → K → Bool) (k : K) (v : V) : Dict K V → Dict K V
  | [] => [(k, v)]
  | (k', v') :: rest =>
    if lt k k' then (k, v) :: (k', v') :: rest else (k', v') :: dictInsert lt k v rest

/-- Overwrite the value of an existing binding in place. -/
def dictUpdate (k : K) (v : V) : Dict K V → Dict K V
  | [] => []
  | (k', v') :: rest => if k' = k then (k', v) :: rest else (k', v') :: dictUpdate k v rest

/-- Remove the binding of `k`. -/
def dictErase (k : K) : Dict K V → Dict K V
  | [] => []
  | (k', v') :: rest => if k' = k then rest else (k', v') :: dictErase k rest

/-- `RedisModule_DictSetC`: `none` is `REDISMODULE_ERR` (the key already exists). -/
def DictSetC (lt : K → K → Bool) (d : Dict K V) (k : K) (v : V) : Option (Dict K V) :=
  match DictGetC d k with
  | some _ => none
  | none => some (dictInsert lt k v d)

/-- `RedisModule_DictReplaceC`: set the value whether or not the key exists. -/
def DictReplaceC (lt : K → K → Bool) (d : Dict K V) (k : K) (v : V) : Dict K V :=
  match DictGetC d k with
  | some _ => dictUpdate k v d
  | none => dictInsert lt k v d

/-- `RedisModule_DictDelC`: `none` is `REDISMODULE_ERR` (no such key); otherwise the old
value and the dictionary without the key. -/
def DictDelC (d : Dict K V) (k : K) : Option (V × Dict K V) :=
  match DictGetC d k with
  | none => none
  | some v => some (v, dictErase k d)

/-- `RedisModule_DictSize`. -/
def DictSize (d : Dict K V) : Nat := d.length

end DictOps

/-- `struct as_index_t`, together with the entry pool its pointers refer to. -/
structure ASIndex where
  mem : Heap
  hash_dict : Dict Nat EntryList
  id_dict : Dict Int EntryList
  n_entries : Nat
deriving DecidableEq, Repr

/-- The index `CreateIndex` installs at an empty key. -/
def emptyIndex : ASIndex := ⟨[], [], [], 0⟩

/-- What a key of the host holds, as far as this module can tell. -/
inductive KeyValue where
  | empty
  | asindex (index : ASIndex)
  | other
deriving DecidableEq, Repr

/-- A match reported by lookup: `[descr?, id, pos, score]`. -/
structure MatchRow where
  descr : Option Bytes
  id : Int
  pos : Int
  score : ℚ
deriving DecidableEq, Repr

inductive Reply where
  | error (msg : String)
  | integer (n : Int)
  | simple (s : String)
  | rows (ms : List MatchRow)
deriving DecidableEq, Repr

/-- What a command did: the replies it sent, its return code and the value now at its key. -/
structure CmdResult where
  replies : List Reply
  status : Int
  key : KeyValue
deriving DecidableEq, Repr

/-- `GetIndex`: `none` is the thrown `-1` (wrong type); `some none` is `NULL` (empty key). -/
def GetIndex : KeyValue → Option (Option ASIndex)
  | .empty => some none
  | .other => none
  | .asindex index => some (some index)

/-- `CreateIndex`: `none` is the thrown `-1`; otherwise the index now stored at the key. -/
def CreateIndex : KeyValue → Option ASIndex
  | .empty => some emptyIndex
  | .other => none
  | .asindex index => some index

/-! ## Posting lists -/

/-- `add_entry`: prepend entry `e` to the posting list of `hashframe`. -/
def add_entry (mem : Heap) (hash_dict : Dict Nat EntryList) (hashframe : Nat) (e : Addr) :
    Option (Heap × Dict Nat EntryList) :=
  match DictGetC hash_dict hashframe with
  | none => some (mem, DictReplaceC hashKeyLt hash_dict hashframe ⟨some e, 1⟩)
  | some list => do
    let ee ← load mem e
    let mem1 := store mem e { ee with next := list.head }
    let h ← list.head
    let he ← load mem1 h
    let mem2 := store mem1 h { he with prev := some e }
    some (mem2, dictUpdate hashframe ⟨some e, (list.length + 1) % 2 ^ 32⟩ hash_dict)

/-- `remove_entry`: unlink entry `e` from the posting list of `hashframe`. -/
def remove_entry (mem : Heap) (hash_dict : Dict Nat EntryList) (hashframe : Nat) (e : Addr) :
    Option (Heap × Dict Nat EntryList) := do
  let ee ← load mem e
  match ee.prev, ee.next with
  | none, none => some (mem, dictErase hashframe hash_dict)
  | none, some n =>
    match DictGetC hash_dict hashframe with
    | none => some (mem, hash_dict)
    | some list => do
      let ne ← load mem n
      let mem1 := store mem n { ne with prev := none }
      some (mem1, dictUpdate hashframe ⟨some n, (list.length + (2 ^ 32 - 1)) % 2 ^ 32⟩ hash_dict)
  | some p, none =>
    match DictGetC hash_dict hashframe with
    | none => some (mem, hash_dict)
    | some list => do
      let pe ← load mem p
      let mem1 := store mem p { pe with next := none }
      some (mem1, dictUpdate hashframe ⟨list.head, (list.length + (2 ^ 32 - 1)) % 2 ^ 32⟩ hash_dict)
  | some p, some n =>
    match DictGetC hash_dict hashframe with
    | none => some (mem, hash_dict)
    | some list => do
      let ne ← load mem n
      let mem1 := store mem n { ne with prev := some p }
      let pe ← load mem1 p
      let mem2 := store mem1 p { pe with next := some n }
      some (mem2, dictUpdate hashframe ⟨list.head, (list.length + (2 ^ 32 - 1)) % 2 ^ 32⟩ hash_dict)

/-! ## Byte strings of 32-bit words -/

/-- `ntohl(data[i])` for `i = 0, 1, ...`: the big-endian words of a byte string. -/
def ntohl_words : Bytes → List Nat
  | b0 :: b1 :: b2 :: b3 :: rest =>
    (b0 % 256 * 2 ^ 24 + b1 % 256 * 2 ^ 16 + b2 % 256 * 2 ^ 8 + b3 % 256) :: ntohl_words rest
  | _ => []

/-- The client's `SERIALIZE_TO_NET` followed by `%b`: `htonl` of each word, as bytes. -/
def htonl_bytes : List Nat → Bytes
  | [] => []
  | w :: ws => (w / 2 ^ 24 % 256) :: (w / 2 ^ 16 % 256) :: (w / 2 ^ 8 % 256) :: (w % 256)
      :: htonl_bytes ws

/-! ## Add -/

/-- The host calls `get_next_id` makes: `RedisModule_Milliseconds()`, `rand()`, and the
reply of `INCRBY <key>:counter 1` (`none` when the reply is not an integer). -/
structure Host where
  milliseconds : Int
  rand : Nat
  incrby : Option Int
deriving DecidableEq, Repr

/-- `get_next_id`: the replies sent and the value returned. -/
def get_next_id (host : Host) : List Reply × Int :=
  let id := toU64 host.milliseconds * 2 ^ 32 % 2 ^ 64
  let id := id ||| (host.rand % 2 ^ 32 &&& 0xffff0000)
  match host.incrby with
  | none => ([Reply.error "ERR - Unable to generate unique Id"], REDISMODULE_ERR)
  | some c => ([], toI64 (id ||| (0x0000ffff &&& toU64 c)))

/-- The local variables of the frame loop of `auscoutadd_common`. -/
structure AddState where
  mem : Heap
  hash_dict : Dict Nat EntryList
  list : EntryList
  curr : Option Addr
  prev_frame : Nat
  n_entries : Nat
deriving DecidableEq, Repr

/-- One iteration of the frame loop of `auscoutadd_common` (frame index `i`). -/
def add_frame (id : Int) (st : AddState) (i : Nat) (curr_frame : Nat) : Option AddState :=
  if curr_frame ≠ st.prev_frame then do
    let e := st.mem.length
    let mem0 := new_entry st.mem id i curr_frame
    let (head, mem1) ←
      (match st.list.head with
       | none => some (some e, mem0)
       | some h => do
         let c ← st.curr
         let ce ← load mem0 c
         some (some h, store mem0 c { ce with succ := some e }))
    let (mem2, hash_dict) ← add_entry mem1 st.hash_dict curr_frame e
    some { mem := mem2, hash_dict := hash_dict,
           list := ⟨head, (st.list.length + 1) % 2 ^ 32⟩,
           curr := some e, prev_frame := curr_frame,
           n_entries := (st.n_entries + 1) % 2 ^ 64 }
  else some st

/-- The frame loop of `auscoutadd_common`, from frame index `i`. -/
def add_frames (id : Int) : List Nat → Nat → AddState → Option AddState
  | [], _, st => some st
  | f :: fs, i, st => do
    let st1 ← add_frame id st i f
    add_frames id fs (i + 1) st1

/-- Outcome of `auscoutadd_common`. -/
inductive AddOutcome where
  | returned (replies : List Reply) (id : Int) (key : KeyValue)
  | thrown (replies : List Reply) (key : KeyValue)
deriving DecidableEq, Repr

/-- `auscoutadd_common`. `idarg` is `none` when `argc == 3`, else the result of
`RedisModule_StringToLongLong` on the id argument. `none` is a fault. -/
def auscoutadd_common (host : Host) (key : KeyValue) (hashstr : Bytes)
    (idarg : Option (Option Int)) : Option AddOutcome :=
  let idres : Option (List Reply × Int) :=
    match idarg with
    | none => some (get_next_id host)
    | some none => none
    | some (some id) => some ([], id)
  match idres with
  | none => some (.thrown [Reply.error "ERR - Unable to parse id arg"] key)
  | some (replies, id) =>
    let created : Option ASIndex :=
      match GetIndex key with
      | none => none
      | some (some index) => some index
      | some none => CreateIndex key
    match created with
    | none =>
      some (.thrown (replies ++ [Reply.error "ERR - key exists for different type.  Delete first."]) key)
    | some index =>
      let n_frames := hashstr.length / 4 % 2 ^ 32
      match DictSetC idKeyLt index.id_dict id ⟨none, 0⟩ with
      | none => some (.thrown (replies ++ [Reply.error "ERR - id already exists"]) (.asindex index))
      | some id_dict =>
        match add_frames id ((ntohl_words hashstr).take n_frames) 0
            ⟨index.mem, index.hash_dict, ⟨none, 0⟩, none, 0, index.n_entries⟩ with
        | none => none
        | some st =>
          some (.returned replies id
            (.asindex ⟨st.mem, st.hash_dict, dictUpdate id st.list id_dict, st.n_entries⟩))

/-- `AuscoutAdd_RedisCmd` (ARGS: key hashbytestr [id]). -/
def AuscoutAdd_RedisCmd (host : Host) (key : KeyValue) (hashstr : Bytes)
    (idarg : Option (Option Int)) : Option CmdResult :=
  match auscoutadd_common host key hashstr idarg with
  | none => none
  | some (.thrown replies key1) => some ⟨replies, REDISMODULE_ERR, key1⟩
  | some (.returned replies id key1) => some ⟨replies ++ [Reply.integer id], REDISMODULE_OK, key1⟩

/-- `AuscoutAddWithDescr_RedisCmd` (ARGS: key hashbytestr descr [id]); the description goes to
the side key `<key>:<id>`, which is not part of the index. -/
def AuscoutAddWithDescr_RedisCmd (host : Host) (key : KeyValue) (hashstr : Bytes) (_descr : Bytes)
    (idarg : Option (Option Int)) : Option CmdResult :=
  match auscoutadd_common host key hashstr idarg with
  | none => none
  | some (.thrown replies key1) => some ⟨replies, REDISMODULE_ERR, key1⟩
  | some (.returned replies id key1) => some ⟨replies ++ [Reply.integer id], REDISMODULE_OK, key1⟩

/-! ## Delete -/

/-- The loop of `AuscoutDel_RedisCmd` over the track chain, starting at `curr`. Every
iteration frees a live entry, so `fuel = mem.length` iterations always suffice; `none` is a
fault. -/
def del_loop : Nat → Heap → Dict Nat EntryList → Option Addr → Option (Heap × Dict Nat EntryList)
  | _, mem, hash_dict, none => some (mem, hash_dict)
  | 0, _, _, some _ => none
  | fuel + 1, mem, hash_dict, some tmp => do
    let te ← load mem tmp
    let (mem1, hash_dict1) ← remove_entry mem hash_dict te.hash_value tmp
    del_loop fuel (free mem1 tmp) hash_dict1 te.succ

/-- `AuscoutDel_RedisCmd` (ARGS: key id_value). `idarg` is the result of
`RedisModule_StringToLongLong`. -/
def AuscoutDel_RedisCmd (key : KeyValue) (idarg : Option Int) : Option CmdResult :=
  match idarg with
  | none => some ⟨[Reply.error "unable to parse id arg"], REDISMODULE_ERR, key⟩
  | some id =>
    match GetIndex key with
    | none =>
      some ⟨[Reply.error "ERR - key exists for different type.  Delete first."], REDISMODULE_ERR, key⟩
    | some none => some ⟨[Reply.error "ERR - no such key"], REDISMODULE_ERR, key⟩
    | some (some index) =>
      match DictDelC index.id_dict id with
      | none => some ⟨[Reply.error "no such id found"], REDISMODULE_ERR, key⟩
      | some (list, id_dict) =>
        let n_entries := (index.n_entries + (2 ^ 64 - list.length % 2 ^ 64)) % 2 ^ 64
        match del_loop index.mem.length index.mem index.hash_dict list.head with
        | none => none
        | some (mem, hash_dict) =>
          some ⟨[Reply.integer list.length], REDISMODULE_OK,
                .asindex ⟨mem, hash_dict, id_dict, n_entries⟩⟩

/-! ## Size and count -/

/-- `AuscoutSize_RedisCmd`. -/
def AuscoutSize_RedisCmd (key : KeyValue) : CmdResult :=
  match GetIndex key with
  | none => ⟨[Reply.error "ERR - key exists for different type.  Delete first."], REDISMODULE_ERR, key⟩
  | some none => ⟨[Reply.integer 0], REDISMODULE_OK, key⟩
  | some (some index) => ⟨[Reply.integer (toI64 index.n_entries)], REDISMODULE_OK, key⟩

/-- `AuscoutCount_RedisCmd`. -/
def AuscoutCount_RedisCmd (key : KeyValue) : CmdResult :=
  match GetIndex key with
  | none => ⟨[Reply.error "ERR - key exists for different type.  Delete first."], REDISMODULE_ERR, key⟩
  | some none => ⟨[Reply.integer 0], REDISMODULE_OK, key⟩
  | some (some index) => ⟨[Reply.integer (DictSize index.id_dict)], REDISMODULE_OK, key⟩

/-! ## Lookup -/

/-- `struct tracker_t` (fields are C `int`). -/
structure TrackerId where
  start_index : Int
  last_index : Int
  pos : Int
  count : Int
deriving DecidableEq, Repr

/-- `struct found_t`. -/
structure FoundId where
  id : Int
  pos : Int
  cs : ℚ
deriving DecidableEq, Repr

/-- `std::map<int64_t, TrackerId>`. -/
abbrev Tracker := Dict Int TrackerId

/-- `tracker[id] = t`. -/
def trackerSet (tracker : Tracker) (id : Int) (t : TrackerId) : Tracker :=
  DictReplaceC (fun a b => decide (a < b)) tracker id t

/-- The loop of `bitcount`; `none` when `fuel` iterations do not finish it. -/
def bitcount_loop : Nat → Nat → Nat → Option Nat
  | 0, _, _ => none
  | fuel + 1, toggle, count =>
    if toggle ≠ 0 then
      bitcount_loop fuel (toggle / 2) (if toggle &&& 1 ≠ 0 then count + 1 else count)
    else some count

/-- `bitcount`: number of set bits of a `uint32_t`. -/
def bitcount (toggle : Nat) : Option Nat := bitcount_loop 33 (toggle % 2 ^ 32) 0

/-- The inner loop of `get_candidates`:
`while ((bitnum & toggle) == 0 && bitnum != 0) bitnum >>= 1;`. -/
def skip_bits : Nat → Nat → Nat → Option Nat
  | 0, _, _ => none
  | fuel + 1, toggle, bitnum =>
    if (bitnum &&& toggle) = 0 ∧ bitnum ≠ 0 then skip_bits fuel toggle (bitnum / 2)
    else some bitnum

/-- The `while (perms != 0 && bitnum != 0 && toggle != 0)` loop of `get_candidates`. -/
def perm_loop : Nat → Nat → Nat → Nat → Nat → Option Nat
  | 0, _, _, _, _ => none
  | fuel + 1, toggle, perms, bitnum, curr_value =>
    if perms ≠ 0 ∧ bitnum ≠ 0 ∧ toggle ≠ 0 then do
      let bitnum1 ← skip_bits 33 toggle bitnum
      let curr_value1 := if perms &&& 1 ≠ 0 then curr_value ^^^ bitnum1 else curr_value
      perm_loop fuel toggle (perms / 2) (bitnum1 / 2) curr_value1
    else some curr_value

/-- `get_candidates`: the vector it fills. `n_candidates` is the `int` `0x01 << bitcount`. -/
def get_candidates (hashvalue toggle : Nat) : Option (List Nat) := do
  let bc ← bitcount toggle
  let n_candidates := toI32 (2 ^ bc)
  let rest ← (List.range (n_candidates - 1).toNat).mapM
    (fun j => perm_loop 33 (toggle % 2 ^ 32) (j + 1) 0x80000000 (hashvalue % 2 ^ 32))
  some (hashvalue % 2 ^ 32 :: rest)

/-- The body of the `while` loop of `lookup_hashframe` for one posting entry `e`; the
flag is true when the function returns from inside the loop. -/
def lookup_entry (current : Int) (threshold : ℚ) (e : Entry) (tracker : Tracker)
    (results : List FoundId) : Tracker × List FoundId × Bool :=
  match DictGetC tracker e.id with
  | some t =>
    let t1 : TrackerId :=
      if current ≤ t.last_index + LOOKUP_STEPS then
        { t with pos := if e.pos % 2 ^ 32 < toU32 t.pos then toI32 e.pos else t.pos,
                 count := t.count + 1, last_index := current }
      else t
    let window_length := t1.last_index - t1.start_index + 1
    let cs : ℚ := (t1.count : ℚ) / (window_length : ℚ)
    if window_length ≥ LOOKUP_BLOCK ∧ cs ≥ threshold then
      (dictErase e.id tracker, results ++ [⟨e.id, t1.pos, cs⟩], true)
    else
      let t2 : TrackerId :=
        if current > t1.last_index + LOOKUP_STEPS then ⟨current, current, toI32 e.pos, 1⟩ else t1
      (trackerSet tracker e.id t2, results, false)
  | none => (trackerSet tracker e.id ⟨current, current, toI32 e.pos, 1⟩, results, false)

/-- The `while (e != NULL && entry_count < LOOKUP_ENTRIES_PER_FRAME_LIMIT)` loop of
`lookup_hashframe`; the first argument is the number of entries still allowed. -/
def lookup_walk (current : Int) (threshold : ℚ) (mem : Heap) :
    Nat → Option Addr → Tracker → List FoundId → Option (Tracker × List FoundId × Bool)
  | _, none, tracker, results => some (tracker, results, false)
  | 0, some _, tracker, results => some (tracker, results, false)
  | n + 1, some a, tracker, results => do
    let e ← load mem a
    let (tracker1, results1, found) := lookup_entry current threshold e tracker results
    if found then some (tracker1, results1, true)
    else lookup_walk current threshold mem n e.next tracker1 results1

/-- `lookup_hashframe`: the tracker and results afterwards and the returned flag. -/
def lookup_hashframe (current : Int) (threshold : ℚ) (mem : Heap) (hash_dict : Dict Nat EntryList)
    (hashframe : Nat) (tracker : Tracker) (results : List FoundId) :
    Option (Tracker × List FoundId × Bool) :=
  match DictGetC hash_dict hashframe with
  | none => some (tracker, results, false)
  | some list =>
    lookup_walk current threshold mem LOOKUP_ENTRIES_PER_FRAME_LIMIT list.head tracker results

/-- The `for (uint32_t key : candidates)` loop of `AuscoutLookup_RedisCmd`. -/
def lookup_candidates (current : Int) (threshold : ℚ) (index : ASIndex) :
    List Nat → Tracker → List FoundId → Option (Tracker × List FoundId)
  | [], tracker, results => some (tracker, results)
  | key :: keys, tracker, results => do
    let (tracker1, results1, _) ←
      lookup_hashframe current threshold index.mem index.hash_dict key tracker results
    lookup_candidates current threshold index keys tracker1 results1

/-- The `for (int i = 0; i < n_frames; i++)` loop of `AuscoutLookup_RedisCmd`, from frame `i`. -/
def lookup_frames (threshold : ℚ) (index : ASIndex) :
    List (Nat × Nat) → Int → Tracker → List FoundId → Option (List FoundId)
  | [], _, _, results => some results
  | (frame, toggle) :: rest, i, tracker, results => do
    let candidates ← get_candidates frame toggle
    let (tracker1, results1) ← lookup_candidates i threshold index candidates tracker results
    if results1.length > 0 then some results1
    else lookup_frames threshold index rest (i + 1) tracker1 results1

/-- `AuscoutLookup_RedisCmd` (ARGS: key hashbytestr togglebytestr [threshold]).
`thresholdarg` is `none` without a fourth argument, else the result of
`RedisModule_StringToDouble`; `descr` is `GetDescriptionField` for this key. -/
def AuscoutLookup_RedisCmd (descr : Int → Option Bytes) (key : KeyValue)
    (hashbytestr togglebytestr : Bytes) (thresholdarg : Option (Option ℚ)) : Option CmdResult :=
  let parsed : Option ℚ :=
    match thresholdarg with
    | none => some (3 / 10)
    | some t => t
  match parsed with
  | none => some ⟨[Reply.error "ERR - unable to parse threshold parameter"], REDISMODULE_ERR, key⟩
  | some threshold =>
    if hashbytestr.length < 4 ∨ togglebytestr.length < 4 then
      some ⟨[Reply.error "insufficient length arrays"], REDISMODULE_ERR, key⟩
    else if hashbytestr.length ≠ togglebytestr.length then
      some ⟨[Reply.error "hash array must be equal to toggle array length"], REDISMODULE_ERR, key⟩
    else
      match GetIndex key with
      | none =>
        some ⟨[Reply.error "ERR - key exists for different type.  Delete first."],
              REDISMODULE_ERR, key⟩
      | some none => some ⟨[Reply.error "ERR - no such key"], REDISMODULE_ERR, key⟩
      | some (some index) =>
        let n_frames := (toI32 (hashbytestr.length / 4)).toNat
        match lookup_frames threshold index
            (((ntohl_words hashbytestr).zip (ntohl_words togglebytestr)).take n_frames) 0 [] [] with
        | none => none
        | some results =>
          some ⟨[Reply.rows (results.map (fun fnd => ⟨descr fnd.id, fnd.id, fnd.pos, fnd.cs⟩))],
                REDISMODULE_OK, key⟩

/-! ## Snapshot -/

/-- `RedisModule_LoadUnsigned`: the value read (0 on a read error) and the rest of the stream. -/
def RedisModule_LoadUnsigned : List Nat → Nat × List Nat
  | [] => (0, [])
  | v :: rest => (v % 2 ^ 64, rest)

/-- `RedisModule_LoadSigned`. -/
def RedisModule_LoadSigned (rdb : List Nat) : Int × List Nat :=
  ((toI64 (RedisModule_LoadUnsigned rdb).1), (RedisModule_LoadUnsigned rdb).2)

/-- The entry loop of `ASIndexTypeRdbSave`: the values written for a chain from `entry`, with
`n` the number of frames still to write (`nframes - i`). -/
def save_entries (mem : Heap) : Nat → Option Addr → Option (List Nat)
  | _, none => some []
  | 0, some _ => some []
  | n + 1, some a => do
    let e ← load mem a
    let rest ← save_entries mem n e.succ
    some (e.hash_value % 2 ^ 64 :: toU64 (e.pos : Int) :: rest)

/-- The dictionary loop of `ASIndexTypeRdbSave`. -/
def save_tracks (mem : Heap) : Dict Int EntryList → Option (List Nat)
  | [] => some []
  | (_, list) :: rest => do
    let h ← list.head
    let he ← load mem h
    let entries ← save_entries mem list.length list.head
    let tracks ← save_tracks mem rest
    some (toU64 he.id :: list.length % 2 ^ 64 :: (entries ++ tracks))

/-- `ASIndexTypeRdbSave`: the stream of 64-bit values written; `none` is a fault. -/
def ASIndexTypeRdbSave (index : ASIndex) : Option (List Nat) := do
  let tracks ← save_tracks index.mem index.id_dict
  some (DictSize index.id_dict % 2 ^ 64 :: tracks)

/-- The local variables of the frame loop of `ASIndexTypeRdbLoad`. -/
structure LoadState where
  mem : Heap
  hash_dict : Dict Nat EntryList
  list : EntryList
  curr : Option Addr
  rdb : List Nat
deriving DecidableEq, Repr

/-- The `for (uint32_t j = 0; j < n_frames; j++)` loop of `ASIndexTypeRdbLoad`; the first
argument is the number of iterations left. -/
def load_entries (id : Int) (n_frames : Nat) : Nat → Nat → LoadState → Option LoadState
  | 0, _, st => some st
  | n + 1, j, st => do
    let e := st.mem.length
    let hash_value := (RedisModule_LoadUnsigned st.rdb).1 % 2 ^ 32
    let rdb1 := (RedisModule_LoadUnsigned st.rdb).2
    let pos := toU32 (RedisModule_LoadSigned rdb1).1
    let rdb2 := (RedisModule_LoadSigned rdb1).2
    let mem0 := new_entry st.mem id pos hash_value
    let (list, mem1) ←
      (if j = 0 then some ((⟨some e, n_frames⟩ : EntryList), mem0)
       else do
         let c ← st.curr
         let ce ← load mem0 c
         some (st.list, store mem0 c { ce with succ := some e }))
    let (mem2, hash_dict) ← add_entry mem1 st.hash_dict hash_value e
    load_entries id n_frames n (j + 1) ⟨mem2, hash_dict, list, some e, rdb2⟩

/-- The `for (uint64_t i = 0; i < n_ids; i++)` loop of `ASIndexTypeRdbLoad`. -/
def load_tracks : Nat → ASIndex → List Nat → Option ASIndex
  | 0, index, _ => some index
  | n + 1, index, rdb => do
    let id := (RedisModule_LoadSigned rdb).1
    let rdb1 := (RedisModule_LoadSigned rdb).2
    let n_frames := toU32 (toI32 (RedisModule_LoadUnsigned rdb1).1)
    let rdb2 := (RedisModule_LoadUnsigned rdb1).2
    let n_entries1 := (index.n_entries + n_frames) % 2 ^ 64
    let set := DictSetC idKeyLt index.id_dict id ⟨none, 0⟩
    let n_entries2 := (n_entries1 + n_frames) % 2 ^ 64
    let st ← load_entries id n_frames n_frames 0 ⟨index.mem, index.hash_dict, ⟨none, 0⟩, none, rdb2⟩
    let id_dict :=
      match set with
      | some d => dictUpdate id st.list d
      | none => index.id_dict
    load_tracks n ⟨st.mem, st.hash_dict, id_dict, n_entries2⟩ st.rdb

/-- `ASIndexTypeRdbLoad`: `some none` is the `NULL` returned for a foreign encoding version;
`none` is a fault. -/
def ASIndexTypeRdbLoad (rdb : List Nat) (encver : Int) : Option (Option ASIndex) :=
  if encver ≠ AUSCOUT_ENCODING_VERSION then some none
  else
    match load_tracks (RedisModule_LoadUnsigned rdb).1 emptyIndex (RedisModule_LoadUnsigned rdb).2 with
    | none => none
    | some index => some (some index)

/-! ## Observations of an index -/

/-- The entries reached from `p` along `next`, at most `fuel` of them. -/
def posting_from (mem : Heap) : Nat → Option Addr → List Entry
  | 0, _ => []
  | _ + 1, none => []
  | fuel + 1, some a =>
    match load mem a with
    | none => []
    | some e => e :: posting_from mem fuel e.next

/-- The entries reached from `p` along `succ`, at most `fuel` of them. -/
def chain_from (mem : Heap) : Nat → Option Addr → List Entry
  | 0, _ => []
  | _ + 1, none => []
  | fuel + 1, some a =>
    match load mem a with
    | none => []
    | some e => e :: chain_from mem fuel e.succ

/-- The posting list of hash `h`, head first (empty when `h` is not in `hash_dict`). -/
def postingList (index : ASIndex) (h : Nat) : List Entry :=
  match DictGetC index.hash_dict h with
  | none => []
  | some list => posting_from index.mem index.mem.length list.head

/-- The track chain of `id`, in `succ` order (empty when `id` is not in `id_dict`). -/
def trackChain (index : ASIndex) (id : Int) : List Entry :=
  match DictGetC index.id_dict id with
  | none => []
  | some list => chain_from index.mem index.mem.length list.head

/-- The `(id, pos, hash_value)` of an entry. -/
def Entry.key (e : Entry) : Int × Nat × Nat := (e.id, e.pos, e.hash_value)

/-! ## Field views of the heap -/

def prevOf (mem : Heap) (a : Addr) : Option (Option Addr) := (load mem a).map Entry.prev

def nextOf (mem : Heap) (a : Addr) : Option (Option Addr) := (load mem a).map Entry.next

def succOf (mem : Heap) (a : Addr) : Option (Option Addr) := (load mem a).map Entry.succ

def keyOf (mem : Heap) (a : Addr) : Option (Int × Nat × Nat) := (load mem a).map Entry.key

/-- The addresses `as` form a doubly linked list whose first `prev` is `p` and whose last
`next` is null. -/
def IsDll (mem : Heap) : Option Addr → List Addr → Prop
  | _, [] => True
  | p, a :: rest => prevOf mem a = some p ∧ nextOf mem a = some rest.head? ∧ IsDll mem (some a) rest

/-- The addresses `as` form a `succ` chain ending in null. -/
def IsChain (mem : Heap) : List Addr → Prop
  | [] => True
  | a :: rest => succOf mem a = some rest.head? ∧ IsChain mem rest

section DictLemmas
variable {K V : Type} [DecidableEq K]

/-! ## Dictionary lemmas -/

/-- The keys of a dictionary, in iteration order. -/
def dictKeys (d : Dict K V) : List K := d.map Prod.fst

/-- Sum of `f` over the keys of a dictionary. -/
def dictSum (f : K → Nat) (d : Dict K V) : Nat := (d.map (fun kv => f kv.1)).sum

end DictLemmas

/-! ## Representation invariant

`P h` lists the addresses of the posting list of hash `h`, head first; `C id` lists the
addresses of the track chain of `id`, in `succ` order. -/

/-- The heap and `hash_dict` hold exactly the posting lists `P` and the chains `C`. -/
structure Rep (mem : Heap) (hd : Dict Nat EntryList) (P : Nat → List Addr)
    (C : Int → List Addr) : Prop where
  hd_nodup : (dictKeys hd).Nodup
  hd_none : ∀ h, DictGetC hd h = none → P h = []
  hd_some : ∀ h l, DictGetC hd h = some l →
    P h ≠ [] ∧ l.head = (P h).head? ∧ l.length = (P h).length % 2 ^ 32
  dll : ∀ h, IsDll mem none (P h)
  p_nodup : ∀ h, (P h).Nodup
  p_key : ∀ h a, a ∈ P h → ∃ k, keyOf mem a = some k ∧ k.2.2 = h
  chain : ∀ id, IsChain mem (C id)
  c_nodup : ∀ id, (C id).Nodup
  c_key : ∀ id a, a ∈ C id → ∃ k, keyOf mem a = some k ∧ k.1 = id
  live : ∀ a k, keyOf mem a = some k → a ∈ P k.2.2 ∧ a ∈ C k.1

/-! ## Live entries -/

/-- The addresses of the live entries of the pool. -/
def liveAddrs (mem : Heap) : List Addr :=
  (List.range mem.length).filter (fun a => (keyOf mem a).isSome)

/-- The number of live entries of the pool. -/
def liveCount (mem : Heap) : Nat := (liveAddrs mem).length

/-! ## The frame loop of add -/

/-- The `(pos, hash_value)` of the entries the frame loop creates from frame index `i` on,
with `prev` the current `prev_frame`. -/
def dedup_frames : Nat → Nat → List Nat → List (Nat × Nat)
  | _, _, [] => []
  | prev, i, f :: fs =>
    if f ≠ prev then (i, f) :: dedup_frames f (i + 1) fs else dedup_frames prev (i + 1) fs

/-- The posting lists after entries with the given hashes are prepended, one by one, at
consecutive addresses from `a`. -/
def postAfter : List (Nat × Nat) → Addr → (Nat → List Addr) → (Nat → List Addr)
  | [], _, P => P
  | (_, f) :: rest, a, P => postAfter rest (a + 1) (Function.update P f (a :: P f))

/-- The id dictionary holds exactly the heads and lengths of the chains `C`. -/
structure IdRep (idd : Dict Int EntryList) (C : Int → List Addr) : Prop where
  nodup : (dictKeys idd).Nodup
  none : ∀ id, DictGetC idd id = none → C id = []
  some : ∀ id l, DictGetC idd id = some l →
    l.head = (C id).head? ∧ l.length = (C id).length ∧ (C id).length < 2 ^ 32

/-- The index holds exactly the posting lists `P` and the chains `C`. -/
def Represents (s : ASIndex) (P : Nat → List Addr) (C : Int → List Addr) : Prop :=
  Rep s.mem s.hash_dict P C ∧ IdRep s.id_dict C

/-! ## Add and delete on a represented index -/

/-- The frames `auscoutadd_common` walks: the first `n_frames` words of the byte string. -/
def add_input (hashstr : Bytes) : List Nat :=
  (ntohl_words hashstr).take (hashstr.length / 4 % 2 ^ 32)

/-! ## Reachable indexes and their invariant -/

/-- A value that fits a C `long long`. -/
def isInt64 (v : Int) : Prop := -2 ^ 63 ≤ v ∧ v < 2 ^ 63

instance (v : Int) : Decidable (isInt64 v) := by unfold isInt64; infer_instance

/-- The indexes built from the empty index by `add` and `del` commands. An id argument, when
one is given and parses, is a `long long`. -/
inductive Reachable : ASIndex → Prop where
  | empty : Reachable emptyIndex
  | add {s s' : ASIndex} (host : Host) (hashstr : Bytes) (idarg : Option (Option Int))
      (replies : List Reply) (id : Int) :
      Reachable s → (∀ v, idarg = some (some v) → isInt64 v) →
      auscoutadd_common host (.asindex s) hashstr idarg =
        some (.returned replies id (.asindex s')) →
      Reachable s'
  | del {s s' : ASIndex} (idarg : Option Int) (r : CmdResult) :
      Reachable s → AuscoutDel_RedisCmd (.asindex s) idarg = some r → r.key = .asindex s' →
      Reachable s'

/-- The key of an entry fits the C types of its fields. -/
def keyInRange (k : Int × Nat × Nat) : Prop := isInt64 k.1 ∧ k.2.1 < 2 ^ 32 ∧ k.2.2 < 2 ^ 32

/-- The invariant of reachable indexes, for the posting lists `P` and chains `C`. -/
structure Inv (s : ASIndex) (P : Nat → List Addr) (C : Int → List Addr) : Prop where
  rep : Represents s P C
  count : s.n_entries = liveCount s.mem % 2 ^ 64
  range : ∀ a k, keyOf s.mem a = some k → keyInRange k

/-- Well-formed indexes. -/
def WF (s : ASIndex) : Prop := ∃ P C, Inv s P C

/-- The positions kept by duplicate-adjacent suppression, in the words of the specification:
those `i` with `f[i] ≠ f[i-1]`, where `f[-1]` is `prev`. -/
def kept_positions (prev : Nat) (f : List Nat) : List Nat :=
  (List.range f.length).filter
    (fun i => decide (f.getD i 0 ≠ (if i = 0 then prev else f.getD (i - 1) 0)))

/-- Successive `auscout.add` commands on one key; `none` as soon as one of them does not
return `REDISMODULE_OK`. -/
def add_all : KeyValue → List (Host × Bytes × Option (Option Int)) → Option KeyValue
  | key, [] => some key
  | key, (host, hashstr, idarg) :: rest =>
    match AuscoutAdd_RedisCmd host key hashstr idarg with
    | some r => if r.status = REDISMODULE_OK then add_all r.key rest else none
    | none => none

/-- The index a key holds after commands on it (the empty index for an empty key). -/
def indexAt : KeyValue → Option ASIndex
  | .empty => some emptyIndex
  | .asindex index => some index
  | .other => none

/-- The index after `add key [1, 2, 3] 7` on an empty key. -/
def index_1_2_3 : ASIndex :=
  { mem := [some ⟨none, none, some 1, 7, 0, 1⟩, some ⟨none, none, some 2, 7, 1, 2⟩,
            some ⟨none, none, none, 7, 2, 3⟩],
    hash_dict := [(1, ⟨some 0, 1⟩), (2, ⟨some 1, 1⟩), (3, ⟨some 2, 1⟩)],
    id_dict := [(7, ⟨some 0, 3⟩)],
    n_entries := 3 }

/-! ## Lookup over posting keys -/

/-- An entry with the given key and null links. -/
def entryOfKey (k : Int × Nat × Nat) : Entry := ⟨none, none, none, k.1, k.2.1, k.2.2⟩

/-- The entry loop of `lookup_hashframe` over the keys of a posting list. -/
def lookup_keys (current : Int) (threshold : ℚ) :
    List (Int × Nat × Nat) → Tracker → List FoundId → Tracker × List FoundId × Bool
  | [], tracker, results => (tracker, results, false)
  | k :: ks, tracker, results =>
    if (lookup_entry current threshold (entryOfKey k) tracker results).2.2 then
      ((lookup_entry current threshold (entryOfKey k) tracker results).1,
       (lookup_entry current threshold (entryOfKey k) tracker results).2.1, true)
    else
      lookup_keys current threshold ks
        (lookup_entry current threshold (entryOfKey k) tracker results).1
        (lookup_entry current threshold (entryOfKey k) tracker results).2.1

/-- The candidate loop of lookup over a table `post` of posting keys. -/
def lookup_candidates_keys (current : Int) (threshold : ℚ) (post : Nat → List (Int × Nat × Nat)) :
    List Nat → Tracker → List FoundId → Tracker × List FoundId
  | [], tracker, results => (tracker, results)
  | key :: keys, tracker, results =>
    lookup_candidates_keys current threshold post keys
      (lookup_keys current threshold (post key) tracker results).1
      (lookup_keys current threshold (post key) tracker results).2.1

/-- The frame loop of lookup over a table `post` of posting keys. -/
def lookup_frames_keys (threshold : ℚ) (post : Nat → List (Int × Nat × Nat)) :
    List (Nat × Nat) → Int → Tracker → List FoundId → Option (List FoundId)
  | [], _, _, results => some results
  | (frame, toggle) :: rest, i, tracker, results =>
    match get_candidates frame toggle with
    | none => none
    | some candidates =>
      if (lookup_candidates_keys i threshold post candidates tracker results).2.length > 0 then
        some (lookup_candidates_keys i threshold post candidates tracker results).2
      else
        lookup_frames_keys threshold post rest (i + 1)
          (lookup_candidates_keys i threshold post candidates tracker results).1
          (lookup_candidates_keys i threshold post candidates tracker results).2

/-- The posting keys lookup examines for hash `h`: the first
`LOOKUP_ENTRIES_PER_FRAME_LIMIT` of the posting list. -/
def examined (index : ASIndex) (h : Nat) : List (Int × Nat × Nat) :=
  ((postingList index h).map Entry.key).take LOOKUP_ENTRIES_PER_FRAME_LIMIT

/-- The frames `(x, 0)` of a probe whose `j`-th hash has the single posting key
`(id, p + j, x)`. -/
def Aligned (post : Nat → List (Int × Nat × Nat)) (id : Int) :
    Nat → List (Nat × Nat) → Prop
  | _, [] => True
  | p, (x, toggle) :: rest =>
    (toggle = 0 ∧ x < 2 ^ 32 ∧ p < 2 ^ 31 ∧ post x = [(id, p, x)]) ∧ Aligned post id (p + 1) rest

/-! ## Snapshot -/

/-- The stream values `ASIndexTypeRdbSave` writes for entries with the given
`(pos, hash_value)`. -/
def enc_entries : List (Nat × Nat) → List Nat
  | [] => []
  | (p, h) :: rest => h % 2 ^ 64 :: toU64 (p : Int) :: enc_entries rest

/-- The stream values `ASIndexTypeRdbSave` writes for a track. -/
def enc_track (t : Int × List (Nat × Nat)) : List Nat :=
  toU64 t.1 :: t.2.length % 2 ^ 64 :: enc_entries t.2

/-- The `(pos, hash_value)` along a list of addresses. -/
def posHashOf (mem : Heap) (l : List Addr) : List (Nat × Nat) :=
  (l.filterMap (keyOf mem)).map (fun k => (k.2.1, k.2.2))

/-- The index after `add key [0x10, 0x10, 0x10, 0x20] 7` on an empty key. -/
def index_dup : ASIndex :=
  { mem := [some ⟨none, none, some 1, 7, 0, 16⟩, some ⟨none, none, none, 7, 3, 32⟩],
    hash_dict := [(16, ⟨some 0, 1⟩), (32, ⟨some 1, 1⟩)],
    id_dict := [(7, ⟨some 0, 2⟩)],
    n_entries := 2 }

/-! ## Candidate expansion -/

/-- The number of set bits among the 32 bits of a word. -/
def popcount (n : Nat) : Nat := ((List.range 32).filter (fun k => n.testBit k)).length

/-- The bit `skip_bits` stops at when it starts at bit `m`: the highest bit of `toggle` at a
position `≤ m`, or 0 when there is none. -/
def skip_spec (toggle : Nat) : Nat → Nat
  | 0 => if toggle.testBit 0 then 1 else 0
  | m + 1 => if toggle.testBit (m + 1) then 2 ^ (m + 1) else skip_spec toggle m

/-- The mask `perm_loop` flips when it starts below bit `m`: the bits of `perms`, lowest
first, are laid on the set bits of `toggle` at positions `< m`, highest first. -/
def scatter (toggle : Nat) : Nat → Nat → Nat
  | 0, _ => 0
  | m + 1, perms =>
    if toggle.testBit m then
      (if perms % 2 = 1 then 2 ^ m else 0) ^^^ scatter toggle m (perms / 2)
    else scatter toggle m perms

/-- The number of set bits of `toggle` at positions `< m`. -/
def popBelow (toggle m : Nat) : Nat := ((List.range m).filter (fun k => toggle.testBit k)).length

/-! ## Replay log -/

/-- How a loop ended: with a value, by dereferencing a null or dangling pointer, or not
within the given number of iterations. -/
inductive Run (α : Type) where
  | done (a : α)
  | fault
  | out_of_fuel
deriving DecidableEq, Repr

/-- The `while (entry != NULL)` loop of `ASIndexTypeAofRewrite`. Its body is
`hashesforid.push_back(htonl(entry->hash_value)); entry->succ;` and the second statement
assigns nothing, so `entry` keeps its value. `hashesforid` holds host-order values here. -/
def aof_chain : Nat → Heap → Option Addr → List Nat → Run (List Nat)
  | _, _, none, hashesforid => .done hashesforid
  | 0, _, some _, _ => .out_of_fuel
  | fuel + 1, mem, some a, hashesforid =>
    match load mem a with
    | none => .fault
    | some e => aof_chain fuel mem (some a) (hashesforid ++ [e.hash_value])

/-- A command emitted by `RedisModule_EmitAOF(aof, "auscout.add", "sbl", key, data, len, id)`. -/
structure AofCommand where
  cmd : String
  payload : Bytes
  id : Int
deriving DecidableEq, Repr

/-- The dictionary loop of `ASIndexTypeAofRewrite`; `fuel` bounds each inner loop. -/
def aof_tracks (fuel : Nat) (mem : Heap) :
    Dict Int EntryList → List AofCommand → Run (List AofCommand)
  | [], emitted => .done emitted
  | (_, list) :: rest, emitted =>
    match list.head with
    | none => .fault
    | some a =>
      match load mem a with
      | none => .fault
      | some entry =>
        match aof_chain fuel mem (some a) [] with
        | .done hashesforid =>
          aof_tracks fuel mem rest (emitted ++ [⟨"auscout.add", htonl_bytes hashesforid, entry.id⟩])
        | .fault => .fault
        | .out_of_fuel => .out_of_fuel

/-- `ASIndexTypeAofRewrite`: the commands emitted. -/
def ASIndexTypeAofRewrite (fuel : Nat) (index : ASIndex) : Run (List AofCommand) :=
  aof_tracks fuel index.mem index.id_dict []

/-! ## Indexes built by successive adds -/

/-- The index after `auscout.add key <frames> id` on `s` (`s` itself when the add fails). -/
def add_track (s : ASIndex) (frames : List Nat) (id : Int) : ASIndex :=
  match auscoutadd_common ⟨0, 0, none⟩ (.asindex s) (htonl_bytes frames) (some (some id)) with
  | some (.returned _ _ (.asindex s')) => s'
  | _ => s

/-- The index after adding the given tracks, in order, to an empty key. -/
def index_of (tracks : List (List Nat × Int)) : ASIndex :=
  tracks.foldl (fun s t => add_track s t.1 t.2) emptyIndex

/-- Eleven tracks of the single frame 5, ids 1 to 11 in the order added. -/
def eleven_tracks : List (List Nat × Int) :=
  (List.range 11).map (fun i => ([5], ((i + 1 : Nat) : Int)))

/-- Twelve tracks of the single frame 5: ids 98 and 99, then 2 to 11. -/
def twelve_tracks : List (List Nat × Int) :=
  ([5], 98) :: ([5], 99) :: (List.range 10).map (fun i => ([5], ((i + 2 : Nat) : Int)))

/-! ## The tracker of lookup -/

/-- The tracker record of `e->id` after the block
`if (current <= tracker[e->id].last_index + LOOKUP_STEPS)` of `lookup_hashframe`. -/
def window_update (current : Int) (e : Entry) (t : TrackerId) : TrackerId :=
  if current ≤ t.last_index + LOOKUP_STEPS then
    { t with pos := if e.pos % 2 ^ 32 < toU32 t.pos then toI32 e.pos else t.pos,
             count := t.count + 1, last_index := current }
  else t

/-- `window_length` of a tracker record. -/
def window_length (t : TrackerId) : Int := t.last_index - t.start_index + 1

/-- The test under which `lookup_hashframe` emits the tracked id. -/
def crosses (threshold : ℚ) (t : TrackerId) : Prop :=
  window_length t ≥ LOOKUP_BLOCK ∧ (t.count : ℚ) / (window_length t : ℚ) ≥ threshold

instance (threshold : ℚ) (t : TrackerId) : Decidable (crosses threshold t) := by
  unfold crosses; infer_instance

/-- Two tracks of one frame each: id 7 holds hash 2, id 8 holds hash 3. -/
def index_2_3 : ASIndex := index_of [([2], 7), ([3], 8)]

/-! ## The block minimum -/

/-- Every tracked window starts at a frame `≥ 0` and ends at a frame `≤ current`. -/
def TrackerBounded (current : Int) (tracker : Tracker) : Prop :=
  ∀ kv ∈ tracker, 0 ≤ kv.2.start_index ∧ kv.2.last_index ≤ current

/-- The vector `get_candidates` fills (its closed form, see `get_candidates_eq`). -/
def hashvalue_candidates (hashvalue toggle : Nat) : List Nat :=
  hashvalue % 2 ^ 32 ::
    (List.range (toI32 (2 ^ popcount (toggle % 2 ^ 32)) - 1).toNat).map
      (fun j => (hashvalue % 2 ^ 32) ^^^ scatter (toggle % 2 ^ 32) 32 (j + 1))

/-! ## The reported position -/

/-- Ghost state for the reported position: `seen id` lists the positions (as `uint32_t`) of
the entries of `id` examined since the window of `id` started. An entry examined while its id
is tracked and in range extends the list; any other entry starts a new window. -/
def seen_entry (current : Int) (e : Entry) (tracker : Tracker) (seen : Int → List Nat) :
    Int → List Nat :=
  Function.update seen e.id
    (match DictGetC tracker e.id with
      | some t =>
        if current ≤ t.last_index + LOOKUP_STEPS then seen e.id ++ [e.pos % 2 ^ 32]
        else [e.pos % 2 ^ 32]
      | none => [e.pos % 2 ^ 32])

/-- The ghost state along the entry loop; `wins` collects, for each result emitted, its id
and the positions seen for that id when it was emitted. -/
def lookup_keys_seen (current : Int) (threshold : ℚ) :
    List (Int × Nat × Nat) → Tracker → List FoundId → (Int → List Nat) →
      List (Int × List Nat) → (Int → List Nat) × List (Int × List Nat)
  | [], _, _, seen, wins => (seen, wins)
  | k :: ks, tracker, results, seen, wins =>
    if (lookup_entry current threshold (entryOfKey k) tracker results).2.2 then
      (seen_entry current (entryOfKey k) tracker seen,
        wins ++ [(k.1, seen_entry current (entryOfKey k) tracker seen k.1)])
    else
      lookup_keys_seen current threshold ks
        (lookup_entry current threshold (entryOfKey k) tracker results).1
        (lookup_entry current threshold (entryOfKey k) tracker results).2.1
        (seen_entry current (entryOfKey k) tracker seen) wins

/-- The ghost state along the candidate loop. -/
def lookup_candidates_seen (current : Int) (threshold : ℚ) (post : Nat → List (Int × Nat × Nat)) :
    List Nat → Tracker → List FoundId → (Int → List Nat) → List (Int × List Nat) →
      (Int → List Nat) × List (Int × List Nat)
  | [], _, _, seen, wins => (seen, wins)
  | key :: keys, tracker, results, seen, wins =>
    lookup_candidates_seen current threshold post keys
      (lookup_keys current threshold (post key) tracker results).1
      (lookup_keys current threshold (post key) tracker results).2.1
      (lookup_keys_seen current threshold (post key) tracker results seen wins).1
      (lookup_keys_seen current threshold (post key) tracker results seen wins).2

/-- The ghost state along the frame loop: the windows of the results returned. -/
def lookup_frames_seen (threshold : ℚ) (post : Nat → List (Int × Nat × Nat)) :
    List (Nat × Nat) → Int → Tracker → List FoundId → (Int → List Nat) →
      List (Int × List Nat) → List (Int × List Nat)
  | [], _, _, _, _, wins => wins
  | (frame, toggle) :: rest, i, tracker, results, seen, wins =>
    match get_candidates frame toggle with
    | none => wins
    | some candidates =>
      if (lookup_candidates_keys i threshold post candidates tracker results).2.length > 0 then
        (lookup_candidates_seen i threshold post candidates tracker results seen wins).2
      else
        lookup_frames_seen threshold post rest (i + 1)
          (lookup_candidates_keys i threshold post candidates tracker results).1
          (lookup_candidates_keys i threshold post candidates tracker results).2
          (lookup_candidates_seen i threshold post candidates tracker results seen wins).1
          (lookup_candidates_seen i threshold post candidates tracker results seen wins).2

/-- The value `pos` is the `int` reading of the least position of the list. -/
def MinPos (pos : Int) (w : List Nat) : Prop :=
  ∃ m, m ∈ w ∧ (∀ p ∈ w, m ≤ p) ∧ pos = toI32 m

/-- The tracker agrees with the ghost state: no tracked window crosses the threshold, and
each tracked `pos` is the least position seen in its window. -/
def Watched (threshold : ℚ) (tracker : Tracker) (seen : Int → List Nat) : Prop :=
  (dictKeys tracker).Nodup ∧
  ∀ id t, DictGetC tracker id = some t →
    ¬ crosses threshold t ∧ MinPos t.pos (seen id) ∧ ∀ p ∈ seen id, p < 2 ^ 32

/-- Each result carries the id of its window and the least position seen in it. -/
def Reported (r : FoundId) (w : Int × List Nat) : Prop := w.1 = r.id ∧ MinPos r.pos w.2

/-- A probe of 100 frames against the track `10, 20, 30`: hash 30 at frame 0, hash 20 at the
frames 16, 32, ..., 96 and 99, an unknown hash elsewhere; toggles are zero. -/
def probe_30_20 : List (Nat × Nat) :=
  (List.range 100).map
    (fun i => if i = 0 then (30, 0) else if i % 16 = 0 ∨ i = 99 then (20, 0) else (999, 0))

/-! ## Deleting the key -/

/-- `AuscoutDelKey_RedisCmd` (ARGS: key). The description keys `<key>:<id>` and the counter
key `<key>:counter` it also deletes are not part of the value at `key`. -/
def AuscoutDelKey_RedisCmd (key : KeyValue) : CmdResult :=
  match GetIndex key with
  | none => ⟨[Reply.error "ERR - key exists for different type.  Delete first."], REDISMODULE_ERR, key⟩
  | some none => ⟨[Reply.error "No such key"], REDISMODULE_ERR, key⟩
  | some (some _) => ⟨[Reply.simple "OK"], REDISMODULE_OK, .empty⟩

/-- The index after `auscout.add key <one frame 0> 7` on an empty key: the frame equals the
initial `prev_frame`, so the track is registered with no entry. -/
def index_zero_frame : ASIndex := ⟨[], [], [(7, ⟨none, 0⟩)], 0⟩

/-- The index after `auscout.add key <frames 1, 2, 3>` (no id argument) on an empty key when
`INCRBY` does not reply an integer. -/
def index_id_err : ASIndex :=
  { mem := [some ⟨none, none, some 1, 1, 0, 1⟩, some ⟨none, none, some 2, 1, 1, 2⟩,
            some ⟨none, none, none, 1, 2, 3⟩],
    hash_dict := [(1, ⟨some 0, 1⟩), (2, ⟨some 1, 1⟩), (3, ⟨some 2, 1⟩)],
    id_dict := [(1, ⟨some 0, 3⟩)],
    n_entries := 3 }

/-! ## The tracker step against the three-case rule -/

/-- The three-case rule, in the words of the specification: an untracked id starts a window;
a tracked id with `i ≤ last + 16` takes `pos := min(pos, e.pos)`, `count + 1`, `last := i` and
is emitted iff `window ≥ 100` and `count / window ≥ threshold`; a stale tracked id is reset to
a fresh window and nothing is emitted. -/
def tracker_rule (i : Int) (threshold : ℚ) (e : Entry) (tracker : Tracker)
    (results : List FoundId) : Tracker × List FoundId × Bool :=
  match DictGetC tracker e.id with
  | none => (trackerSet tracker e.id ⟨i, i, (e.pos : Int), 1⟩, results, false)
  | some t =>
    if i ≤ t.last_index + 16 then
      if i - t.start_index + 1 ≥ 100 ∧
          ((t.count + 1 : Int) : ℚ) / ((i - t.start_index + 1 : Int) : ℚ) ≥ threshold then
        (dictErase e.id tracker,
          results ++ [⟨e.id, min t.pos (e.pos : Int),
            ((t.count + 1 : Int) : ℚ) / ((i - t.start_index + 1 : Int) : ℚ)⟩], true)
      else
        (trackerSet tracker e.id ⟨t.start_index, i, min t.pos (e.pos : Int), t.count + 1⟩,
          results, false)
    else (trackerSet tracker e.id ⟨i, i, (e.pos : Int), 1⟩, results, false)

/-- The tracker states a lookup with the given threshold can reach: the empty tracker, and
the tracker after the entry loop has examined one more entry (whose `pos` fits an `int`). -/
inductive TrackerReachable (threshold : ℚ) : Tracker → Prop where
  | start : TrackerReachable threshold []
  | step {tracker : Tracker} (current : Int) (e : Entry) (results : List FoundId) :
      TrackerReachable threshold tracker → e.pos < 2 ^ 31 →
      TrackerReachable threshold (lookup_entry current threshold e tracker results).1

/-- No tracked window crosses the threshold, and every tracked `pos` is a position. -/
def Calm (threshold : ℚ) (tracker : Tracker) : Prop :=
  ∀ kv ∈ tracker, ¬ crosses threshold kv.2 ∧ 0 ≤ kv.2.pos ∧ kv.2.pos < 2 ^ 31

/-! ## Structural invariants of reachable indexes -/

/-- The addresses reached from `p` along `next`, at most `fuel` of them. -/
def posting_addrs (mem : Heap) : Nat → Option Addr → List Addr
  | 0, _ => []
  | _ + 1, none => []
  | fuel + 1, some a =>
    match load mem a with
    | none => []
    | some e => a :: posting_addrs mem fuel e.next

/-- The addresses reached from `p` along `succ`, at most `fuel` of them. -/
def chain_addrs (mem : Heap) : Nat → Option Addr → List Addr
  | 0, _ => []
  | _ + 1, none => []
  | fuel + 1, some a =>
    match load mem a with
    | none => []
    | some e => a :: chain_addrs mem fuel e.succ

/-- The entry pointers of the posting list of hash `h`, head first. -/
def postingAddrs (index : ASIndex) (h : Nat) : List Addr :=
  match DictGetC index.hash_dict h with
  | none => []
  | some list => posting_addrs index.mem index.mem.length list.head

/-- The entry pointers of the track chain of `id`, in `succ` order. -/
def chainAddrs (index : ASIndex) (id : Int) : List Addr :=
  match DictGetC index.id_dict id with
  | none => []
  | some list => chain_addrs index.mem index.mem.length list.head

/-- The index after `add key [1, 2, 1] 7` on an empty key: hash 1 holds the entries of
positions 2 and 0, hash 2 the entry of position 1. -/
def index_1_2_1 : ASIndex := index_of [([1, 2, 1], 7)]

/-- The number of hash slots in which `id` occurs: the hashes of `hash_dict` whose posting
list holds an entry of `id`. -/
def hash_slots (index : ASIndex) (id : Int) : Nat :=
  ((dictKeys index.hash_dict).filter
    (fun h => (postingList index h).any (fun e => decide (e.id = id)))).length

/-- A result whose score is a ratio `count / window` of at least `threshold`, with a count of
at least 1 and a window of at least `LOOKUP_BLOCK`. -/
def GoodScore (threshold : ℚ) (r : FoundId) : Prop :=
  threshold ≤ r.cs ∧
    ∃ count window : Int, 1 ≤ count ∧ 100 ≤ window ∧ r.cs = (count : ℚ) / (window : ℚ)

/-- Every tracked count is at least 1. -/
def Counted (tracker : Tracker) : Prop := ∀ kv ∈ tracker, 1 ≤ kv.2.count

/-- Within frame `i`: every tracked count fits its window, no window ends after `i`, and the
windows of the ids still to come in this frame end before `i`. -/
def Fit (i : Int) (pending : List Int) (tracker : Tracker) : Prop :=
  ∀ kv ∈ tracker, kv.2.count ≤ window_length kv.2 ∧ kv.2.last_index ≤ i ∧
    (kv.1 ∈ pending → kv.2.last_index < i)

/-! ## Theorems -/

theorem load_some_lt {mem : Heap} {a : Addr} {e : Entry} (h : load mem a = some e) :
    a < mem.length := by
  unfold load at h
  by_contra hlt
  have hn : mem[a]? = none := List.getElem?_eq_none (Nat.le_of_not_lt hlt)
  rw [hn] at h
  simp at h

theorem load_store_eq {mem : Heap} {a : Addr} (e : Entry) (h : a < mem.length) :
    load (store mem a e) a = some e := by
  simp [load, store, List.getElem?_set, h]

theorem load_store_ne {mem : Heap} {a b : Addr} (e : Entry) (h : a ≠ b) :
    load (store mem a e) b = load mem b := by
  simp [load, store, List.getElem?_set, h]

theorem load_free_eq (mem : Heap) (a : Addr) : load (free mem a) a = none := by
  by_cases h : a < mem.length
  · simp [load, free, List.getElem?_set, h]
  · have hn : (mem.set a none)[a]? = none :=
      List.getElem?_eq_none (by rw [List.length_set]; exact Nat.le_of_not_lt h)
    simp [load, free, hn]

theorem load_free_ne {mem : Heap} {a b : Addr} (h : a ≠ b) :
    load (free mem a) b = load mem b := by
  simp [load, free, List.getElem?_set, h]

theorem load_new_eq (mem : Heap) (id : Int) (pos hv : Nat) :
    load (new_entry mem id pos hv) mem.length = some ⟨none, none, none, id, pos, hv⟩ := by
  simp [load, new_entry]

theorem load_new_ne {mem : Heap} (id : Int) (pos hv : Nat) {b : Addr} (h : b ≠ mem.length) :
    load (new_entry mem id pos hv) b = load mem b := by
  unfold load new_entry
  rcases Nat.lt_or_gt_of_ne h with h1 | h1
  · rw [List.getElem?_append_left h1]
  · have h2 : (mem ++ [some (⟨none, none, none, id, pos, hv⟩ : Entry)])[b]? = none :=
      List.getElem?_eq_none (by rw [List.length_append]; simp; omega)
    have h3 : mem[b]? = none := List.getElem?_eq_none (by omega)
    rw [h2, h3]

theorem load_fresh (mem : Heap) : load mem mem.length = none := by
  cases h : load mem mem.length with
  | none => rfl
  | some e => exact absurd (load_some_lt h) (lt_irrefl _)

section DictLemmas
variable {K V : Type} [DecidableEq K]

theorem DictGetC_eq_none_iff (d : Dict K V) (k : K) : DictGetC d k = none ↔ k ∉ dictKeys d := by
  induction d with
  | nil => simp [DictGetC, dictKeys]
  | cons x rest ih =>
    obtain ⟨k', v⟩ := x
    by_cases h : k' = k
    · simp [DictGetC, dictKeys, h]
    · have h' : ¬ k = k' := fun e => h e.symm
      simp [DictGetC, dictKeys, h, h'] at ih ⊢
      exact ih

theorem DictGetC_isSome_iff (d : Dict K V) (k : K) : (∃ v, DictGetC d k = some v) ↔ k ∈ dictKeys d := by
  have := DictGetC_eq_none_iff d k
  cases h : DictGetC d k with
  | none => simp [h] at this; simp [this]
  | some v => simp [h] at this; simp [this]

theorem DictGetC_dictInsert_eq (lt : K → K → Bool) (d : Dict K V) (k : K) (v : V)
    (h : DictGetC d k = none) : DictGetC (dictInsert lt k v d) k = some v := by
  induction d with
  | nil => simp [dictInsert, DictGetC]
  | cons x rest ih =>
    obtain ⟨k', v'⟩ := x
    by_cases hk : k' = k
    · simp [DictGetC, hk] at h
    · simp only [DictGetC, hk, if_false] at h
      unfold dictInsert
      split
      · simp [DictGetC]
      · simp [DictGetC, hk, ih h]

theorem DictGetC_dictInsert_ne (lt : K → K → Bool) (d : Dict K V) (k k' : K) (v : V)
    (h : k' ≠ k) : DictGetC (dictInsert lt k v d) k' = DictGetC d k' := by
  have h' : ¬ k = k' := fun e => h e.symm
  induction d with
  | nil => simp [dictInsert, DictGetC, h']
  | cons x rest ih =>
    obtain ⟨k1, v1⟩ := x
    unfold dictInsert
    split
    · simp [DictGetC, h']
    · by_cases hk : k1 = k'
      · simp [DictGetC, hk]
      · simp [DictGetC, hk, ih]

theorem DictGetC_dictUpdate_eq (d : Dict K V) (k : K) (v : V) :
    DictGetC (dictUpdate k v d) k = (DictGetC d k).map (fun _ => v) := by
  induction d with
  | nil => simp [dictUpdate, DictGetC]
  | cons x rest ih =>
    obtain ⟨k1, v1⟩ := x
    by_cases hk : k1 = k
    · simp [dictUpdate, DictGetC, hk]
    · simp [dictUpdate, DictGetC, hk, ih]

theorem DictGetC_dictUpdate_ne (d : Dict K V) (k k' : K) (v : V) (h : k' ≠ k) :
    DictGetC (dictUpdate k v d) k' = DictGetC d k' := by
  induction d with
  | nil => simp [dictUpdate, DictGetC]
  | cons x rest ih =>
    obtain ⟨k1, v1⟩ := x
    by_cases hk : k1 = k
    · subst hk
      have : ¬ k1 = k' := fun e => h e.symm
      simp [dictUpdate, DictGetC, this]
    · by_cases hk' : k1 = k'
      · subst hk'
        simp [dictUpdate, DictGetC, hk]
      · simp [dictUpdate, DictGetC, hk, hk', ih]

theorem DictGetC_dictErase_ne (d : Dict K V) (k k' : K) (h : k' ≠ k) :
    DictGetC (dictErase k d) k' = DictGetC d k' := by
  induction d with
  | nil => simp [dictErase, DictGetC]
  | cons x rest ih =>
    obtain ⟨k1, v1⟩ := x
    by_cases hk : k1 = k
    · subst hk
      have : ¬ k1 = k' := fun e => h e.symm
      simp [dictErase, DictGetC, this]
    · by_cases hk' : k1 = k'
      · subst hk'
        simp [dictErase, DictGetC, hk]
      · simp [dictErase, DictGetC, hk, hk', ih]

theorem DictGetC_dictErase_eq (d : Dict K V) (k : K) (hn : (dictKeys d).Nodup) :
    DictGetC (dictErase k d) k = none := by
  induction d with
  | nil => simp [dictErase, DictGetC]
  | cons x rest ih =>
    obtain ⟨k1, v1⟩ := x
    simp only [dictKeys, List.map_cons, List.nodup_cons] at hn
    by_cases hk : k1 = k
    · subst hk
      simp only [dictErase, if_true]
      exact (DictGetC_eq_none_iff rest k1).2 hn.1
    · simp [dictErase, DictGetC, hk]
      exact ih hn.2

theorem dictKeys_dictUpdate (d : Dict K V) (k : K) (v : V) :
    dictKeys (dictUpdate k v d) = dictKeys d := by
  induction d with
  | nil => simp [dictUpdate]
  | cons x rest ih =>
    obtain ⟨k1, v1⟩ := x
    by_cases hk : k1 = k
    · simp [dictUpdate, dictKeys, hk]
    · simp only [dictKeys] at ih
      simp [dictUpdate, dictKeys, hk, ih]

theorem mem_dictKeys_dictInsert (lt : K → K → Bool) (d : Dict K V) (k k' : K) (v : V) :
    k' ∈ dictKeys (dictInsert lt k v d) ↔ k' = k ∨ k' ∈ dictKeys d := by
  induction d with
  | nil => simp [dictInsert, dictKeys]
  | cons x rest ih =>
    obtain ⟨k1, v1⟩ := x
    unfold dictInsert
    split
    · simp [dictKeys]
    · simp only [dictKeys, List.map_cons, List.mem_cons] at ih ⊢
      rw [ih]
      tauto

theorem nodup_dictKeys_dictInsert (lt : K → K → Bool) (d : Dict K V) (k : K) (v : V)
    (hn : (dictKeys d).Nodup) (hk : k ∉ dictKeys d) : (dictKeys (dictInsert lt k v d)).Nodup := by
  induction d with
  | nil => simp [dictInsert, dictKeys]
  | cons x rest ih =>
    obtain ⟨k1, v1⟩ := x
    simp only [dictKeys, List.map_cons, List.nodup_cons, List.mem_cons, not_or] at hn hk
    unfold dictInsert
    split
    · simp only [dictKeys, List.map_cons, List.nodup_cons, List.mem_cons, not_or]
      exact ⟨⟨hk.1, hk.2⟩, hn.1, hn.2⟩
    · have h1 := mem_dictKeys_dictInsert lt rest k k1 v
      have h2 := ih hn.2 hk.2
      simp only [dictKeys] at h1 h2
      simp only [dictKeys, List.map_cons, List.nodup_cons]
      refine ⟨?_, h2⟩
      rw [h1]
      intro hc
      rcases hc with hc | hc
      · exact hk.1 hc.symm
      · exact hn.1 hc

theorem mem_dictKeys_dictErase (d : Dict K V) (k k' : K) (hn : (dictKeys d).Nodup) :
    k' ∈ dictKeys (dictErase k d) ↔ k' ≠ k ∧ k' ∈ dictKeys d := by
  rw [← DictGetC_isSome_iff, ← DictGetC_isSome_iff]
  by_cases h : k' = k
  · subst h
    simp [DictGetC_dictErase_eq d k' hn]
  · simp [DictGetC_dictErase_ne d k k' h, h]

theorem sublist_dictKeys_dictErase (d : Dict K V) (k : K) :
    (dictKeys (dictErase k d)).Sublist (dictKeys d) := by
  induction d with
  | nil => simp [dictErase]
  | cons x rest ih =>
    obtain ⟨k1, v1⟩ := x
    by_cases hk : k1 = k
    · simp [dictErase, dictKeys, hk]
    · simp only [dictKeys] at ih
      simp [dictErase, dictKeys, hk, ih]

theorem nodup_dictKeys_dictErase (d : Dict K V) (k : K) (hn : (dictKeys d).Nodup) :
    (dictKeys (dictErase k d)).Nodup :=
  (sublist_dictKeys_dictErase d k).nodup hn

theorem dictSum_dictInsert (f : K → Nat) (lt : K → K → Bool) (d : Dict K V) (k : K) (v : V) :
    dictSum f (dictInsert lt k v d) = f k + dictSum f d := by
  induction d with
  | nil => simp [dictInsert, dictSum]
  | cons x rest ih =>
    obtain ⟨k1, v1⟩ := x
    unfold dictInsert
    split
    · simp [dictSum]
    · simp only [dictSum, List.map_cons, List.sum_cons] at ih ⊢
      rw [ih]; omega

theorem dictSum_dictUpdate (f : K → Nat) (d : Dict K V) (k : K) (v : V) :
    dictSum f (dictUpdate k v d) = dictSum f d := by
  have h := dictKeys_dictUpdate d k v
  have e : ∀ d' : Dict K V, dictSum f d' = ((dictKeys d').map f).sum := by
    intro d'; simp [dictSum, dictKeys, List.map_map, Function.comp_def]
  rw [e, e, h]

theorem dictSum_dictErase (f : K → Nat) (d : Dict K V) (k : K) (hk : k ∈ dictKeys d) :
    dictSum f (dictErase k d) + f k = dictSum f d := by
  induction d with
  | nil => simp [dictKeys] at hk
  | cons x rest ih =>
    obtain ⟨k1, v1⟩ := x
    by_cases h : k1 = k
    · subst h
      simp [dictErase, dictSum]; omega
    · have hk' : k ∈ dictKeys rest := by
        simp only [dictKeys, List.map_cons, List.mem_cons] at hk
        rcases hk with hk | hk
        · exact absurd hk.symm h
        · exact hk
      have := ih hk'
      simp only [dictSum, List.map_cons, List.sum_cons] at this ⊢
      simp [dictErase, h]; omega

/-- Changing `f` at a key that is not in the dictionary does not change the sum. -/
theorem dictSum_congr (f g : K → Nat) (d : Dict K V) (h : ∀ k ∈ dictKeys d, f k = g k) :
    dictSum f d = dictSum g d := by
  induction d with
  | nil => simp [dictSum]
  | cons x rest ih =>
    obtain ⟨k1, v1⟩ := x
    simp only [dictKeys, List.map_cons, List.mem_cons, forall_eq_or_imp] at h
    have := ih h.2
    simp only [dictSum, List.map_cons, List.sum_cons] at this ⊢
    rw [h.1, this]

/-- Changing `f` at one key of a dictionary with distinct keys. -/
theorem dictSum_update_one (f g : K → Nat) (d : Dict K V) (k : K) (hn : (dictKeys d).Nodup)
    (hk : k ∈ dictKeys d) (h : ∀ k', k' ≠ k → f k' = g k') :
    dictSum g d + f k = dictSum f d + g k := by
  induction d with
  | nil => simp [dictKeys] at hk
  | cons x rest ih =>
    obtain ⟨k1, v1⟩ := x
    simp only [dictKeys, List.map_cons, List.nodup_cons] at hn
    by_cases hk1 : k1 = k
    · subst hk1
      have : dictSum f rest = dictSum g rest := by
        apply dictSum_congr
        intro k' hk'
        apply h
        intro e; subst e; exact hn.1 hk'
      simp only [dictSum, List.map_cons, List.sum_cons] at this ⊢
      omega
    · have hk' : k ∈ dictKeys rest := by
        simp only [dictKeys, List.map_cons, List.mem_cons] at hk
        rcases hk with hk | hk
        · exact absurd hk.symm hk1
        · exact hk
      have := ih hn.2 hk'
      have e := h k1 hk1
      simp only [dictSum, List.map_cons, List.sum_cons] at this ⊢
      omega

theorem length_dictInsert (lt : K → K → Bool) (d : Dict K V) (k : K) (v : V) :
    (dictInsert lt k v d).length = d.length + 1 := by
  induction d with
  | nil => simp [dictInsert]
  | cons x rest ih =>
    obtain ⟨k1, v1⟩ := x
    unfold dictInsert
    split <;> simp [ih]

theorem length_dictUpdate (d : Dict K V) (k : K) (v : V) :
    (dictUpdate k v d).length = d.length := by
  have := congrArg List.length (dictKeys_dictUpdate d k v)
  simpa [dictKeys] using this

theorem length_dictErase (d : Dict K V) (k : K) (hk : k ∈ dictKeys d) :
    (dictErase k d).length + 1 = d.length := by
  have := dictSum_dictErase (fun _ => 1) d k hk
  simpa [dictSum] using this

end DictLemmas

/-! ## Field views under heap updates -/

theorem load_store {mem : Heap} {a : Addr} {e : Entry} (h : load mem a = some e) (e' : Entry)
    (b : Addr) : load (store mem a e') b = if b = a then some e' else load mem b := by
  by_cases hb : b = a
  · subst hb; simp [load_store_eq e' (load_some_lt h)]
  · simp [hb, load_store_ne e' (fun e => hb e.symm)]

theorem load_free (mem : Heap) (a b : Addr) :
    load (free mem a) b = if b = a then none else load mem b := by
  by_cases hb : b = a
  · subst hb; simp [load_free_eq]
  · simp [hb, load_free_ne (fun e => hb e.symm)]

theorem load_new (mem : Heap) (id : Int) (pos hv : Nat) (b : Addr) :
    load (new_entry mem id pos hv) b =
      if b = mem.length then some ⟨none, none, none, id, pos, hv⟩ else load mem b := by
  by_cases hb : b = mem.length
  · subst hb; simp [load_new_eq]
  · simp [hb, load_new_ne id pos hv hb]

section Views
variable {mem : Heap} {a : Addr} {e : Entry}

/-! ## Field views under stores -/

theorem nextOf_store_next (h : load mem a = some e) (n : Option Addr) (b : Addr) :
    nextOf (store mem a { e with next := n }) b = if b = a then some n else nextOf mem b := by
  simp only [nextOf, load_store h]; split <;> simp

theorem prevOf_store_next (h : load mem a = some e) (n : Option Addr) (b : Addr) :
    prevOf (store mem a { e with next := n }) b = prevOf mem b := by
  simp only [prevOf, load_store h]; split <;> simp [*]

theorem succOf_store_next (h : load mem a = some e) (n : Option Addr) (b : Addr) :
    succOf (store mem a { e with next := n }) b = succOf mem b := by
  simp only [succOf, load_store h]; split <;> simp [*]

theorem keyOf_store_next (h : load mem a = some e) (n : Option Addr) (b : Addr) :
    keyOf (store mem a { e with next := n }) b = keyOf mem b := by
  simp only [keyOf, load_store h]; split <;> simp [*, Entry.key]

theorem prevOf_store_prev (h : load mem a = some e) (n : Option Addr) (b : Addr) :
    prevOf (store mem a { e with prev := n }) b = if b = a then some n else prevOf mem b := by
  simp only [prevOf, load_store h]; split <;> simp

theorem nextOf_store_prev (h : load mem a = some e) (n : Option Addr) (b : Addr) :
    nextOf (store mem a { e with prev := n }) b = nextOf mem b := by
  simp only [nextOf, load_store h]; split <;> simp [*]

theorem succOf_store_prev (h : load mem a = some e) (n : Option Addr) (b : Addr) :
    succOf (store mem a { e with prev := n }) b = succOf mem b := by
  simp only [succOf, load_store h]; split <;> simp [*]

theorem keyOf_store_prev (h : load mem a = some e) (n : Option Addr) (b : Addr) :
    keyOf (store mem a { e with prev := n }) b = keyOf mem b := by
  simp only [keyOf, load_store h]; split <;> simp [*, Entry.key]

theorem succOf_store_succ (h : load mem a = some e) (n : Option Addr) (b : Addr) :
    succOf (store mem a { e with succ := n }) b = if b = a then some n else succOf mem b := by
  simp only [succOf, load_store h]; split <;> simp

theorem nextOf_store_succ (h : load mem a = some e) (n : Option Addr) (b : Addr) :
    nextOf (store mem a { e with succ := n }) b = nextOf mem b := by
  simp only [nextOf, load_store h]; split <;> simp [*]

theorem prevOf_store_succ (h : load mem a = some e) (n : Option Addr) (b : Addr) :
    prevOf (store mem a { e with succ := n }) b = prevOf mem b := by
  simp only [prevOf, load_store h]; split <;> simp [*]

theorem keyOf_store_succ (h : load mem a = some e) (n : Option Addr) (b : Addr) :
    keyOf (store mem a { e with succ := n }) b = keyOf mem b := by
  simp only [keyOf, load_store h]; split <;> simp [*, Entry.key]

end Views

theorem keyOf_eq_none_iff (mem : Heap) (a : Addr) : keyOf mem a = none ↔ load mem a = none := by
  simp [keyOf]

theorem load_of_keyOf {mem : Heap} {a : Addr} {k : Int × Nat × Nat} (h : keyOf mem a = some k) :
    ∃ e, load mem a = some e ∧ e.key = k := by
  simp only [keyOf, Option.map_eq_some'] at h
  exact h

theorem load_of_prevOf {mem : Heap} {a : Addr} {p : Option Addr} (h : prevOf mem a = some p) :
    ∃ e, load mem a = some e ∧ e.prev = p := by
  simp only [prevOf, Option.map_eq_some'] at h
  exact h

theorem load_of_nextOf {mem : Heap} {a : Addr} {p : Option Addr} (h : nextOf mem a = some p) :
    ∃ e, load mem a = some e ∧ e.next = p := by
  simp only [nextOf, Option.map_eq_some'] at h
  exact h

theorem load_of_succOf {mem : Heap} {a : Addr} {p : Option Addr} (h : succOf mem a = some p) :
    ∃ e, load mem a = some e ∧ e.succ = p := by
  simp only [succOf, Option.map_eq_some'] at h
  exact h

/-! ## Linked-list shape lemmas -/

theorem IsDll_congr {mem mem2 : Heap} : ∀ (l : List Addr) (q : Option Addr),
    (∀ b ∈ l, prevOf mem2 b = prevOf mem b ∧ nextOf mem2 b = nextOf mem b) →
    IsDll mem q l → IsDll mem2 q l
  | [], _, _, _ => trivial
  | a :: rest, q, h, hd => by
    obtain ⟨h1, h2, h3⟩ := hd
    have ha := h a (List.mem_cons_self _ _)
    refine ⟨by rw [ha.1, h1], by rw [ha.2, h2], ?_⟩
    exact IsDll_congr rest (some a) (fun b hb => h b (List.mem_cons_of_mem _ hb)) h3

theorem IsChain_congr {mem mem2 : Heap} : ∀ (l : List Addr),
    (∀ b ∈ l, succOf mem2 b = succOf mem b) → IsChain mem l → IsChain mem2 l
  | [], _, _ => trivial
  | a :: rest, h, hc => by
    obtain ⟨h1, h2⟩ := hc
    refine ⟨by rw [h a (List.mem_cons_self _ _), h1], ?_⟩
    exact IsChain_congr rest (fun b hb => h b (List.mem_cons_of_mem _ hb)) h2

theorem IsDll_live {mem : Heap} : ∀ (l : List Addr) (q : Option Addr), IsDll mem q l →
    ∀ b ∈ l, ∃ e, load mem b = some e
  | [], _, _, b, hb => by simp at hb
  | a :: rest, q, hd, b, hb => by
    obtain ⟨h1, _, h3⟩ := hd
    rcases List.mem_cons.1 hb with hb | hb
    · subst hb
      obtain ⟨e, he, _⟩ := load_of_prevOf h1
      exact ⟨e, he⟩
    · exact IsDll_live rest (some a) h3 b hb

/-- In a doubly linked list every `next` pointer stays inside the list. -/
theorem IsDll_next_mem {mem : Heap} : ∀ (l : List Addr) (q : Option Addr), IsDll mem q l →
    ∀ b ∈ l, ∀ y, nextOf mem b = some (some y) → y ∈ l
  | [], _, _, b, hb, _, _ => by simp at hb
  | a :: rest, q, hd, b, hb, y, hy => by
    obtain ⟨_, h2, h3⟩ := hd
    rcases List.mem_cons.1 hb with hb | hb
    · subst hb
      rw [h2] at hy
      have : rest.head? = some y := by simpa using hy
      exact List.mem_cons_of_mem _ (List.mem_of_mem_head? this)
    · exact List.mem_cons_of_mem _ (IsDll_next_mem rest (some a) h3 b hb y hy)

/-- In a doubly linked list every `prev` pointer is the entry pointer or stays inside. -/
theorem IsDll_prev_mem {mem : Heap} : ∀ (l : List Addr) (q : Option Addr), IsDll mem q l →
    ∀ b ∈ l, ∀ y, prevOf mem b = some (some y) → q = some y ∨ y ∈ l
  | [], _, _, b, hb, _, _ => by simp at hb
  | a :: rest, q, hd, b, hb, y, hy => by
    obtain ⟨h1, _, h3⟩ := hd
    rcases List.mem_cons.1 hb with hb | hb
    · subst hb
      rw [h1] at hy
      left; simpa using hy
    · right
      rcases IsDll_prev_mem rest (some a) h3 b hb y hy with h | h
      · have : a = y := by simpa using h
        subst this; exact List.mem_cons_self _ _
      · exact List.mem_cons_of_mem _ h

/-- Unlinking `a` from a doubly linked list: the neighbours are bridged. -/
theorem IsDll_erase {mem mem2 : Heap} {a : Addr} : ∀ (l : List Addr) (q : Option Addr),
    IsDll mem q l → l.Nodup → a ∈ l → (∀ x, q = some x → x ∉ l) →
    (∀ b ∈ l, b ≠ a →
      nextOf mem2 b = if prevOf mem a = some (some b) then nextOf mem a else nextOf mem b) →
    (∀ b ∈ l, b ≠ a →
      prevOf mem2 b = if nextOf mem a = some (some b) then prevOf mem a else prevOf mem b) →
    IsDll mem2 q (l.erase a)
  | [], _, _, _, ha, _, _, _ => by simp at ha
  | x :: rest, q, hd, hn, ha, hq, hnext, hprev => by
    obtain ⟨h1, h2, h3⟩ := hd
    have hn' := List.nodup_cons.1 hn
    by_cases hx : x = a
    · subst hx
      rw [List.erase_cons_head]
      cases rest with
      | nil => trivial
      | cons n rest' =>
        obtain ⟨g1, g2, g3⟩ := h3
        have hnx : n ≠ x := by
          intro e; subst e; exact hn'.1 (List.mem_cons_self _ _)
        have hn2 := List.nodup_cons.1 hn'.2
        have hqn : ∀ b ∈ n :: rest', prevOf mem x ≠ some (some b) := by
          intro b hb hc
          rw [h1] at hc
          have : q = some b := by simpa using hc
          exact hq b this (List.mem_cons_of_mem _ hb)
        refine ⟨?_, ?_, ?_⟩
        · rw [hprev n (by simp) hnx, h2]; simp [h1]
        · rw [hnext n (by simp) hnx, if_neg (hqn n (List.mem_cons_self _ _)), g2]
        · apply IsDll_congr rest' (some n) _ g3
          intro b hb
          have hbx : b ≠ x := by
            intro e; subst e; exact hn'.1 (List.mem_cons_of_mem _ hb)
          have hbn : b ≠ n := by
            intro e; subst e; exact hn2.1 hb
          have hbl : b ∈ x :: n :: rest' := by simp [hb]
          constructor
          · rw [hprev b hbl hbx, h2]
            have : ¬ (some (some n) : Option (Option Addr)) = some (some b) := by
              intro e; apply hbn; simpa using e.symm
            simp only [List.head?_cons]
            rw [if_neg this]
          · rw [hnext b hbl hbx, if_neg (hqn b (List.mem_cons_of_mem _ hb))]
    · have har : a ∈ rest := by
        rcases List.mem_cons.1 ha with h | h
        · exact absurd h.symm hx
        · exact h
      have hxr : x ∉ rest := hn'.1
      have herase : (x :: rest).erase a = x :: rest.erase a := by
        rw [List.erase_cons_tail]
        simpa using hx
      rw [herase]
      have hxa : x ≠ a := hx
      refine ⟨?_, ?_, ?_⟩
      · rw [hprev x (List.mem_cons_self _ _) hxa]
        have : nextOf mem a ≠ some (some x) := by
          intro hc
          exact hxr (IsDll_next_mem rest (some x) h3 a har x hc)
        rw [if_neg this, h1]
      · rw [hnext x (List.mem_cons_self _ _) hxa]
        cases rest with
        | nil => simp at har
        | cons y rest' =>
          obtain ⟨g1, g2, g3⟩ := h3
          by_cases hy : y = a
          · subst hy
            rw [if_pos g1, g2, List.erase_cons_head]
          · have hn2 := List.nodup_cons.1 hn'.2
            have har' : a ∈ rest' := by
              rcases List.mem_cons.1 har with h | h
              · exact absurd h.symm hy
              · exact h
            have : prevOf mem a ≠ some (some x) := by
              intro hc
              rcases IsDll_prev_mem rest' (some y) g3 a har' x hc with h | h
              · have : y = x := by simpa using h
                subst this; exact hxr (List.mem_cons_self _ _)
              · exact hxr (List.mem_cons_of_mem _ h)
            rw [if_neg this, h2]
            have : (y :: rest').erase a = y :: rest'.erase a := by
              rw [List.erase_cons_tail]; simpa using hy
            rw [this]; simp
      · apply IsDll_erase rest (some x) h3 hn'.2 har
        · intro z hz
          have : x = z := by simpa using hz
          subst this; exact hxr
        · intro b hb hba
          exact hnext b (List.mem_cons_of_mem _ hb) hba
        · intro b hb hba
          exact hprev b (List.mem_cons_of_mem _ hb) hba

/-- Appending a fresh cell to a `succ` chain. -/
theorem IsChain_append {mem mem2 : Heap} {e : Addr} : ∀ (l : List Addr),
    IsChain mem l → e ∉ l → l.Nodup → succOf mem2 e = some none →
    (∀ b ∈ l, succOf mem2 b = if l.getLast? = some b then some (some e) else succOf mem b) →
    IsChain mem2 (l ++ [e])
  | [], _, _, _, he, _ => by
    simp only [List.nil_append, IsChain, List.head?_nil]
    exact ⟨he, trivial⟩
  | a :: rest, hc, hne, hnd, he, hs => by
    obtain ⟨h1, h2⟩ := hc
    have hnd' := List.nodup_cons.1 hnd
    have hne' : e ∉ rest := fun h => hne (List.mem_cons_of_mem _ h)
    cases rest with
    | nil =>
      have := hs a (List.mem_cons_self _ _)
      simp only [List.getLast?_singleton, if_true] at this
      simp only [List.cons_append, List.nil_append, IsChain, List.head?_cons, List.head?_nil]
      exact ⟨this, he, trivial⟩
    | cons b rest' =>
      have hab : a ≠ b := by
        intro e; subst e; exact hnd'.1 (List.mem_cons_self _ _)
      have hlast : (a :: b :: rest').getLast? = (b :: rest').getLast? := by
        simp [List.getLast?_cons_cons]
      have hsa := hs a (List.mem_cons_self _ _)
      have halast : (a :: b :: rest').getLast? ≠ some a := by
        rw [hlast]
        intro hc
        exact hnd'.1 (List.mem_of_getLast?_eq_some hc)
      rw [if_neg halast, h1] at hsa
      refine ⟨?_, ?_⟩
      · rw [hsa]; simp
      · apply IsChain_append (b :: rest') h2 hne' hnd'.2 he
        intro c hc
        rw [hs c (List.mem_cons_of_mem _ hc), hlast]

namespace Rep
variable {mem : Heap} {hd : Dict Nat EntryList} {P : Nat → List Addr} {C : Int → List Addr}

theorem p_unique (R : Rep mem hd P C) {a : Addr} {h h' : Nat} (h1 : a ∈ P h) (h2 : a ∈ P h') :
    h = h' := by
  obtain ⟨k, hk, e⟩ := R.p_key h a h1
  obtain ⟨k', hk', e'⟩ := R.p_key h' a h2
  rw [hk] at hk'
  cases hk'
  rw [← e, ← e']

theorem c_unique (R : Rep mem hd P C) {a : Addr} {i i' : Int} (h1 : a ∈ C i) (h2 : a ∈ C i') :
    i = i' := by
  obtain ⟨k, hk, e⟩ := R.c_key i a h1
  obtain ⟨k', hk', e'⟩ := R.c_key i' a h2
  rw [hk] at hk'
  cases hk'
  rw [← e, ← e']

theorem p_live (R : Rep mem hd P C) {a : Addr} {h : Nat} (h1 : a ∈ P h) : keyOf mem a ≠ none := by
  obtain ⟨k, hk, _⟩ := R.p_key h a h1
  simp [hk]

theorem c_live (R : Rep mem hd P C) {a : Addr} {i : Int} (h1 : a ∈ C i) : keyOf mem a ≠ none := by
  obtain ⟨k, hk, _⟩ := R.c_key i a h1
  simp [hk]

/-- Linking a fresh cell `e` with key `(id, pos, f)` at the end of the chain of `id` and at
the head of the posting list of `f`. -/
theorem append (R : Rep mem hd P C) {mem2 : Heap} {hd2 : Dict Nat EntryList}
    (e : Addr) (id : Int) (pos f : Nat)
    (hfresh : keyOf mem e = none)
    (hkey : ∀ b, keyOf mem2 b = if b = e then some (id, pos, f) else keyOf mem b)
    (hsucc : ∀ b, succOf mem2 b =
      if b = e then some none
      else if (C id).getLast? = some b then some (some e) else succOf mem b)
    (hnext : ∀ b, nextOf mem2 b = if b = e then some (P f).head? else nextOf mem b)
    (hprev : ∀ b, prevOf mem2 b =
      if b = e then some none
      else if (P f).head? = some b then some (some e) else prevOf mem b)
    (hnd : (dictKeys hd2).Nodup)
    (hget : ∀ h, DictGetC hd2 h =
      if h = f then some ⟨some e, ((P f).length + 1) % 2 ^ 32⟩ else DictGetC hd h) :
    Rep mem2 hd2 (Function.update P f (e :: P f)) (Function.update C id (C id ++ [e])) := by
  have heP : ∀ h, e ∉ P h := fun h hm => R.p_live hm hfresh
  have heC : ∀ i, e ∉ C i := fun i hm => R.c_live hm hfresh
  have hneP : ∀ h b, b ∈ P h → b ≠ e := fun h b hb hc => heP h (hc ▸ hb)
  have hneC : ∀ i b, b ∈ C i → b ≠ e := fun i b hb hc => heC i (hc ▸ hb)
  refine ⟨hnd, ?_, ?_, ?_, ?_, ?_, ?_, ?_, ?_, ?_⟩
  · intro h hh
    rw [hget] at hh
    by_cases hf : h = f
    · simp [hf] at hh
    · rw [if_neg hf] at hh
      rw [Function.update_noteq hf]
      exact R.hd_none h hh
  · intro h l hh
    rw [hget] at hh
    by_cases hf : h = f
    · subst hf
      simp only [if_true, Option.some.injEq] at hh
      subst hh
      simp
    · rw [if_neg hf] at hh
      rw [Function.update_noteq hf]
      exact R.hd_some h l hh
  · intro h
    by_cases hf : h = f
    · subst hf
      rw [Function.update_same]
      refine ⟨by rw [hprev]; simp, by rw [hnext]; simp, ?_⟩
      have hdl := R.dll h
      have hnd := R.p_nodup h
      cases hP : P h with
      | nil => trivial
      | cons h0 rest =>
        rw [hP] at hdl hnd
        obtain ⟨g1, g2, g3⟩ := hdl
        have hnd' := List.nodup_cons.1 hnd
        have h0e : h0 ≠ e := hneP h h0 (by rw [hP]; exact List.mem_cons_self _ _)
        refine ⟨?_, ?_, ?_⟩
        · rw [hprev, if_neg h0e, hP]; simp
        · rw [hnext, if_neg h0e, g2]
        · apply IsDll_congr rest (some h0) _ g3
          intro b hb
          have hbe : b ≠ e := hneP h b (by rw [hP]; exact List.mem_cons_of_mem _ hb)
          have hb0 : ¬ h0 = b := by
            intro e; subst e; exact hnd'.1 hb
          constructor
          · rw [hprev, if_neg hbe, hP]; simp [hb0]
          · rw [hnext, if_neg hbe]
    · rw [Function.update_noteq hf]
      apply IsDll_congr (P h) none _ (R.dll h)
      intro b hb
      have hbe : b ≠ e := hneP h b hb
      constructor
      · rw [hprev, if_neg hbe]
        have : (P f).head? ≠ some b := by
          intro hc
          exact hf (R.p_unique hb (List.mem_of_mem_head? hc))
        rw [if_neg this]
      · rw [hnext, if_neg hbe]
  · intro h
    by_cases hf : h = f
    · subst hf
      rw [Function.update_same]
      exact List.nodup_cons.2 ⟨heP h, R.p_nodup h⟩
    · rw [Function.update_noteq hf]; exact R.p_nodup h
  · intro h a ha
    by_cases hae : a = e
    · subst hae
      by_cases hf : h = f
      · exact ⟨(id, pos, f), by rw [hkey]; simp, hf.symm⟩
      · rw [Function.update_noteq hf] at ha
        exact absurd ha (heP h)
    · have ha' : a ∈ P h := by
        by_cases hf : h = f
        · subst hf
          rw [Function.update_same] at ha
          rcases List.mem_cons.1 ha with h1 | h1
          · exact absurd h1 hae
          · exact h1
        · rw [Function.update_noteq hf] at ha; exact ha
      obtain ⟨k, hk, hkh⟩ := R.p_key h a ha'
      exact ⟨k, by rw [hkey, if_neg hae]; exact hk, hkh⟩
  · intro i
    by_cases hi : i = id
    · subst hi
      rw [Function.update_same]
      apply IsChain_append (C i) (R.chain i) (heC i) (R.c_nodup i)
      · rw [hsucc]; simp
      · intro b hb
        rw [hsucc, if_neg (hneC i b hb)]
    · rw [Function.update_noteq hi]
      apply IsChain_congr (C i) _ (R.chain i)
      intro b hb
      rw [hsucc, if_neg (hneC i b hb)]
      have : (C id).getLast? ≠ some b := by
        intro hc
        exact hi (R.c_unique hb (List.mem_of_getLast?_eq_some hc))
      rw [if_neg this]
  · intro i
    by_cases hi : i = id
    · subst hi
      rw [Function.update_same]
      rw [List.nodup_append]
      refine ⟨R.c_nodup i, List.nodup_singleton _, ?_⟩
      intro a ha hb
      have : a = e := by simpa using hb
      exact heC i (this ▸ ha)
    · rw [Function.update_noteq hi]; exact R.c_nodup i
  · intro i a ha
    by_cases hae : a = e
    · subst hae
      by_cases hi : i = id
      · exact ⟨(id, pos, f), by rw [hkey]; simp, hi.symm⟩
      · rw [Function.update_noteq hi] at ha
        exact absurd ha (heC i)
    · have ha' : a ∈ C i := by
        by_cases hi : i = id
        · subst hi
          rw [Function.update_same] at ha
          rcases List.mem_append.1 ha with h1 | h1
          · exact h1
          · exact absurd (by simpa using h1) hae
        · rw [Function.update_noteq hi] at ha; exact ha
      obtain ⟨k, hk, hki⟩ := R.c_key i a ha'
      exact ⟨k, by rw [hkey, if_neg hae]; exact hk, hki⟩
  · intro a k hk
    rw [hkey] at hk
    by_cases hae : a = e
    · subst hae
      simp only [if_true, Option.some.injEq] at hk
      subst hk
      simp
    · rw [if_neg hae] at hk
      obtain ⟨h1, h2⟩ := R.live a k hk
      constructor
      · by_cases hf : k.2.2 = f
        · rw [hf, Function.update_same]; rw [hf] at h1; exact List.mem_cons_of_mem _ h1
        · rw [Function.update_noteq hf]; exact h1
      · by_cases hi : k.1 = id
        · rw [hi, Function.update_same]; rw [hi] at h2; exact List.mem_append_left _ h2
        · rw [Function.update_noteq hi]; exact h2

/-- Unlinking and freeing the head `a` of the chain of `id`. -/
theorem remove (R : Rep mem hd P C) {mem2 : Heap} {hd2 : Dict Nat EntryList}
    {a : Addr} {id : Int} {pos h : Nat} {rest : List Addr}
    (hC : C id = a :: rest) (hk : keyOf mem a = some (id, pos, h))
    (hkey : ∀ b, keyOf mem2 b = if b = a then none else keyOf mem b)
    (hsucc : ∀ b, b ≠ a → succOf mem2 b = succOf mem b)
    (hnext : ∀ b, b ≠ a →
      nextOf mem2 b = if prevOf mem a = some (some b) then nextOf mem a else nextOf mem b)
    (hprev : ∀ b, b ≠ a →
      prevOf mem2 b = if nextOf mem a = some (some b) then prevOf mem a else prevOf mem b)
    (hnd : (dictKeys hd2).Nodup)
    (hget : ∀ h', DictGetC hd2 h' =
      if h' = h then
        (if (P h).erase a = [] then none
         else some ⟨((P h).erase a).head?, ((P h).length + (2 ^ 32 - 1)) % 2 ^ 32⟩)
      else DictGetC hd h') :
    Rep mem2 hd2 (Function.update P h ((P h).erase a)) (Function.update C id rest) := by
  have haP : a ∈ P h := (R.live a _ hk).1
  have haC : a ∈ C id := (R.live a _ hk).2
  have hnotP : ∀ h', h' ≠ h → a ∉ P h' := fun h' hne hm => hne (R.p_unique hm haP)
  have hnotC : ∀ i, i ≠ id → a ∉ C i := fun i hne hm => hne (R.c_unique hm haC)
  have hndC := R.c_nodup id
  rw [hC] at hndC
  have harest : a ∉ rest := (List.nodup_cons.1 hndC).1
  refine ⟨hnd, ?_, ?_, ?_, ?_, ?_, ?_, ?_, ?_, ?_⟩
  · intro h' hh
    rw [hget] at hh
    by_cases hf : h' = h
    · subst hf
      rw [Function.update_same]
      by_contra hne
      simp [hne] at hh
    · rw [if_neg hf] at hh
      rw [Function.update_noteq hf]
      exact R.hd_none h' hh
  · intro h' l hh
    rw [hget] at hh
    by_cases hf : h' = h
    · subst hf
      rw [Function.update_same]
      by_cases hne : (P h').erase a = []
      · simp [hne] at hh
      · simp only [if_true, if_neg hne, Option.some.injEq] at hh
        subst hh
        refine ⟨hne, rfl, ?_⟩
        have hlen := List.length_erase_of_mem haP
        have hpos : 0 < (P h').length := List.length_pos_of_mem haP
        simp only
        rw [hlen]
        have : (P h').length + (2 ^ 32 - 1) = ((P h').length - 1) + 2 ^ 32 := by omega
        rw [this, Nat.add_mod_right]
    · rw [if_neg hf] at hh
      rw [Function.update_noteq hf]
      exact R.hd_some h' l hh
  · intro h'
    by_cases hf : h' = h
    · subst hf
      rw [Function.update_same]
      apply IsDll_erase (P h') none (R.dll h') (R.p_nodup h') haP (by simp)
      · intro b _ hba; exact hnext b hba
      · intro b _ hba; exact hprev b hba
    · rw [Function.update_noteq hf]
      apply IsDll_congr (P h') none _ (R.dll h')
      intro b hb
      have hba : b ≠ a := by
        intro e; subst e; exact hnotP h' hf hb
      constructor
      · rw [hprev b hba]
        have : nextOf mem a ≠ some (some b) := by
          intro hc
          exact hf (R.p_unique hb (IsDll_next_mem (P h) none (R.dll h) a haP b hc))
        rw [if_neg this]
      · rw [hnext b hba]
        have : prevOf mem a ≠ some (some b) := by
          intro hc
          rcases IsDll_prev_mem (P h) none (R.dll h) a haP b hc with h1 | h1
          · simp at h1
          · exact hf (R.p_unique hb h1)
        rw [if_neg this]
  · intro h'
    by_cases hf : h' = h
    · subst hf
      rw [Function.update_same]
      exact (R.p_nodup h').erase a
    · rw [Function.update_noteq hf]; exact R.p_nodup h'
  · intro h' b hb
    have hb' : b ∈ P h' ∧ b ≠ a := by
      by_cases hf : h' = h
      · subst hf
        rw [Function.update_same] at hb
        exact ⟨List.mem_of_mem_erase hb, fun e => by
          subst e; exact ((R.p_nodup h').mem_erase_iff.1 hb).1 rfl⟩
      · rw [Function.update_noteq hf] at hb
        exact ⟨hb, fun e => by subst e; exact hnotP h' hf hb⟩
    obtain ⟨k, hk', hkh⟩ := R.p_key h' b hb'.1
    exact ⟨k, by rw [hkey, if_neg hb'.2]; exact hk', hkh⟩
  · intro i
    have hch := R.chain i
    by_cases hi : i = id
    · subst hi
      rw [Function.update_same]
      rw [hC] at hch
      apply IsChain_congr rest _ hch.2
      intro b hb
      exact hsucc b (fun e => by subst e; exact harest hb)
    · rw [Function.update_noteq hi]
      apply IsChain_congr (C i) _ hch
      intro b hb
      exact hsucc b (fun e => by subst e; exact hnotC i hi hb)
  · intro i
    by_cases hi : i = id
    · subst hi
      rw [Function.update_same]
      exact (List.nodup_cons.1 hndC).2
    · rw [Function.update_noteq hi]; exact R.c_nodup i
  · intro i b hb
    have hb' : b ∈ C i ∧ b ≠ a := by
      by_cases hi : i = id
      · subst hi
        rw [Function.update_same] at hb
        exact ⟨by rw [hC]; exact List.mem_cons_of_mem _ hb, fun e => by subst e; exact harest hb⟩
      · rw [Function.update_noteq hi] at hb
        exact ⟨hb, fun e => by subst e; exact hnotC i hi hb⟩
    obtain ⟨k, hk', hki⟩ := R.c_key i b hb'.1
    exact ⟨k, by rw [hkey, if_neg hb'.2]; exact hk', hki⟩
  · intro b k hkb
    rw [hkey] at hkb
    by_cases hba : b = a
    · simp [hba] at hkb
    · rw [if_neg hba] at hkb
      obtain ⟨h1, h2⟩ := R.live b k hkb
      constructor
      · by_cases hf : k.2.2 = h
        · rw [hf, Function.update_same]; rw [hf] at h1
          exact (List.mem_erase_of_ne hba).2 h1
        · rw [Function.update_noteq hf]; exact h1
      · by_cases hi : k.1 = id
        · rw [hi, Function.update_same]; rw [hi, hC] at h2
          rcases List.mem_cons.1 h2 with h3 | h3
          · exact absurd h3 hba
          · exact h3
        · rw [Function.update_noteq hi]; exact h2

end Rep

/-! ## Code-level steps -/

@[simp] theorem length_store (mem : Heap) (a : Addr) (e : Entry) :
    (store mem a e).length = mem.length := by simp [store]

@[simp] theorem length_free (mem : Heap) (a : Addr) : (free mem a).length = mem.length := by
  simp [free]

@[simp] theorem length_new_entry (mem : Heap) (id : Int) (pos hv : Nat) :
    (new_entry mem id pos hv).length = mem.length + 1 := by simp [new_entry]

theorem keyOf_new (mem : Heap) (id : Int) (pos hv : Nat) (b : Addr) :
    keyOf (new_entry mem id pos hv) b =
      if b = mem.length then some (id, pos, hv) else keyOf mem b := by
  simp only [keyOf, load_new]; split <;> simp [Entry.key]

theorem prevOf_new (mem : Heap) (id : Int) (pos hv : Nat) (b : Addr) :
    prevOf (new_entry mem id pos hv) b = if b = mem.length then some none else prevOf mem b := by
  simp only [prevOf, load_new]; split <;> simp

theorem nextOf_new (mem : Heap) (id : Int) (pos hv : Nat) (b : Addr) :
    nextOf (new_entry mem id pos hv) b = if b = mem.length then some none else nextOf mem b := by
  simp only [nextOf, load_new]; split <;> simp

theorem succOf_new (mem : Heap) (id : Int) (pos hv : Nat) (b : Addr) :
    succOf (new_entry mem id pos hv) b = if b = mem.length then some none else succOf mem b := by
  simp only [succOf, load_new]; split <;> simp

theorem keyOf_free (mem : Heap) (a b : Addr) :
    keyOf (free mem a) b = if b = a then none else keyOf mem b := by
  simp only [keyOf, load_free]; split <;> simp

theorem prevOf_free (mem : Heap) (a b : Addr) :
    prevOf (free mem a) b = if b = a then none else prevOf mem b := by
  simp only [prevOf, load_free]; split <;> simp

theorem nextOf_free (mem : Heap) (a b : Addr) :
    nextOf (free mem a) b = if b = a then none else nextOf mem b := by
  simp only [nextOf, load_free]; split <;> simp

theorem succOf_free (mem : Heap) (a b : Addr) :
    succOf (free mem a) b = if b = a then none else succOf mem b := by
  simp only [succOf, load_free]; split <;> simp

theorem keyOf_fresh (mem : Heap) : keyOf mem mem.length = none := by
  simp [keyOf, load_fresh]

namespace Rep
variable {mem : Heap} {hd : Dict Nat EntryList} {P : Nat → List Addr} {C : Int → List Addr}

/-- The body shared by the frame loops of `auscoutadd_common` and `ASIndexTypeRdbLoad`:
after the new cell is linked behind the chain's last entry, `add_entry` succeeds and the
result represents the extended lists. -/
theorem link (R : Rep mem hd P C) (id : Int) (pos f : Nat) (mem1 : Heap)
    (h1 : C id = [] → mem1 = new_entry mem id pos f)
    (h2 : ∀ c, (C id).getLast? = some c → ∃ ce, load (new_entry mem id pos f) c = some ce ∧
        mem1 = store (new_entry mem id pos f) c { ce with succ := some mem.length }) :
    ∃ mem2 hd2, add_entry mem1 hd f mem.length = some (mem2, hd2) ∧
      Rep mem2 hd2 (Function.update P f (mem.length :: P f))
        (Function.update C id (C id ++ [mem.length])) ∧
      mem2.length = mem.length + 1 ∧
      (∀ b, keyOf mem2 b = if b = mem.length then some (id, pos, f) else keyOf mem b) := by
  have hfresh := keyOf_fresh mem
  -- views of `mem1`
  have V : mem1.length = mem.length + 1 ∧
      (∀ b, keyOf mem1 b = if b = mem.length then some (id, pos, f) else keyOf mem b) ∧
      (∀ b, prevOf mem1 b = if b = mem.length then some none else prevOf mem b) ∧
      (∀ b, nextOf mem1 b = if b = mem.length then some none else nextOf mem b) ∧
      (∀ b, succOf mem1 b = if b = mem.length then some none
        else if (C id).getLast? = some b then some (some mem.length) else succOf mem b) := by
    cases hl : (C id).getLast? with
    | none =>
      have hnil : C id = [] := by simpa using hl
      rw [h1 hnil]
      refine ⟨by simp, keyOf_new _ _ _ _, prevOf_new _ _ _ _, nextOf_new _ _ _ _, ?_⟩
      intro b; rw [succOf_new]; simp
    | some c =>
      obtain ⟨ce, hce, hm⟩ := h2 c hl
      have hc : c ≠ mem.length := by
        intro e
        have := R.c_live (List.mem_of_getLast?_eq_some hl)
        rw [e] at this
        exact this hfresh
      rw [hm]
      refine ⟨by simp, ?_, ?_, ?_, ?_⟩
      · intro b; rw [keyOf_store_succ hce, keyOf_new]
      · intro b; rw [prevOf_store_succ hce, prevOf_new]
      · intro b; rw [nextOf_store_succ hce, nextOf_new]
      · intro b; rw [succOf_store_succ hce, succOf_new]
        by_cases hb : b = mem.length
        · subst hb
          have : ¬ mem.length = c := fun e => hc e.symm
          simp [this]
        · by_cases hbc : b = c
          · subst hbc; simp [hb]
          · have : ¬ c = b := fun e => hbc e.symm
            simp [hb, hbc, this]
  obtain ⟨Vlen, Vkey, Vprev, Vnext, Vsucc⟩ := V
  have hle : ∃ ee, load mem1 mem.length = some ee ∧ ee.key = (id, pos, f) :=
    load_of_keyOf (by rw [Vkey]; simp)
  obtain ⟨ee, hee, _⟩ := hle
  unfold add_entry
  cases hg : DictGetC hd f with
  | none =>
    have hPf : P f = [] := R.hd_none f hg
    refine ⟨mem1, _, rfl, ?_, Vlen, Vkey⟩
    apply R.append mem.length id pos f hfresh Vkey Vsucc
    · intro b; rw [Vnext, hPf]; simp
    · intro b; rw [Vprev, hPf]; simp
    · simp only [DictReplaceC, hg]
      exact nodup_dictKeys_dictInsert _ _ _ _ R.hd_nodup ((DictGetC_eq_none_iff _ _).1 hg)
    · intro h
      simp only [DictReplaceC, hg]
      by_cases hf : h = f
      · subst hf
        rw [DictGetC_dictInsert_eq _ _ _ _ hg, hPf]; simp
      · rw [DictGetC_dictInsert_ne _ _ _ _ _ hf, if_neg hf]
  | some list =>
    obtain ⟨hne, hhead, hlen⟩ := R.hd_some f list hg
    cases hP : P f with
    | nil => exact absurd hP hne
    | cons h0 rest =>
      rw [hP] at hhead hlen
      simp only [List.head?_cons] at hhead
      have h0P : h0 ∈ P f := by rw [hP]; exact List.mem_cons_self _ _
      have h0e : h0 ≠ mem.length := by
        intro e
        have := R.p_live h0P
        rw [e] at this
        exact this hfresh
      obtain ⟨lhead, llen⟩ := list
      simp only at hhead hlen
      subst hhead
      have hm1 := load_store hee { ee with next := some h0 }
      have hl0 : ∃ he, load mem1 h0 = some he := by
        obtain ⟨k, hk, _⟩ := R.p_key f h0 h0P
        obtain ⟨he, hhe, _⟩ := load_of_keyOf (show keyOf mem1 h0 = some k by
          rw [Vkey, if_neg h0e]; exact hk)
        exact ⟨he, hhe⟩
      obtain ⟨he, hhe⟩ := hl0
      have hhe' : load (store mem1 mem.length { ee with next := some h0 }) h0 = some he := by
        rw [hm1, if_neg h0e]; exact hhe
      refine ⟨store (store mem1 mem.length { ee with next := some h0 }) h0
          { he with prev := some mem.length },
        dictUpdate f ⟨some mem.length, (llen + 1) % 2 ^ 32⟩ hd, ?_, ?_, ?_, ?_⟩
      · simp only [hee, hhe', Option.bind_eq_bind, Option.some_bind]
      · rw [← hP]
        apply R.append mem.length id pos f hfresh
        · intro b
          rw [keyOf_store_prev hhe', keyOf_store_next hee, Vkey]
        · intro b
          rw [succOf_store_prev hhe', succOf_store_next hee, Vsucc]
        · intro b
          rw [nextOf_store_prev hhe', nextOf_store_next hee, Vnext, hP]
          by_cases hb : b = mem.length <;> simp [hb]
        · intro b
          rw [prevOf_store_prev hhe', prevOf_store_next hee, Vprev, hP]
          by_cases hb : b = mem.length
          · subst hb
            have : ¬ mem.length = h0 := fun e => h0e e.symm
            simp [this]
          · by_cases hb0 : b = h0
            · subst hb0; simp [hb]
            · have : ¬ h0 = b := fun e => hb0 e.symm
              simp [hb, hb0, this]
        · rw [dictKeys_dictUpdate]; exact R.hd_nodup
        · intro h
          by_cases hf : h = f
          · subst hf
            rw [DictGetC_dictUpdate_eq, hg, hlen, hP]
            simp
          · rw [DictGetC_dictUpdate_ne _ _ _ _ hf, if_neg hf]
      · simp [Vlen]
      · intro b
        rw [keyOf_store_prev hhe', keyOf_store_next hee, Vkey]

end Rep

/-- Position of a member of a doubly linked list: its `prev` is the last address before it
(or the entry pointer), its `next` the first address after it. -/
theorem IsDll_split {mem : Heap} {a : Addr} : ∀ (l : List Addr) (q : Option Addr),
    IsDll mem q l → a ∈ l →
    ∃ pre post, l = pre ++ a :: post ∧ prevOf mem a = some (pre.getLast?.or q) ∧
      nextOf mem a = some post.head?
  | [], _, _, ha => by simp at ha
  | x :: rest, q, hd, ha => by
    obtain ⟨h1, h2, h3⟩ := hd
    by_cases hx : x = a
    · subst hx
      exact ⟨[], rest, rfl, by simpa using h1, h2⟩
    · have har : a ∈ rest := by
        rcases List.mem_cons.1 ha with h | h
        · exact absurd h.symm hx
        · exact h
      obtain ⟨pre, post, e, hp, hn⟩ := IsDll_split rest (some x) h3 har
      refine ⟨x :: pre, post, by rw [e]; rfl, ?_, hn⟩
      rw [hp]
      cases pre with
      | nil => simp
      | cons y pre' =>
        have : (x :: y :: pre').getLast? = (y :: pre').getLast? := by
          simp [List.getLast?_cons_cons]
        rw [this]
        cases hl : (y :: pre').getLast? with
        | none => simp at hl
        | some z => simp

namespace Rep
variable {mem : Heap} {hd : Dict Nat EntryList} {P : Nat → List Addr} {C : Int → List Addr}

/-- One iteration of the chain loops of `AuscoutDel_RedisCmd`: `remove_entry` on the head `a`
of the chain of `id` succeeds, and after freeing `a` the heap represents the lists
without `a`. -/
theorem unlink (R : Rep mem hd P C) {a : Addr} {id : Int} {rest : List Addr}
    (hC : C id = a :: rest) :
    ∃ ae, load mem a = some ae ∧ ae.id = id ∧ ae.succ = rest.head? ∧
      ∃ mem1 hd1, remove_entry mem hd ae.hash_value a = some (mem1, hd1) ∧
        Rep (free mem1 a) hd1
          (Function.update P ae.hash_value ((P ae.hash_value).erase a))
          (Function.update C id rest) ∧
        (free mem1 a).length = mem.length ∧
        (∀ b, keyOf (free mem1 a) b = if b = a then none else keyOf mem b) := by
  have haC : a ∈ C id := by rw [hC]; exact List.mem_cons_self _ _
  obtain ⟨k, hk, hki⟩ := R.c_key id a haC
  obtain ⟨ae, hae, hkey⟩ := load_of_keyOf hk
  have hid : ae.id = id := by rw [← hki, ← hkey]; rfl
  have hch := R.chain id
  rw [hC] at hch
  have hsucc : ae.succ = rest.head? := by
    have := hch.1
    simp only [succOf, hae, Option.map_some', Option.some.injEq] at this
    exact this
  have hkk : keyOf mem a = some (id, ae.pos, ae.hash_value) := by
    rw [hk, ← hkey, ← hid]; rfl
  have haP : a ∈ P ae.hash_value := by
    have := (R.live a _ hkk).1
    exact this
  obtain ⟨pre, post, hsplit, hprev, hnext⟩ := IsDll_split _ none (R.dll ae.hash_value) haP
  have hpa : prevOf mem a = some ae.prev := by simp [prevOf, hae]
  have hna : nextOf mem a = some ae.next := by simp [nextOf, hae]
  have hpre : ae.prev = pre.getLast? := by
    rw [hpa] at hprev
    have : ae.prev = pre.getLast?.or none := by simpa using hprev
    rw [this]; cases pre.getLast? <;> rfl
  have hpost : ae.next = post.head? := by
    rw [hna] at hnext; simpa using hnext
  have hnd := R.p_nodup ae.hash_value
  rw [hsplit] at hnd
  have hapre : a ∉ pre := by
    intro hm
    have := (List.nodup_append.1 hnd).2.2
    exact this hm (List.mem_cons_self _ _) 
  have herase : (P ae.hash_value).erase a = pre ++ post := by
    rw [hsplit, List.erase_append_right _ hapre, List.erase_cons_head]
  have hlive : ∀ b ∈ P ae.hash_value, ∃ be, load mem b = some be :=
    IsDll_live _ none (R.dll ae.hash_value)
  have hlen : (P ae.hash_value).length = pre.length + post.length + 1 := by
    rw [hsplit]; simp; omega
  refine ⟨ae, hae, hid, hsucc, ?_⟩
  unfold remove_entry
  simp only [hae, Option.bind_eq_bind, Option.some_bind]
  cases hp : ae.prev with
  | none =>
    have hpre0 : pre = [] := by
      rw [hp] at hpre
      simpa using hpre.symm
    cases hn : ae.next with
    | none =>
      have hpost0 : post = [] := by
        rw [hn] at hpost
        simpa using hpost.symm
      refine ⟨mem, dictErase ae.hash_value hd, rfl, ?_, by simp, keyOf_free _ _⟩
      apply R.remove hC hkk (keyOf_free _ _)
      · intro b hb; rw [succOf_free, if_neg hb]
      · intro b hb; rw [nextOf_free, if_neg hb, hpa, hp]; simp
      · intro b hb; rw [prevOf_free, if_neg hb, hna, hn]; simp
      · exact nodup_dictKeys_dictErase _ _ R.hd_nodup
      · intro h'
        by_cases hf : h' = ae.hash_value
        · subst hf
          rw [DictGetC_dictErase_eq _ _ R.hd_nodup, herase, hpre0, hpost0]; simp
        · rw [DictGetC_dictErase_ne _ _ _ hf, if_neg hf]
    | some n =>
      have hpostn : ∃ post', post = n :: post' := by
        rw [hn] at hpost
        cases post with
        | nil => simp at hpost
        | cons y post' => simp at hpost; exact ⟨post', by rw [hpost]⟩
      obtain ⟨post', hpost'⟩ := hpostn
      have hnP : n ∈ P ae.hash_value := by rw [hsplit, hpost']; simp
      obtain ⟨ne, hne⟩ := hlive n hnP
      cases hg : DictGetC hd ae.hash_value with
      | none =>
        have := R.hd_none _ hg
        rw [this] at haP; simp at haP
      | some list =>
        obtain ⟨_, hhead, hll⟩ := R.hd_some _ _ hg
        simp only [hne, Option.bind_eq_bind, Option.some_bind]
        refine ⟨_, _, rfl, ?_, by simp, ?_⟩
        · apply R.remove hC hkk
          · intro b; rw [keyOf_free, keyOf_store_prev hne]
          · intro b hb; rw [succOf_free, if_neg hb, succOf_store_prev hne]
          · intro b hb; rw [nextOf_free, if_neg hb, nextOf_store_prev hne, hpa, hp]; simp
          · intro b hb
            rw [prevOf_free, if_neg hb, prevOf_store_prev hne, hna, hn, hpa, hp]
            by_cases hbn : b = n
            · subst hbn; simp
            · have : ¬ n = b := fun e => hbn e.symm
              simp [hbn, this]
          · rw [dictKeys_dictUpdate]; exact R.hd_nodup
          · intro h'
            by_cases hf : h' = ae.hash_value
            · subst hf
              rw [DictGetC_dictUpdate_eq, hg, herase, hpre0, hpost', hll]
              simp [Nat.mod_add_mod]
            · rw [DictGetC_dictUpdate_ne _ _ _ _ hf, if_neg hf]
        · intro b; rw [keyOf_free, keyOf_store_prev hne]
  | some p =>
    have hprep : pre.getLast? = some p := by rw [← hpre, hp]
    have hpne : pre ≠ [] := by
      intro e; rw [e] at hprep; simp at hprep
    have hpP : p ∈ P ae.hash_value := by
      rw [hsplit]
      exact List.mem_append_left _ (List.mem_of_getLast?_eq_some hprep)
    obtain ⟨pe, hpe⟩ := hlive p hpP
    have hheadpre : (pre ++ post).head? = (P ae.hash_value).head? := by
      rw [hsplit]
      cases pre with
      | nil => exact absurd rfl hpne
      | cons y pre' => simp
    have hne0 : pre ++ post ≠ [] := by
      intro e
      exact hpne (List.append_eq_nil.1 e).1
    cases hg : DictGetC hd ae.hash_value with
    | none =>
      have := R.hd_none _ hg
      rw [this] at haP; simp at haP
    | some list =>
      obtain ⟨_, hhead, hll⟩ := R.hd_some _ _ hg
      cases hn : ae.next with
      | none =>
        simp only [hpe, Option.bind_eq_bind, Option.some_bind]
        refine ⟨_, _, rfl, ?_, by simp, ?_⟩
        · apply R.remove hC hkk
          · intro b; rw [keyOf_free, keyOf_store_next hpe]
          · intro b hb; rw [succOf_free, if_neg hb, succOf_store_next hpe]
          · intro b hb
            rw [nextOf_free, if_neg hb, nextOf_store_next hpe, hpa, hp, hna, hn]
            by_cases hbp : b = p
            · subst hbp; simp
            · have : ¬ p = b := fun e => hbp e.symm
              simp [hbp, this]
          · intro b hb; rw [prevOf_free, if_neg hb, prevOf_store_next hpe, hna, hn]; simp
          · rw [dictKeys_dictUpdate]; exact R.hd_nodup
          · intro h'
            by_cases hf : h' = ae.hash_value
            · subst hf
              rw [DictGetC_dictUpdate_eq, hg, herase, if_pos rfl, if_neg hne0, hheadpre,
                hhead, hll]
              simp [Nat.mod_add_mod]
            · rw [DictGetC_dictUpdate_ne _ _ _ _ hf, if_neg hf]
        · intro b; rw [keyOf_free, keyOf_store_next hpe]
      | some n =>
        have hpostn : ∃ post', post = n :: post' := by
          rw [hn] at hpost
          cases post with
          | nil => simp at hpost
          | cons y post' => simp at hpost; exact ⟨post', by rw [hpost]⟩
        obtain ⟨post', hpost'⟩ := hpostn
        have hnP : n ∈ P ae.hash_value := by rw [hsplit, hpost']; simp
        obtain ⟨ne, hne⟩ := hlive n hnP
        have hpe' : ∃ pe', load (store mem n { ne with prev := some p }) p = some pe' := by
          rw [load_store hne]
          by_cases hpn : p = n
          · simp [hpn]
          · simp [hpn, hpe]
        obtain ⟨pe', hpe'⟩ := hpe'
        simp only [hne, hpe', Option.bind_eq_bind, Option.some_bind]
        refine ⟨_, _, rfl, ?_, by simp, ?_⟩
        · apply R.remove hC hkk
          · intro b; rw [keyOf_free, keyOf_store_next hpe', keyOf_store_prev hne]
          · intro b hb
            rw [succOf_free, if_neg hb, succOf_store_next hpe', succOf_store_prev hne]
          · intro b hb
            rw [nextOf_free, if_neg hb, nextOf_store_next hpe', nextOf_store_prev hne,
              hpa, hp, hna, hn]
            by_cases hbp : b = p
            · subst hbp; simp
            · have : ¬ p = b := fun e => hbp e.symm
              simp [hbp, this]
          · intro b hb
            rw [prevOf_free, if_neg hb, prevOf_store_next hpe', prevOf_store_prev hne,
              hna, hn, hpa, hp]
            by_cases hbn : b = n
            · subst hbn; simp
            · have : ¬ n = b := fun e => hbn e.symm
              simp [hbn, this]
          · rw [dictKeys_dictUpdate]; exact R.hd_nodup
          · intro h'
            by_cases hf : h' = ae.hash_value
            · subst hf
              rw [DictGetC_dictUpdate_eq, hg, herase, if_pos rfl, if_neg hne0, hheadpre,
                hhead, hll]
              simp [Nat.mod_add_mod]
            · rw [DictGetC_dictUpdate_ne _ _ _ _ hf, if_neg hf]
        · intro b; rw [keyOf_free, keyOf_store_next hpe', keyOf_store_prev hne]

end Rep

theorem keyOf_lt {mem : Heap} {a : Addr} (h : keyOf mem a ≠ none) : a < mem.length := by
  cases hl : load mem a with
  | none => simp [keyOf, hl] at h
  | some e => exact load_some_lt hl

theorem mem_liveAddrs (mem : Heap) (a : Addr) : a ∈ liveAddrs mem ↔ keyOf mem a ≠ none := by
  simp only [liveAddrs, List.mem_filter, List.mem_range]
  constructor
  · rintro ⟨_, h⟩ hc; simp [hc] at h
  · intro h
    refine ⟨keyOf_lt h, ?_⟩
    cases hk : keyOf mem a with
    | none => exact absurd hk h
    | some k => rfl

theorem nodup_liveAddrs (mem : Heap) : (liveAddrs mem).Nodup :=
  (List.nodup_range _).filter _

theorem liveCount_add {mem mem2 : Heap} (k : Int × Nat × Nat)
    (hlen : mem2.length = mem.length + 1)
    (hkey : ∀ b, keyOf mem2 b = if b = mem.length then some k else keyOf mem b) :
    liveCount mem2 = liveCount mem + 1 := by
  unfold liveCount liveAddrs
  rw [hlen, List.range_succ, List.filter_append]
  have h1 : (List.range mem.length).filter (fun a => (keyOf mem2 a).isSome) =
      (List.range mem.length).filter (fun a => (keyOf mem a).isSome) := by
    apply List.filter_congr
    intro b hb
    have : b ≠ mem.length := Nat.ne_of_lt (List.mem_range.1 hb)
    rw [hkey, if_neg this]
  rw [h1]
  simp [hkey]

theorem liveCount_remove {mem mem2 : Heap} {a : Addr} (ha : keyOf mem a ≠ none)
    (hlen : mem2.length = mem.length)
    (hkey : ∀ b, keyOf mem2 b = if b = a then none else keyOf mem b) :
    liveCount mem2 + 1 = liveCount mem := by
  have hperm : (liveAddrs mem2) = (liveAddrs mem).erase a := by
    rw [(nodup_liveAddrs mem).erase_eq_filter]
    unfold liveAddrs
    rw [hlen, List.filter_filter]
    apply List.filter_congr
    intro b _
    rw [hkey]
    by_cases hb : b = a <;> simp [hb]
  unfold liveCount
  rw [hperm, List.length_erase_of_mem ((mem_liveAddrs mem a).2 ha)]
  have : 0 < (liveAddrs mem).length := List.length_pos_of_mem ((mem_liveAddrs mem a).2 ha)
  omega

/-- A duplicate-free list of live addresses is no longer than the pool. -/
theorem length_le_of_live {mem : Heap} {l : List Addr} (hn : l.Nodup)
    (hl : ∀ a ∈ l, keyOf mem a ≠ none) : l.length ≤ liveCount mem := by
  have hsub : l ⊆ liveAddrs mem := fun a ha => (mem_liveAddrs mem a).2 (hl a ha)
  exact (List.Nodup.subperm hn hsub).length_le

theorem liveCount_le (mem : Heap) : liveCount mem ≤ mem.length := by
  unfold liveCount liveAddrs
  calc ((List.range mem.length).filter _).length ≤ (List.range mem.length).length :=
        List.length_filter_le _ _
    _ = mem.length := List.length_range _

theorem getLast?_append_range' (l : List Addr) (s n : Nat) :
    (l ++ List.range' s (n + 1)).getLast? = some (s + n) := by
  rw [List.getLast?_append]
  have : (List.range' s (n + 1)).getLast? = some (s + n) := by
    rw [List.range'_concat, List.getLast?_concat]
    simp
  rw [this]; rfl

theorem postAfter_append (l1 l2 : List (Nat × Nat)) (a : Addr) (P : Nat → List Addr) :
    postAfter (l1 ++ l2) a P = postAfter l2 (a + l1.length) (postAfter l1 a P) := by
  induction l1 generalizing a P with
  | nil => simp [postAfter]
  | cons x rest ih =>
    obtain ⟨p, f⟩ := x
    show postAfter (rest ++ l2) (a + 1) (Function.update P f (a :: P f)) =
      postAfter l2 (a + (rest.length + 1)) (postAfter rest (a + 1) (Function.update P f (a :: P f)))
    rw [ih, Nat.add_right_comm a 1 rest.length]
    rfl

theorem add_frames_spec (id : Int) : ∀ (frames : List Nat) (i : Nat) (st : AddState)
    (P : Nat → List Addr) (C : Int → List Addr),
    Rep st.mem st.hash_dict P C → st.list.head = (C id).head? → st.curr = (C id).getLast? →
    st.list.length < 2 ^ 32 → st.n_entries < 2 ^ 64 →
    ∃ st', add_frames id frames i st = some st' ∧
      Rep st'.mem st'.hash_dict (postAfter (dedup_frames st.prev_frame i frames) st.mem.length P)
        (Function.update C id
          (C id ++ List.range' st.mem.length (dedup_frames st.prev_frame i frames).length)) ∧
      st'.list.head =
        (C id ++ List.range' st.mem.length (dedup_frames st.prev_frame i frames).length).head? ∧
      st'.list.length =
        (st.list.length + (dedup_frames st.prev_frame i frames).length) % 2 ^ 32 ∧
      st'.n_entries = (st.n_entries + (dedup_frames st.prev_frame i frames).length) % 2 ^ 64 ∧
      st'.mem.length = st.mem.length + (dedup_frames st.prev_frame i frames).length ∧
      liveCount st'.mem = liveCount st.mem + (dedup_frames st.prev_frame i frames).length ∧
      (∀ b, keyOf st'.mem b =
        if b < st.mem.length then keyOf st.mem b
        else ((dedup_frames st.prev_frame i frames)[b - st.mem.length]?).map
          (fun pf => (id, pf.1, pf.2)))
  | [], i, st, P, C, R, hh, hc, hl, hn => by
    refine ⟨st, rfl, ?_, ?_, ?_, ?_, ?_, ?_, ?_⟩
    · simpa [dedup_frames, postAfter] using R
    · simpa [dedup_frames] using hh
    · simp only [dedup_frames, List.length_nil, Nat.add_zero]
      exact (Nat.mod_eq_of_lt hl).symm
    · simp only [dedup_frames, List.length_nil, Nat.add_zero]
      exact (Nat.mod_eq_of_lt hn).symm
    · simp [dedup_frames]
    · simp [dedup_frames]
    · intro b
      by_cases hb : b < st.mem.length
      · simp [hb]
      · simp only [dedup_frames, hb, if_false]
        have : keyOf st.mem b = none := by
          by_contra hc; exact hb (keyOf_lt hc)
        simp [this]
  | f :: fs, i, st, P, C, R, hh, hc, hl, hn => by
    by_cases hf : f = st.prev_frame
    · -- suppressed frame
      have hstep : add_frame id st i f = some st := by simp [add_frame, hf]
      obtain ⟨st', h1, h2⟩ := add_frames_spec id fs (i + 1) st P C R hh hc hl hn
      refine ⟨st', ?_, ?_⟩
      · simp only [add_frames, hstep, Option.bind_eq_bind, Option.some_bind]; exact h1
      · have e : dedup_frames st.prev_frame i (f :: fs) = dedup_frames st.prev_frame (i + 1) fs := by
          simp [dedup_frames, hf]
        rw [e]; exact h2
    · -- a new entry
      have e : dedup_frames st.prev_frame i (f :: fs) = (i, f) :: dedup_frames f (i + 1) fs := by
        simp [dedup_frames, hf]
      -- the chain link
      have hlink : ∃ mem1,
          add_frame id st i f =
            (add_entry mem1 st.hash_dict f st.mem.length).bind (fun r => some
              { mem := r.1, hash_dict := r.2,
                list := ⟨(C id ++ [st.mem.length]).head?, (st.list.length + 1) % 2 ^ 32⟩,
                curr := some st.mem.length, prev_frame := f,
                n_entries := (st.n_entries + 1) % 2 ^ 64 }) ∧
          (C id = [] → mem1 = new_entry st.mem id i f) ∧
          (∀ c, (C id).getLast? = some c → ∃ ce, load (new_entry st.mem id i f) c = some ce ∧
            mem1 = store (new_entry st.mem id i f) c { ce with succ := some st.mem.length }) := by
        cases hC : C id with
        | nil =>
          rw [hC] at hh
          simp only [List.head?_nil] at hh
          refine ⟨new_entry st.mem id i f, ?_, fun _ => rfl, fun c hc' => by simp at hc'⟩
          unfold add_frame
          rw [if_pos hf]
          simp only [hh, Option.bind_eq_bind, Option.some_bind, List.nil_append, List.head?_cons]
        | cons c0 rest =>
          rw [hC] at hh hc
          simp only [List.head?_cons] at hh
          have hne : (c0 :: rest) ≠ [] := by simp
          have hlast : (c0 :: rest).getLast? = some ((c0 :: rest).getLast hne) :=
            List.getLast?_eq_getLast _ hne
          rw [hlast] at hc
          have hmem : (c0 :: rest).getLast hne ∈ C id := by
            rw [hC]; exact List.getLast_mem hne
          have hlive := R.c_live hmem
          have hcne : (c0 :: rest).getLast hne ≠ st.mem.length := by
            intro e'
            rw [e'] at hlive
            exact hlive (keyOf_fresh _)
          obtain ⟨k, hk⟩ := Option.ne_none_iff_exists'.1 hlive
          obtain ⟨ce, hce, _⟩ := load_of_keyOf hk
          have hce' : load (new_entry st.mem id i f) ((c0 :: rest).getLast hne) = some ce := by
            rw [load_new, if_neg hcne]; exact hce
          refine ⟨store (new_entry st.mem id i f) ((c0 :: rest).getLast hne)
            { ce with succ := some st.mem.length }, ?_, fun h => by simp at h, ?_⟩
          · unfold add_frame
            rw [if_pos hf]
            simp only [hh, hc, hce', Option.bind_eq_bind, Option.some_bind, List.cons_append,
              List.head?_cons]
          · intro c hc'
            rw [hlast] at hc'
            have : (c0 :: rest).getLast hne = c := by simpa using hc'
            subst this
            exact ⟨ce, hce', rfl⟩
      obtain ⟨mem1, hm1, hl1, hl2⟩ := hlink
      obtain ⟨mem2, hd2, hadd, R2, hlen2, hkey2⟩ := R.link id i f mem1 hl1 hl2
      have hstep : add_frame id st i f = some
          { mem := mem2, hash_dict := hd2,
            list := ⟨(C id ++ [st.mem.length]).head?, (st.list.length + 1) % 2 ^ 32⟩,
            curr := some st.mem.length, prev_frame := f,
            n_entries := (st.n_entries + 1) % 2 ^ 64 } := by
        rw [hm1, hadd]; rfl
      have hC2 : (Function.update C id (C id ++ [st.mem.length])) id = C id ++ [st.mem.length] :=
        Function.update_same _ _ _
      obtain ⟨st', h1, h2, h3, h4, h5, h6, h7, h8⟩ := add_frames_spec id fs (i + 1)
        { mem := mem2, hash_dict := hd2,
          list := ⟨(C id ++ [st.mem.length]).head?, (st.list.length + 1) % 2 ^ 32⟩,
          curr := some st.mem.length, prev_frame := f,
          n_entries := (st.n_entries + 1) % 2 ^ 64 }
        (Function.update P f (st.mem.length :: P f))
        (Function.update C id (C id ++ [st.mem.length])) R2
        (by simp only [hC2]) (by simp only [hC2]; simp)
        (Nat.mod_lt _ (by norm_num)) (Nat.mod_lt _ (by norm_num))
      dsimp only at h1 h2 h3 h4 h5 h6 h7 h8
      simp only [hC2] at h2 h3
      simp only [hlen2] at h2 h3 h6 h8
      refine ⟨st', ?_, ?_, ?_, ?_, ?_, ?_, ?_, ?_⟩
      · simp only [add_frames, hstep, Option.bind_eq_bind, Option.some_bind]; exact h1
      · rw [e]
        simp only [postAfter, List.length_cons]
        rw [Function.update_idem] at h2
        have : C id ++ List.range' st.mem.length ((dedup_frames f (i + 1) fs).length + 1) =
            C id ++ [st.mem.length] ++ List.range' (st.mem.length + 1)
              (dedup_frames f (i + 1) fs).length := by
          rw [List.range'_succ]; simp
        rw [this]; exact h2
      · rw [e, h3]
        simp only [List.length_cons]
        rw [List.range'_succ]; simp
      · rw [e, h4]
        simp only [List.length_cons]
        rw [Nat.mod_add_mod]; congr 1; omega
      · rw [e, h5]
        simp only [List.length_cons]
        rw [Nat.mod_add_mod]; congr 1; omega
      · rw [e, h6]; simp only [List.length_cons]; omega
      · rw [e, h7, liveCount_add (id, i, f) hlen2 hkey2]; simp only [List.length_cons]; omega
      · intro b
        rw [e, h8, hkey2]
        by_cases hb : b < st.mem.length
        · have hb1 : b < st.mem.length + 1 := Nat.lt_succ_of_lt hb
          have hb2 : b ≠ st.mem.length := Nat.ne_of_lt hb
          simp [hb, hb1, hb2]
        · by_cases hb2 : b = st.mem.length
          · subst hb2; simp
          · have hb3 : ¬ b < st.mem.length + 1 := by
              intro h; exact hb2 (Nat.eq_of_lt_succ_of_not_lt h hb)
            have hb4 : b - st.mem.length = (b - (st.mem.length + 1)) + 1 := by
              have aux : ∀ x y : Nat, ¬ x < y → x ≠ y → x - y = (x - (y + 1)) + 1 := by
                intro x y h1 h2; omega
              exact aux b st.mem.length hb hb2
            simp only [hb, hb3, if_false]
            rw [hb4, List.getElem?_cons_succ]

/-! ## The chain loop of delete -/

theorem del_loop_spec (id : Int) : ∀ (chain : List Addr) (fuel : Nat) (mem : Heap)
    (hd : Dict Nat EntryList) (P : Nat → List Addr) (C : Int → List Addr),
    Rep mem hd P C → C id = chain → chain.length ≤ fuel →
    ∃ mem' hd', del_loop fuel mem hd chain.head? = some (mem', hd') ∧
      Rep mem' hd' (fun h => (P h).filter (fun b => decide (b ∉ chain)))
        (Function.update C id []) ∧
      mem'.length = mem.length ∧ liveCount mem' + chain.length = liveCount mem ∧
      (∀ b, keyOf mem' b = if b ∈ chain then none else keyOf mem b)
  | [], fuel, mem, hd, P, C, R, hC, _ => by
    refine ⟨mem, hd, ?_, ?_, rfl, rfl, fun b => by simp⟩
    · cases fuel <;> rfl
    · have e1 : (fun h => (P h).filter (fun b => decide (b ∉ ([] : List Addr)))) = P := by
        funext h; simp
      have e2 : Function.update C id [] = C := by
        rw [← hC]; exact Function.update_eq_self id C
      rw [e1, e2]; exact R
  | a :: rest, 0, _, _, _, _, _, _, hf => by simp at hf
  | a :: rest, fuel + 1, mem, hd, P, C, R, hC, hf => by
    obtain ⟨ae, hae, _, hsucc, mem1, hd1, hrem, R1, hlen1, hkey1⟩ := R.unlink hC
    have hC1 : (Function.update C id rest) id = rest := Function.update_same _ _ _
    obtain ⟨mem', hd', h1, R2, hlen2, hlive2, hkey2⟩ :=
      del_loop_spec id rest fuel (free mem1 a) hd1 _ _ R1 hC1
        (by simp only [List.length_cons] at hf; omega)
    have haC : a ∈ C id := by rw [hC]; exact List.mem_cons_self _ _
    have hak : keyOf mem a ≠ none := R.c_live haC
    have haP : a ∈ P ae.hash_value := by
      have hk : keyOf mem a = some ae.key := by simp [keyOf, hae]
      exact (R.live a _ hk).1
    refine ⟨mem', hd', ?_, ?_, ?_, ?_, ?_⟩
    · simp only [List.head?_cons, del_loop, hae, hrem, Option.bind_eq_bind, Option.some_bind]
      rw [hsucc]; exact h1
    · have e1 : (fun h => ((Function.update P ae.hash_value ((P ae.hash_value).erase a)) h).filter
          (fun b => decide (b ∉ rest))) =
          (fun h => (P h).filter (fun b => decide (b ∉ a :: rest))) := by
        funext h
        by_cases hh : h = ae.hash_value
        · subst hh
          rw [Function.update_same, (R.p_nodup _).erase_eq_filter, List.filter_filter]
          apply List.filter_congr
          intro b _
          by_cases hb : b = a <;> simp [hb]
        · rw [Function.update_noteq hh]
          apply List.filter_congr
          intro b hb
          have : b ≠ a := by
            intro e; subst e; exact hh (R.p_unique hb haP)
          simp [this]
      have e2 : Function.update (Function.update C id rest) id [] = Function.update C id [] :=
        Function.update_idem _ _ _
      rw [← e1, ← e2]; exact R2
    · rw [hlen2, hlen1]
    · have := liveCount_remove hak hlen1 hkey1
      simp only [List.length_cons]
      omega
    · intro b
      rw [hkey2, hkey1]
      by_cases hb : b = a
      · subst hb; simp
      · by_cases hbr : b ∈ rest <;> simp [hb, hbr]

/-! ## Observations in terms of the represented lists -/

theorem posting_from_eq {mem : Heap} : ∀ (l : List Addr) (q : Option Addr) (fuel : Nat),
    IsDll mem q l → l.length ≤ fuel →
    (posting_from mem fuel l.head?).map Entry.key = l.filterMap (keyOf mem)
  | [], _, fuel, _, _ => by cases fuel <;> simp [posting_from]
  | a :: rest, q, 0, _, hf => by simp at hf
  | a :: rest, q, fuel + 1, hd, hf => by
    obtain ⟨_, h2, h3⟩ := hd
    obtain ⟨e, he, hn⟩ := load_of_nextOf h2
    have ih := posting_from_eq rest (some a) fuel h3 (by simp at hf; omega)
    simp only [List.head?_cons, posting_from, he, List.map_cons]
    rw [hn, ih]
    simp [List.filterMap_cons, keyOf, he]

theorem chain_from_eq {mem : Heap} : ∀ (l : List Addr) (fuel : Nat),
    IsChain mem l → l.length ≤ fuel →
    (chain_from mem fuel l.head?).map Entry.key = l.filterMap (keyOf mem)
  | [], fuel, _, _ => by cases fuel <;> simp [chain_from]
  | a :: rest, 0, _, hf => by simp at hf
  | a :: rest, fuel + 1, hc, hf => by
    obtain ⟨h2, h3⟩ := hc
    obtain ⟨e, he, hn⟩ := load_of_succOf h2
    have ih := chain_from_eq rest fuel h3 (by simp at hf; omega)
    simp only [List.head?_cons, chain_from, he, List.map_cons]
    rw [hn, ih]
    simp [List.filterMap_cons, keyOf, he]

theorem Represents.postingList_key {s : ASIndex} {P : Nat → List Addr} {C : Int → List Addr}
    (W : Represents s P C) (h : Nat) :
    (postingList s h).map Entry.key = (P h).filterMap (keyOf s.mem) := by
  unfold postingList
  cases hg : DictGetC s.hash_dict h with
  | none => simp [W.1.hd_none h hg]
  | some l =>
    obtain ⟨_, hhead, _⟩ := W.1.hd_some h l hg
    simp only [hhead]
    apply posting_from_eq (P h) none _ (W.1.dll h)
    exact le_trans (length_le_of_live (W.1.p_nodup h) (fun a ha => W.1.p_live ha))
      (liveCount_le _)

theorem Represents.trackChain_key {s : ASIndex} {P : Nat → List Addr} {C : Int → List Addr}
    (W : Represents s P C) (id : Int) :
    (trackChain s id).map Entry.key = (C id).filterMap (keyOf s.mem) := by
  unfold trackChain
  cases hg : DictGetC s.id_dict id with
  | none => simp [W.2.none id hg]
  | some l =>
    obtain ⟨hhead, _, _⟩ := W.2.some id l hg
    simp only [hhead]
    apply chain_from_eq (C id) _ (W.1.chain id)
    exact le_trans (length_le_of_live (W.1.c_nodup id) (fun a ha => W.1.c_live ha))
      (liveCount_le _)

/-- On represented lists every address is live, so `filterMap` keeps the length. -/
theorem length_filterMap_keyOf {mem : Heap} {l : List Addr} (hl : ∀ a ∈ l, keyOf mem a ≠ none) :
    (l.filterMap (keyOf mem)).length = l.length := by
  induction l with
  | nil => rfl
  | cons a rest ih =>
    obtain ⟨k, hk⟩ := Option.ne_none_iff_exists'.1 (hl a (List.mem_cons_self _ _))
    simp only [List.filterMap_cons, hk, List.length_cons]
    rw [ih (fun b hb => hl b (List.mem_cons_of_mem _ hb))]

theorem Represents.length_trackChain {s : ASIndex} {P : Nat → List Addr} {C : Int → List Addr}
    (W : Represents s P C) (id : Int) : (trackChain s id).length = (C id).length := by
  have := congrArg List.length (W.trackChain_key id)
  rw [List.length_map, length_filterMap_keyOf (fun a ha => W.1.c_live ha)] at this
  exact this

theorem Represents.length_postingList {s : ASIndex} {P : Nat → List Addr} {C : Int → List Addr}
    (W : Represents s P C) (h : Nat) : (postingList s h).length = (P h).length := by
  have := congrArg List.length (W.postingList_key h)
  rw [List.length_map, length_filterMap_keyOf (fun a ha => W.1.p_live ha)] at this
  exact this

theorem represents_empty : Represents emptyIndex (fun _ => []) (fun _ => []) := by
  refine ⟨⟨?_, ?_, ?_, ?_, ?_, ?_, ?_, ?_, ?_, ?_⟩, ⟨?_, ?_, ?_⟩⟩
  all_goals simp [emptyIndex, dictKeys, DictGetC, IsDll, IsChain, keyOf, load]

theorem length_dedup_frames_le : ∀ (prev i : Nat) (fs : List Nat),
    (dedup_frames prev i fs).length ≤ fs.length
  | _, _, [] => by simp [dedup_frames]
  | prev, i, f :: fs => by
    unfold dedup_frames
    split
    · have := length_dedup_frames_le f (i + 1) fs
      simp only [List.length_cons]; omega
    · have := length_dedup_frames_le prev (i + 1) fs
      simp only [List.length_cons]; omega

theorem length_add_input_lt (hashstr : Bytes) : (add_input hashstr).length < 2 ^ 32 := by
  unfold add_input
  rw [List.length_take]
  have : hashstr.length / 4 % 2 ^ 32 < 2 ^ 32 := Nat.mod_lt _ (by norm_num)
  omega

theorem add_index_spec {s : ASIndex} {P : Nat → List Addr} {C : Int → List Addr}
    (W : Represents s P C) (hn : s.n_entries < 2 ^ 64) (host : Host) (hashstr : Bytes) (id : Int)
    (hid : DictGetC s.id_dict id = none) :
    ∃ s', auscoutadd_common host (.asindex s) hashstr (some (some id)) =
        some (.returned [] id (.asindex s')) ∧
      Represents s' (postAfter (dedup_frames 0 0 (add_input hashstr)) s.mem.length P)
        (Function.update C id
          (List.range' s.mem.length (dedup_frames 0 0 (add_input hashstr)).length)) ∧
      s'.n_entries = (s.n_entries + (dedup_frames 0 0 (add_input hashstr)).length) % 2 ^ 64 ∧
      s'.mem.length = s.mem.length + (dedup_frames 0 0 (add_input hashstr)).length ∧
      liveCount s'.mem = liveCount s.mem + (dedup_frames 0 0 (add_input hashstr)).length ∧
      (∀ b, keyOf s'.mem b =
        if b < s.mem.length then keyOf s.mem b
        else ((dedup_frames 0 0 (add_input hashstr))[b - s.mem.length]?).map
          (fun pf => (id, pf.1, pf.2))) ∧
      (∀ id', DictGetC s'.id_dict id' =
        if id' = id then
          some ⟨(List.range' s.mem.length (dedup_frames 0 0 (add_input hashstr)).length).head?,
            (dedup_frames 0 0 (add_input hashstr)).length⟩
        else DictGetC s.id_dict id') ∧
      DictSize s'.id_dict = DictSize s.id_dict + 1 := by
  have hCid : C id = [] := W.2.none id hid
  obtain ⟨st', h1, h2, h3, h4, h5, h6, h7, h8⟩ := add_frames_spec id (add_input hashstr) 0
    ⟨s.mem, s.hash_dict, ⟨none, 0⟩, none, 0, s.n_entries⟩ P C W.1
    (by simp [hCid]) (by simp [hCid]) (by norm_num) hn
  dsimp only at h1 h2 h3 h4 h5 h6 h7 h8
  rw [hCid, List.nil_append] at h2 h3
  have hlen : (dedup_frames 0 0 (add_input hashstr)).length < 2 ^ 32 :=
    lt_of_le_of_lt (length_dedup_frames_le _ _ _) (length_add_input_lt _)
  rw [Nat.zero_add, Nat.mod_eq_of_lt hlen] at h4
  have hlist : st'.list =
      ⟨(List.range' s.mem.length (dedup_frames 0 0 (add_input hashstr)).length).head?,
        (dedup_frames 0 0 (add_input hashstr)).length⟩ := by
    cases hl : st'.list with
    | mk a b => rw [hl] at h3 h4; simp only at h3 h4; rw [h3, h4]
  have hins : DictGetC (dictInsert idKeyLt id (⟨none, 0⟩ : EntryList) s.id_dict) id =
      some ⟨none, 0⟩ := DictGetC_dictInsert_eq _ _ _ _ hid
  have hnk : id ∉ dictKeys s.id_dict := (DictGetC_eq_none_iff _ _).1 hid
  refine ⟨⟨st'.mem, st'.hash_dict,
    dictUpdate id st'.list (dictInsert idKeyLt id ⟨none, 0⟩ s.id_dict), st'.n_entries⟩,
    ?_, ⟨h2, ?_⟩, h5, h6, h7, h8, ?_, ?_⟩
  · unfold auscoutadd_common
    simp only [GetIndex, DictSetC, hid]
    unfold add_input at h1
    rw [h1]
  · refine ⟨?_, ?_, ?_⟩
    · simp only
      rw [dictKeys_dictUpdate]
      exact nodup_dictKeys_dictInsert _ _ _ _ W.2.nodup hnk
    · intro id' hg
      simp only at hg
      by_cases hi : id' = id
      · subst hi
        rw [DictGetC_dictUpdate_eq, hins] at hg
        simp at hg
      · rw [DictGetC_dictUpdate_ne _ _ _ _ hi, DictGetC_dictInsert_ne _ _ _ _ _ hi] at hg
        rw [Function.update_noteq hi]
        exact W.2.none id' hg
    · intro id' l hg
      simp only at hg
      by_cases hi : id' = id
      · subst hi
        rw [DictGetC_dictUpdate_eq, hins] at hg
        simp only [Option.map_some', Option.some.injEq] at hg
        subst hg
        rw [Function.update_same, hlist]
        refine ⟨rfl, by simp, ?_⟩
        simpa using hlen
      · rw [DictGetC_dictUpdate_ne _ _ _ _ hi, DictGetC_dictInsert_ne _ _ _ _ _ hi] at hg
        rw [Function.update_noteq hi]
        exact W.2.some id' l hg
  · intro id'
    simp only
    by_cases hi : id' = id
    · subst hi
      rw [DictGetC_dictUpdate_eq, hins, hlist]; simp
    · rw [DictGetC_dictUpdate_ne _ _ _ _ hi, DictGetC_dictInsert_ne _ _ _ _ _ hi, if_neg hi]
  · simp only [DictSize]
    rw [length_dictUpdate, length_dictInsert]

theorem del_index_spec {s : ASIndex} {P : Nat → List Addr} {C : Int → List Addr}
    (W : Represents s P C) (hn : s.n_entries = liveCount s.mem % 2 ^ 64) (id : Int)
    (l : EntryList) (hid : DictGetC s.id_dict id = some l) :
    ∃ s', AuscoutDel_RedisCmd (.asindex s) (some id) =
        some ⟨[Reply.integer l.length], REDISMODULE_OK, .asindex s'⟩ ∧
      l.length = (C id).length ∧
      Represents s' (fun h => (P h).filter (fun b => decide (b ∉ C id)))
        (Function.update C id []) ∧
      s'.n_entries = liveCount s'.mem % 2 ^ 64 ∧
      liveCount s'.mem + (C id).length = liveCount s.mem ∧
      s'.mem.length = s.mem.length ∧
      (∀ b, keyOf s'.mem b = if b ∈ C id then none else keyOf s.mem b) ∧
      (∀ id', DictGetC s'.id_dict id' = if id' = id then none else DictGetC s.id_dict id') ∧
      DictSize s'.id_dict + 1 = DictSize s.id_dict := by
  obtain ⟨hhead, hlen, hlt⟩ := W.2.some id l hid
  have hfuel : (C id).length ≤ s.mem.length :=
    le_trans (length_le_of_live (W.1.c_nodup id) (fun a ha => W.1.c_live ha)) (liveCount_le _)
  obtain ⟨mem', hd', h1, R2, hlen2, hlive2, hkey2⟩ :=
    del_loop_spec id (C id) s.mem.length s.mem s.hash_dict P C W.1 rfl hfuel
  have hk : id ∈ dictKeys s.id_dict := (DictGetC_isSome_iff _ _).1 ⟨l, hid⟩
  refine ⟨⟨mem', hd', dictErase id s.id_dict,
    (s.n_entries + (2 ^ 64 - l.length % 2 ^ 64)) % 2 ^ 64⟩, ?_, hlen, ⟨R2, ?_⟩, ?_, hlive2,
    hlen2, hkey2, ?_, ?_⟩
  · unfold AuscoutDel_RedisCmd
    simp only [GetIndex, DictDelC, hid, hhead, h1]
  · refine ⟨nodup_dictKeys_dictErase _ _ W.2.nodup, ?_, ?_⟩
    · intro id' hg
      simp only at hg
      by_cases hi : id' = id
      · subst hi; rw [Function.update_same]
      · rw [DictGetC_dictErase_ne _ _ _ hi] at hg
        rw [Function.update_noteq hi]
        exact W.2.none id' hg
    · intro id' l' hg
      simp only at hg
      by_cases hi : id' = id
      · subst hi
        rw [DictGetC_dictErase_eq _ _ W.2.nodup] at hg
        simp at hg
      · rw [DictGetC_dictErase_ne _ _ _ hi] at hg
        rw [Function.update_noteq hi]
        exact W.2.some id' l' hg
  · simp only
    rw [hn, hlen]
    have hle : (C id).length ≤ liveCount s.mem := by omega
    generalize (C id).length = L at *
    generalize liveCount s.mem = n at *
    generalize liveCount mem' = n' at *
    omega
  · intro id'
    simp only
    by_cases hi : id' = id
    · subst hi
      rw [DictGetC_dictErase_eq _ _ W.2.nodup]; simp
    · rw [DictGetC_dictErase_ne _ _ _ hi, if_neg hi]
  · simp only [DictSize]
    exact length_dictErase _ _ hk

theorem toI64_isInt64 (n : Nat) : isInt64 (toI64 n) := by
  unfold isInt64 toI64
  have : n % 2 ^ 64 < 2 ^ 64 := Nat.mod_lt _ (by norm_num)
  split <;> constructor <;> omega

theorem get_next_id_isInt64 (host : Host) : isInt64 (get_next_id host).2 := by
  unfold get_next_id
  cases host.incrby with
  | none => simp only [REDISMODULE_ERR]; unfold isInt64; constructor <;> norm_num
  | some c => exact toI64_isInt64 _

theorem ntohl_words_lt : ∀ (data : Bytes), ∀ w ∈ ntohl_words data, w < 2 ^ 32
  | b0 :: b1 :: b2 :: b3 :: rest, w, hw => by
    simp only [ntohl_words, List.mem_cons] at hw
    rcases hw with hw | hw
    · have h0 : b0 % 256 < 256 := Nat.mod_lt _ (by norm_num)
      have h1 : b1 % 256 < 256 := Nat.mod_lt _ (by norm_num)
      have h2 : b2 % 256 < 256 := Nat.mod_lt _ (by norm_num)
      have h3 : b3 % 256 < 256 := Nat.mod_lt _ (by norm_num)
      rw [hw]; omega
    · exact ntohl_words_lt rest w hw
  | [], w, hw => by simp [ntohl_words] at hw
  | [_], w, hw => by simp [ntohl_words] at hw
  | [_, _], w, hw => by simp [ntohl_words] at hw
  | [_, _, _], w, hw => by simp [ntohl_words] at hw

theorem add_input_lt (hashstr : Bytes) : ∀ w ∈ add_input hashstr, w < 2 ^ 32 := by
  intro w hw
  exact ntohl_words_lt hashstr w (List.mem_of_mem_take hw)

theorem mem_dedup_frames : ∀ (prev i : Nat) (fs : List Nat) (pf : Nat × Nat),
    pf ∈ dedup_frames prev i fs → i ≤ pf.1 ∧ pf.1 < i + fs.length ∧ pf.2 ∈ fs
  | _, _, [], pf, h => by simp [dedup_frames] at h
  | prev, i, f :: fs, pf, h => by
    unfold dedup_frames at h
    split at h
    · rcases List.mem_cons.1 h with h | h
      · subst h; simp
      · have := mem_dedup_frames f (i + 1) fs pf h
        simp only [List.length_cons, List.mem_cons]
        refine ⟨by omega, by omega, Or.inr this.2.2⟩
    · have := mem_dedup_frames prev (i + 1) fs pf h
      simp only [List.length_cons, List.mem_cons]
      refine ⟨by omega, by omega, Or.inr this.2.2⟩

/-- `auscoutadd_common` on a key that holds an index. -/
theorem auscoutadd_common_asindex (host : Host) (s : ASIndex) (hashstr : Bytes)
    (idarg : Option (Option Int)) :
    auscoutadd_common host (.asindex s) hashstr idarg =
      match (match idarg with
        | none => some (get_next_id host)
        | some none => none
        | some (some id) => some ([], id) : Option (List Reply × Int)) with
      | none => some (.thrown [Reply.error "ERR - Unable to parse id arg"] (.asindex s))
      | some (replies, id) =>
        match DictGetC s.id_dict id with
        | some _ =>
          some (.thrown (replies ++ [Reply.error "ERR - id already exists"]) (.asindex s))
        | none =>
          match add_frames id (add_input hashstr) 0
              ⟨s.mem, s.hash_dict, ⟨none, 0⟩, none, 0, s.n_entries⟩ with
          | none => none
          | some st =>
            some (.returned replies id
              (.asindex ⟨st.mem, st.hash_dict,
                dictUpdate id st.list (dictInsert idKeyLt id ⟨none, 0⟩ s.id_dict),
                st.n_entries⟩)) := by
  unfold auscoutadd_common add_input DictSetC
  rcases idarg with _ | _ | v
  · dsimp only [GetIndex]
    cases DictGetC s.id_dict (get_next_id host).2 <;> rfl
  · rfl
  · dsimp only [GetIndex]
    cases DictGetC s.id_dict v <;> rfl

/-- A returning add is an add under the id it returns, and that id was absent. -/
theorem add_returned_inv {host : Host} {s : ASIndex} {hashstr : Bytes}
    {idarg : Option (Option Int)} {replies : List Reply} {id : Int} {k : KeyValue}
    (h : auscoutadd_common host (.asindex s) hashstr idarg = some (.returned replies id k)) :
    DictGetC s.id_dict id = none ∧
    auscoutadd_common host (.asindex s) hashstr (some (some id)) = some (.returned [] id k) ∧
    (idarg = some (some id) ∨ (idarg = none ∧ id = (get_next_id host).2)) := by
  rw [auscoutadd_common_asindex] at h ⊢
  rcases idarg with _ | _ | v
  · -- generated id
    simp only at h
    cases hg : DictGetC s.id_dict (get_next_id host).2 with
    | some l => simp [hg] at h
    | none =>
      simp only [hg] at h
      cases hf : add_frames (get_next_id host).2 (add_input hashstr) 0
          ⟨s.mem, s.hash_dict, ⟨none, 0⟩, none, 0, s.n_entries⟩ with
      | none => simp [hf] at h
      | some st =>
        simp only [hf, Option.some.injEq, AddOutcome.returned.injEq] at h
        obtain ⟨_, h2, h3⟩ := h
        subst h2
        refine ⟨hg, ?_, Or.inr ⟨rfl, rfl⟩⟩
        simp only [hg, hf, h3]
  · simp at h
  · simp only at h
    cases hg : DictGetC s.id_dict v with
    | some l => simp [hg] at h
    | none =>
      simp only [hg] at h
      cases hf : add_frames v (add_input hashstr) 0
          ⟨s.mem, s.hash_dict, ⟨none, 0⟩, none, 0, s.n_entries⟩ with
      | none => simp [hf] at h
      | some st =>
        simp only [hf, Option.some.injEq, AddOutcome.returned.injEq] at h
        obtain ⟨_, h2, h3⟩ := h
        subst h2
        refine ⟨hg, ?_, Or.inl rfl⟩
        simp only [hg, hf, h3]

/-- A delete either leaves the index alone (an error reply) or deletes a present id. -/
theorem del_inv {s : ASIndex} {idarg : Option Int} {r : CmdResult}
    (h : AuscoutDel_RedisCmd (.asindex s) idarg = some r) :
    (r.key = .asindex s ∧ r.status = REDISMODULE_ERR) ∨
    (∃ id l, idarg = some id ∧ DictGetC s.id_dict id = some l ∧ r.status = REDISMODULE_OK) := by
  unfold AuscoutDel_RedisCmd at h
  rcases idarg with _ | id
  · simp only [Option.some.injEq] at h; subst h; left; exact ⟨rfl, rfl⟩
  · simp only [GetIndex] at h
    cases hg : DictGetC s.id_dict id with
    | none =>
      simp only [DictDelC, hg, Option.some.injEq] at h; subst h; left; exact ⟨rfl, rfl⟩
    | some l =>
      right
      refine ⟨id, l, rfl, hg, ?_⟩
      simp only [DictDelC, hg] at h
      cases hl : del_loop s.mem.length s.mem s.hash_dict l.head with
      | none => simp [hl] at h
      | some p =>
        simp only [hl, Option.some.injEq] at h
        subst h; rfl

theorem wf_empty : WF emptyIndex :=
  ⟨_, _, represents_empty, by simp [emptyIndex, liveCount, liveAddrs],
    by intro a k h; simp [emptyIndex, keyOf, load] at h⟩

theorem Inv.n_entries_lt {s : ASIndex} {P : Nat → List Addr} {C : Int → List Addr}
    (I : Inv s P C) : s.n_entries < 2 ^ 64 := by
  rw [I.count]; exact Nat.mod_lt _ (by norm_num)

/-- The invariant after a successful add of `id`. -/
theorem Inv.add {s : ASIndex} {P : Nat → List Addr} {C : Int → List Addr} (I : Inv s P C)
    {s' : ASIndex} {id : Int} (hid : isInt64 id) {hashstr : Bytes}
    (hrep : Represents s' (postAfter (dedup_frames 0 0 (add_input hashstr)) s.mem.length P)
        (Function.update C id
          (List.range' s.mem.length (dedup_frames 0 0 (add_input hashstr)).length)))
    (hcount : s'.n_entries = (s.n_entries + (dedup_frames 0 0 (add_input hashstr)).length) % 2 ^ 64)
    (hlive : liveCount s'.mem = liveCount s.mem + (dedup_frames 0 0 (add_input hashstr)).length)
    (hkey : ∀ b, keyOf s'.mem b =
        if b < s.mem.length then keyOf s.mem b
        else ((dedup_frames 0 0 (add_input hashstr))[b - s.mem.length]?).map
          (fun pf => (id, pf.1, pf.2))) :
    Inv s' (postAfter (dedup_frames 0 0 (add_input hashstr)) s.mem.length P)
      (Function.update C id
        (List.range' s.mem.length (dedup_frames 0 0 (add_input hashstr)).length)) := by
  refine ⟨hrep, ?_, ?_⟩
  · rw [hcount, hlive, I.count, Nat.mod_add_mod]
  · intro a k hk
    rw [hkey] at hk
    by_cases ha : a < s.mem.length
    · rw [if_pos ha] at hk; exact I.range a k hk
    · rw [if_neg ha] at hk
      simp only [Option.map_eq_some'] at hk
      obtain ⟨pf, hpf, e⟩ := hk
      have hm := List.getElem?_mem hpf
      have := mem_dedup_frames 0 0 _ pf hm
      subst e
      refine ⟨hid, ?_, add_input_lt hashstr _ this.2.2⟩
      have := length_add_input_lt hashstr
      simp only
      omega

theorem reachable_wf {s : ASIndex} (h : Reachable s) : WF s := by
  induction h with
  | empty => exact wf_empty
  | @add s s' host hashstr idarg replies id _ hv hadd ih =>
    obtain ⟨P, C, I⟩ := ih
    obtain ⟨hid, hadd', hor⟩ := add_returned_inv hadd
    obtain ⟨s2, h1, h2, h3, _, h5, h6, _⟩ :=
      add_index_spec I.rep I.n_entries_lt host hashstr id hid
    rw [hadd'] at h1
    simp only [Option.some.injEq, AddOutcome.returned.injEq, KeyValue.asindex.injEq,
      true_and] at h1
    subst h1
    have hrange : isInt64 id := by
      rcases hor with h | ⟨_, h⟩
      · exact hv id h
      · rw [h]; exact get_next_id_isInt64 host
    exact ⟨_, _, I.add hrange h2 h3 h5 h6⟩
  | @del s s' idarg r _ hdel hkey ih =>
    obtain ⟨P, C, I⟩ := ih
    rcases del_inv hdel with ⟨h, _⟩ | ⟨id, l, hi, hg, _⟩
    · rw [h] at hkey
      simp only [KeyValue.asindex.injEq] at hkey
      subst hkey
      exact ⟨P, C, I⟩
    · subst hi
      obtain ⟨s2, h1, _, h3, h4, _, _, h7, _⟩ := del_index_spec I.rep I.count id l hg
      rw [hdel] at h1
      simp only [Option.some.injEq] at h1
      subst h1
      simp only [KeyValue.asindex.injEq] at hkey
      subst hkey
      refine ⟨_, _, h3, h4, ?_⟩
      intro a k hk
      rw [h7] at hk
      split at hk
      · simp at hk
      · exact I.range a k hk

/-! ## Byte strings and the specification of duplicate suppression -/

theorem ntohl_words_htonl_bytes : ∀ (f : List Nat), (∀ x ∈ f, x < 2 ^ 32) →
    ntohl_words (htonl_bytes f) = f
  | [], _ => rfl
  | w :: ws, h => by
    have hw : w < 2 ^ 32 := h w (List.mem_cons_self _ _)
    have ih := ntohl_words_htonl_bytes ws (fun x hx => h x (List.mem_cons_of_mem _ hx))
    simp only [htonl_bytes, ntohl_words, ih, Nat.mod_mod]
    congr 1
    omega

theorem length_htonl_bytes : ∀ (f : List Nat), (htonl_bytes f).length = 4 * f.length
  | [] => rfl
  | w :: ws => by
    simp only [htonl_bytes, List.length_cons, length_htonl_bytes ws]; omega

theorem add_input_htonl_bytes (f : List Nat) (hf : ∀ x ∈ f, x < 2 ^ 32)
    (hlen : f.length < 2 ^ 32) : add_input (htonl_bytes f) = f := by
  unfold add_input
  rw [ntohl_words_htonl_bytes f hf, length_htonl_bytes]
  have : 4 * f.length / 4 % 2 ^ 32 = f.length := by
    rw [Nat.mul_div_cancel_left _ (by norm_num : 0 < 4), Nat.mod_eq_of_lt hlen]
  rw [this, List.take_length]

theorem dedup_frames_eq : ∀ (prev i : Nat) (fs : List Nat),
    dedup_frames prev i fs = (kept_positions prev fs).map (fun j => (i + j, fs.getD j 0))
  | _, _, [] => by simp [dedup_frames, kept_positions]
  | prev, i, f :: fs => by
    have hshift : kept_positions prev (f :: fs) =
        (if f ≠ prev then [0] else []) ++ (kept_positions f fs).map (fun j => j + 1) := by
      unfold kept_positions
      rw [List.length_cons, List.range_succ_eq_map, List.filter_cons, List.filter_map]
      have h0 : decide ((f :: fs).getD 0 0 ≠ (if (0 : Nat) = 0 then prev else (f :: fs).getD (0 - 1) 0))
          = decide (f ≠ prev) := by simp
      rw [h0]
      have hrest : (List.range fs.length).filter
          ((fun i => decide ((f :: fs).getD i 0 ≠
            (if i = 0 then prev else (f :: fs).getD (i - 1) 0))) ∘ Nat.succ) =
          (List.range fs.length).filter
            (fun i => decide (fs.getD i 0 ≠ (if i = 0 then f else fs.getD (i - 1) 0))) := by
        apply List.filter_congr
        intro j _
        cases j with
        | zero => simp
        | succ j => simp
      rw [hrest]
      by_cases hfp : f = prev <;> simp [hfp]
    rw [hshift]
    unfold dedup_frames
    by_cases hfp : f = prev
    · subst hfp
      simp only [ne_eq, not_true_eq_false, if_false, List.nil_append, List.map_map]
      rw [dedup_frames_eq f (i + 1) fs]
      apply List.map_congr_left
      intro j _
      simp only [Function.comp, List.getD_cons_succ]
      congr 1; omega
    · simp only [ne_eq, hfp, not_false_eq_true, if_true, List.singleton_append, List.map_cons,
        List.map_map]
      rw [dedup_frames_eq f (i + 1) fs]
      congr 1
      apply List.map_congr_left
      intro j _
      simp only [Function.comp, List.getD_cons_succ]
      congr 1; omega

theorem pairwise_dedup_frames : ∀ (prev i : Nat) (fs : List Nat),
    ((dedup_frames prev i fs).map Prod.fst).Pairwise (· < ·)
  | _, _, [] => by simp [dedup_frames]
  | prev, i, f :: fs => by
    unfold dedup_frames
    split
    · simp only [List.map_cons, List.pairwise_cons]
      refine ⟨?_, pairwise_dedup_frames f (i + 1) fs⟩
      intro p hp
      obtain ⟨pf, hpf, e⟩ := List.mem_map.1 hp
      have := mem_dedup_frames f (i + 1) fs pf hpf
      omega
    · exact pairwise_dedup_frames prev (i + 1) fs

theorem filterMap_getElem?_range {α β : Type} (l : List α) (g : α → β) (s : Nat) :
    (List.range' s l.length).filterMap (fun b => (l[b - s]?).map g) = l.map g := by
  induction l generalizing s with
  | nil => simp
  | cons x rest ih =>
    rw [List.length_cons, List.range'_succ, List.filterMap_cons]
    simp only [Nat.sub_self, List.getElem?_cons_zero, Option.map_some', List.map_cons]
    congr 1
    rw [← ih (s + 1)]
    apply List.filterMap_congr
    intro b hb
    have hb' := (List.mem_range'_1.1 hb).1
    have : b - s = (b - (s + 1)) + 1 := by omega
    rw [this, List.getElem?_cons_succ]

/-- The chain of a freshly added id holds the keys of the created entries. -/
theorem chain_keys_after_add {s s' : ASIndex} {P : Nat → List Addr} {C : Int → List Addr}
    {id : Int} {news : List (Nat × Nat)}
    (W : Represents s' P (Function.update C id (List.range' s.mem.length news.length)))
    (hkey : ∀ b, keyOf s'.mem b =
        if b < s.mem.length then keyOf s.mem b
        else (news[b - s.mem.length]?).map (fun pf => (id, pf.1, pf.2))) :
    (trackChain s' id).map Entry.key = news.map (fun pf => (id, pf.1, pf.2)) := by
  rw [W.trackChain_key id, Function.update_same]
  rw [← filterMap_getElem?_range news (fun pf => (id, pf.1, pf.2)) s.mem.length]
  apply List.filterMap_congr
  intro b hb
  have hb' := (List.mem_range'_1.1 hb).1
  rw [hkey, if_neg (Nat.not_lt.2 hb')]

theorem auscoutadd_common_empty (host : Host) (hashstr : Bytes) (idarg : Option (Option Int))
    (replies : List Reply) (id : Int) (k : KeyValue) :
    auscoutadd_common host .empty hashstr idarg = some (.returned replies id k) ↔
    auscoutadd_common host (.asindex emptyIndex) hashstr idarg = some (.returned replies id k) := by
  unfold auscoutadd_common
  rcases idarg with _ | _ | v
  · simp only [GetIndex, CreateIndex]
  · simp
  · simp only [GetIndex, CreateIndex]

/-- A returning add has inserted exactly one id. -/
theorem add_returned_size {host : Host} {s : ASIndex} {hashstr : Bytes}
    {idarg : Option (Option Int)} {replies : List Reply} {id : Int} {k : KeyValue}
    (h : auscoutadd_common host (.asindex s) hashstr idarg = some (.returned replies id k)) :
    ∃ s', k = .asindex s' ∧ DictSize s'.id_dict = DictSize s.id_dict + 1 := by
  obtain ⟨hid, h', _⟩ := add_returned_inv h
  rw [auscoutadd_common_asindex] at h'
  simp only [hid] at h'
  cases hf : add_frames id (add_input hashstr) 0
      ⟨s.mem, s.hash_dict, ⟨none, 0⟩, none, 0, s.n_entries⟩ with
  | none => simp [hf] at h'
  | some st =>
    simp only [hf, Option.some.injEq, AddOutcome.returned.injEq, true_and] at h'
    refine ⟨_, h'.symm, ?_⟩
    simp only [DictSize]
    rw [length_dictUpdate, length_dictInsert]

theorem add_cmd_ok {host : Host} {key : KeyValue} {hashstr : Bytes}
    {idarg : Option (Option Int)} {r : CmdResult}
    (h : AuscoutAdd_RedisCmd host key hashstr idarg = some r) (hok : r.status = REDISMODULE_OK) :
    ∃ replies id, auscoutadd_common host key hashstr idarg = some (.returned replies id r.key) := by
  unfold AuscoutAdd_RedisCmd at h
  cases ho : auscoutadd_common host key hashstr idarg with
  | none => simp [ho] at h
  | some o =>
    cases o with
    | thrown replies k =>
      simp only [ho, Option.some.injEq] at h
      subst h
      simp [REDISMODULE_OK, REDISMODULE_ERR] at hok
    | returned replies id k =>
      simp only [ho, Option.some.injEq] at h
      subst h
      exact ⟨replies, id, rfl⟩

theorem addtrack_cmd_ok {host : Host} {key : KeyValue} {hashstr descr : Bytes}
    {idarg : Option (Option Int)} {r : CmdResult}
    (h : AuscoutAddWithDescr_RedisCmd host key hashstr descr idarg = some r)
    (hok : r.status = REDISMODULE_OK) :
    ∃ replies id, auscoutadd_common host key hashstr idarg = some (.returned replies id r.key) := by
  unfold AuscoutAddWithDescr_RedisCmd at h
  cases ho : auscoutadd_common host key hashstr idarg with
  | none => simp [ho] at h
  | some o =>
    cases o with
    | thrown replies k =>
      simp only [ho, Option.some.injEq] at h
      subst h
      simp [REDISMODULE_OK, REDISMODULE_ERR] at hok
    | returned replies id k =>
      simp only [ho, Option.some.injEq] at h
      subst h
      exact ⟨replies, id, rfl⟩

/-- A returning add on any key: the count before and after. -/
theorem add_returned_count {host : Host} {key : KeyValue} {hashstr : Bytes}
    {idarg : Option (Option Int)} {replies : List Reply} {id : Int} {k : KeyValue}
    (h : auscoutadd_common host key hashstr idarg = some (.returned replies id k)) :
    ∃ n : Nat, (AuscoutCount_RedisCmd key).replies = [Reply.integer n] ∧
      (AuscoutCount_RedisCmd k).replies = [Reply.integer (n + 1)] := by
  cases key with
  | empty =>
    obtain ⟨s', hk, hs⟩ := add_returned_size ((auscoutadd_common_empty _ _ _ _ _ _).1 h)
    subst hk
    refine ⟨0, rfl, ?_⟩
    simp only [AuscoutCount_RedisCmd, GetIndex, hs]
    simp [DictSize, emptyIndex]
  | other => simp [auscoutadd_common, GetIndex] at h; rcases idarg with _ | _ | v <;> simp at h
  | asindex s =>
    obtain ⟨s', hk, hs⟩ := add_returned_size h
    subst hk
    refine ⟨DictSize s.id_dict, rfl, ?_⟩
    simp only [AuscoutCount_RedisCmd, GetIndex, hs]
    simp

theorem del_ok_count {key : KeyValue} {idarg : Option Int} {r : CmdResult}
    (h : AuscoutDel_RedisCmd key idarg = some r) (hok : r.status = REDISMODULE_OK) :
    ∃ n : Nat, (AuscoutCount_RedisCmd r.key).replies = [Reply.integer n] ∧
      (AuscoutCount_RedisCmd key).replies = [Reply.integer (n + 1)] := by
  cases key with
  | empty =>
    unfold AuscoutDel_RedisCmd at h
    rcases idarg with _ | id
    · simp only [Option.some.injEq] at h; subst h; simp [REDISMODULE_OK, REDISMODULE_ERR] at hok
    · simp only [GetIndex, Option.some.injEq] at h; subst h
      simp [REDISMODULE_OK, REDISMODULE_ERR] at hok
  | other =>
    unfold AuscoutDel_RedisCmd at h
    rcases idarg with _ | id
    · simp only [Option.some.injEq] at h; subst h; simp [REDISMODULE_OK, REDISMODULE_ERR] at hok
    · simp only [GetIndex, Option.some.injEq] at h; subst h
      simp [REDISMODULE_OK, REDISMODULE_ERR] at hok
  | asindex s =>
    rcases del_inv h with ⟨_, herr⟩ | ⟨id, l, hi, hg, _⟩
    · rw [herr] at hok; simp [REDISMODULE_OK, REDISMODULE_ERR] at hok
    · subst hi
      unfold AuscoutDel_RedisCmd at h
      simp only [GetIndex, DictDelC, hg] at h
      cases hl : del_loop s.mem.length s.mem s.hash_dict l.head with
      | none => simp [hl] at h
      | some p =>
        simp only [hl, Option.some.injEq] at h
        subst h
        have hk : id ∈ dictKeys s.id_dict := (DictGetC_isSome_iff _ _).1 ⟨l, hg⟩
        have := length_dictErase s.id_dict id hk
        refine ⟨(dictErase id s.id_dict).length, ?_, ?_⟩
        · simp [AuscoutCount_RedisCmd, GetIndex, DictSize]
        · simp only [AuscoutCount_RedisCmd, GetIndex, DictSize]
          rw [← this]; simp

theorem add_all_count : ∀ (cmds : List (Host × Bytes × Option (Option Int))) (key key' : KeyValue)
    (n : Nat), (AuscoutCount_RedisCmd key).replies = [Reply.integer n] →
    add_all key cmds = some key' →
    (AuscoutCount_RedisCmd key').replies = [Reply.integer ((n + cmds.length : Nat) : Int)]
  | [], key, key', n, hn, h => by
    simp only [add_all, Option.some.injEq] at h
    subst h
    simpa using hn
  | (host, hashstr, idarg) :: rest, key, key', n, hn, h => by
    unfold add_all at h
    cases hr : AuscoutAdd_RedisCmd host key hashstr idarg with
    | none => simp [hr] at h
    | some r =>
      simp only [hr] at h
      by_cases hok : r.status = REDISMODULE_OK
      · rw [if_pos hok] at h
        obtain ⟨replies, id, hc⟩ := add_cmd_ok hr hok
        obtain ⟨m, hm1, hm2⟩ := add_returned_count hc
        rw [hn] at hm1
        simp only [List.cons.injEq, Reply.integer.injEq, Nat.cast_inj, and_true] at hm1
        subst hm1
        have := add_all_count rest r.key key' (n + 1) hm2 h
        rw [this]
        simp only [List.length_cons]
        congr 3
        omega
      · rw [if_neg hok] at h
        simp at h

/-- With distinct `long long` ids every add of the sequence succeeds. -/
theorem add_all_total : ∀ (adds : List (Host × Bytes × Int)) (s : ASIndex), WF s →
    (adds.map (fun a => a.2.2)).Nodup →
    (∀ a ∈ adds, isInt64 a.2.2 ∧ DictGetC s.id_dict a.2.2 = none) →
    ∃ s', add_all (.asindex s) (adds.map (fun a => (a.1, a.2.1, some (some a.2.2)))) =
      some (.asindex s')
  | [], s, _, _, _ => ⟨s, rfl⟩
  | (host, hashstr, id) :: rest, s, hw, hnd, hids => by
    obtain ⟨P, C, I⟩ := hw
    have h0 := hids (host, hashstr, id) (List.mem_cons_self _ _)
    obtain ⟨s1, h1, h2, h3, _, h5, h6, h7, _⟩ :=
      add_index_spec I.rep I.n_entries_lt host hashstr id h0.2
    have hw1 : WF s1 := ⟨_, _, I.add h0.1 h2 h3 h5 h6⟩
    simp only [List.map_cons, List.nodup_cons] at hnd
    have hids1 : ∀ a ∈ rest, isInt64 a.2.2 ∧ DictGetC s1.id_dict a.2.2 = none := by
      intro a ha
      have := hids a (List.mem_cons_of_mem _ ha)
      refine ⟨this.1, ?_⟩
      rw [h7]
      have hne : a.2.2 ≠ id := by
        intro e
        apply hnd.1
        rw [← e]
        exact List.mem_map_of_mem (fun a => a.2.2) ha
      rw [if_neg hne]; exact this.2
    obtain ⟨s', hs'⟩ := add_all_total rest s1 hw1 hnd.2 hids1
    refine ⟨s', ?_⟩
    simp only [List.map_cons, add_all, AuscoutAdd_RedisCmd, h1]
    simp only [REDISMODULE_OK, if_true]
    exact hs'

/-- C2 (duplicate-adjacent suppression). For every sequence `f` of 32-bit frames and every id
absent from a reachable index, `add` succeeds and the track chain it stores is exactly the
list of `(hash_value = f[i], pos = i)` over the positions `i` with `f[i] ≠ f[i-1]`
(`f[-1] = 0`), in ascending `i`, every entry carrying the id; the number of entries
created, and the increase of `n_entries` (a `uint64_t`), is the number of such positions,
and `pos` is strictly increasing along the chain. -/
theorem add_stores_suppressed_chain (s : ASIndex) (hs : Reachable s) (host : Host)
    (f : List Nat) (hf : ∀ x ∈ f, x < 2 ^ 32) (hlen : f.length < 2 ^ 32) (id : Int)
    (hid : DictGetC s.id_dict id = none) :
    ∃ s', auscoutadd_common host (.asindex s) (htonl_bytes f) (some (some id)) =
        some (.returned [] id (.asindex s')) ∧
      (trackChain s' id).map (fun e => (e.hash_value, e.pos)) =
        (kept_positions 0 f).map (fun i => (f.getD i 0, i)) ∧
      (∀ e ∈ trackChain s' id, e.id = id) ∧
      (trackChain s' id).length = (kept_positions 0 f).length ∧
      liveCount s'.mem = liveCount s.mem + (kept_positions 0 f).length ∧
      s'.n_entries = (s.n_entries + (kept_positions 0 f).length) % 2 ^ 64 ∧
      (s.n_entries + (kept_positions 0 f).length < 2 ^ 64 →
        s'.n_entries = s.n_entries + (kept_positions 0 f).length) ∧
      ((trackChain s' id).map Entry.pos).Pairwise (· < ·) := by
  obtain ⟨P, C, I⟩ := reachable_wf hs
  obtain ⟨s', h1, h2, h3, _, h5, h6, _, _⟩ :=
    add_index_spec I.rep I.n_entries_lt host (htonl_bytes f) id hid
  rw [add_input_htonl_bytes f hf hlen] at h2 h3 h5 h6
  have hkeys := chain_keys_after_add h2 h6
  have hcount : (dedup_frames 0 0 f).length = (kept_positions 0 f).length := by
    rw [dedup_frames_eq, List.length_map]
  have hmap : ∀ {β : Type} (g : Int × Nat × Nat → β),
      (trackChain s' id).map (fun e => g e.key) =
        ((dedup_frames 0 0 f).map (fun pf => (id, pf.1, pf.2))).map g := by
    intro β g
    rw [← hkeys, List.map_map]
    rfl
  refine ⟨s', h1, ?_, ?_, ?_, ?_, ?_, ?_, ?_⟩
  · refine (hmap (fun k => (k.2.2, k.2.1))).trans ?_
    rw [List.map_map, dedup_frames_eq, List.map_map]
    apply List.map_congr_left
    intro i _
    simp
  · intro e he
    have : e.key ∈ (trackChain s' id).map Entry.key := List.mem_map_of_mem _ he
    rw [hkeys] at this
    obtain ⟨pf, _, hpf⟩ := List.mem_map.1 this
    have := congrArg Prod.fst hpf
    exact this.symm
  · have := congrArg List.length hkeys
    simpa [hcount] using this
  · rw [h5, hcount]
  · rw [h3, hcount]
  · intro hlt
    rw [h3, hcount, Nat.mod_eq_of_lt hlt]
  · have hm := hmap (fun k => k.2.1)
    have hm' : (trackChain s' id).map Entry.pos =
        ((dedup_frames 0 0 f).map (fun pf => (id, pf.1, pf.2))).map (fun k => k.2.1) := hm
    rw [hm', List.map_map]
    have := pairwise_dedup_frames 0 0 f
    have e : ((fun k : Int × Nat × Nat => k.2.1) ∘ fun pf : Nat × Nat => (id, pf.1, pf.2)) =
        Prod.fst := by
      funext pf; rfl
    rw [e]; exact this

/-- C2 at the frames `[0x10, 0x10, 0x10, 0x20]` added to the empty index: two entries, at
positions 0 and 3. -/
theorem add_stores_suppressed_chain_witness :
    ∃ s', auscoutadd_common ⟨0, 0, none⟩ (.asindex emptyIndex)
        (htonl_bytes [0x10, 0x10, 0x10, 0x20]) (some (some 7)) =
        some (.returned [] 7 (.asindex s')) ∧
      (trackChain s' 7).map (fun e => (e.hash_value, e.pos)) = [(0x10, 0), (0x20, 3)] ∧
      s'.n_entries = 2 := by
  obtain ⟨s', h1, h2, _, _, _, h6, _, _⟩ :=
    add_stores_suppressed_chain emptyIndex Reachable.empty ⟨0, 0, none⟩ [0x10, 0x10, 0x10, 0x20]
      (by decide) (by decide) 7 (by decide)
  refine ⟨s', h1, ?_, ?_⟩
  · rw [h2]; decide
  · rw [h6]; decide

/-- C7 (duplicate id). For every index and every id already in `id_dict`, `add` with that
id — given as an argument, or generated by `get_next_id` — and any hash string replies
"ERR - id already exists", throws, and leaves the key holding the very same index. -/
theorem add_duplicate_id_rejected (host : Host) (s : ASIndex) (hashstr descr : Bytes) (id : Int)
    (l : EntryList) (hid : DictGetC s.id_dict id = some l) :
    auscoutadd_common host (.asindex s) hashstr (some (some id)) =
      some (.thrown [Reply.error "ERR - id already exists"] (.asindex s)) ∧
    AuscoutAdd_RedisCmd host (.asindex s) hashstr (some (some id)) =
      some ⟨[Reply.error "ERR - id already exists"], REDISMODULE_ERR, .asindex s⟩ ∧
    AuscoutAddWithDescr_RedisCmd host (.asindex s) hashstr descr (some (some id)) =
      some ⟨[Reply.error "ERR - id already exists"], REDISMODULE_ERR, .asindex s⟩ ∧
    ((get_next_id host).2 = id →
      auscoutadd_common host (.asindex s) hashstr none =
        some (.thrown ((get_next_id host).1 ++ [Reply.error "ERR - id already exists"])
          (.asindex s))) := by
  have h1 : auscoutadd_common host (.asindex s) hashstr (some (some id)) =
      some (.thrown [Reply.error "ERR - id already exists"] (.asindex s)) := by
    rw [auscoutadd_common_asindex]
    simp only [hid, List.nil_append]
  refine ⟨h1, ?_, ?_, ?_⟩
  · simp only [AuscoutAdd_RedisCmd, h1]
  · simp only [AuscoutAddWithDescr_RedisCmd, h1]
  · intro hg
    rw [auscoutadd_common_asindex]
    simp only [hg, hid]

/-- C9 (delete of an unknown id). On a reachable index, `del id` replies "no such id found"
exactly when `id` is not in `id_dict`; it then returns `REDISMODULE_ERR` and leaves the key
holding the very same index; and a `del id` right after a successful `del id` fails so. -/
theorem del_unknown_id (s : ASIndex) (hs : Reachable s) (id : Int) :
    ((∃ r, AuscoutDel_RedisCmd (.asindex s) (some id) = some r ∧
        r.replies = [Reply.error "no such id found"]) ↔ DictGetC s.id_dict id = none) ∧
    (DictGetC s.id_dict id = none →
      AuscoutDel_RedisCmd (.asindex s) (some id) =
        some ⟨[Reply.error "no such id found"], REDISMODULE_ERR, .asindex s⟩) ∧
    (∀ r s', AuscoutDel_RedisCmd (.asindex s) (some id) = some r →
      r.status = REDISMODULE_OK → r.key = .asindex s' →
      AuscoutDel_RedisCmd (.asindex s') (some id) =
        some ⟨[Reply.error "no such id found"], REDISMODULE_ERR, .asindex s'⟩) := by
  have hnone : ∀ t : ASIndex, DictGetC t.id_dict id = none →
      AuscoutDel_RedisCmd (.asindex t) (some id) =
        some ⟨[Reply.error "no such id found"], REDISMODULE_ERR, .asindex t⟩ := by
    intro t ht
    simp only [AuscoutDel_RedisCmd, GetIndex, DictDelC, ht]
  obtain ⟨P, C, I⟩ := reachable_wf hs
  refine ⟨⟨?_, fun h => ⟨_, hnone s h, rfl⟩⟩, hnone s, ?_⟩
  · rintro ⟨r, hr, hrep⟩
    cases hg : DictGetC s.id_dict id with
    | none => rfl
    | some l =>
      obtain ⟨s', h1, _⟩ := del_index_spec I.rep I.count id l hg
      rw [hr] at h1
      simp only [Option.some.injEq] at h1
      subst h1
      simp at hrep
  · intro r s' hr hok hkey
    cases hg : DictGetC s.id_dict id with
    | none =>
      rw [hnone s hg] at hr
      simp only [Option.some.injEq] at hr
      subst hr
      simp [REDISMODULE_OK, REDISMODULE_ERR] at hok
    | some l =>
      obtain ⟨s2, h1, _, _, _, _, _, _, h8, _⟩ := del_index_spec I.rep I.count id l hg
      rw [hr] at h1
      simp only [Option.some.injEq] at h1
      subst h1
      simp only [KeyValue.asindex.injEq] at hkey
      subst hkey
      apply hnone
      rw [h8]; simp

/-- C9 on the empty index: `del 7` replies "no such id found". -/
theorem del_unknown_id_witness :
    AuscoutDel_RedisCmd (.asindex emptyIndex) (some 7) =
      some ⟨[Reply.error "no such id found"], REDISMODULE_ERR, .asindex emptyIndex⟩ :=
  (del_unknown_id emptyIndex Reachable.empty 7).2.1 (by decide)

/-- C10 (count tracks ids). Whatever the key, the hash string and the id argument, an `add`
or `addtrack` that returns `REDISMODULE_OK` raises the reply of `count` by exactly one, and
a `del` that returns `REDISMODULE_OK` lowers it by exactly one; hence after `n` successful
adds on an empty key `count` replies `n`, and adds with pairwise distinct `long long` ids
on an empty key all succeed. -/
theorem count_tracks_ids :
    (∀ (host : Host) (key : KeyValue) (hashstr : Bytes) (idarg : Option (Option Int))
        (r : CmdResult), AuscoutAdd_RedisCmd host key hashstr idarg = some r →
        r.status = REDISMODULE_OK →
        ∃ n : Nat, (AuscoutCount_RedisCmd key).replies = [Reply.integer n] ∧
          (AuscoutCount_RedisCmd r.key).replies = [Reply.integer (n + 1)]) ∧
    (∀ (host : Host) (key : KeyValue) (hashstr descr : Bytes) (idarg : Option (Option Int))
        (r : CmdResult), AuscoutAddWithDescr_RedisCmd host key hashstr descr idarg = some r →
        r.status = REDISMODULE_OK →
        ∃ n : Nat, (AuscoutCount_RedisCmd key).replies = [Reply.integer n] ∧
          (AuscoutCount_RedisCmd r.key).replies = [Reply.integer (n + 1)]) ∧
    (∀ (key : KeyValue) (idarg : Option Int) (r : CmdResult),
        AuscoutDel_RedisCmd key idarg = some r → r.status = REDISMODULE_OK →
        ∃ n : Nat, (AuscoutCount_RedisCmd r.key).replies = [Reply.integer n] ∧
          (AuscoutCount_RedisCmd key).replies = [Reply.integer (n + 1)]) ∧
    (∀ (cmds : List (Host × Bytes × Option (Option Int))) (key' : KeyValue),
        add_all .empty cmds = some key' →
        (AuscoutCount_RedisCmd key').replies = [Reply.integer cmds.length]) ∧
    (∀ (adds : List (Host × Bytes × Int)), (adds.map (fun a => a.2.2)).Nodup →
        (∀ a ∈ adds, isInt64 a.2.2) →
        ∃ key', add_all .empty (adds.map (fun a => (a.1, a.2.1, some (some a.2.2)))) =
          some key' ∧
          (AuscoutCount_RedisCmd key').replies = [Reply.integer adds.length]) := by
  have h4 : ∀ (cmds : List (Host × Bytes × Option (Option Int))) (key' : KeyValue),
      add_all .empty cmds = some key' →
      (AuscoutCount_RedisCmd key').replies = [Reply.integer cmds.length] := by
    intro cmds key' h
    have := add_all_count cmds .empty key' 0 rfl h
    simpa using this
  refine ⟨?_, ?_, ?_, h4, ?_⟩
  · intro host key hashstr idarg r h hok
    obtain ⟨replies, id, hc⟩ := add_cmd_ok h hok
    exact add_returned_count hc
  · intro host key hashstr descr idarg r h hok
    obtain ⟨replies, id, hc⟩ := addtrack_cmd_ok h hok
    exact add_returned_count hc
  · intro key idarg r h hok
    exact del_ok_count h hok
  · intro adds hnd hids
    cases adds with
    | nil => exact ⟨.empty, rfl, rfl⟩
    | cons a rest =>
      obtain ⟨s', hs'⟩ := add_all_total (a :: rest) emptyIndex wf_empty hnd
        (fun a ha => ⟨hids a ha, rfl⟩)
      have he : add_all .empty ((a :: rest).map (fun a => (a.1, a.2.1, some (some a.2.2)))) =
          some (.asindex s') := by
        rw [← hs']
        simp only [List.map_cons, add_all, AuscoutAdd_RedisCmd]
        have : auscoutadd_common a.1 .empty a.2.1 (some (some a.2.2)) =
            auscoutadd_common a.1 (.asindex emptyIndex) a.2.1 (some (some a.2.2)) := by
          simp only [auscoutadd_common, GetIndex, CreateIndex]
        rw [this]
      refine ⟨_, he, ?_⟩
      have := h4 _ _ he
      simpa using this

/-- C10 at two adds (one with an empty hash string) on an empty key: `count` replies 2. -/
theorem count_tracks_ids_witness :
    ∃ key', add_all .empty [(⟨0, 0, none⟩, htonl_bytes [1, 2, 3], some (some 7)),
        (⟨0, 0, none⟩, [], some (some 8))] = some key' ∧
      (AuscoutCount_RedisCmd key').replies = [Reply.integer 2] := by
  obtain ⟨key', h1, h2⟩ := count_tracks_ids.2.2.2.2
    [(⟨0, 0, none⟩, htonl_bytes [1, 2, 3], 7), (⟨0, 0, none⟩, [], 8)] (by decide)
    (by intro a ha; simp at ha; rcases ha with h | h <;> subst h <;> decide)
  exact ⟨key', h1, h2⟩

theorem reachable_index_1_2_3 : Reachable index_1_2_3 :=
  Reachable.add ⟨0, 0, none⟩ (htonl_bytes [1, 2, 3]) (some (some 7)) [] 7 Reachable.empty
    (by intro v hv; cases hv; decide) (by decide)

theorem filter_filterMap_key {mem : Heap} {chain : List Addr} {id : Int} :
    ∀ (l : List Addr), (∀ b ∈ l, ∃ k, keyOf mem b = some k ∧ (b ∈ chain ↔ k.1 = id)) →
    (l.filter (fun b => decide (b ∉ chain))).filterMap (keyOf mem) =
      (l.filterMap (keyOf mem)).filter (fun k => decide (k.1 ≠ id))
  | [], _ => rfl
  | b :: rest, h => by
    obtain ⟨k, hk, hiff⟩ := h b (List.mem_cons_self _ _)
    have ih := filter_filterMap_key rest (fun c hc => h c (List.mem_cons_of_mem _ hc))
    by_cases hb : b ∈ chain
    · have hki : k.1 = id := hiff.1 hb
      simp only [decide_not] at ih ⊢
      simp only [List.filter_cons, hb, decide_True, Bool.not_true, List.filterMap_cons, hk]
      simp [hki, ih]
    · have hki : ¬ k.1 = id := fun e => hb (hiff.2 e)
      simp only [decide_not] at ih ⊢
      simp only [List.filter_cons, hb, decide_False, Bool.not_false, List.filterMap_cons, hk]
      simp only [if_true, List.filterMap_cons, hk, hki, decide_False, Bool.not_false, ih]

/-- C8 (delete postcondition). For every reachable index and every id in it, `del id`
replies the length `L` of the track chain (which is the stored `length`), takes `L` entries
out of the pool, lowers `n_entries` by exactly `L` (the pool holding fewer than `2^64`
entries), removes the id from `id_dict`, leaves the other ids and the keys of their chains
as they were, and leaves in every posting list exactly the entries of other ids, in their
former order. -/
theorem del_postcondition (s : ASIndex) (hs : Reachable s) (id : Int) (l : EntryList)
    (hid : DictGetC s.id_dict id = some l) :
    ∃ s', AuscoutDel_RedisCmd (.asindex s) (some id) =
        some ⟨[Reply.integer (trackChain s id).length], REDISMODULE_OK, .asindex s'⟩ ∧
      l.length = (trackChain s id).length ∧
      liveCount s'.mem + (trackChain s id).length = liveCount s.mem ∧
      (liveCount s.mem < 2 ^ 64 → s'.n_entries + (trackChain s id).length = s.n_entries) ∧
      DictGetC s'.id_dict id = none ∧ trackChain s' id = [] ∧
      (∀ id', id' ≠ id → DictGetC s'.id_dict id' = DictGetC s.id_dict id' ∧
        (trackChain s' id').map Entry.key = (trackChain s id').map Entry.key) ∧
      (∀ h, (postingList s' h).map Entry.key =
        ((postingList s h).map Entry.key).filter (fun k => decide (k.1 ≠ id))) := by
  obtain ⟨P, C, I⟩ := reachable_wf hs
  obtain ⟨s', h1, h2, h3, h4, h5, _, h7, h8, _⟩ := del_index_spec I.rep I.count id l hid
  have hL : (trackChain s id).length = (C id).length := I.rep.length_trackChain id
  have hnone : DictGetC s'.id_dict id = none := by rw [h8]; simp
  refine ⟨s', ?_, ?_, ?_, ?_, hnone, ?_, ?_, ?_⟩
  · rw [h1, hL, h2]
  · rw [hL, h2]
  · rw [hL]; exact h5
  · intro hcap
    rw [hL, h4, I.count, Nat.mod_eq_of_lt hcap, Nat.mod_eq_of_lt (by omega)]
    exact h5
  · simp only [trackChain, hnone]
  · intro id' hne
    refine ⟨by rw [h8, if_neg hne], ?_⟩
    rw [h3.trackChain_key id', I.rep.trackChain_key id', Function.update_noteq hne]
    apply List.filterMap_congr
    intro b hb
    rw [h7]
    have : b ∉ C id := fun hc => hne (I.rep.1.c_unique hb hc)
    rw [if_neg this]
  · intro h
    rw [h3.postingList_key h, I.rep.postingList_key h]
    have e1 : ((P h).filter (fun b => decide (b ∉ C id))).filterMap (keyOf s'.mem) =
        ((P h).filter (fun b => decide (b ∉ C id))).filterMap (keyOf s.mem) := by
      apply List.filterMap_congr
      intro b hb
      have := (List.mem_filter.1 hb).2
      simp only [decide_eq_true_eq] at this
      rw [h7, if_neg this]
    rw [e1]
    apply filter_filterMap_key
    intro b hb
    obtain ⟨k, hk, _⟩ := I.rep.1.p_key h b hb
    refine ⟨k, hk, ?_, ?_⟩
    · intro hc
      obtain ⟨k', hk', e⟩ := I.rep.1.c_key id b hc
      rw [hk] at hk'
      cases hk'
      exact e
    · intro e
      have := (I.rep.1.live b k hk).2
      rw [e] at this
      exact this

/-- C8 after `add key [1, 2, 3] 7`: `del key 7` replies 3 and `size` becomes 0. -/
theorem del_postcondition_witness :
    ∃ s', AuscoutDel_RedisCmd (.asindex index_1_2_3) (some 7) =
        some ⟨[Reply.integer 3], REDISMODULE_OK, .asindex s'⟩ ∧ s'.n_entries = 0 := by
  obtain ⟨s', h1, _, _, h4, _⟩ :=
    del_postcondition index_1_2_3 reachable_index_1_2_3 7 ⟨some 0, 3⟩ (by decide)
  have hlen : (trackChain index_1_2_3 7).length = 3 := by decide
  rw [hlen] at h1 h4
  refine ⟨s', h1, ?_⟩
  have := h4 (by decide)
  have h3 : index_1_2_3.n_entries = 3 := rfl
  omega

/-! ## Size accounting -/

theorem sum_chain_lengths {s : ASIndex} {P : Nat → List Addr} {C : Int → List Addr}
    (W : Represents s P C) :
    (s.id_dict.map (fun kv => (C kv.1).length)).sum = liveCount s.mem := by
  have hperm : ((dictKeys s.id_dict).flatMap C).Perm (liveAddrs s.mem) := by
    rw [List.perm_ext_iff_of_nodup _ (nodup_liveAddrs _)]
    · intro a
      rw [mem_liveAddrs, List.mem_flatMap]
      constructor
      · rintro ⟨id, _, ha⟩
        exact W.1.c_live ha
      · intro ha
        obtain ⟨k, hk⟩ := Option.ne_none_iff_exists'.1 ha
        have hm := (W.1.live a k hk).2
        refine ⟨k.1, ?_, hm⟩
        rw [← DictGetC_isSome_iff]
        cases hg : DictGetC s.id_dict k.1 with
        | none =>
          have := W.2.none _ hg
          rw [this] at hm; simp at hm
        | some l => exact ⟨l, rfl⟩
    · rw [List.nodup_flatMap]
      refine ⟨fun id _ => W.1.c_nodup id, ?_⟩
      have hn : (dictKeys s.id_dict).Pairwise (· ≠ ·) := W.2.nodup
      apply hn.imp
      intro i j hij
      show List.Disjoint (C i) (C j)
      intro a ha hb
      exact hij (W.1.c_unique ha hb)
  have := hperm.length_eq
  rw [List.flatMap_def, List.length_flatten, dictKeys, List.map_map, List.map_map] at this
  exact this

theorem sum_posting_lengths {s : ASIndex} {P : Nat → List Addr} {C : Int → List Addr}
    (W : Represents s P C) :
    (s.hash_dict.map (fun kv => (P kv.1).length)).sum = liveCount s.mem := by
  have hperm : ((dictKeys s.hash_dict).flatMap P).Perm (liveAddrs s.mem) := by
    rw [List.perm_ext_iff_of_nodup _ (nodup_liveAddrs _)]
    · intro a
      rw [mem_liveAddrs, List.mem_flatMap]
      constructor
      · rintro ⟨h, _, ha⟩
        exact W.1.p_live ha
      · intro ha
        obtain ⟨k, hk⟩ := Option.ne_none_iff_exists'.1 ha
        have hm := (W.1.live a k hk).1
        refine ⟨k.2.2, ?_, hm⟩
        rw [← DictGetC_isSome_iff]
        cases hg : DictGetC s.hash_dict k.2.2 with
        | none =>
          have := W.1.hd_none _ hg
          rw [this] at hm; simp at hm
        | some l => exact ⟨l, rfl⟩
    · rw [List.nodup_flatMap]
      refine ⟨fun h _ => W.1.p_nodup h, ?_⟩
      have hn : (dictKeys s.hash_dict).Pairwise (· ≠ ·) := W.1.hd_nodup
      apply hn.imp
      intro i j hij
      show List.Disjoint (P i) (P j)
      intro a ha hb
      exact hij (W.1.p_unique ha hb)
  have := hperm.length_eq
  rw [List.flatMap_def, List.length_flatten, dictKeys, List.map_map, List.map_map] at this
  exact this

/-- C4 (size accounting). In every index built from the empty one by `add` and `del`, the
lengths of the track chains of `id_dict` and the lengths of the posting lists of
`hash_dict` have the same sum, `n_entries` (a `uint64_t`) is that sum modulo `2^64`, hence
equal to it when the index holds fewer than `2^64` entries; and each stored chain
`length` is the length of the chain. -/
theorem size_accounting (s : ASIndex) (hs : Reachable s) :
    (s.id_dict.map (fun kv => (trackChain s kv.1).length)).sum =
      (s.hash_dict.map (fun kv => (postingList s kv.1).length)).sum ∧
    s.n_entries = (s.id_dict.map (fun kv => (trackChain s kv.1).length)).sum % 2 ^ 64 ∧
    ((s.id_dict.map (fun kv => (trackChain s kv.1).length)).sum < 2 ^ 64 →
      s.n_entries = (s.id_dict.map (fun kv => (trackChain s kv.1).length)).sum ∧
      s.n_entries = (s.hash_dict.map (fun kv => (postingList s kv.1).length)).sum) ∧
    (∀ id l, DictGetC s.id_dict id = some l → l.length = (trackChain s id).length) := by
  obtain ⟨P, C, I⟩ := reachable_wf hs
  have e1 : (s.id_dict.map (fun kv => (trackChain s kv.1).length)).sum = liveCount s.mem := by
    rw [← sum_chain_lengths I.rep]
    congr 1
    apply List.map_congr_left
    intro kv _
    exact I.rep.length_trackChain kv.1
  have e2 : (s.hash_dict.map (fun kv => (postingList s kv.1).length)).sum = liveCount s.mem := by
    rw [← sum_posting_lengths I.rep]
    congr 1
    apply List.map_congr_left
    intro kv _
    exact I.rep.length_postingList kv.1
  refine ⟨by rw [e1, e2], by rw [e1]; exact I.count, ?_, ?_⟩
  · intro hlt
    rw [e1] at hlt
    rw [e1, e2, I.count, Nat.mod_eq_of_lt hlt]
    exact ⟨rfl, rfl⟩
  · intro id l hg
    rw [I.rep.length_trackChain id]
    exact (I.rep.2.some id l hg).2.1

/-- C4 after `add key [1, 2, 3] 7`: `n_entries` is 3, the sum over chains and over posting
lists. -/
theorem size_accounting_witness :
    index_1_2_3.n_entries = 3 ∧
    (index_1_2_3.id_dict.map (fun kv => (trackChain index_1_2_3 kv.1).length)).sum = 3 ∧
    (index_1_2_3.hash_dict.map (fun kv => (postingList index_1_2_3 kv.1).length)).sum = 3 := by
  have h := size_accounting index_1_2_3 reachable_index_1_2_3
  have hsum : (index_1_2_3.id_dict.map
      (fun kv => (trackChain index_1_2_3 kv.1).length)).sum = 3 := by decide
  refine ⟨rfl, hsum, ?_⟩
  rw [← h.1, hsum]

theorem lookup_entry_key (current : Int) (threshold : ℚ) (e : Entry) (tracker : Tracker)
    (results : List FoundId) :
    lookup_entry current threshold e tracker results =
      lookup_entry current threshold (entryOfKey e.key) tracker results := rfl

theorem lookup_walk_eq {mem : Heap} (current : Int) (threshold : ℚ) :
    ∀ (l : List Addr) (q : Option Addr) (n : Nat) (tracker : Tracker) (results : List FoundId),
    IsDll mem q l →
    lookup_walk current threshold mem n l.head? tracker results =
      some (lookup_keys current threshold ((l.filterMap (keyOf mem)).take n) tracker results)
  | [], _, n, tracker, results, _ => by
    cases n <;> simp [lookup_walk, lookup_keys]
  | a :: rest, _, 0, tracker, results, _ => by
    simp [lookup_walk, lookup_keys]
  | a :: rest, q, n + 1, tracker, results, hd => by
    obtain ⟨_, h2, h3⟩ := hd
    obtain ⟨e, he, hn⟩ := load_of_nextOf h2
    have hk : keyOf mem a = some e.key := by simp [keyOf, he]
    simp only [List.head?_cons, lookup_walk, he, Option.bind_eq_bind, Option.some_bind,
      List.filterMap_cons, hk, List.take_succ_cons, lookup_keys]
    rw [← lookup_entry_key]
    cases hf : (lookup_entry current threshold e tracker results).2.2 with
    | true => simp
    | false =>
      simp only [Bool.false_eq_true, if_false]
      rw [hn]
      exact lookup_walk_eq current threshold rest (some a) n _ _ h3

theorem lookup_hashframe_eq {s : ASIndex} {P : Nat → List Addr} {C : Int → List Addr}
    (W : Represents s P C) (current : Int) (threshold : ℚ) (h : Nat) (tracker : Tracker)
    (results : List FoundId) :
    lookup_hashframe current threshold s.mem s.hash_dict h tracker results =
      some (lookup_keys current threshold (examined s h) tracker results) := by
  unfold examined
  rw [W.postingList_key h]
  unfold lookup_hashframe
  cases hg : DictGetC s.hash_dict h with
  | none =>
    rw [W.1.hd_none h hg]
    simp [lookup_keys]
  | some l =>
    obtain ⟨_, hhead, _⟩ := W.1.hd_some h l hg
    simp only [hhead]
    exact lookup_walk_eq current threshold (P h) none _ tracker results (W.1.dll h)

theorem lookup_candidates_eq {s : ASIndex} {P : Nat → List Addr} {C : Int → List Addr}
    (W : Represents s P C) (current : Int) (threshold : ℚ) :
    ∀ (keys : List Nat) (tracker : Tracker) (results : List FoundId),
    lookup_candidates current threshold s keys tracker results =
      some (lookup_candidates_keys current threshold (examined s) keys tracker results)
  | [], _, _ => rfl
  | key :: keys, tracker, results => by
    simp only [lookup_candidates, lookup_hashframe_eq W, Option.bind_eq_bind, Option.some_bind,
      lookup_candidates_keys]
    exact lookup_candidates_eq W current threshold keys _ _

theorem lookup_frames_eq {s : ASIndex} {P : Nat → List Addr} {C : Int → List Addr}
    (W : Represents s P C) (threshold : ℚ) :
    ∀ (frames : List (Nat × Nat)) (i : Int) (tracker : Tracker) (results : List FoundId),
    lookup_frames threshold s frames i tracker results =
      lookup_frames_keys threshold (examined s) frames i tracker results
  | [], _, _, _ => rfl
  | (frame, toggle) :: rest, i, tracker, results => by
    simp only [lookup_frames, lookup_frames_keys, Option.bind_eq_bind]
    cases get_candidates frame toggle with
    | none => rfl
    | some candidates =>
      simp only [Option.some_bind, lookup_candidates_eq W]
      split
      · rfl
      · exact lookup_frames_eq W threshold rest (i + 1) _ _

theorem postAfter_split : ∀ (news : List (Nat × Nat)) (a : Addr) (P : Nat → List Addr) (h : Nat),
    ∃ l, postAfter news a P h = l ++ P h ∧ ∀ b ∈ l, a ≤ b ∧ b < a + news.length
  | [], a, P, h => ⟨[], rfl, by simp⟩
  | (p, f) :: rest, a, P, h => by
    have aux : ∀ x y z : Nat, x < y + 1 + z → x < y + (z + 1) := by
      intro x y z h; omega
    obtain ⟨l, hl, hb⟩ := postAfter_split rest (a + 1) (Function.update P f (a :: P f)) h
    simp only [postAfter]
    by_cases hf : h = f
    · subst hf
      rw [Function.update_same] at hl
      refine ⟨l ++ [a], by rw [hl]; simp, ?_⟩
      intro b hbm
      rcases List.mem_append.1 hbm with h1 | h1
      · have := hb b h1
        exact ⟨Nat.le_of_succ_le this.1, aux _ _ _ this.2⟩
      · have : b = a := by simpa using h1
        subst this
        exact ⟨Nat.le_refl _, Nat.lt_add_of_pos_right (Nat.succ_pos _)⟩
    · rw [Function.update_noteq hf] at hl
      refine ⟨l, hl, ?_⟩
      intro b hbm
      have := hb b hbm
      exact ⟨Nat.le_of_succ_le this.1, aux _ _ _ this.2⟩

/-- Two dictionaries that represent the same posting lists hold the same list headers. -/
theorem Rep.hash_dict_unique {mem mem' : Heap} {hd hd' : Dict Nat EntryList}
    {P : Nat → List Addr} {C C' : Int → List Addr}
    (R : Rep mem hd P C) (R' : Rep mem' hd' P C') (h : Nat) :
    DictGetC hd' h = DictGetC hd h := by
  cases hg : DictGetC hd h with
  | none =>
    cases hg' : DictGetC hd' h with
    | none => rfl
    | some l' => exact absurd (R.hd_none h hg) (R'.hd_some h l' hg').1
  | some l =>
    cases hg' : DictGetC hd' h with
    | none => exact absurd (R'.hd_none h hg') (R.hd_some h l hg).1
    | some l' =>
      obtain ⟨_, h1, h2⟩ := R.hd_some h l hg
      obtain ⟨_, h1', h2'⟩ := R'.hd_some h l' hg'
      cases l; cases l'
      simp only at h1 h2 h1' h2'
      rw [h1, h2, h1', h2']

/-- C3 (add then delete is the identity). For every reachable index, every id absent from
it and every hash string, `add id` succeeds, the following `del id` succeeds, and the
index is then as before the add: same `n_entries`, same count, the same binding (head and
length) for every id and every hash, the same keys along every track chain and along
every posting list in head-first order, and every lookup gives the same replies. -/
theorem add_then_del_identity (s : ASIndex) (hs : Reachable s) (host : Host) (hashstr : Bytes)
    (id : Int) (hid : DictGetC s.id_dict id = none) :
    ∃ s1 s2 n,
      auscoutadd_common host (.asindex s) hashstr (some (some id)) =
        some (.returned [] id (.asindex s1)) ∧
      AuscoutDel_RedisCmd (.asindex s1) (some id) =
        some ⟨[Reply.integer n], REDISMODULE_OK, .asindex s2⟩ ∧
      s2.n_entries = s.n_entries ∧
      DictSize s2.id_dict = DictSize s.id_dict ∧
      (∀ id', DictGetC s2.id_dict id' = DictGetC s.id_dict id') ∧
      (∀ id', (trackChain s2 id').map Entry.key = (trackChain s id').map Entry.key) ∧
      (∀ h, DictGetC s2.hash_dict h = DictGetC s.hash_dict h) ∧
      (∀ h, (postingList s2 h).map Entry.key = (postingList s h).map Entry.key) ∧
      (∀ (descr : Int → Option Bytes) (hb tb : Bytes) (th : Option (Option ℚ)),
        (AuscoutLookup_RedisCmd descr (.asindex s2) hb tb th).map
            (fun r => (r.replies, r.status)) =
          (AuscoutLookup_RedisCmd descr (.asindex s) hb tb th).map
            (fun r => (r.replies, r.status))) := by
  obtain ⟨P, C, I⟩ := reachable_wf hs
  obtain ⟨s1, a1, W1, a3, a4, a5, a6, a7, a8⟩ :=
    add_index_spec I.rep I.n_entries_lt host hashstr id hid
  generalize hnews : dedup_frames 0 0 (add_input hashstr) = news at W1 a3 a4 a5 a6 a7 a8
  have hcount1 : s1.n_entries = liveCount s1.mem % 2 ^ 64 := by
    rw [a3, a5, I.count, Nat.mod_add_mod]
  have hget1 := a7 id
  rw [if_pos rfl] at hget1
  obtain ⟨s2, d1, d2, W2, d4, d5, d6, d7, d8, d9⟩ := del_index_spec W1 hcount1 id _ hget1
  have hC1 : (Function.update C id (List.range' s.mem.length news.length)) id =
      List.range' s.mem.length news.length := Function.update_same _ _ _
  rw [hC1] at d5 d7 W2
  have hCid : C id = [] := I.rep.2.none id hid
  have eC : Function.update (Function.update C id (List.range' s.mem.length news.length)) id [] =
      C := by
    rw [Function.update_idem, ← hCid]
    exact Function.update_eq_self id C
  have eP : (fun h => (postAfter news s.mem.length P h).filter
      (fun b => decide (b ∉ List.range' s.mem.length news.length))) = P := by
    funext h
    obtain ⟨l, hl, hb⟩ := postAfter_split news s.mem.length P h
    rw [hl, List.filter_append]
    have e1 : l.filter (fun b => decide (b ∉ List.range' s.mem.length news.length)) = [] := by
      rw [List.filter_eq_nil_iff]
      intro b hbl
      have := hb b hbl
      simp only [decide_not, Bool.not_eq_true', decide_eq_false_iff_not, not_not]
      rw [List.mem_range'_1]
      exact this
    have e2 : (P h).filter (fun b => decide (b ∉ List.range' s.mem.length news.length)) = P h := by
      rw [List.filter_eq_self]
      intro b hbP
      have hlt : b < s.mem.length := keyOf_lt (I.rep.1.p_live hbP)
      simp only [decide_not, Bool.not_eq_true', decide_eq_false_iff_not]
      rw [List.mem_range'_1]
      intro hc
      exact absurd hlt (Nat.not_lt.2 hc.1)
    rw [e1, e2, List.nil_append]
  rw [eC, eP] at W2
  have hkey : ∀ b, keyOf s2.mem b = keyOf s.mem b := by
    intro b
    rw [d7, a6]
    by_cases hb : b < s.mem.length
    · have : b ∉ List.range' s.mem.length news.length := by
        rw [List.mem_range'_1]
        intro hc
        exact absurd hb (Nat.not_lt.2 hc.1)
      rw [if_neg this, if_pos hb]
    · have hnone : keyOf s.mem b = none := by
        by_contra hc
        exact hb (keyOf_lt hc)
      rw [hnone]
      by_cases hr : b ∈ List.range' s.mem.length news.length
      · rw [if_pos hr]
      · rw [if_neg hr, if_neg hb]
        rw [List.mem_range'_1] at hr
        have hge : news.length ≤ b - s.mem.length := by
          have h1 : s.mem.length ≤ b := Nat.le_of_not_lt hb
          by_contra hc
          apply hr
          refine ⟨h1, ?_⟩
          have aux : ∀ x y z : Nat, y ≤ x → ¬ z ≤ x - y → x < y + z := by
            intro x y z h1 h2; omega
          exact aux _ _ _ h1 hc
        rw [List.getElem?_eq_none hge]
        rfl
  have hlen1 : (List.range' s.mem.length news.length).length = news.length := List.length_range' _ _ _
  have hpost : ∀ h, (postingList s2 h).map Entry.key = (postingList s h).map Entry.key := by
    intro h
    rw [W2.postingList_key h, I.rep.postingList_key h]
    exact List.filterMap_congr (fun b _ => hkey b)
  refine ⟨s1, s2, _, a1, d1, ?_, ?_, ?_, ?_, ?_, hpost, ?_⟩
  · rw [d4, I.count]
    rw [hlen1] at d5
    have : liveCount s2.mem = liveCount s.mem := by omega
    rw [this]
  · rw [a8] at d9
    omega
  · intro id'
    rw [d8, a7]
    by_cases hi : id' = id
    · rw [if_pos hi, hi, hid]
    · rw [if_neg hi, if_neg hi]
  · intro id'
    rw [W2.trackChain_key id', I.rep.trackChain_key id']
    exact List.filterMap_congr (fun b _ => hkey b)
  · intro h
    exact Rep.hash_dict_unique I.rep.1 W2.1 h
  · intro descr hb tb th
    have hex : examined s2 = examined s := by
      funext h
      unfold examined
      rw [hpost h]
    have hframes : ∀ (threshold : ℚ) (frames : List (Nat × Nat)),
        lookup_frames threshold s2 frames 0 [] [] = lookup_frames threshold s frames 0 [] [] := by
      intro threshold frames
      rw [lookup_frames_eq W2, lookup_frames_eq I.rep, hex]
    unfold AuscoutLookup_RedisCmd
    rcases th with _ | _ | t
    · dsimp only [GetIndex]
      split
      · rfl
      · split
        · rfl
        · rw [hframes]
          generalize lookup_frames _ s _ _ _ _ = res
          cases res <;> rfl
    · rfl
    · dsimp only [GetIndex]
      split
      · rfl
      · split
        · rfl
        · rw [hframes]
          generalize lookup_frames _ s _ _ _ _ = res
          cases res <;> rfl

/-- C3 on the empty index: after `add [1, 2, 3] 7` and `del 7` the index has size 0, no id
and no hash. -/
theorem add_then_del_identity_witness :
    ∃ s1 s2 n,
      auscoutadd_common ⟨0, 0, none⟩ (.asindex emptyIndex) (htonl_bytes [1, 2, 3])
        (some (some 7)) = some (.returned [] 7 (.asindex s1)) ∧
      AuscoutDel_RedisCmd (.asindex s1) (some 7) =
        some ⟨[Reply.integer n], REDISMODULE_OK, .asindex s2⟩ ∧
      s2.n_entries = 0 ∧ DictSize s2.id_dict = 0 ∧
      (∀ h, DictGetC s2.hash_dict h = none) := by
  obtain ⟨s1, s2, n, h1, h2, h3, h4, _, _, h7, _⟩ :=
    add_then_del_identity emptyIndex Reachable.empty ⟨0, 0, none⟩ (htonl_bytes [1, 2, 3]) 7
      (by decide)
  exact ⟨s1, s2, n, h1, h2, h3, h4, fun h => by rw [h7]; rfl⟩

/-! ## Lookup of an aligned probe -/

theorem get_candidates_zero (x : Nat) : get_candidates x 0 = some [x % 2 ^ 32] := by
  rfl

theorem toI32_of_lt {n : Nat} (h : n < 2 ^ 31) : toI32 n = (n : Int) := by
  unfold toI32
  have : n % 2 ^ 32 = n := Nat.mod_eq_of_lt (by omega)
  rw [this, if_pos h]

theorem toU32_of_lt {n : Nat} (h : n < 2 ^ 32) : toU32 (n : Int) = n := by
  unfold toU32
  have : ((n : Int) % 2 ^ 32) = ((n % 2 ^ 32 : Nat) : Int) := by
    push_cast; rfl
  rw [this, Int.toNat_ofNat, Nat.mod_eq_of_lt h]

theorem lookup_first (post : Nat → List (Int × Nat × Nat)) (id : Int) (threshold : ℚ)
    (p x : Nat) (hp : p < 2 ^ 31) (hpost : post x = [(id, p, x)]) (t : Int) :
    lookup_candidates_keys t threshold post [x] [] [] =
      ([(id, ⟨t, t, (p : Int), 1⟩)], []) := by
  simp only [lookup_candidates_keys, hpost, lookup_keys, lookup_entry, entryOfKey, DictGetC,
    trackerSet, DictReplaceC, dictInsert, toI32_of_lt hp]
  rfl

theorem lookup_next (post : Nat → List (Int × Nat × Nat)) (id : Int) (threshold : ℚ)
    (hthr : threshold ≤ 1) (k t x : Nat) (ht : 1 ≤ t) (hp : k + t < 2 ^ 31)
    (hpost : post x = [(id, k + t, x)]) :
    lookup_candidates_keys (t : Int) threshold post [x]
        [(id, ⟨0, (t : Int) - 1, (k : Int), (t : Int)⟩)] [] =
      if 99 ≤ t then ([], [⟨id, (k : Int), 1⟩])
      else ([(id, ⟨0, (t : Int), (k : Int), (t : Int) + 1⟩)], []) := by
  have hk32 : k < 2 ^ 32 := by omega
  have hmod : (k + t) % 2 ^ 32 = k + t := Nat.mod_eq_of_lt (by omega)
  have hle : (t : Int) ≤ (t : Int) - 1 + LOOKUP_STEPS := by
    simp only [LOOKUP_STEPS]; omega
  have hnlt : ¬ ((k + t) % 2 ^ 32 < toU32 (k : Int)) := by
    rw [hmod, toU32_of_lt hk32]; omega
  have hngt : ¬ ((t : Int) > (t : Int) + LOOKUP_STEPS) := by
    simp only [LOOKUP_STEPS]; omega
  have hcs : (((t : Int) + 1 : Int) : ℚ) / ((((t : Int) - 0 + 1) : Int) : ℚ) = 1 := by
    have : ((t : Int) - 0 + 1 : Int) = (t : Int) + 1 := by ring
    rw [this]
    apply div_self
    have : (0 : Int) < (t : Int) + 1 := by omega
    exact_mod_cast (ne_of_gt this)
  simp only [lookup_candidates_keys, hpost, lookup_keys, lookup_entry, entryOfKey, DictGetC,
    if_true, hle, hnlt, if_false, hcs]
  by_cases h99 : 99 ≤ t
  · have hw : (t : Int) - 0 + 1 ≥ LOOKUP_BLOCK := by
      simp only [LOOKUP_BLOCK]; omega
    simp only [hw, true_and, ge_iff_le, hthr, if_true, h99, dictErase, List.nil_append]
  · have hw : ¬ ((t : Int) - 0 + 1 ≥ LOOKUP_BLOCK) := by
      simp only [LOOKUP_BLOCK]; omega
    simp only [hw, false_and, if_false, h99, hngt, trackerSet, DictReplaceC, DictGetC, if_true,
      dictUpdate, Bool.false_eq_true]

theorem lookup_aligned (post : Nat → List (Int × Nat × Nat)) (id : Int) (threshold : ℚ)
    (hthr : threshold ≤ 1) (k : Nat) :
    ∀ (frames : List (Nat × Nat)) (t : Nat), 1 ≤ t → t ≤ 99 →
      Aligned post id (k + t) frames → 100 ≤ t + frames.length →
      lookup_frames_keys threshold post frames (t : Int)
        [(id, ⟨0, (t : Int) - 1, (k : Int), (t : Int)⟩)] [] = some [⟨id, (k : Int), 1⟩]
  | [], t, _, h99, _, hlen => by simp at hlen; omega
  | (x, toggle) :: rest, t, h1, h99, ha, hlen => by
    obtain ⟨⟨htg, hx, hp, hpost⟩, harest⟩ := ha
    subst htg
    have hxm : x % 2 ^ 32 = x := Nat.mod_eq_of_lt hx
    simp only [lookup_frames_keys, get_candidates_zero, hxm,
      lookup_next post id threshold hthr k t x h1 hp hpost]
    by_cases ht : 99 ≤ t
    · simp [ht]
    · simp only [ht, if_false, List.length_nil, gt_iff_lt, lt_self_iff_false]
      have := lookup_aligned post id threshold hthr k rest (t + 1) (by omega) (by omega)
        harest (by simp only [List.length_cons] at hlen; omega)
      have e1 : (((t + 1 : Nat) : Int)) = (t : Int) + 1 := by push_cast; rfl
      have e2 : (((t + 1 : Nat) : Int)) - 1 = (t : Int) := by push_cast; ring
      rw [e2, e1] at this
      exact this

/-- A probe of at least 100 aligned frames makes lookup report `(id, k, 1)`. -/
theorem lookup_frames_aligned (post : Nat → List (Int × Nat × Nat)) (id : Int) (threshold : ℚ)
    (hthr : threshold ≤ 1) (k : Nat) (frames : List (Nat × Nat))
    (ha : Aligned post id k frames) (hlen : 100 ≤ frames.length) :
    lookup_frames_keys threshold post frames 0 [] [] = some [⟨id, (k : Int), 1⟩] := by
  cases frames with
  | nil => simp at hlen
  | cons fr rest =>
    obtain ⟨x, toggle⟩ := fr
    obtain ⟨⟨htg, hx, hp, hpost⟩, harest⟩ := ha
    subst htg
    have hxm : x % 2 ^ 32 = x := Nat.mod_eq_of_lt hx
    simp only [lookup_frames_keys, get_candidates_zero, hxm,
      lookup_first post id threshold k x hp hpost 0]
    simp only [List.length_nil, gt_iff_lt, lt_self_iff_false, if_false]
    have := lookup_aligned post id threshold hthr k rest 1 (le_refl _) (by norm_num) harest
      (by simp only [List.length_cons] at hlen; omega)
    simpa using this

theorem eq_singleton_of_nodup {α : Type} {l : List α} {c : α} (hn : l.Nodup)
    (hm : ∀ a, a ∈ l ↔ a = c) : l = [c] := by
  cases l with
  | nil => exact absurd ((hm c).2 rfl) (List.not_mem_nil c)
  | cons a rest =>
    have ha : a = c := (hm a).1 (List.mem_cons_self _ _)
    subst ha
    cases rest with
    | nil => rfl
    | cons b rest' =>
      have hb : b = a := (hm b).1 (by simp)
      subst hb
      simp at hn

theorem kept_positions_nodup (F : List Nat) (hnd : F.Nodup) (h0 : F.head? ≠ some 0) :
    kept_positions 0 F = List.range F.length := by
  unfold kept_positions
  rw [List.filter_eq_self]
  intro i hi
  have hi' : i < F.length := List.mem_range.1 hi
  simp only [decide_eq_true_eq]
  by_cases hz : i = 0
  · subst hz
    simp only [if_true]
    intro hc
    apply h0
    cases F with
    | nil => simp at hi'
    | cons x rest => simp at hc; simp [hc]
  · rw [if_neg hz]
    intro hc
    have h1 : i - 1 < F.length := by omega
    rw [List.getD_eq_getElem _ _ hi', List.getD_eq_getElem _ _ h1] at hc
    have := (List.Nodup.getElem_inj_iff hnd).1 hc
    omega

theorem dedup_frames_nodup (F : List Nat) (hnd : F.Nodup) (h0 : F.head? ≠ some 0) (j : Nat) :
    (dedup_frames 0 0 F)[j]? = (F[j]?).map (fun x => (j, x)) := by
  rw [dedup_frames_eq, kept_positions_nodup F hnd h0, List.getElem?_map]
  by_cases hj : j < F.length
  · rw [List.getElem?_range hj, List.getElem?_eq_getElem hj]
    simp only [Option.map_some', List.getD_eq_getElem _ _ hj, Nat.zero_add]
  · rw [List.getElem?_eq_none (by simpa using hj), List.getElem?_eq_none (by omega)]
    rfl

/-- After a track with pairwise distinct frames is added, the posting list of a frame no
other track uses holds exactly the track's entry for it. -/
theorem examined_after_add {s s' : ASIndex} {P P' : Nat → List Addr} {C C' : Int → List Addr}
    (W : Represents s P C) (W' : Represents s' P' C') (F : List Nat) (hnd : F.Nodup)
    (h0 : F.head? ≠ some 0) (id : Int)
    (hkey : ∀ b, keyOf s'.mem b =
        if b < s.mem.length then keyOf s.mem b
        else ((dedup_frames 0 0 F)[b - s.mem.length]?).map (fun pf => (id, pf.1, pf.2)))
    (j x : Nat) (hj : F[j]? = some x) (hx : DictGetC s.hash_dict x = none) :
    examined s' x = [(id, j, x)] := by
  have hPx : P x = [] := W.1.hd_none x hx
  have hkj : keyOf s'.mem (s.mem.length + j) = some (id, j, x) := by
    rw [hkey, if_neg (Nat.not_lt.2 (Nat.le_add_right _ _)), Nat.add_sub_cancel_left,
      dedup_frames_nodup F hnd h0, hj]
    rfl
  have hP' : P' x = [s.mem.length + j] := by
    apply eq_singleton_of_nodup (W'.1.p_nodup x)
    intro a
    constructor
    · intro ha
      obtain ⟨k, hk, hkx⟩ := W'.1.p_key x a ha
      rw [hkey] at hk
      by_cases hlt : a < s.mem.length
      · rw [if_pos hlt] at hk
        have := (W.1.live a k hk).1
        rw [hkx, hPx] at this
        simp at this
      · rw [if_neg hlt, dedup_frames_nodup F hnd h0] at hk
        simp only [Option.map_map, Option.map_eq_some', Function.comp] at hk
        obtain ⟨y, hy, e⟩ := hk
        subst e
        simp only at hkx
        subst hkx
        have hjl : j < F.length := (List.getElem?_eq_some_iff.1 hj).1
        have hal : a - s.mem.length < F.length := (List.getElem?_eq_some_iff.1 hy).1
        have e1 := (List.getElem?_eq_some_iff.1 hj).2
        have e2 := (List.getElem?_eq_some_iff.1 hy).2
        have := (List.Nodup.getElem_inj_iff hnd).1 (e2.trans e1.symm)
        have aux : ∀ u v w : Nat, ¬ u < v → u - v = w → u = v + w := by
          intro u v w h1 h2; omega
        exact aux _ _ _ hlt this
    · intro ha
      subst ha
      exact (W'.1.live _ _ hkj).1
  unfold examined
  rw [W'.postingList_key x, hP']
  simp [hkj, LOOKUP_ENTRIES_PER_FRAME_LIMIT]

theorem aligned_zip (post : Nat → List (Int × Nat × Nat)) (id : Int) :
    ∀ (l : List Nat) (p : Nat),
    (∀ j x, l[j]? = some x → x < 2 ^ 32 ∧ p + j < 2 ^ 31 ∧ post x = [(id, p + j, x)]) →
    Aligned post id p (l.zip (List.replicate l.length 0))
  | [], _, _ => trivial
  | y :: rest, p, h => by
    have hy := h 0 y (by simp)
    simp only [List.length_cons, List.replicate_succ, List.zip_cons_cons, Aligned]
    refine ⟨⟨trivial, hy.1, by simpa using hy.2.1, by simpa using hy.2.2⟩, ?_⟩
    apply aligned_zip post id rest (p + 1)
    intro j x hjx
    have := h (j + 1) x (by simpa using hjx)
    have e : p + 1 + j = p + (j + 1) := by omega
    rw [e]; exact this

/-- C1 (exact match). Let the track `F` (32-bit frames, pairwise distinct, `F[0] ≠ 0`,
fewer than `2^31` of them) be added under a new id to a reachable index that has no posting
list for any hash of the probe `F[k..k+m)`, `m ≥ 100`. Then `lookup` with that probe,
all-zero toggles and any threshold `≤ 1` replies exactly one match, `(id, pos = k,
score = 1)`. -/
theorem lookup_exact_match (s : ASIndex) (hs : Reachable s) (host : Host) (F : List Nat)
    (hF : ∀ x ∈ F, x < 2 ^ 32) (hnd : F.Nodup) (h0 : F.head? ≠ some 0)
    (hlen : F.length < 2 ^ 31) (id : Int) (hid : DictGetC s.id_dict id = none)
    (k m : Nat) (hm : 100 ≤ m) (hkm : k + m ≤ F.length)
    (hother : ∀ x ∈ (F.drop k).take m, DictGetC s.hash_dict x = none)
    (threshold : ℚ) (hthr : threshold ≤ 1) (descr : Int → Option Bytes) :
    ∃ s', auscoutadd_common host (.asindex s) (htonl_bytes F) (some (some id)) =
        some (.returned [] id (.asindex s')) ∧
      AuscoutLookup_RedisCmd descr (.asindex s') (htonl_bytes ((F.drop k).take m))
          (htonl_bytes (List.replicate m 0)) (some (some threshold)) =
        some ⟨[Reply.rows [⟨descr id, id, (k : Int), 1⟩]], REDISMODULE_OK, .asindex s'⟩ := by
  obtain ⟨P, C, I⟩ := reachable_wf hs
  obtain ⟨s', a1, W', _, _, _, a6, _, _⟩ :=
    add_index_spec I.rep I.n_entries_lt host (htonl_bytes F) id hid
  rw [add_input_htonl_bytes F hF (by omega)] at W' a6
  refine ⟨s', a1, ?_⟩
  have hplen : ((F.drop k).take m).length = m := by
    rw [List.length_take, List.length_drop]; omega
  have hprobe_lt : ∀ x ∈ (F.drop k).take m, x < 2 ^ 32 := fun x hx =>
    hF x (List.mem_of_mem_drop (List.mem_of_mem_take hx))
  have hzero_lt : ∀ x ∈ List.replicate m 0, x < 2 ^ 32 := by
    intro x hx
    rw [(List.mem_replicate.1 hx).2]; norm_num
  have hl1 : (htonl_bytes ((F.drop k).take m)).length = 4 * m := by
    rw [length_htonl_bytes, hplen]
  have hl2 : (htonl_bytes (List.replicate m 0)).length = 4 * m := by
    rw [length_htonl_bytes, List.length_replicate]
  have hnf : (toI32 (4 * m / 4)).toNat = m := by
    rw [Nat.mul_div_cancel_left _ (by norm_num : 0 < 4), toI32_of_lt (by omega)]
    simp
  have hal : Aligned (examined s') id k
      (((F.drop k).take m).zip (List.replicate ((F.drop k).take m).length 0)) := by
    apply aligned_zip
    intro j x hjx
    have hjm : j < m := by
      have := (List.getElem?_eq_some_iff.1 hjx).1
      rw [hplen] at this; exact this
    have hFx : F[k + j]? = some x := by
      rw [List.getElem?_take_of_lt hjm, List.getElem?_drop] at hjx
      exact hjx
    refine ⟨hprobe_lt x (List.getElem?_mem hjx), by omega, ?_⟩
    exact examined_after_add I.rep W' F hnd h0 id a6 (k + j) x hFx
      (hother x (List.getElem?_mem hjx))
  rw [hplen] at hal
  have hrun := lookup_frames_aligned (examined s') id threshold hthr k _ hal
    (by rw [List.length_zip, hplen, List.length_replicate]; simpa using hm)
  unfold AuscoutLookup_RedisCmd
  have hc1 : ¬ ((htonl_bytes ((F.drop k).take m)).length < 4 ∨
      (htonl_bytes (List.replicate m 0)).length < 4) := by
    rw [hl1, hl2]; omega
  have hc2 : ¬ ((htonl_bytes ((F.drop k).take m)).length ≠
      (htonl_bytes (List.replicate m 0)).length) := by
    rw [hl1, hl2]; simp
  simp only [if_neg hc1, if_neg hc2, GetIndex]
  rw [lookup_frames_eq W', ntohl_words_htonl_bytes _ hprobe_lt,
    ntohl_words_htonl_bytes _ hzero_lt, hl1, hnf]
  have htake : (((F.drop k).take m).zip (List.replicate m 0)).take m =
      ((F.drop k).take m).zip (List.replicate m 0) := by
    apply List.take_of_length_le
    rw [List.length_zip, hplen, List.length_replicate]; simp
  rw [htake, hrun]
  rfl

/-- C1 at the client's test: the track `100, 200, ..., 500000` added to an empty index under
id 7, the probe its 500 frames from value 2300 on, threshold 0.80: one match, at pos 22. -/
theorem lookup_exact_match_witness :
    ∃ s', auscoutadd_common ⟨0, 0, none⟩ (.asindex emptyIndex)
        (htonl_bytes ((List.range 5000).map (fun i => 100 * (i + 1)))) (some (some 7)) =
        some (.returned [] 7 (.asindex s')) ∧
      AuscoutLookup_RedisCmd (fun _ => none) (.asindex s')
          (htonl_bytes ((((List.range 5000).map (fun i => 100 * (i + 1))).drop 22).take 500))
          (htonl_bytes (List.replicate 500 0)) (some (some (4 / 5))) =
        some ⟨[Reply.rows [⟨none, 7, 22, 1⟩]], REDISMODULE_OK, .asindex s'⟩ :=
  lookup_exact_match emptyIndex Reachable.empty ⟨0, 0, none⟩
    ((List.range 5000).map (fun i => 100 * (i + 1)))
    (by
      intro x hx
      obtain ⟨i, hi, rfl⟩ := List.mem_map.1 hx
      have := List.mem_range.1 hi
      omega)
    ((List.nodup_range 5000).map (fun a b h => by simpa using h))
    (by rw [List.range_succ_eq_map]; simp)
    (by simp)
    7 rfl 22 500 (by norm_num) (by simp) (fun _ _ => rfl) (4 / 5) (by norm_num) (fun _ => none)

theorem toU64_natCast {n : Nat} (h : n < 2 ^ 64) : toU64 (n : Int) = n := by
  unfold toU64
  have : ((n : Int) % 2 ^ 64) = ((n % 2 ^ 64 : Nat) : Int) := by
    push_cast; rfl
  rw [this, Int.toNat_ofNat, Nat.mod_eq_of_lt h]

theorem toI64_toU64 {z : Int} (h : isInt64 z) : toI64 (toU64 z % 2 ^ 64) = z := by
  unfold isInt64 at h
  unfold toI64 toU64
  have h1 : (0 : Int) ≤ z % 2 ^ 64 := Int.emod_nonneg _ (by norm_num)
  have h2 : z % 2 ^ 64 < 2 ^ 64 := Int.emod_lt_of_pos _ (by norm_num)
  have h3 : (((z % 2 ^ 64).toNat : Nat) : Int) = z % 2 ^ 64 := Int.toNat_of_nonneg h1
  have h4 : (z % 2 ^ 64).toNat < 2 ^ 64 := by omega
  rw [Nat.mod_eq_of_lt h4, Nat.mod_eq_of_lt h4]
  split
  · rename_i hlt
    rw [h3]
    omega
  · rename_i hge
    rw [h3]
    omega

theorem toU32_toI32 (n : Nat) : toU32 (toI32 n) = n % 2 ^ 32 := by
  unfold toU32 toI32
  have : n % 2 ^ 32 < 2 ^ 32 := Nat.mod_lt _ (by norm_num)
  split <;> omega

theorem load_pos_roundtrip {p : Nat} (hp : p < 2 ^ 32) :
    toU32 (toI64 (toU64 (p : Int) % 2 ^ 64)) = p := by
  rw [toI64_toU64 (by unfold isInt64; constructor <;> omega)]
  exact toU32_of_lt hp

theorem load_entries_spec (id : Int) (n_frames : Nat) :
    ∀ (es : List (Nat × Nat)) (j : Nat) (st : LoadState) (rest : List Nat)
      (P : Nat → List Addr) (C : Int → List Addr),
    Rep st.mem st.hash_dict P C → (j = 0 ↔ C id = []) → st.curr = (C id).getLast? →
    (∀ pf ∈ es, pf.1 < 2 ^ 32 ∧ pf.2 < 2 ^ 32) → st.rdb = enc_entries es ++ rest →
    ∃ st', load_entries id n_frames es.length j st = some st' ∧
      Rep st'.mem st'.hash_dict (postAfter es st.mem.length P)
        (Function.update C id (C id ++ List.range' st.mem.length es.length)) ∧
      st'.list = (if j = 0 ∧ es ≠ [] then ⟨some st.mem.length, n_frames⟩ else st.list) ∧
      st'.rdb = rest ∧
      st'.mem.length = st.mem.length + es.length ∧
      (∀ b, keyOf st'.mem b =
        if b < st.mem.length then keyOf st.mem b
        else (es[b - st.mem.length]?).map (fun pf => (id, pf.1, pf.2)))
  | [], j, st, rest, P, C, R, _, _, _, hrdb => by
    refine ⟨st, rfl, ?_, ?_, ?_, ?_, ?_⟩
    · simpa [postAfter] using R
    · simp
    · simpa [enc_entries] using hrdb
    · simp
    · intro b
      by_cases hb : b < st.mem.length
      · simp [hb]
      · have : keyOf st.mem b = none := by
          by_contra hc; exact hb (keyOf_lt hc)
        simp [hb, this]
  | (p, f) :: es, j, st, rest, P, C, R, hj, hc, hr, hrdb => by
    have hpf := hr (p, f) (List.mem_cons_self _ _)
    simp only at hpf
    have hread1 : (RedisModule_LoadUnsigned st.rdb).1 % 2 ^ 32 = f := by
      rw [hrdb]
      simp only [enc_entries, List.cons_append, RedisModule_LoadUnsigned, Nat.mod_mod]
      omega
    have hread2 : toU32 (RedisModule_LoadSigned (RedisModule_LoadUnsigned st.rdb).2).1 = p := by
      rw [hrdb]
      simp only [enc_entries, List.cons_append, RedisModule_LoadUnsigned, RedisModule_LoadSigned]
      exact load_pos_roundtrip hpf.1
    have hread3 : (RedisModule_LoadSigned (RedisModule_LoadUnsigned st.rdb).2).2 =
        enc_entries es ++ rest := by
      rw [hrdb]
      simp only [enc_entries, List.cons_append, RedisModule_LoadUnsigned, RedisModule_LoadSigned]
    -- the chain link
    have hlink : ∃ mem1,
        load_entries id n_frames ((p, f) :: es).length j st =
          (add_entry mem1 st.hash_dict f st.mem.length).bind (fun r =>
            load_entries id n_frames es.length (j + 1)
              ⟨r.1, r.2, (if j = 0 then ⟨some st.mem.length, n_frames⟩ else st.list),
                some st.mem.length, enc_entries es ++ rest⟩) ∧
        (C id = [] → mem1 = new_entry st.mem id p f) ∧
        (∀ c, (C id).getLast? = some c → ∃ ce, load (new_entry st.mem id p f) c = some ce ∧
          mem1 = store (new_entry st.mem id p f) c { ce with succ := some st.mem.length }) := by
      by_cases hj0 : j = 0
      · have hC : C id = [] := hj.1 hj0
        refine ⟨new_entry st.mem id p f, ?_, fun _ => rfl, fun c hc' => by simp [hC] at hc'⟩
        simp only [List.length_cons, load_entries, hread1, hread2, hread3, hj0, if_true,
          Option.bind_eq_bind, Option.some_bind]
      · have hC : C id ≠ [] := fun e => hj0 (hj.2 e)
        have hlast : (C id).getLast? = some ((C id).getLast hC) :=
          List.getLast?_eq_getLast _ hC
        rw [hlast] at hc
        have hmem : (C id).getLast hC ∈ C id := List.getLast_mem hC
        have hlive := R.c_live hmem
        have hcne : (C id).getLast hC ≠ st.mem.length := by
          intro e'
          rw [e'] at hlive
          exact hlive (keyOf_fresh _)
        obtain ⟨k, hk⟩ := Option.ne_none_iff_exists'.1 hlive
        obtain ⟨ce, hce, _⟩ := load_of_keyOf hk
        have hce' : load (new_entry st.mem id p f) ((C id).getLast hC) = some ce := by
          rw [load_new, if_neg hcne]; exact hce
        refine ⟨store (new_entry st.mem id p f) ((C id).getLast hC)
          { ce with succ := some st.mem.length }, ?_, fun h => absurd h hC, ?_⟩
        · simp only [List.length_cons, load_entries, hread1, hread2, hread3, hj0, if_false,
            hc, hce', Option.bind_eq_bind, Option.some_bind]
        · intro c hc'
          rw [hlast] at hc'
          have : (C id).getLast hC = c := by simpa using hc'
          subst this
          exact ⟨ce, hce', rfl⟩
    obtain ⟨mem1, hm1, hl1, hl2⟩ := hlink
    obtain ⟨mem2, hd2, hadd, R2, hlen2, hkey2⟩ := R.link id p f mem1 hl1 hl2
    have hC2 : (Function.update C id (C id ++ [st.mem.length])) id = C id ++ [st.mem.length] :=
      Function.update_same _ _ _
    obtain ⟨st', h1, h2, h3, h4, h6, h8⟩ := load_entries_spec id n_frames es (j + 1)
      ⟨mem2, hd2, (if j = 0 then ⟨some st.mem.length, n_frames⟩ else st.list),
        some st.mem.length, enc_entries es ++ rest⟩ rest
      (Function.update P f (st.mem.length :: P f))
      (Function.update C id (C id ++ [st.mem.length])) R2
      (by rw [hC2]; simp) (by rw [hC2]; simp)
      (fun pf hpf => hr pf (List.mem_cons_of_mem _ hpf)) rfl
    dsimp only at h1 h2 h3 h4 h6 h8
    simp only [hC2] at h2
    simp only [hlen2] at h2 h6 h8
    refine ⟨st', ?_, ?_, ?_, h4, ?_, ?_⟩
    · rw [hm1, hadd]; exact h1
    · simp only [postAfter, List.length_cons]
      rw [Function.update_idem] at h2
      have : C id ++ List.range' st.mem.length (es.length + 1) =
          C id ++ [st.mem.length] ++ List.range' (st.mem.length + 1) es.length := by
        rw [List.range'_succ]; simp
      rw [this]; exact h2
    · rw [h3]
      by_cases hj0 : j = 0 <;> simp [hj0]
    · rw [h6]; simp only [List.length_cons]; omega
    · intro b
      rw [h8, hkey2]
      by_cases hb : b < st.mem.length
      · have hb1 : b < st.mem.length + 1 := Nat.lt_succ_of_lt hb
        have hb2 : b ≠ st.mem.length := Nat.ne_of_lt hb
        simp [hb, hb1, hb2]
      · by_cases hb2 : b = st.mem.length
        · subst hb2; simp
        · have hb3 : ¬ b < st.mem.length + 1 := by
            intro h; exact hb2 (Nat.eq_of_lt_succ_of_not_lt h hb)
          have hb4 : b - st.mem.length = (b - (st.mem.length + 1)) + 1 := by
            have aux : ∀ x y : Nat, ¬ x < y → x ≠ y → x - y = (x - (y + 1)) + 1 := by
              intro x y h1 h2; omega
            exact aux b st.mem.length hb hb2
          simp only [hb, hb3, if_false]
          rw [hb4, List.getElem?_cons_succ]

theorem DictGetC_of_mem {K V : Type} [DecidableEq K] :
    ∀ (d : Dict K V), (dictKeys d).Nodup → ∀ kv ∈ d, DictGetC d kv.1 = some kv.2
  | [], _, kv, h => by simp at h
  | (k, v) :: rest, hn, kv, h => by
    simp only [dictKeys, List.map_cons, List.nodup_cons] at hn
    rcases List.mem_cons.1 h with h | h
    · subst h; simp [DictGetC]
    · have hne : ¬ k = kv.1 := by
        intro e
        apply hn.1
        rw [e]
        exact List.mem_map_of_mem Prod.fst h
      simp only [DictGetC, hne, if_false]
      exact DictGetC_of_mem rest hn.2 kv h

theorem save_entries_spec {mem : Heap} : ∀ (l : List Addr) (n : Nat), IsChain mem l →
    l.length ≤ n → save_entries mem n l.head? = some (enc_entries (posHashOf mem l))
  | [], n, _, _ => by cases n <;> rfl
  | a :: rest, 0, _, hn => by simp at hn
  | a :: rest, n + 1, hc, hn => by
    obtain ⟨h1, h2⟩ := hc
    obtain ⟨e, he, hs⟩ := load_of_succOf h1
    have ih := save_entries_spec rest n h2 (by simp at hn; omega)
    have hk : keyOf mem a = some e.key := by simp [keyOf, he]
    simp only [List.head?_cons, save_entries, he, Option.bind_eq_bind, Option.some_bind, hs, ih,
      posHashOf, List.filterMap_cons, hk, List.map_cons, enc_entries]
    rfl

theorem length_posHashOf {mem : Heap} {l : List Addr} (hl : ∀ a ∈ l, keyOf mem a ≠ none) :
    (posHashOf mem l).length = l.length := by
  unfold posHashOf
  rw [List.length_map, length_filterMap_keyOf hl]

theorem save_tracks_spec {s : ASIndex} {P : Nat → List Addr} {C : Int → List Addr}
    (W : Represents s P C) (hne : ∀ id l, DictGetC s.id_dict id = some l → C id ≠ []) :
    ∀ (d : Dict Int EntryList), (∀ kv ∈ d, DictGetC s.id_dict kv.1 = some kv.2) →
    save_tracks s.mem d =
      some ((d.map (fun kv => enc_track (kv.1, posHashOf s.mem (C kv.1)))).flatten)
  | [], _ => rfl
  | (id, l) :: rest, h => by
    have hg := h (id, l) (List.mem_cons_self _ _)
    simp only at hg
    obtain ⟨hhead, hlen, _⟩ := W.2.some id l hg
    have hC := hne id l hg
    have ih := save_tracks_spec W hne rest (fun kv hkv => h kv (List.mem_cons_of_mem _ hkv))
    obtain ⟨a, tl, hCid⟩ := List.exists_cons_of_ne_nil hC
    have ha : a ∈ C id := by rw [hCid]; exact List.mem_cons_self _ _
    obtain ⟨k, hk, hki⟩ := W.1.c_key id a ha
    obtain ⟨he, hhe, hkey⟩ := load_of_keyOf hk
    have hid : he.id = id := by rw [← hki, ← hkey]; rfl
    have hent := save_entries_spec (C id) l.length (W.1.chain id) (by rw [hlen])
    rw [← hhead] at hent
    have hh : l.head = some a := by rw [hhead, hCid]; rfl
    have hlen' : l.length = (posHashOf s.mem (C id)).length := by
      rw [length_posHashOf (fun b hb => W.1.c_live hb), hlen]
    have hhe' : (l.head.bind fun h => (load s.mem h).bind fun he' =>
        (some he'.id : Option Int)) = some id := by
      rw [hh]; simp [hhe, hid]
    unfold save_tracks
    simp only [Option.bind_eq_bind]
    rw [hent, ih, hh]
    simp only [Option.some_bind, hhe, hid, List.map_cons, List.flatten_cons, enc_track]
    rw [hlen']
    rfl

theorem load_track_step {index : ASIndex} {P : Nat → List Addr} {C : Int → List Addr}
    (W : Represents index P C) (id : Int) (es : List (Nat × Nat))
    (hid : DictGetC index.id_dict id = none) (hi : isInt64 id) (hlen : es.length < 2 ^ 32)
    (hr : ∀ pf ∈ es, pf.1 < 2 ^ 32 ∧ pf.2 < 2 ^ 32) (n : Nat) (rest : List Nat) :
    ∃ index1, load_tracks (n + 1) index (enc_track (id, es) ++ rest) =
        load_tracks n index1 rest ∧
      Represents index1 (postAfter es index.mem.length P)
        (Function.update C id (List.range' index.mem.length es.length)) ∧
      (∀ id', DictGetC index1.id_dict id' =
        if id' = id then some ⟨(List.range' index.mem.length es.length).head?, es.length⟩
        else DictGetC index.id_dict id') ∧
      DictSize index1.id_dict = DictSize index.id_dict + 1 ∧
      (∀ b, keyOf index1.mem b =
        if b < index.mem.length then keyOf index.mem b
        else (es[b - index.mem.length]?).map (fun pf => (id, pf.1, pf.2))) ∧
      index1.n_entries = (index.n_entries + 2 * es.length) % 2 ^ 64 := by
  have hCid : C id = [] := W.2.none id hid
  have hrid : (RedisModule_LoadSigned (enc_track (id, es) ++ rest)).1 = id := by
    simp only [enc_track, List.cons_append, RedisModule_LoadSigned, RedisModule_LoadUnsigned]
    exact toI64_toU64 hi
  have hr1 : (RedisModule_LoadSigned (enc_track (id, es) ++ rest)).2 =
      es.length % 2 ^ 64 :: (enc_entries es ++ rest) := by
    simp only [enc_track, List.cons_append, RedisModule_LoadSigned, RedisModule_LoadUnsigned]
  have hnf : toU32 (toI32 (RedisModule_LoadUnsigned
      (es.length % 2 ^ 64 :: (enc_entries es ++ rest))).1) = es.length := by
    simp only [RedisModule_LoadUnsigned, toU32_toI32, Nat.mod_mod]
    omega
  have hr2 : (RedisModule_LoadUnsigned (es.length % 2 ^ 64 :: (enc_entries es ++ rest))).2 =
      enc_entries es ++ rest := rfl
  obtain ⟨st', h1, h2, h3, h4, h6, h8⟩ := load_entries_spec id es.length es 0
    ⟨index.mem, index.hash_dict, ⟨none, 0⟩, none, enc_entries es ++ rest⟩ rest P C W.1
    (by simp [hCid]) (by simp [hCid]) hr rfl
  dsimp only at h1 h2 h3 h4 h6 h8
  rw [hCid, List.nil_append] at h2
  have hlist : st'.list = ⟨(List.range' index.mem.length es.length).head?, es.length⟩ := by
    rw [h3]
    cases es with
    | nil => simp
    | cons e es' => simp [List.range'_succ]
  have hins : DictGetC (dictInsert idKeyLt id (⟨none, 0⟩ : EntryList) index.id_dict) id =
      some ⟨none, 0⟩ := DictGetC_dictInsert_eq _ _ _ _ hid
  have hnk : id ∉ dictKeys index.id_dict := (DictGetC_eq_none_iff _ _).1 hid
  refine ⟨⟨st'.mem, st'.hash_dict,
    dictUpdate id st'.list (dictInsert idKeyLt id ⟨none, 0⟩ index.id_dict),
    ((index.n_entries + es.length) % 2 ^ 64 + es.length) % 2 ^ 64⟩, ?_, ⟨h2, ?_⟩, ?_, ?_, h8, ?_⟩
  · simp only [load_tracks, hrid, hr1, hnf, hr2, h1, DictSetC, hid, Option.bind_eq_bind,
      Option.some_bind, h4]
  · refine ⟨?_, ?_, ?_⟩
    · simp only
      rw [dictKeys_dictUpdate]
      exact nodup_dictKeys_dictInsert _ _ _ _ W.2.nodup hnk
    · intro id' hg
      simp only at hg
      by_cases hi' : id' = id
      · subst hi'
        rw [DictGetC_dictUpdate_eq, hins] at hg
        simp at hg
      · rw [DictGetC_dictUpdate_ne _ _ _ _ hi', DictGetC_dictInsert_ne _ _ _ _ _ hi'] at hg
        rw [Function.update_noteq hi']
        exact W.2.none id' hg
    · intro id' l hg
      simp only at hg
      by_cases hi' : id' = id
      · subst hi'
        rw [DictGetC_dictUpdate_eq, hins] at hg
        simp only [Option.map_some', Option.some.injEq] at hg
        subst hg
        rw [Function.update_same, hlist]
        refine ⟨rfl, by simp, ?_⟩
        simpa using hlen
      · rw [DictGetC_dictUpdate_ne _ _ _ _ hi', DictGetC_dictInsert_ne _ _ _ _ _ hi'] at hg
        rw [Function.update_noteq hi']
        exact W.2.some id' l hg
  · intro id'
    simp only
    by_cases hi' : id' = id
    · subst hi'
      rw [DictGetC_dictUpdate_eq, hins, hlist]; simp
    · rw [DictGetC_dictUpdate_ne _ _ _ _ hi', DictGetC_dictInsert_ne _ _ _ _ _ hi', if_neg hi']
  · simp only [DictSize]
    rw [length_dictUpdate, length_dictInsert]
  · simp only
    rw [Nat.mod_add_mod]
    congr 1
    omega

theorem load_tracks_spec : ∀ (ts : List (Int × List (Nat × Nat))) (index : ASIndex)
    (rest : List Nat) (P : Nat → List Addr) (C : Int → List Addr),
    Represents index P C → index.n_entries < 2 ^ 64 → (ts.map Prod.fst).Nodup →
    (∀ t ∈ ts, DictGetC index.id_dict t.1 = none ∧ isInt64 t.1 ∧ t.2.length < 2 ^ 32 ∧
      ∀ pf ∈ t.2, pf.1 < 2 ^ 32 ∧ pf.2 < 2 ^ 32) →
    ∃ index' P' C', load_tracks ts.length index ((ts.map enc_track).flatten ++ rest) =
        some index' ∧
      Represents index' P' C' ∧
      (∀ id, DictGetC index'.id_dict id = none ↔
        (DictGetC index.id_dict id = none ∧ id ∉ ts.map Prod.fst)) ∧
      DictSize index'.id_dict = DictSize index.id_dict + ts.length ∧
      (∀ t ∈ ts, (trackChain index' t.1).map Entry.key = t.2.map (fun pf => (t.1, pf.1, pf.2))) ∧
      (∀ id, id ∉ ts.map Prod.fst →
        (trackChain index' id).map Entry.key = (trackChain index id).map Entry.key) ∧
      index'.n_entries = (index.n_entries + 2 * (ts.map (fun t => t.2.length)).sum) % 2 ^ 64
  | [], index, rest, P, C, W, hn, _, _ => by
    refine ⟨index, P, C, rfl, W, by simp, by simp, by simp, fun _ _ => rfl, ?_⟩
    simp only [List.map_nil, List.sum_nil, Nat.mul_zero, Nat.add_zero]
    exact (Nat.mod_eq_of_lt hn).symm
  | (id, es) :: ts, index, rest, P, C, W, hn, hnd, ht => by
    have h0 := ht (id, es) (List.mem_cons_self _ _)
    simp only at h0
    simp only [List.map_cons, List.nodup_cons] at hnd
    obtain ⟨index1, a1, W1, a3, a4, a5, a6⟩ :=
      load_track_step W id es h0.1 h0.2.1 h0.2.2.1 h0.2.2.2 ts.length
        ((ts.map enc_track).flatten ++ rest)
    have ht1 : ∀ t ∈ ts, DictGetC index1.id_dict t.1 = none ∧ isInt64 t.1 ∧
        t.2.length < 2 ^ 32 ∧ ∀ pf ∈ t.2, pf.1 < 2 ^ 32 ∧ pf.2 < 2 ^ 32 := by
      intro t htm
      have := ht t (List.mem_cons_of_mem _ htm)
      refine ⟨?_, this.2⟩
      rw [a3]
      have hne : t.1 ≠ id := by
        intro e
        apply hnd.1
        rw [← e]
        exact List.mem_map_of_mem Prod.fst htm
      rw [if_neg hne]; exact this.1
    obtain ⟨index', P', C', b1, W', b3, b4, b5, b6, b7⟩ :=
      load_tracks_spec ts index1 rest _ _ W1
        (by rw [a6]; exact Nat.mod_lt _ (by norm_num)) hnd.2 ht1
    have hchain1 : (trackChain index1 id).map Entry.key = es.map (fun pf => (id, pf.1, pf.2)) :=
      chain_keys_after_add W1 a5
    have hother1 : ∀ id', id' ≠ id →
        (trackChain index1 id').map Entry.key = (trackChain index id').map Entry.key := by
      intro id' hne
      rw [W1.trackChain_key id', W.trackChain_key id', Function.update_noteq hne]
      apply List.filterMap_congr
      intro b hb
      rw [a5, if_pos (keyOf_lt (W.1.c_live hb))]
    refine ⟨index', P', C', ?_, W', ?_, ?_, ?_, ?_, ?_⟩
    · simp only [List.length_cons, List.map_cons, List.flatten_cons, List.append_assoc]
      rw [a1]; exact b1
    · intro id'
      rw [b3, a3]
      simp only [List.map_cons, List.mem_cons, not_or]
      by_cases hi : id' = id
      · simp [hi]
      · simp [hi]
    · rw [b4, a4]; simp only [List.length_cons]; omega
    · intro t htm
      rcases List.mem_cons.1 htm with h | h
      · subst h
        rw [b6 _ hnd.1]; exact hchain1
      · exact b5 t h
    · intro id' hnot
      simp only [List.map_cons, List.mem_cons, not_or] at hnot
      rw [b6 id' hnot.2, hother1 id' hnot.1]
    · rw [b7, a6]
      simp only [List.map_cons, List.sum_cons]
      rw [Nat.mod_add_mod]
      congr 1
      omega

theorem reachable_index_dup : Reachable index_dup :=
  Reachable.add ⟨0, 0, none⟩ (htonl_bytes [0x10, 0x10, 0x10, 0x20]) (some (some 7)) [] 7
    Reachable.empty (by intro v hv; cases hv; decide) (by decide)

/-- Save then load of a reachable index whose tracks all hold an entry. -/
theorem snapshot_spec (s : ASIndex) (hs : Reachable s)
    (hne : ∀ id l, DictGetC s.id_dict id = some l → trackChain s id ≠ [])
    (hsz : DictSize s.id_dict < 2 ^ 64) :
    ∃ rdb s', ASIndexTypeRdbSave s = some rdb ∧
      ASIndexTypeRdbLoad rdb AUSCOUT_ENCODING_VERSION = some (some s') ∧
      DictSize s'.id_dict = DictSize s.id_dict ∧
      (∀ id, DictGetC s'.id_dict id = none ↔ DictGetC s.id_dict id = none) ∧
      (∀ id, (trackChain s' id).map Entry.key = (trackChain s id).map Entry.key) ∧
      s'.n_entries = (2 * s.n_entries) % 2 ^ 64 := by
  obtain ⟨P, C, I⟩ := reachable_wf hs
  have hne' : ∀ id l, DictGetC s.id_dict id = some l → C id ≠ [] := by
    intro id l hg hc
    apply hne id l hg
    have := I.rep.length_trackChain id
    rw [hc] at this
    exact List.length_eq_zero.1 this
  have hmemget := DictGetC_of_mem s.id_dict I.rep.2.nodup
  have hsave := save_tracks_spec I.rep hne' s.id_dict hmemget
  have hts : (s.id_dict.map (fun kv => enc_track (kv.1, posHashOf s.mem (C kv.1)))) =
      (s.id_dict.map (fun kv => (kv.1, posHashOf s.mem (C kv.1)))).map enc_track := by
    rw [List.map_map]; rfl
  have htkeys : (s.id_dict.map (fun kv => (kv.1, posHashOf s.mem (C kv.1)))).map Prod.fst =
      dictKeys s.id_dict := by
    rw [List.map_map]; rfl
  have hcond : ∀ t ∈ s.id_dict.map (fun kv => (kv.1, posHashOf s.mem (C kv.1))),
      DictGetC emptyIndex.id_dict t.1 = none ∧ isInt64 t.1 ∧ t.2.length < 2 ^ 32 ∧
        ∀ pf ∈ t.2, pf.1 < 2 ^ 32 ∧ pf.2 < 2 ^ 32 := by
    intro t htm
    obtain ⟨kv, hkv, e⟩ := List.mem_map.1 htm
    subst e
    have hg := hmemget kv hkv
    obtain ⟨_, _, hlt⟩ := I.rep.2.some kv.1 kv.2 hg
    obtain ⟨a, tl, hC⟩ := List.exists_cons_of_ne_nil (hne' kv.1 kv.2 hg)
    have ha : a ∈ C kv.1 := by rw [hC]; exact List.mem_cons_self _ _
    obtain ⟨k, hk, hki⟩ := I.rep.1.c_key kv.1 a ha
    refine ⟨rfl, ?_, ?_, ?_⟩
    · have := (I.range a k hk).1
      rw [hki] at this; exact this
    · simp only
      rw [length_posHashOf (fun b hb => I.rep.1.c_live hb)]; exact hlt
    · intro pf hpf
      simp only [posHashOf, List.mem_map, List.mem_filterMap] at hpf
      obtain ⟨k', ⟨b, _, hb⟩, e⟩ := hpf
      subst e
      exact (I.range b k' hb).2
  obtain ⟨s', P', C', b1, _, b3, b4, b5, b6, b7⟩ := load_tracks_spec
    (s.id_dict.map (fun kv => (kv.1, posHashOf s.mem (C kv.1)))) emptyIndex [] _ _
    represents_empty (by simp [emptyIndex]) (by rw [htkeys]; exact I.rep.2.nodup) hcond
  rw [List.append_nil, List.length_map] at b1
  refine ⟨DictSize s.id_dict % 2 ^ 64 ::
    (s.id_dict.map (fun kv => enc_track (kv.1, posHashOf s.mem (C kv.1)))).flatten,
    s', ?_, ?_, ?_, ?_, ?_, ?_⟩
  · simp only [ASIndexTypeRdbSave, hsave, Option.bind_eq_bind, Option.some_bind]
  · simp only [ASIndexTypeRdbLoad, ne_eq, not_true_eq_false, if_false, RedisModule_LoadUnsigned,
      Nat.mod_mod]
    have : DictSize s.id_dict % 2 ^ 64 = s.id_dict.length := Nat.mod_eq_of_lt hsz
    rw [this, hts, b1]
  · rw [b4]; simp [DictSize, emptyIndex]
  · intro id
    rw [b3, htkeys]
    constructor
    · intro h; exact (DictGetC_eq_none_iff _ _).2 h.2
    · intro h; exact ⟨rfl, (DictGetC_eq_none_iff _ _).1 h⟩
  · intro id
    by_cases hin : id ∈ dictKeys s.id_dict
    · obtain ⟨kv, hkv, e⟩ := List.mem_map.1 hin
      have := b5 (kv.1, posHashOf s.mem (C kv.1)) (List.mem_map_of_mem _ hkv)
      simp only at this
      rw [← e, this, I.rep.trackChain_key kv.1]
      unfold posHashOf
      rw [List.map_map]
      have hck := I.rep.1.c_key kv.1
      generalize C kv.1 = l at hck
      induction l with
      | nil => rfl
      | cons b tl ih =>
        obtain ⟨k, hk, hki⟩ := hck b (List.mem_cons_self _ _)
        simp only [List.filterMap_cons, hk, List.map_cons, Function.comp]
        rw [ih (fun c hc => hck c (List.mem_cons_of_mem _ hc))]
        congr 1
        rw [← hki]
    · have h1 := b6 id (by rw [htkeys]; exact hin)
      rw [h1]
      have h2 : DictGetC s.id_dict id = none := (DictGetC_eq_none_iff _ _).2 hin
      simp [trackChain, h2, emptyIndex, DictGetC]
  · rw [b7]
    have hsum : ((s.id_dict.map (fun kv => (kv.1, posHashOf s.mem (C kv.1)))).map
        (fun t => t.2.length)).sum = liveCount s.mem := by
      rw [← sum_chain_lengths I.rep, List.map_map]
      congr 1
      apply List.map_congr_left
      intro kv _
      simp only [Function.comp]
      exact length_posHashOf (fun b hb => I.rep.1.c_live hb)
    rw [hsum, I.count]
    simp only [emptyIndex, Nat.zero_add]
    conv_rhs => rw [Nat.mul_mod, Nat.mod_mod, ← Nat.mul_mod]

/-- C5 (snapshot round trip of tracks). For every index built by `add` and `del` in which
every track holds at least one entry (and whose number of ids fits the `uint64_t` written
first), `ASIndexTypeRdbSave` writes a stream from which `ASIndexTypeRdbLoad`, with
encoding version 0, builds an index with the same number of ids, the same ids, and for each
id a chain carrying the same sequence of `(id, pos, hash_value)`, hence of the same
length; the positions are the stored ones. -/
theorem snapshot_round_trip (s : ASIndex) (hs : Reachable s)
    (hne : ∀ id l, DictGetC s.id_dict id = some l → trackChain s id ≠ [])
    (hsz : DictSize s.id_dict < 2 ^ 64) :
    ∃ rdb s', ASIndexTypeRdbSave s = some rdb ∧
      ASIndexTypeRdbLoad rdb 0 = some (some s') ∧
      DictSize s'.id_dict = DictSize s.id_dict ∧
      (∀ id, DictGetC s'.id_dict id = none ↔ DictGetC s.id_dict id = none) ∧
      (∀ id, (trackChain s' id).map (fun e => (e.hash_value, e.pos)) =
        (trackChain s id).map (fun e => (e.hash_value, e.pos))) ∧
      (∀ id, (trackChain s' id).map Entry.id = (trackChain s id).map Entry.id) ∧
      (∀ id, (trackChain s' id).length = (trackChain s id).length) := by
  obtain ⟨rdb, s', h1, h2, h3, h4, h5, _⟩ := snapshot_spec s hs hne hsz
  refine ⟨rdb, s', h1, h2, h3, h4, ?_, ?_, ?_⟩
  · intro id
    have := congrArg (List.map (fun k : Int × Nat × Nat => (k.2.2, k.2.1))) (h5 id)
    simpa [List.map_map, Function.comp, Entry.key] using this
  · intro id
    have := congrArg (List.map (fun k : Int × Nat × Nat => k.1)) (h5 id)
    simpa [List.map_map, Function.comp, Entry.key] using this
  · intro id
    have := congrArg List.length (h5 id)
    simpa using this

/-- C5 after `add key [0x10, 0x10, 0x10, 0x20] 7`: the reloaded chain of id 7 is
`(0x10, pos 0), (0x20, pos 3)`. -/
theorem snapshot_round_trip_witness :
    ∃ rdb s', ASIndexTypeRdbSave index_dup = some rdb ∧
      ASIndexTypeRdbLoad rdb 0 = some (some s') ∧
      (trackChain s' 7).map (fun e => (e.hash_value, e.pos)) = [(0x10, 0), (0x20, 3)] := by
  obtain ⟨rdb, s', h1, h2, _, _, h5, _⟩ :=
    snapshot_round_trip index_dup reachable_index_dup
      (by
        intro id l h
        have hid : id = 7 := by
          by_contra hne
          have : DictGetC index_dup.id_dict id = none := by
            simp [index_dup, DictGetC, Ne.symm hne]
          rw [this] at h
          exact Option.noConfusion h
        subst hid
        decide)
      (by decide)
  refine ⟨rdb, s', h1, h2, ?_⟩
  rw [h5 7]
  decide

/-- C6, the code at `add key [1, 2, 3] 7`: the saved index has `n_entries = 3`; the stream
is `1, 7, 3, 1, 0, 2, 1, 3, 2`; the index loaded from it has `n_entries = 6`, because
`ASIndexTypeRdbLoad` executes `index->n_entries += n_frames` twice per track. -/
theorem rdb_load_doubles_n_entries :
    index_1_2_3.n_entries = 3 ∧
    ASIndexTypeRdbSave index_1_2_3 = some [1, 7, 3, 1, 0, 2, 1, 3, 2] ∧
    (ASIndexTypeRdbLoad [1, 7, 3, 1, 0, 2, 1, 3, 2] 0).map (Option.map ASIndex.n_entries) =
      some (some 6) := by
  decide

/-- The size after a snapshot round trip, in general: twice the saved size (modulo
`2^64`). -/
theorem rdb_load_n_entries (s : ASIndex) (hs : Reachable s)
    (hne : ∀ id l, DictGetC s.id_dict id = some l → trackChain s id ≠ [])
    (hsz : DictSize s.id_dict < 2 ^ 64) :
    ∃ rdb s', ASIndexTypeRdbSave s = some rdb ∧
      ASIndexTypeRdbLoad rdb 0 = some (some s') ∧
      s'.n_entries = (2 * s.n_entries) % 2 ^ 64 := by
  obtain ⟨rdb, s', h1, h2, _, _, _, h6⟩ := snapshot_spec s hs hne hsz
  exact ⟨rdb, s', h1, h2, h6⟩

/-- C7 after `add key [1, 2, 3] 7`: a second `add` with id 7 and other frames is rejected
and the key still holds the same index. -/
theorem add_duplicate_id_rejected_witness :
    DictGetC index_1_2_3.id_dict 7 = some ⟨some 0, 3⟩ ∧
    auscoutadd_common ⟨0, 0, none⟩ (.asindex index_1_2_3) (htonl_bytes [4, 5]) (some (some 7)) =
      some (.thrown [Reply.error "ERR - id already exists"] (.asindex index_1_2_3)) :=
  ⟨by decide,
    (add_duplicate_id_rejected ⟨0, 0, none⟩ index_1_2_3 (htonl_bytes [4, 5]) [] 7 ⟨some 0, 3⟩
      (by decide)).1⟩

theorem two_pow_and_eq_zero (toggle m : Nat) :
    2 ^ m &&& toggle = 0 ↔ toggle.testBit m = false := by
  constructor
  · intro h
    have h1 : (2 ^ m &&& toggle).testBit m = false := by rw [h]; exact Nat.zero_testBit m
    rw [Nat.testBit_and, Nat.testBit_two_pow_self] at h1
    simpa using h1
  · intro h
    apply Nat.eq_of_testBit_eq
    intro k
    rw [Nat.testBit_and, Nat.testBit_two_pow, Nat.zero_testBit]
    by_cases hk : m = k
    · subst hk; simp [h]
    · simp [hk]

theorem bitcount_loop_spec : ∀ (m t c fuel : Nat), t < 2 ^ m → m + 1 ≤ fuel →
    bitcount_loop fuel t c = some (c + popBelow t m)
  | 0, t, c, fuel, ht, hfuel => by
    obtain ⟨f, rfl⟩ : ∃ f, fuel = f + 1 := ⟨fuel - 1, by omega⟩
    have : t = 0 := by simpa using ht
    subst this
    simp [bitcount_loop, popBelow]
  | m + 1, t, c, fuel, ht, hfuel => by
    obtain ⟨f, rfl⟩ : ∃ f, fuel = f + 1 := ⟨fuel - 1, by omega⟩
    unfold bitcount_loop
    by_cases h0 : t = 0
    · subst h0
      simp [popBelow]
    · rw [if_pos h0]
      have ht2 : t / 2 < 2 ^ m := by
        rw [Nat.div_lt_iff_lt_mul (by norm_num)]
        rw [pow_succ] at ht; exact ht
      rw [bitcount_loop_spec m (t / 2) _ f ht2 (by omega)]
      congr 1
      unfold popBelow
      rw [List.range_succ_eq_map, List.filter_cons, List.filter_map]
      have hfun : ((fun k => t.testBit k) ∘ Nat.succ) = (fun k => (t / 2).testBit k) := by
        funext k
        simp only [Function.comp, Nat.testBit_succ]
      rw [hfun, Nat.and_one_is_mod, Nat.testBit_zero]
      by_cases hb : t % 2 = 1
      · simp [hb]; omega
      · have : t % 2 = 0 := by omega
        simp [this]

theorem bitcount_eq (toggle : Nat) : bitcount toggle = some (popcount (toggle % 2 ^ 32)) := by
  unfold bitcount
  rw [bitcount_loop_spec 32 (toggle % 2 ^ 32) 0 33 (Nat.mod_lt _ (by norm_num)) (by norm_num)]
  simp [popBelow, popcount]

theorem skip_bits_spec (toggle : Nat) : ∀ (m fuel : Nat), m + 2 ≤ fuel →
    skip_bits fuel toggle (2 ^ m) = some (skip_spec toggle m)
  | 0, fuel, hfuel => by
    obtain ⟨f, rfl⟩ : ∃ f, fuel = f + 2 := ⟨fuel - 2, by omega⟩
    unfold skip_bits
    by_cases hb : toggle.testBit 0 = true
    · have : ¬ (2 ^ 0 &&& toggle = 0) := by
        rw [two_pow_and_eq_zero]; simp [hb]
      rw [if_neg (fun h => this h.1)]
      simp [skip_spec, hb]
    · have hb' : toggle.testBit 0 = false := by simpa using hb
      have : 2 ^ 0 &&& toggle = 0 := (two_pow_and_eq_zero toggle 0).2 hb'
      rw [if_pos ⟨this, by norm_num⟩]
      unfold skip_bits
      simp [skip_spec, hb']
  | m + 1, fuel, hfuel => by
    obtain ⟨f, rfl⟩ : ∃ f, fuel = f + 1 := ⟨fuel - 1, by omega⟩
    unfold skip_bits
    by_cases hb : toggle.testBit (m + 1) = true
    · have : ¬ (2 ^ (m + 1) &&& toggle = 0) := by
        rw [two_pow_and_eq_zero]; simp [hb]
      rw [if_neg (fun h => this h.1)]
      simp [skip_spec, hb]
    · have hb' : toggle.testBit (m + 1) = false := by simpa using hb
      have : 2 ^ (m + 1) &&& toggle = 0 := (two_pow_and_eq_zero toggle (m + 1)).2 hb'
      rw [if_pos ⟨this, by positivity⟩]
      have h2 : 2 ^ (m + 1) / 2 = 2 ^ m := by
        rw [pow_succ]; exact Nat.mul_div_cancel _ (by norm_num)
      rw [h2, skip_bits_spec toggle m f (by omega)]
      simp [skip_spec, hb']

theorem scatter_succ (toggle m perms : Nat) :
    scatter toggle (m + 1) perms =
      if toggle.testBit m then
        (if perms % 2 = 1 then 2 ^ m else 0) ^^^ scatter toggle m (perms / 2)
      else scatter toggle m perms := rfl

theorem scatter_zero_perms (toggle : Nat) : ∀ m, scatter toggle m 0 = 0
  | 0 => rfl
  | m + 1 => by
    unfold scatter
    split <;> simp [scatter_zero_perms toggle m]

theorem scatter_zero_toggle : ∀ m perms, scatter 0 m perms = 0
  | 0, _ => rfl
  | m + 1, perms => by
    unfold scatter
    simp [scatter_zero_toggle m]

/-- One iteration of the `while` loop of `get_candidates`. -/
theorem perm_loop_step (toggle perms curr m f : Nat) (hm : m ≤ 31) (hp : perms ≠ 0)
    (ht : toggle ≠ 0) :
    perm_loop (f + 1) toggle perms (2 ^ m) curr =
      perm_loop f toggle (perms / 2) (skip_spec toggle m / 2)
        (if perms % 2 = 1 then curr ^^^ skip_spec toggle m else curr) := by
  rw [perm_loop, if_pos ⟨hp, by positivity, ht⟩, skip_bits_spec toggle m 33 (by omega)]
  simp only [Option.bind_eq_bind, Option.some_bind, Nat.and_one_is_mod]
  by_cases hb : perms % 2 = 1
  · simp [hb]
  · have : perms % 2 = 0 := by omega
    simp [this]

theorem perm_loop_zero (toggle perms curr f : Nat) :
    perm_loop (f + 1) toggle perms 0 curr = some curr := by
  rw [perm_loop, if_neg (fun h => h.2.1 rfl)]

theorem perm_loop_spec (toggle : Nat) : ∀ (m fuel perms curr : Nat), m ≤ 31 → m + 2 ≤ fuel →
    perm_loop fuel toggle perms (2 ^ m) curr = some (curr ^^^ scatter toggle (m + 1) perms)
  | 0, fuel, perms, curr, hm, hfuel => by
    obtain ⟨f, rfl⟩ : ∃ f, fuel = f + 2 := ⟨fuel - 2, by omega⟩
    by_cases hg : perms ≠ 0 ∧ toggle ≠ 0
    · rw [perm_loop_step toggle perms curr 0 (f + 1) hm hg.1 hg.2]
      have h0 : skip_spec toggle 0 / 2 = 0 := by
        unfold skip_spec; split <;> rfl
      rw [h0, perm_loop_zero]
      unfold scatter skip_spec scatter
      by_cases hb : toggle.testBit 0 = true <;> by_cases hp : perms % 2 = 1 <;> simp [hb, hp]
    · have h0 : scatter toggle (0 + 1) perms = 0 := by
        by_cases hp : perms = 0
        · subst hp; exact scatter_zero_perms toggle 1
        · have ht : toggle = 0 := by
            by_contra ht; exact hg ⟨hp, ht⟩
          subst ht; exact scatter_zero_toggle 1 perms
      rw [h0, perm_loop, if_neg (fun h => hg ⟨h.1, h.2.2⟩)]
      simp
  | m + 1, fuel, perms, curr, hm, hfuel => by
    obtain ⟨f, rfl⟩ : ∃ f, fuel = f + 1 := ⟨fuel - 1, by omega⟩
    by_cases hg : perms ≠ 0 ∧ toggle ≠ 0
    · rw [perm_loop_step toggle perms curr (m + 1) f hm hg.1 hg.2]
      by_cases hb : toggle.testBit (m + 1) = true
      · have hs : skip_spec toggle (m + 1) = 2 ^ (m + 1) := by
          rw [skip_spec, if_pos hb]
        have h2 : 2 ^ (m + 1) / 2 = 2 ^ m := by
          rw [pow_succ]; exact Nat.mul_div_cancel _ (by norm_num)
        rw [hs, h2, perm_loop_spec toggle m f _ _ (by omega) (by omega)]
        rw [scatter_succ toggle (m + 1) perms, if_pos hb]
        by_cases hp : perms % 2 = 1
        · simp only [hp, if_true, Nat.xor_assoc]
        · simp only [hp, if_false, Nat.zero_xor]
      · have hs : skip_spec toggle (m + 1) = skip_spec toggle m := by
          rw [skip_spec, if_neg hb]
        have key := perm_loop_spec toggle m (f + 1) perms curr (by omega) (by omega)
        rw [perm_loop_step toggle perms curr m f (by omega) hg.1 hg.2] at key
        rw [hs, key, scatter_succ toggle (m + 1) perms, if_neg hb]
    · have h0 : scatter toggle (m + 1 + 1) perms = 0 := by
        by_cases hp : perms = 0
        · subst hp; exact scatter_zero_perms toggle _
        · have ht : toggle = 0 := by
            by_contra ht; exact hg ⟨hp, ht⟩
          subst ht; exact scatter_zero_toggle _ perms
      rw [h0, perm_loop, if_neg (fun h => hg ⟨h.1, h.2.2⟩)]
      simp

theorem mapM_some {α β : Type} (f : α → Option β) (g : α → β) :
    ∀ (l : List α), (∀ a ∈ l, f a = some (g a)) → l.mapM f = some (l.map g)
  | [], _ => rfl
  | a :: l, h => by
    rw [List.mapM_cons, h a (List.mem_cons_self _ _),
      mapM_some f g l (fun b hb => h b (List.mem_cons_of_mem _ hb))]
    rfl

/-- The vector `get_candidates` fills, in closed form. -/
theorem get_candidates_eq (hashvalue toggle : Nat) :
    get_candidates hashvalue toggle =
      some (hashvalue % 2 ^ 32 ::
        (List.range (toI32 (2 ^ popcount (toggle % 2 ^ 32)) - 1).toNat).map
          (fun j => (hashvalue % 2 ^ 32) ^^^ scatter (toggle % 2 ^ 32) 32 (j + 1))) := by
  unfold get_candidates
  rw [bitcount_eq]
  simp only [Option.bind_eq_bind, Option.some_bind]
  rw [mapM_some _ (fun j => (hashvalue % 2 ^ 32) ^^^ scatter (toggle % 2 ^ 32) 32 (j + 1))]
  · rfl
  · intro j _
    exact perm_loop_spec (toggle % 2 ^ 32) 31 33 (j + 1) (hashvalue % 2 ^ 32) (by norm_num)
      (by norm_num)

theorem scatter_testBit (toggle : Nat) : ∀ (m i k : Nat),
    (scatter toggle m i).testBit k = true → k < m ∧ toggle.testBit k = true
  | 0, i, k, h => by
    simp [scatter] at h
  | m + 1, i, k, h => by
    rw [scatter_succ] at h
    by_cases hb : toggle.testBit m = true
    · rw [if_pos hb, Nat.testBit_xor] at h
      by_cases hk : m = k
      · subst hk; exact ⟨Nat.lt_succ_self _, hb⟩
      · have h0 : (if i % 2 = 1 then 2 ^ m else 0).testBit k = false := by
          split
          · exact Nat.testBit_two_pow_of_ne hk
          · exact Nat.zero_testBit k
        rw [h0] at h
        have h1 : (scatter toggle m (i / 2)).testBit k = true := by simpa using h
        obtain ⟨h2, h3⟩ := scatter_testBit toggle m _ k h1
        exact ⟨Nat.lt_succ_of_lt h2, h3⟩
    · rw [if_neg hb] at h
      obtain ⟨h2, h3⟩ := scatter_testBit toggle m _ k h
      exact ⟨Nat.lt_succ_of_lt h2, h3⟩

theorem scatter_testBit_self (toggle m i : Nat) : (scatter toggle m i).testBit m = false := by
  cases h : (scatter toggle m i).testBit m with
  | false => rfl
  | true => exact absurd (scatter_testBit toggle m i m h).1 (Nat.lt_irrefl m)

theorem popBelow_succ (toggle m : Nat) :
    popBelow toggle (m + 1) = popBelow toggle m + (if toggle.testBit m = true then 1 else 0) := by
  unfold popBelow
  rw [List.range_succ, List.filter_append, List.length_append]
  by_cases hb : toggle.testBit m = true <;> simp [hb]

theorem scatter_inj (toggle : Nat) : ∀ (m i j : Nat), i < 2 ^ popBelow toggle m →
    j < 2 ^ popBelow toggle m → scatter toggle m i = scatter toggle m j → i = j
  | 0, i, j, hi, hj, _ => by
    have h1 : i < 1 := by simpa [popBelow] using hi
    have h2 : j < 1 := by simpa [popBelow] using hj
    omega
  | m + 1, i, j, hi, hj, h => by
    rw [popBelow_succ] at hi hj
    rw [scatter_succ, scatter_succ] at h
    by_cases hb : toggle.testBit m = true
    · rw [if_pos hb] at hi hj
      rw [if_pos hb, if_pos hb] at h
      rw [pow_succ] at hi hj
      have hbit := congrArg (fun x => Nat.testBit x m) h
      simp only [Nat.testBit_xor, scatter_testBit_self, Bool.xor_false] at hbit
      have hpar : i % 2 = j % 2 := by
        by_cases h1 : i % 2 = 1 <;> by_cases h2 : j % 2 = 1
        · omega
        · rw [if_pos h1, if_neg h2, Nat.testBit_two_pow_self, Nat.zero_testBit] at hbit
          exact absurd hbit (by decide)
        · rw [if_neg h1, if_pos h2, Nat.testBit_two_pow_self, Nat.zero_testBit] at hbit
          exact absurd hbit (by decide)
        · omega
      rw [hpar] at h
      have h3 := Nat.xor_right_injective h
      have := scatter_inj toggle m (i / 2) (j / 2) (by omega) (by omega) h3
      omega
    · rw [if_neg hb] at hi hj
      rw [if_neg hb, if_neg hb] at h
      exact scatter_inj toggle m i j hi hj h

theorem scatter_surj (toggle : Nat) : ∀ (m s : Nat),
    (∀ k, s.testBit k = true → k < m ∧ toggle.testBit k = true) →
    ∃ i, i < 2 ^ popBelow toggle m ∧ scatter toggle m i = s
  | 0, s, hs => by
    refine ⟨0, by simp [popBelow], ?_⟩
    apply Nat.eq_of_testBit_eq
    intro k
    rw [scatter, Nat.zero_testBit]
    cases h : s.testBit k with
    | false => rfl
    | true => exact absurd (hs k h).1 (Nat.not_lt_zero k)
  | m + 1, s, hs => by
    by_cases hb : toggle.testBit m = true
    · have hs' : ∀ k, ((if s.testBit m = true then 2 ^ m else 0) ^^^ s).testBit k = true →
          k < m ∧ toggle.testBit k = true := by
        intro k hk
        rw [Nat.testBit_xor] at hk
        by_cases hkm : m = k
        · subst hkm
          by_cases h1 : s.testBit m = true
          · rw [if_pos h1, Nat.testBit_two_pow_self, h1] at hk
            exact absurd hk (by decide)
          · rw [if_neg h1, Nat.zero_testBit] at hk
            simp only [Bool.false_xor] at hk
            exact absurd hk h1
        · have h0 : (if s.testBit m = true then 2 ^ m else 0).testBit k = false := by
            split
            · exact Nat.testBit_two_pow_of_ne hkm
            · exact Nat.zero_testBit k
          rw [h0] at hk
          simp only [Bool.false_xor] at hk
          obtain ⟨h2, h3⟩ := hs k hk
          exact ⟨by omega, h3⟩
      obtain ⟨i, hi, hsc⟩ := scatter_surj toggle m _ hs'
      refine ⟨2 * i + (if s.testBit m = true then 1 else 0), ?_, ?_⟩
      · rw [popBelow_succ, if_pos hb, pow_succ]
        split <;> omega
      · rw [scatter_succ, if_pos hb]
        have hdiv : (2 * i + (if s.testBit m = true then 1 else 0)) / 2 = i := by
          split <;> omega
        rw [hdiv, hsc]
        by_cases h1 : s.testBit m = true
        · have : (2 * i + 1) % 2 = 1 := by omega
          simp only [h1, if_true, this]
          exact Nat.xor_cancel_left _ _
        · have : (2 * i + 0) % 2 ≠ 1 := by omega
          simp only [h1, if_false, this]
          simp
    · have hs' : ∀ k, s.testBit k = true → k < m ∧ toggle.testBit k = true := by
        intro k hk
        obtain ⟨h2, h3⟩ := hs k hk
        have : k ≠ m := by
          rintro rfl; exact hb h3
        exact ⟨by omega, h3⟩
      obtain ⟨i, hi, hsc⟩ := scatter_surj toggle m s hs'
      refine ⟨i, ?_, ?_⟩
      · rw [popBelow_succ, if_neg hb]; exact hi
      · rw [scatter_succ, if_neg hb]; exact hsc

theorem submask_iff (s toggle : Nat) :
    s &&& toggle = s ↔ ∀ k, s.testBit k = true → toggle.testBit k = true := by
  constructor
  · intro h k hk
    rw [← h, Nat.testBit_and] at hk
    simp only [Bool.and_eq_true] at hk
    exact hk.2
  · intro h
    apply Nat.eq_of_testBit_eq
    intro k
    rw [Nat.testBit_and]
    cases hk : s.testBit k with
    | false => rfl
    | true => simp [h k hk]

theorem testBit_false_of_lt {x n k : Nat} (hx : x < 2 ^ n) (hk : n ≤ k) : x.testBit k = false :=
  Nat.testBit_lt_two_pow (Nat.lt_of_lt_of_le hx (Nat.pow_le_pow_right (by norm_num) hk))

/-- For a 32-bit toggle with at most 30 set bits the vector of `get_candidates` is the image
of `0 .. 2^popcount - 1` under `i ↦ frame XOR scatter i`. -/
theorem get_candidates_range (frame toggle : Nat) (hf : frame < 2 ^ 32) (ht : toggle < 2 ^ 32)
    (hp : popcount toggle ≤ 30) :
    get_candidates frame toggle =
      some ((List.range (2 ^ popcount toggle)).map (fun i => frame ^^^ scatter toggle 32 i)) := by
  rw [get_candidates_eq, Nat.mod_eq_of_lt hf, Nat.mod_eq_of_lt ht]
  have hlt : 2 ^ popcount toggle < 2 ^ 31 := Nat.pow_lt_pow_right (by norm_num) (by omega)
  rw [toI32_of_lt hlt]
  have hpos : 0 < 2 ^ popcount toggle := by positivity
  have hn : ((2 ^ popcount toggle : Nat) : Int) - 1 = ((2 ^ popcount toggle - 1 : Nat) : Int) := by
    omega
  rw [hn, Int.toNat_natCast]
  obtain ⟨n, hn'⟩ : ∃ n, 2 ^ popcount toggle = n + 1 := ⟨2 ^ popcount toggle - 1, by omega⟩
  rw [hn', Nat.add_sub_cancel, List.range_succ_eq_map, List.map_cons, List.map_map,
    scatter_zero_perms, Nat.xor_zero]
  rfl

/-- C11 (candidate expansion). For every 32-bit `frame` and every 32-bit `toggle` with at
most 30 set bits, `get_candidates` returns a list of exactly `2^popcount(toggle)` pairwise
distinct 32-bit values whose first element is `frame` and whose elements are exactly the
values `frame XOR s` for `s` a submask of `toggle`; every candidate agrees with `frame` on
the bits where `toggle` is 0. -/
theorem get_candidates_expansion (frame toggle : Nat) (hf : frame < 2 ^ 32)
    (ht : toggle < 2 ^ 32) (hp : popcount toggle ≤ 30) :
    ∃ cands, get_candidates frame toggle = some cands ∧
      cands.length = 2 ^ popcount toggle ∧ cands.Nodup ∧ cands.head? = some frame ∧
      (∀ c ∈ cands, c < 2 ^ 32) ∧
      (∀ c, c ∈ cands ↔ ∃ s, s &&& toggle = s ∧ c = frame ^^^ s) ∧
      (∀ c ∈ cands, ∀ k, toggle.testBit k = false → c.testBit k = frame.testBit k) := by
  have hmem : ∀ c, c ∈ (List.range (2 ^ popcount toggle)).map
      (fun i => frame ^^^ scatter toggle 32 i) ↔ ∃ s, s &&& toggle = s ∧ c = frame ^^^ s := by
    intro c
    rw [List.mem_map]
    constructor
    · rintro ⟨i, _, rfl⟩
      exact ⟨_, (submask_iff _ _).2 (fun k hk => (scatter_testBit toggle 32 i k hk).2), rfl⟩
    · rintro ⟨s, hs, rfl⟩
      obtain ⟨i, hi, hsc⟩ := scatter_surj toggle 32 s (by
        intro k hk
        have h1 := (submask_iff _ _).1 hs k hk
        refine ⟨?_, h1⟩
        by_contra hge
        rw [testBit_false_of_lt ht (Nat.le_of_not_lt hge)] at h1
        exact absurd h1 (by decide))
      exact ⟨i, List.mem_range.2 hi, by rw [hsc]⟩
  have hbits : ∀ c, (∃ s, s &&& toggle = s ∧ c = frame ^^^ s) →
      ∀ k, toggle.testBit k = false → c.testBit k = frame.testBit k := by
    rintro c ⟨s, hs, rfl⟩ k hk
    rw [Nat.testBit_xor]
    cases hsk : s.testBit k with
    | false => simp
    | true =>
      rw [(submask_iff _ _).1 hs k hsk] at hk
      exact absurd hk (by decide)
  refine ⟨_, get_candidates_range frame toggle hf ht hp, ?_, ?_, ?_, ?_, hmem, ?_⟩
  · rw [List.length_map, List.length_range]
  · apply List.Nodup.map_on _ (List.nodup_range _)
    intro i hi j hj h
    exact scatter_inj toggle 32 i j (List.mem_range.1 hi) (List.mem_range.1 hj)
      (Nat.xor_right_injective h)
  · have hpos : 0 < 2 ^ popcount toggle := by positivity
    obtain ⟨n, hn⟩ : ∃ n, 2 ^ popcount toggle = n + 1 := ⟨2 ^ popcount toggle - 1, by omega⟩
    rw [hn, List.range_succ_eq_map, List.map_cons, List.head?_cons, scatter_zero_perms,
      Nat.xor_zero]
  · intro c hc
    obtain ⟨s, hs, rfl⟩ := (hmem c).1 hc
    apply Nat.xor_lt_two_pow hf
    apply Nat.lt_pow_two_of_testBit
    intro k hk
    cases hsk : s.testBit k with
    | false => rfl
    | true =>
      have := (submask_iff _ _).1 hs k hsk
      rw [testBit_false_of_lt ht hk] at this
      exact absurd this (by decide)
  · intro c hc
    exact hbits c ((hmem c).1 hc)

/-- C11 at `frame = 0b1010`, `toggle = 0b0101`: the four candidates `10, 14, 11, 15`. -/
theorem get_candidates_expansion_witness :
    popcount 5 = 2 ∧ get_candidates 10 5 = some [10, 14, 11, 15] ∧
    ∃ cands, get_candidates 10 5 = some cands ∧
      cands.length = 2 ^ popcount 5 ∧ cands.Nodup ∧ cands.head? = some 10 ∧
      (∀ c ∈ cands, c < 2 ^ 32) ∧
      (∀ c, c ∈ cands ↔ ∃ s, s &&& 5 = s ∧ c = 10 ^^^ s) ∧
      (∀ c ∈ cands, ∀ k, Nat.testBit 5 k = false → c.testBit k = Nat.testBit 10 k) :=
  ⟨by decide, by decide,
    get_candidates_expansion 10 5 (by norm_num) (by norm_num) (by decide)⟩

/-! ## Id allocation -/

theorem low16_or (A r u : Nat) (hA : A % 2 ^ 16 = 0) :
    (A ||| (r &&& 0xffff0000) ||| (0x0000ffff &&& u)) % 2 ^ 16 = u % 2 ^ 16 := by
  have hm1 : ∀ i < 16, Nat.testBit 0xffff0000 i = false := by decide
  have hm2 : ∀ i < 16, Nat.testBit 0x0000ffff i = true := by decide
  apply Nat.eq_of_testBit_eq
  intro i
  simp only [Nat.testBit_mod_two_pow, Nat.testBit_or, Nat.testBit_and]
  by_cases hi : i < 16
  · have hA' : A.testBit i = false := by
      have h : (A % 2 ^ 16).testBit i = Nat.testBit 0 i := by rw [hA]
      rw [Nat.testBit_mod_two_pow, Nat.zero_testBit] at h
      simpa [hi] using h
    simp [hi, hA', hm1 i hi, hm2 i hi]
  · simp [hi]

theorem toI64_emod (X : Nat) : toI64 X % 2 ^ 16 = ((X % 2 ^ 16 : Nat) : Int) := by
  unfold toI64
  have : X % 2 ^ 64 < 2 ^ 64 := Nat.mod_lt _ (by norm_num)
  split <;> omega

theorem toU64_emod (z : Int) : ((toU64 z % 2 ^ 16 : Nat) : Int) = z % 2 ^ 16 := by
  unfold toU64
  have h1 : (0 : Int) ≤ z % 2 ^ 64 := Int.emod_nonneg _ (by norm_num)
  have h3 : (((z % 2 ^ 64).toNat : Nat) : Int) = z % 2 ^ 64 := Int.toNat_of_nonneg h1
  omega

theorem get_next_id_low16 (host : Host) (c : Int) (hc : host.incrby = some c) :
    (get_next_id host).2 % 2 ^ 16 = c % 2 ^ 16 := by
  unfold get_next_id
  rw [hc]
  simp only
  rw [toI64_emod, low16_or _ _ _ (by omega), toU64_emod]

/-- C20 (id allocation disambiguates by counter). When `INCRBY` replies the integer
`counter`, `get_next_id` returns `(ms << 32) | (rand & 0xFFFF0000) | (counter & 0xFFFF)` as
an `int64_t`; its low 16 bits are `counter & 0xFFFF`; so two allocations whose counters
differ modulo `2^16`, in particular two of fewer than 65536 consecutive allocations, return
different ids whatever the clock and the random values. -/
theorem get_next_id_counter (host : Host) (c : Int) (hc : host.incrby = some c) :
    get_next_id host =
      ([], toI64 ((toU64 host.milliseconds * 2 ^ 32 % 2 ^ 64) |||
        (host.rand % 2 ^ 32 &&& 0xffff0000) ||| (0x0000ffff &&& toU64 c))) ∧
    (get_next_id host).2 % 2 ^ 16 = c % 2 ^ 16 ∧
    toU64 (get_next_id host).2 % 2 ^ 16 = (0x0000ffff &&& toU64 c) ∧
    (∀ (other : Host) (d : Int), other.incrby = some d → c % 2 ^ 16 ≠ d % 2 ^ 16 →
      (get_next_id host).2 ≠ (get_next_id other).2) ∧
    (∀ (other : Host) (k : Int), 0 < k → k < 65536 → other.incrby = some (c + k) →
      (get_next_id host).2 ≠ (get_next_id other).2) := by
  have hlow := get_next_id_low16 host c hc
  have hdiff : ∀ (other : Host) (d : Int), other.incrby = some d → c % 2 ^ 16 ≠ d % 2 ^ 16 →
      (get_next_id host).2 ≠ (get_next_id other).2 := by
    intro other d hd hne heq
    apply hne
    rw [← hlow, ← get_next_id_low16 other d hd, heq]
  refine ⟨?_, hlow, ?_, hdiff, ?_⟩
  · unfold get_next_id
    rw [hc]
  · have h1 := toU64_emod (get_next_id host).2
    rw [hlow, ← toU64_emod c] at h1
    have h2 : toU64 (get_next_id host).2 % 2 ^ 16 = toU64 c % 2 ^ 16 := by exact_mod_cast h1
    rw [h2]
    have := Nat.and_pow_two_sub_one_eq_mod (toU64 c) 16
    rw [Nat.and_comm] at this
    exact this.symm
  · intro other k hk0 hk1 hd
    exact hdiff other (c + k) hd (by omega)

/-- C20 at two allocations in the same millisecond with the same random value and the
counters 1 and 2: the ids `0x0000000512340001` and `0x0000000512340002`. -/
theorem get_next_id_counter_witness :
    (get_next_id ⟨5, 0x12345678, some 1⟩).2 = 0x0000000512340001 ∧
    (get_next_id ⟨5, 0x12345678, some 2⟩).2 = 0x0000000512340002 ∧
    (get_next_id ⟨5, 0x12345678, some 1⟩).2 ≠ (get_next_id ⟨5, 0x12345678, some 2⟩).2 :=
  ⟨by decide, by decide,
    (get_next_id_counter ⟨5, 0x12345678, some 1⟩ 1 rfl).2.2.2.2 ⟨5, 0x12345678, some 2⟩ 1
      (by decide) (by decide) rfl⟩

/-! ## Encoding version -/

/-- C19 (encoding version). `ASIndexTypeRdbLoad` returns `NULL` exactly when the encoding
version is not 0, and then does so whatever the stream holds: it reads nothing. -/
theorem rdb_load_rejects_iff (rdb : List Nat) (encver : Int) :
    (ASIndexTypeRdbLoad rdb encver = some none ↔ encver ≠ 0) ∧
    (encver ≠ 0 → ∀ other : List Nat, ASIndexTypeRdbLoad other encver = some none) := by
  have hrej : encver ≠ 0 → ∀ other : List Nat, ASIndexTypeRdbLoad other encver = some none := by
    intro h other
    unfold ASIndexTypeRdbLoad
    rw [if_pos (by simpa [AUSCOUT_ENCODING_VERSION] using h)]
  refine ⟨⟨?_, fun h => hrej h rdb⟩, hrej⟩
  intro h h0
  subst h0
  unfold ASIndexTypeRdbLoad at h
  rw [if_neg (by simp [AUSCOUT_ENCODING_VERSION])] at h
  cases hl : load_tracks (RedisModule_LoadUnsigned rdb).1 emptyIndex
      (RedisModule_LoadUnsigned rdb).2 with
  | none => rw [hl] at h; exact Option.noConfusion h
  | some index =>
    rw [hl] at h
    exact Option.noConfusion (Option.some.inj h)

/-- C19 at the stream `1, 7, 3, 1, 0, 2, 1, 3, 2`: rejected with version 1, loaded with
version 0. -/
theorem rdb_load_rejects_iff_witness :
    ASIndexTypeRdbLoad [1, 7, 3, 1, 0, 2, 1, 3, 2] 1 = some none ∧
    ASIndexTypeRdbLoad [] 1 = some none ∧
    ASIndexTypeRdbLoad [1, 7, 3, 1, 0, 2, 1, 3, 2] 0 ≠ some none :=
  ⟨(rdb_load_rejects_iff [1, 7, 3, 1, 0, 2, 1, 3, 2] 1).1.2 (by decide),
    (rdb_load_rejects_iff [1, 7, 3, 1, 0, 2, 1, 3, 2] 1).2 (by decide) [],
    fun h => (rdb_load_rejects_iff [1, 7, 3, 1, 0, 2, 1, 3, 2] 0).1.1 h rfl⟩

/-! ## Lookup: argument validation and the empty index -/

/-- The command after its threshold argument has parsed. -/
theorem lookup_cmd_parsed (descr : Int → Option Bytes) (key : KeyValue)
    (hashbytestr togglebytestr : Bytes) (thresholdarg : Option (Option ℚ))
    (hth : thresholdarg ≠ some none) :
    ∃ threshold : ℚ,
      AuscoutLookup_RedisCmd descr key hashbytestr togglebytestr thresholdarg =
        if hashbytestr.length < 4 ∨ togglebytestr.length < 4 then
          some ⟨[Reply.error "insufficient length arrays"], REDISMODULE_ERR, key⟩
        else if hashbytestr.length ≠ togglebytestr.length then
          some ⟨[Reply.error "hash array must be equal to toggle array length"],
            REDISMODULE_ERR, key⟩
        else
          match GetIndex key with
          | none =>
            some ⟨[Reply.error "ERR - key exists for different type.  Delete first."],
                  REDISMODULE_ERR, key⟩
          | some none => some ⟨[Reply.error "ERR - no such key"], REDISMODULE_ERR, key⟩
          | some (some index) =>
            match lookup_frames threshold index
                (((ntohl_words hashbytestr).zip (ntohl_words togglebytestr)).take
                  (toI32 (hashbytestr.length / 4)).toNat) 0 [] [] with
            | none => none
            | some results =>
              some ⟨[Reply.rows
                  (results.map (fun fnd => ⟨descr fnd.id, fnd.id, fnd.pos, fnd.cs⟩))],
                REDISMODULE_OK, key⟩ := by
  rcases thresholdarg with _ | _ | t
  · exact ⟨3 / 10, rfl⟩
  · exact absurd rfl hth
  · exact ⟨t, rfl⟩

/-- C17 (lookup length validation). With a threshold that parses (or none given), `lookup`
replies a length error exactly when the hash byte string or the toggle byte string is
shorter than 4 bytes or the two differ in length; it then sends that one error, returns
`REDISMODULE_ERR` and leaves the key as it is, whatever the key holds. -/
theorem lookup_length_validation (descr : Int → Option Bytes) (key : KeyValue)
    (hashbytestr togglebytestr : Bytes) (thresholdarg : Option (Option ℚ))
    (hth : thresholdarg ≠ some none) :
    (hashbytestr.length < 4 ∨ togglebytestr.length < 4 →
      AuscoutLookup_RedisCmd descr key hashbytestr togglebytestr thresholdarg =
        some ⟨[Reply.error "insufficient length arrays"], REDISMODULE_ERR, key⟩) ∧
    (4 ≤ hashbytestr.length → 4 ≤ togglebytestr.length →
      hashbytestr.length ≠ togglebytestr.length →
      AuscoutLookup_RedisCmd descr key hashbytestr togglebytestr thresholdarg =
        some ⟨[Reply.error "hash array must be equal to toggle array length"],
          REDISMODULE_ERR, key⟩) ∧
    ((AuscoutLookup_RedisCmd descr key hashbytestr togglebytestr thresholdarg =
        some ⟨[Reply.error "insufficient length arrays"], REDISMODULE_ERR, key⟩ ∨
      AuscoutLookup_RedisCmd descr key hashbytestr togglebytestr thresholdarg =
        some ⟨[Reply.error "hash array must be equal to toggle array length"],
          REDISMODULE_ERR, key⟩) ↔
      (hashbytestr.length < 4 ∨ togglebytestr.length < 4 ∨
        hashbytestr.length ≠ togglebytestr.length)) := by
  obtain ⟨threshold, hcmd⟩ :=
    lookup_cmd_parsed descr key hashbytestr togglebytestr thresholdarg hth
  have hshort : hashbytestr.length < 4 ∨ togglebytestr.length < 4 →
      AuscoutLookup_RedisCmd descr key hashbytestr togglebytestr thresholdarg =
        some ⟨[Reply.error "insufficient length arrays"], REDISMODULE_ERR, key⟩ := by
    intro h
    rw [hcmd, if_pos h]
  have hdiff : 4 ≤ hashbytestr.length → 4 ≤ togglebytestr.length →
      hashbytestr.length ≠ togglebytestr.length →
      AuscoutLookup_RedisCmd descr key hashbytestr togglebytestr thresholdarg =
        some ⟨[Reply.error "hash array must be equal to toggle array length"],
          REDISMODULE_ERR, key⟩ := by
    intro h1 h2 h3
    rw [hcmd, if_neg (by omega), if_pos h3]
  refine ⟨hshort, hdiff, ?_, ?_⟩
  · intro h
    by_contra hno
    have h1 : ¬ (hashbytestr.length < 4 ∨ togglebytestr.length < 4) := fun hc =>
      hno (hc.elim Or.inl (fun x => Or.inr (Or.inl x)))
    have h2 : ¬ hashbytestr.length ≠ togglebytestr.length := fun hc => hno (Or.inr (Or.inr hc))
    rw [hcmd, if_neg h1, if_neg h2] at h
    rcases key with _ | s | _
    · simp [GetIndex] at h
    · simp only [GetIndex] at h
      cases hl : lookup_frames threshold s
          (((ntohl_words hashbytestr).zip (ntohl_words togglebytestr)).take
            (toI32 (hashbytestr.length / 4)).toNat) 0 [] [] with
      | none => rw [hl] at h; simp at h
      | some results => rw [hl] at h; simp at h
    · simp [GetIndex] at h
  · intro h
    rcases h with h | h | h
    · exact Or.inl (hshort (Or.inl h))
    · exact Or.inl (hshort (Or.inr h))
    · by_cases hs : hashbytestr.length < 4 ∨ togglebytestr.length < 4
      · exact Or.inl (hshort hs)
      · exact Or.inr (hdiff (by omega) (by omega) h)

/-- C17 at an empty hash string, at strings of 8 and 4 bytes, and at two strings of 4
bytes on an empty key. -/
theorem lookup_length_validation_witness :
    AuscoutLookup_RedisCmd (fun _ => none) (.asindex index_1_2_3) [] [0, 0, 0, 0] none =
      some ⟨[Reply.error "insufficient length arrays"], REDISMODULE_ERR, .asindex index_1_2_3⟩ ∧
    AuscoutLookup_RedisCmd (fun _ => none) (.asindex index_1_2_3) [0, 0, 0, 1, 0, 0, 0, 2]
        [0, 0, 0, 0] none =
      some ⟨[Reply.error "hash array must be equal to toggle array length"], REDISMODULE_ERR,
        .asindex index_1_2_3⟩ ∧
    AuscoutLookup_RedisCmd (fun _ => none) .empty [0, 0, 0, 1] [0, 0, 0, 0] none =
      some ⟨[Reply.error "ERR - no such key"], REDISMODULE_ERR, .empty⟩ :=
  ⟨(lookup_length_validation (fun _ => none) (.asindex index_1_2_3) [] [0, 0, 0, 0] none
      (by decide)).1 (Or.inl (by decide)),
    (lookup_length_validation (fun _ => none) (.asindex index_1_2_3) [0, 0, 0, 1, 0, 0, 0, 2]
      [0, 0, 0, 0] none (by decide)).2.1 (by decide) (by decide) (by decide),
    rfl⟩

theorem lookup_candidates_empty (current : Int) (threshold : ℚ) (s : ASIndex)
    (hs : s.hash_dict = []) : ∀ (keys : List Nat) (tracker : Tracker) (results : List FoundId),
    lookup_candidates current threshold s keys tracker results = some (tracker, results)
  | [], _, _ => rfl
  | key :: keys, tracker, results => by
    simp only [lookup_candidates, lookup_hashframe, hs, DictGetC, List.find?_nil, Option.map_none',
      Option.bind_eq_bind, Option.some_bind]
    simpa [hs] using lookup_candidates_empty current threshold s hs keys tracker results

theorem lookup_frames_empty (threshold : ℚ) (s : ASIndex) (hs : s.hash_dict = []) :
    ∀ (frames : List (Nat × Nat)) (i : Int) (tracker : Tracker),
    lookup_frames threshold s frames i tracker [] = some []
  | [], _, _ => rfl
  | (frame, toggle) :: rest, i, tracker => by
    simp only [lookup_frames, get_candidates_eq, Option.bind_eq_bind, Option.some_bind,
      lookup_candidates_empty i threshold s hs, List.length_nil, gt_iff_lt, lt_self_iff_false,
      if_false]
    exact lookup_frames_empty threshold s hs rest (i + 1) tracker

/-- C14 (empty index). Against an index whose `hash_dict` is empty, `lookup` with any probe
and toggles (of equal length, at least one word) and any threshold replies an empty array
and returns `REDISMODULE_OK`. -/
theorem lookup_empty_index (descr : Int → Option Bytes) (s : ASIndex)
    (hashbytestr togglebytestr : Bytes) (thresholdarg : Option (Option ℚ))
    (hs : s.hash_dict = []) (hth : thresholdarg ≠ some none) (hlen : 4 ≤ hashbytestr.length)
    (heq : hashbytestr.length = togglebytestr.length) :
    AuscoutLookup_RedisCmd descr (.asindex s) hashbytestr togglebytestr thresholdarg =
      some ⟨[Reply.rows []], REDISMODULE_OK, .asindex s⟩ := by
  obtain ⟨threshold, hcmd⟩ :=
    lookup_cmd_parsed descr (.asindex s) hashbytestr togglebytestr thresholdarg hth
  rw [hcmd, if_neg (by omega), if_neg (by omega)]
  simp only [GetIndex, lookup_frames_empty threshold s hs, List.map_nil]

/-- C14 on the index of a fresh key and on the index left by `add [1, 2, 3] 7; del 7`: a
probe of two frames with toggles returns an empty array. -/
theorem lookup_empty_index_witness :
    AuscoutLookup_RedisCmd (fun _ => none) (.asindex emptyIndex) [0, 0, 0, 1, 0, 0, 0, 2]
        [0, 0, 0, 3, 0, 0, 0, 0] (some (some 0)) =
      some ⟨[Reply.rows []], REDISMODULE_OK, .asindex emptyIndex⟩ :=
  lookup_empty_index (fun _ => none) emptyIndex [0, 0, 0, 1, 0, 0, 0, 2]
    [0, 0, 0, 3, 0, 0, 0, 0] (some (some 0)) rfl (by decide) (by decide) rfl

/-- The inner loop of `ASIndexTypeAofRewrite` never leaves a live entry. -/
theorem aof_chain_stuck {mem : Heap} {a : Addr} {e : Entry} (h : load mem a = some e) :
    ∀ (fuel : Nat) (hashesforid : List Nat),
      aof_chain fuel mem (some a) hashesforid = Run.out_of_fuel
  | 0, _ => rfl
  | fuel + 1, hashesforid => by
    rw [aof_chain, h]
    exact aof_chain_stuck h fuel _

/-- C18, the code after `add key [1, 2, 3] 7`: whatever the number of iterations allowed,
`ASIndexTypeAofRewrite` is still in the inner loop of the first track and has emitted
nothing; with no id it finishes at once. -/
theorem aof_rewrite_never_finishes :
    (∀ fuel : Nat, ASIndexTypeAofRewrite fuel index_1_2_3 = Run.out_of_fuel) ∧
    (∀ fuel : Nat, ASIndexTypeAofRewrite fuel emptyIndex = Run.done []) := by
  constructor
  · intro fuel
    simp only [ASIndexTypeAofRewrite, index_1_2_3, aof_tracks]
    rw [show load [some (⟨none, none, some 1, 7, 0, 1⟩ : Entry), some ⟨none, none, some 2, 7, 1, 2⟩,
      some ⟨none, none, none, 7, 2, 3⟩] 0 = some ⟨none, none, some 1, 7, 0, 1⟩ from rfl]
    simp only
    rw [aof_chain_stuck (by rfl)]
  · intro fuel
    rfl

/-! ## The posting-scan limit -/

/-- C15 (posting-scan limit). `lookup_hashframe` examines the first
`LOOKUP_ENTRIES_PER_FRAME_LIMIT = 10` entries of the posting list, head first, and no
others: on an index built by `add` and `del` it is the entry loop run over the first 10
keys, and on two such indexes whose posting lists for the hash agree on their first 10
entries it gives the same tracker, results and return value. -/
theorem lookup_scan_limit (s s' : ASIndex) (hs : Reachable s) (hs' : Reachable s')
    (current : Int) (threshold : ℚ) (hashframe : Nat) (tracker : Tracker)
    (results : List FoundId)
    (hagree : ((postingList s hashframe).map Entry.key).take 10 =
      ((postingList s' hashframe).map Entry.key).take 10) :
    lookup_hashframe current threshold s.mem s.hash_dict hashframe tracker results =
      lookup_hashframe current threshold s'.mem s'.hash_dict hashframe tracker results ∧
    lookup_hashframe current threshold s.mem s.hash_dict hashframe tracker results =
      some (lookup_keys current threshold
        (((postingList s hashframe).map Entry.key).take 10) tracker results) := by
  obtain ⟨P, C, I⟩ := reachable_wf hs
  obtain ⟨P', C', I'⟩ := reachable_wf hs'
  have h1 := lookup_hashframe_eq I.rep current threshold hashframe tracker results
  have h2 := lookup_hashframe_eq I'.rep current threshold hashframe tracker results
  unfold examined at h1 h2
  simp only [LOOKUP_ENTRIES_PER_FRAME_LIMIT] at h1 h2
  exact ⟨by rw [h1, h2, hagree], h1⟩

theorem reachable_add_track {s : ASIndex} (hs : Reachable s) (frames : List Nat) (id : Int)
    (hid : isInt64 id) : Reachable (add_track s frames id) := by
  unfold add_track
  split
  · rename_i replies rid s' heq
    exact Reachable.add _ _ _ replies rid hs (by intro v hv; cases hv; exact hid) heq
  · exact hs

theorem reachable_foldl_add_track : ∀ (tracks : List (List Nat × Int)) (s : ASIndex),
    Reachable s → (∀ t ∈ tracks, isInt64 t.2) →
    Reachable (tracks.foldl (fun s t => add_track s t.1 t.2) s)
  | [], _, hs, _ => hs
  | t :: rest, s, hs, hids => by
    rw [List.foldl_cons]
    exact reachable_foldl_add_track rest _
      (reachable_add_track hs t.1 t.2 (hids t (List.mem_cons_self _ _)))
      (fun u hu => hids u (List.mem_cons_of_mem _ hu))

theorem reachable_index_of (tracks : List (List Nat × Int)) (hids : ∀ t ∈ tracks, isInt64 t.2) :
    Reachable (index_of tracks) :=
  reachable_foldl_add_track tracks emptyIndex Reachable.empty hids

/-- C15 at two indexes whose posting lists of hash 5 hold 11 and 12 entries, the 10 newest
being the same: a lookup of hash 5 does the same on both. -/
theorem lookup_scan_limit_witness :
    (postingList (index_of eleven_tracks) 5).map Entry.id = [11, 10, 9, 8, 7, 6, 5, 4, 3, 2, 1] ∧
    (postingList (index_of twelve_tracks) 5).map Entry.id =
      [11, 10, 9, 8, 7, 6, 5, 4, 3, 2, 99, 98] ∧
    lookup_hashframe 0 (3 / 10) (index_of eleven_tracks).mem (index_of eleven_tracks).hash_dict
        5 [] [] =
      lookup_hashframe 0 (3 / 10) (index_of twelve_tracks).mem
        (index_of twelve_tracks).hash_dict 5 [] [] :=
  ⟨by decide, by decide,
    (lookup_scan_limit (index_of eleven_tracks) (index_of twelve_tracks)
      (reachable_index_of _ (by decide)) (reachable_index_of _ (by decide)) 0 (3 / 10) 5 [] []
      (by decide)).1⟩

theorem lookup_entry_tracked {current : Int} {threshold : ℚ} {e : Entry} {tracker : Tracker}
    {t : TrackerId} (results : List FoundId) (h : DictGetC tracker e.id = some t) :
    lookup_entry current threshold e tracker results =
      if crosses threshold (window_update current e t) then
        (dictErase e.id tracker,
          results ++ [⟨e.id, (window_update current e t).pos,
            ((window_update current e t).count : ℚ) /
              (window_length (window_update current e t) : ℚ)⟩], true)
      else
        (trackerSet tracker e.id
          (if current > (window_update current e t).last_index + LOOKUP_STEPS then
            ⟨current, current, toI32 e.pos, 1⟩ else window_update current e t), results, false) := by
  unfold lookup_entry
  rw [h]
  rfl

theorem lookup_entry_untracked {current : Int} {threshold : ℚ} {e : Entry} {tracker : Tracker}
    (results : List FoundId) (h : DictGetC tracker e.id = none) :
    lookup_entry current threshold e tracker results =
      (trackerSet tracker e.id ⟨current, current, toI32 e.pos, 1⟩, results, false) := by
  unfold lookup_entry
  rw [h]

/-- What `lookup_entry` leaves for the entry's id when it does not emit: a window that
ends at the current frame, either extended or started anew. -/
theorem lookup_entry_quiet {current : Int} {threshold : ℚ} {e : Entry} {tracker : Tracker}
    {results : List FoundId}
    (h : (lookup_entry current threshold e tracker results).2.2 = false) :
    (lookup_entry current threshold e tracker results).2.1 = results ∧
    ∃ t2 : TrackerId, (lookup_entry current threshold e tracker results).1 =
        trackerSet tracker e.id t2 ∧ t2.last_index = current ∧
      ¬ crosses threshold t2 ∧
      (t2 = ⟨current, current, toI32 e.pos, 1⟩ ∨
        ∃ t, DictGetC tracker e.id = some t ∧ current ≤ t.last_index + LOOKUP_STEPS ∧
          t2 = window_update current e t) := by
  have hfresh : ¬ crosses threshold ⟨current, current, toI32 e.pos, 1⟩ := by
    intro hc
    have := hc.1
    simp only [window_length, LOOKUP_BLOCK] at this
    omega
  cases hg : DictGetC tracker e.id with
  | none =>
    rw [lookup_entry_untracked results hg]
    exact ⟨rfl, _, rfl, rfl, hfresh, Or.inl rfl⟩
  | some t =>
    rw [lookup_entry_tracked results hg] at h ⊢
    by_cases hc : crosses threshold (window_update current e t)
    · rw [if_pos hc] at h
      simp at h
    · rw [if_neg hc]
      by_cases hr : current ≤ t.last_index + LOOKUP_STEPS
      · have hw : (window_update current e t).last_index = current := by
          unfold window_update; rw [if_pos hr]
        have hng : ¬ current > (window_update current e t).last_index + LOOKUP_STEPS := by
          rw [hw]; simp only [LOOKUP_STEPS]; omega
        rw [if_neg hng]
        exact ⟨rfl, _, rfl, hw, hc, Or.inr ⟨t, rfl, hr, rfl⟩⟩
      · have hw : window_update current e t = t := by
          unfold window_update; rw [if_neg hr]
        have hg' : current > (window_update current e t).last_index + LOOKUP_STEPS := by
          rw [hw]; omega
        rw [if_pos hg']
        exact ⟨rfl, _, rfl, rfl, hfresh, Or.inl rfl⟩

/-- What `lookup_entry` does when it emits. -/
theorem lookup_entry_emits {current : Int} {threshold : ℚ} {e : Entry} {tracker : Tracker}
    {results : List FoundId}
    (h : (lookup_entry current threshold e tracker results).2.2 = true) :
    ∃ t, DictGetC tracker e.id = some t ∧ crosses threshold (window_update current e t) ∧
      lookup_entry current threshold e tracker results =
        (dictErase e.id tracker,
          results ++ [⟨e.id, (window_update current e t).pos,
            ((window_update current e t).count : ℚ) /
              (window_length (window_update current e t) : ℚ)⟩], true) := by
  cases hg : DictGetC tracker e.id with
  | none =>
    rw [lookup_entry_untracked results hg] at h
    simp at h
  | some t =>
    rw [lookup_entry_tracked results hg] at h ⊢
    by_cases hc : crosses threshold (window_update current e t)
    · rw [if_pos hc]
      exact ⟨t, rfl, hc, rfl⟩
    · rw [if_neg hc] at h
      simp at h

theorem mem_of_DictGetC {K V : Type} [DecidableEq K] : ∀ (d : Dict K V) (k : K) (v : V),
    DictGetC d k = some v → (k, v) ∈ d
  | [], _, _, h => by simp [DictGetC] at h
  | (k', v') :: rest, k, v, h => by
    unfold DictGetC at h
    by_cases hk : k' = k
    · rw [if_pos hk] at h
      cases h; subst hk
      exact List.mem_cons_self _ _
    · rw [if_neg hk] at h
      exact List.mem_cons_of_mem _ (mem_of_DictGetC rest k v h)

theorem mem_dictInsert {K V : Type} (lt : K → K → Bool) (k : K) (v : V) :
    ∀ (d : Dict K V) (kv : K × V), kv ∈ dictInsert lt k v d → kv = (k, v) ∨ kv ∈ d
  | [], kv, h => by
    simp only [dictInsert, List.mem_singleton] at h
    exact Or.inl h
  | (k', v') :: rest, kv, h => by
    unfold dictInsert at h
    split at h
    · rcases List.mem_cons.1 h with h | h
      · exact Or.inl h
      · exact Or.inr h
    · rcases List.mem_cons.1 h with h | h
      · exact Or.inr (h ▸ List.mem_cons_self _ _)
      · rcases mem_dictInsert lt k v rest kv h with h | h
        · exact Or.inl h
        · exact Or.inr (List.mem_cons_of_mem _ h)

theorem mem_dictUpdate {K V : Type} [DecidableEq K] (k : K) (v : V) :
    ∀ (d : Dict K V) (kv : K × V), kv ∈ dictUpdate k v d → kv = (k, v) ∨ kv ∈ d
  | [], kv, h => by simp [dictUpdate] at h
  | (k', v') :: rest, kv, h => by
    unfold dictUpdate at h
    by_cases hk : k' = k
    · rw [if_pos hk] at h
      rcases List.mem_cons.1 h with h | h
      · exact Or.inl (by rw [h, hk])
      · exact Or.inr (List.mem_cons_of_mem _ h)
    · rw [if_neg hk] at h
      rcases List.mem_cons.1 h with h | h
      · exact Or.inr (h ▸ List.mem_cons_self _ _)
      · rcases mem_dictUpdate k v rest kv h with h | h
        · exact Or.inl h
        · exact Or.inr (List.mem_cons_of_mem _ h)

theorem mem_of_mem_dictErase {K V : Type} [DecidableEq K] (k : K) :
    ∀ (d : Dict K V) (kv : K × V), kv ∈ dictErase k d → kv ∈ d
  | [], kv, h => by simp [dictErase] at h
  | (k', v') :: rest, kv, h => by
    unfold dictErase at h
    by_cases hk : k' = k
    · rw [if_pos hk] at h
      exact List.mem_cons_of_mem _ h
    · rw [if_neg hk] at h
      rcases List.mem_cons.1 h with h | h
      · exact h ▸ List.mem_cons_self _ _
      · exact List.mem_cons_of_mem _ (mem_of_mem_dictErase k rest kv h)

theorem mem_trackerSet {tracker : Tracker} {id : Int} {t : TrackerId} {kv : Int × TrackerId}
    (h : kv ∈ trackerSet tracker id t) : kv = (id, t) ∨ kv ∈ tracker := by
  unfold trackerSet DictReplaceC at h
  cases hg : DictGetC tracker id with
  | none => rw [hg] at h; exact mem_dictInsert _ _ _ _ _ h
  | some t0 => rw [hg] at h; exact mem_dictUpdate _ _ _ _ h

/-- C12 as stated fails: two tracks (id 7 holding hash 2, id 8 holding hash 3), a probe of
100 frames of hash 2 with toggle 1 (candidates 2 and 3), default threshold. Both ids cross the
threshold at frame 99, the second through the second candidate of that frame, and `lookup`
returns two results. -/
theorem lookup_two_results :
    AuscoutLookup_RedisCmd (fun _ => none) (.asindex index_2_3)
        (htonl_bytes (List.replicate 100 2)) (htonl_bytes (List.replicate 100 1)) none =
      some ⟨[Reply.rows [⟨none, 7, 0, 1⟩, ⟨none, 8, 0, 1⟩]], REDISMODULE_OK,
        .asindex index_2_3⟩ ∧
    Reachable index_2_3 :=
  ⟨by decide!, reachable_index_of _ (by decide)⟩

theorem window_update_start (current : Int) (e : Entry) (t : TrackerId) :
    (window_update current e t).start_index = t.start_index := by
  unfold window_update; split <;> rfl

theorem window_update_last (current : Int) (e : Entry) (t : TrackerId) :
    (window_update current e t).last_index = current ∨
      (window_update current e t).last_index = t.last_index := by
  unfold window_update; split
  · exact Or.inl rfl
  · exact Or.inr rfl

theorem TrackerBounded.mono {i j : Int} {tracker : Tracker} (h : TrackerBounded i tracker)
    (hij : i ≤ j) : TrackerBounded j tracker :=
  fun kv hkv => ⟨(h kv hkv).1, le_trans (h kv hkv).2 hij⟩

theorem lookup_entry_bounded {current : Int} (threshold : ℚ) (e : Entry) {tracker : Tracker}
    (results : List FoundId) (h0 : 0 ≤ current) (hb : TrackerBounded current tracker) :
    TrackerBounded current (lookup_entry current threshold e tracker results).1 ∧
    (current < 99 → (lookup_entry current threshold e tracker results).2.2 = false) := by
  cases hf : (lookup_entry current threshold e tracker results).2.2 with
  | false =>
    refine ⟨?_, fun _ => rfl⟩
    obtain ⟨_, t2, hset, hlast, _, hshape⟩ := lookup_entry_quiet hf
    rw [hset]
    intro kv hkv
    rcases mem_trackerSet hkv with rfl | hkv
    · refine ⟨?_, le_of_eq hlast⟩
      rcases hshape with rfl | ⟨t, hg, _, rfl⟩
      · exact h0
      · rw [window_update_start]
        exact (hb _ (mem_of_DictGetC _ _ _ hg)).1
    · exact hb kv hkv
  | true =>
    obtain ⟨t, hg, hc, hout⟩ := lookup_entry_emits hf
    have ht : 0 ≤ t.start_index ∧ t.last_index ≤ current := hb _ (mem_of_DictGetC _ _ _ hg)
    constructor
    · rw [hout]
      exact fun kv hkv => hb kv (mem_of_mem_dictErase _ _ _ hkv)
    · intro hlt
      have hw := hc.1
      simp only [window_length, LOOKUP_BLOCK, window_update_start] at hw
      rcases window_update_last current e t with hl | hl
      · rw [hl] at hw; have := ht.1; omega
      · rw [hl] at hw; have := ht.1; have := ht.2; omega

theorem lookup_keys_bounded {current : Int} (threshold : ℚ) (h0 : 0 ≤ current) :
    ∀ (l : List (Int × Nat × Nat)) (tracker : Tracker) (results : List FoundId),
    TrackerBounded current tracker →
    TrackerBounded current (lookup_keys current threshold l tracker results).1 ∧
    (current < 99 → (lookup_keys current threshold l tracker results).2.1 = results)
  | [], _, _, hb => ⟨hb, fun _ => rfl⟩
  | k :: ks, tracker, results, hb => by
    obtain ⟨h1, h2⟩ := lookup_entry_bounded threshold (entryOfKey k) results h0 hb
    unfold lookup_keys
    cases hf : (lookup_entry current threshold (entryOfKey k) tracker results).2.2 with
    | true =>
      simp only [if_true]
      refine ⟨h1, fun hlt => ?_⟩
      rw [h2 hlt] at hf
      exact absurd hf (by decide)
    | false =>
      simp only [Bool.false_eq_true, if_false]
      obtain ⟨h3, h4⟩ := lookup_keys_bounded threshold h0 ks _
        (lookup_entry current threshold (entryOfKey k) tracker results).2.1 h1
      refine ⟨h3, fun hlt => ?_⟩
      rw [h4 hlt]
      exact (lookup_entry_quiet hf).1

theorem lookup_candidates_keys_bounded {current : Int} (threshold : ℚ)
    (post : Nat → List (Int × Nat × Nat)) (h0 : 0 ≤ current) :
    ∀ (keys : List Nat) (tracker : Tracker) (results : List FoundId),
    TrackerBounded current tracker →
    TrackerBounded current (lookup_candidates_keys current threshold post keys tracker results).1 ∧
    (current < 99 →
      (lookup_candidates_keys current threshold post keys tracker results).2 = results)
  | [], _, _, hb => ⟨hb, fun _ => rfl⟩
  | key :: keys, tracker, results, hb => by
    obtain ⟨h1, h2⟩ := lookup_keys_bounded threshold h0 (post key) tracker results hb
    unfold lookup_candidates_keys
    obtain ⟨h3, h4⟩ := lookup_candidates_keys_bounded threshold post h0 keys _
      (lookup_keys current threshold (post key) tracker results).2.1 h1
    exact ⟨h3, fun hlt => by rw [h4 hlt, h2 hlt]⟩

theorem get_candidates_total (hashvalue toggle : Nat) :
    get_candidates hashvalue toggle = some (hashvalue_candidates hashvalue toggle) :=
  get_candidates_eq hashvalue toggle

theorem lookup_frames_keys_short (threshold : ℚ) (post : Nat → List (Int × Nat × Nat)) :
    ∀ (frames : List (Nat × Nat)) (i : Int) (tracker : Tracker), 0 ≤ i →
    TrackerBounded i tracker → i + frames.length ≤ 99 →
    lookup_frames_keys threshold post frames i tracker [] = some []
  | [], _, _, _, _, _ => rfl
  | (frame, toggle) :: rest, i, tracker, h0, hb, hlen => by
    simp only [List.length_cons, Nat.cast_add, Nat.cast_one] at hlen
    obtain ⟨h1, h2⟩ := lookup_candidates_keys_bounded threshold post h0
      (hashvalue_candidates frame toggle) tracker [] hb
    simp only [lookup_frames_keys, get_candidates_total]
    rw [h2 (by omega)]
    simp only [List.length_nil, gt_iff_lt, lt_self_iff_false, if_false]
    exact lookup_frames_keys_short threshold post rest (i + 1) _ (by omega)
      (h1.mono (by omega)) (by omega)

/-- C13 (block minimum). On an index built by `add` and `del`, `lookup` with a probe of fewer
than `LOOKUP_BLOCK = 100` frames, any toggles and any threshold replies an empty array; and
whenever the entry loop of `lookup_hashframe` emits a result, it is for a tracked id whose
window `last_index - start_index + 1` is at least 100. -/
theorem lookup_block_minimum (descr : Int → Option Bytes) (s : ASIndex) (hs : Reachable s)
    (hashbytestr togglebytestr : Bytes) (thresholdarg : Option (Option ℚ))
    (hth : thresholdarg ≠ some none) (hlen : 4 ≤ hashbytestr.length)
    (heq : hashbytestr.length = togglebytestr.length) (hshort : hashbytestr.length / 4 < 100) :
    AuscoutLookup_RedisCmd descr (.asindex s) hashbytestr togglebytestr thresholdarg =
      some ⟨[Reply.rows []], REDISMODULE_OK, .asindex s⟩ ∧
    (∀ (current : Int) (threshold : ℚ) (e : Entry) (tracker : Tracker) (results : List FoundId),
      (lookup_entry current threshold e tracker results).2.2 = true →
      ∃ t, DictGetC tracker e.id = some t ∧
        (window_update current e t).last_index - (window_update current e t).start_index + 1
          ≥ 100 ∧
        (lookup_entry current threshold e tracker results).2.1 =
          results ++ [⟨e.id, (window_update current e t).pos,
            ((window_update current e t).count : ℚ) /
              (window_length (window_update current e t) : ℚ)⟩]) := by
  constructor
  · obtain ⟨threshold, hcmd⟩ :=
      lookup_cmd_parsed descr (.asindex s) hashbytestr togglebytestr thresholdarg hth
    obtain ⟨P, C, I⟩ := reachable_wf hs
    rw [hcmd, if_neg (by omega), if_neg (by omega)]
    simp only [GetIndex]
    have hn : (toI32 (hashbytestr.length / 4)).toNat = hashbytestr.length / 4 := by
      rw [toI32_of_lt (by omega), Int.toNat_natCast]
    rw [hn, lookup_frames_eq I.rep, lookup_frames_keys_short threshold (examined s) _ 0 []
      (le_refl 0) (fun kv hkv => absurd hkv (List.not_mem_nil kv))]
    · rfl
    · have := List.length_take_le (hashbytestr.length / 4)
        ((ntohl_words hashbytestr).zip (ntohl_words togglebytestr))
      omega
  · intro current threshold e tracker results h
    obtain ⟨t, hg, hc, hout⟩ := lookup_entry_emits h
    refine ⟨t, hg, ?_, by rw [hout]⟩
    have := hc.1
    simpa [window_length, LOOKUP_BLOCK] using this

/-- C13 after `add key [1, 2, 3] 7`: the probe `1, 2, 3` itself, with threshold 0, finds
nothing. -/
theorem lookup_block_minimum_witness :
    AuscoutLookup_RedisCmd (fun _ => none) (.asindex index_1_2_3) (htonl_bytes [1, 2, 3])
        (htonl_bytes [0, 0, 0]) (some (some 0)) =
      some ⟨[Reply.rows []], REDISMODULE_OK, .asindex index_1_2_3⟩ :=
  (lookup_block_minimum (fun _ => none) index_1_2_3 reachable_index_1_2_3 (htonl_bytes [1, 2, 3])
    (htonl_bytes [0, 0, 0]) (some (some 0)) (by decide) (by decide) (by decide) (by decide)).1

/-! ## First hit -/

theorem lookup_keys_results (current : Int) (threshold : ℚ) :
    ∀ (l : List (Int × Nat × Nat)) (tracker : Tracker) (results : List FoundId),
    ((lookup_keys current threshold l tracker results).2.2 = false ∧
      (lookup_keys current threshold l tracker results).2.1 = results) ∨
    ((lookup_keys current threshold l tracker results).2.2 = true ∧
      ∃ r, (lookup_keys current threshold l tracker results).2.1 = results ++ [r])
  | [], _, _ => Or.inl ⟨rfl, rfl⟩
  | k :: ks, tracker, results => by
    unfold lookup_keys
    cases hf : (lookup_entry current threshold (entryOfKey k) tracker results).2.2 with
    | true =>
      simp only [if_true]
      obtain ⟨t, _, _, hout⟩ := lookup_entry_emits hf
      exact Or.inr ⟨trivial, _, by rw [hout]⟩
    | false =>
      simp only [Bool.false_eq_true, if_false]
      have hq := (lookup_entry_quiet hf).1
      have ih := lookup_keys_results current threshold ks
        (lookup_entry current threshold (entryOfKey k) tracker results).1
        (lookup_entry current threshold (entryOfKey k) tracker results).2.1
      rw [hq] at ih ⊢
      exact ih

/-- Entries after the one at which the loop emits are not examined. -/
theorem lookup_keys_append (current : Int) (threshold : ℚ) :
    ∀ (l suf : List (Int × Nat × Nat)) (tracker : Tracker) (results : List FoundId),
    (lookup_keys current threshold l tracker results).2.2 = true →
    lookup_keys current threshold (l ++ suf) tracker results =
      lookup_keys current threshold l tracker results
  | [], _, _, _, h => by simp [lookup_keys] at h
  | k :: ks, suf, tracker, results, h => by
    rw [List.cons_append]
    unfold lookup_keys at h ⊢
    cases hf : (lookup_entry current threshold (entryOfKey k) tracker results).2.2 with
    | true => simp only [if_true]
    | false =>
      simp only [hf, Bool.false_eq_true, if_false] at h ⊢
      exact lookup_keys_append current threshold ks suf _ _ h

theorem lookup_candidates_keys_results (current : Int) (threshold : ℚ)
    (post : Nat → List (Int × Nat × Nat)) :
    ∀ (keys : List Nat) (tracker : Tracker) (results : List FoundId),
    ∃ extra, (lookup_candidates_keys current threshold post keys tracker results).2 =
      results ++ extra ∧ extra.length ≤ keys.length
  | [], _, results => ⟨[], by simp [lookup_candidates_keys], le_refl _⟩
  | key :: keys, tracker, results => by
    unfold lookup_candidates_keys
    obtain ⟨extra, h1, h2⟩ := lookup_candidates_keys_results current threshold post keys
      (lookup_keys current threshold (post key) tracker results).1
      (lookup_keys current threshold (post key) tracker results).2.1
    rcases lookup_keys_results current threshold (post key) tracker results with
      ⟨_, hr⟩ | ⟨_, r, hr⟩
    · refine ⟨extra, h1.trans (by rw [hr]), ?_⟩
      simp only [List.length_cons]; omega
    · refine ⟨[r] ++ extra, h1.trans (by rw [hr, List.append_assoc]), ?_⟩
      simp only [List.length_append, List.length_cons, List.length_nil]; omega

theorem lookup_frames_keys_first_hit (threshold : ℚ) (post : Nat → List (Int × Nat × Nat)) :
    ∀ (frames : List (Nat × Nat)) (i : Int) (tracker : Tracker),
    ∃ res, lookup_frames_keys threshold post frames i tracker [] = some res ∧
      (res = [] ∨ ∃ pre frame toggle suf cands, frames = pre ++ (frame, toggle) :: suf ∧
        get_candidates frame toggle = some cands ∧ res.length ≤ cands.length ∧
        ∀ other, lookup_frames_keys threshold post (pre ++ (frame, toggle) :: other) i tracker [] =
          some res)
  | [], _, _ => ⟨[], rfl, Or.inl rfl⟩
  | (frame, toggle) :: rest, i, tracker => by
    by_cases hpos : (lookup_candidates_keys i threshold post (hashvalue_candidates frame toggle)
        tracker []).2.length > 0
    · have hrun : ∀ other, lookup_frames_keys threshold post ((frame, toggle) :: other) i tracker [] =
          some (lookup_candidates_keys i threshold post (hashvalue_candidates frame toggle)
            tracker []).2 := by
        intro other
        simp only [lookup_frames_keys, get_candidates_total]
        rw [if_pos hpos]
      refine ⟨_, hrun rest, Or.inr ⟨[], frame, toggle, rest, _, rfl,
        get_candidates_total frame toggle, ?_, hrun⟩⟩
      obtain ⟨extra, h1, h2⟩ := lookup_candidates_keys_results i threshold post
        (hashvalue_candidates frame toggle) tracker []
      rw [h1]
      simpa using h2
    · have hnil : (lookup_candidates_keys i threshold post (hashvalue_candidates frame toggle)
          tracker []).2 = [] := by
        apply List.eq_nil_of_length_eq_zero
        omega
      have hrun : ∀ other, lookup_frames_keys threshold post ((frame, toggle) :: other) i tracker [] =
          lookup_frames_keys threshold post other (i + 1)
            (lookup_candidates_keys i threshold post (hashvalue_candidates frame toggle)
              tracker []).1 [] := by
        intro other
        simp only [lookup_frames_keys, get_candidates_total]
        rw [if_neg hpos, hnil]
      obtain ⟨res, h1, h2⟩ := lookup_frames_keys_first_hit threshold post rest (i + 1)
        (lookup_candidates_keys i threshold post (hashvalue_candidates frame toggle) tracker []).1
      refine ⟨res, by rw [hrun, h1], ?_⟩
      rcases h2 with h2 | ⟨pre, f, t, suf, cands, e1, e2, e3, e4⟩
      · exact Or.inl h2
      · refine Or.inr ⟨(frame, toggle) :: pre, f, t, suf, cands, by rw [e1]; rfl, e2, e3, ?_⟩
        intro other
        rw [List.cons_append, hrun, e4]

/-- C12, amended (first hit). On an index built by `add` and `del`: a call of
`lookup_hashframe` adds at most one result and returns as soon as it has added it, so the
posting entries after the emitting one are not examined; the remaining candidates of the
frame are still looked up; no frame after the first frame with a result is processed;
`lookup` therefore returns at most one result per candidate of that frame, and at most one
result when the toggles are zero. -/
theorem lookup_first_hit (s : ASIndex) (hs : Reachable s) (threshold : ℚ) :
    (∀ (current : Int) (hashframe : Nat) (tracker : Tracker) (results : List FoundId),
      lookup_hashframe current threshold s.mem s.hash_dict hashframe tracker results =
        some (lookup_keys current threshold (examined s hashframe) tracker results) ∧
      (((lookup_keys current threshold (examined s hashframe) tracker results).2.2 = false ∧
        (lookup_keys current threshold (examined s hashframe) tracker results).2.1 = results) ∨
       ((lookup_keys current threshold (examined s hashframe) tracker results).2.2 = true ∧
        ∃ r, (lookup_keys current threshold (examined s hashframe) tracker results).2.1 =
          results ++ [r]))) ∧
    (∀ (current : Int) (l suf : List (Int × Nat × Nat)) (tracker : Tracker)
      (results : List FoundId), (lookup_keys current threshold l tracker results).2.2 = true →
      lookup_keys current threshold (l ++ suf) tracker results =
        lookup_keys current threshold l tracker results) ∧
    (∀ frames : List (Nat × Nat), ∃ res, lookup_frames threshold s frames 0 [] [] = some res ∧
      (res = [] ∨ ∃ pre frame toggle suf cands, frames = pre ++ (frame, toggle) :: suf ∧
        get_candidates frame toggle = some cands ∧ res.length ≤ cands.length ∧
        ∀ other, lookup_frames threshold s (pre ++ (frame, toggle) :: other) 0 [] [] = some res) ∧
      ((∀ ft ∈ frames, ft.2 = 0) → res.length ≤ 1)) := by
  obtain ⟨P, C, I⟩ := reachable_wf hs
  refine ⟨fun current hashframe tracker results =>
    ⟨lookup_hashframe_eq I.rep current threshold hashframe tracker results,
      lookup_keys_results current threshold _ tracker results⟩,
    fun current l suf tracker results h => lookup_keys_append current threshold l suf tracker results h,
    ?_⟩
  intro frames
  obtain ⟨res, h1, h2⟩ := lookup_frames_keys_first_hit threshold (examined s) frames 0 []
  refine ⟨res, by rw [lookup_frames_eq I.rep, h1], ?_, ?_⟩
  · rcases h2 with h2 | ⟨pre, frame, toggle, suf, cands, e1, e2, e3, e4⟩
    · exact Or.inl h2
    · exact Or.inr ⟨pre, frame, toggle, suf, cands, e1, e2, e3,
        fun other => by rw [lookup_frames_eq I.rep, e4]⟩
  · intro hz
    rcases h2 with h2 | ⟨pre, frame, toggle, suf, cands, e1, e2, e3, _⟩
    · rw [h2]; exact Nat.zero_le _
    · have ht : toggle = 0 := hz (frame, toggle) (by rw [e1]; simp)
      subst ht
      rw [get_candidates_zero] at e2
      cases e2
      simpa using e3

/-- C12, amended, on the two tracks of `index_2_3`: with zero toggles a probe of 100 frames of
hash 2 returns one result. -/
theorem lookup_first_hit_witness :
    ∃ res, lookup_frames (3 / 10) index_2_3 (List.replicate 100 (2, 0)) 0 [] [] = some res ∧
      res.length ≤ 1 := by
  obtain ⟨res, h1, _, h3⟩ :=
    (lookup_first_hit index_2_3 (reachable_index_of _ (by decide)) (3 / 10)).2.2
      (List.replicate 100 (2, 0))
  exact ⟨res, h1, h3 (fun ft hft => by rw [List.eq_of_mem_replicate hft])⟩

theorem DictGetC_trackerSet (tracker : Tracker) (id : Int) (t : TrackerId) (id' : Int) :
    DictGetC (trackerSet tracker id t) id' = if id' = id then some t else DictGetC tracker id' := by
  unfold trackerSet DictReplaceC
  cases hg : DictGetC tracker id with
  | none =>
    by_cases h : id' = id
    · subst h; rw [if_pos rfl]; exact DictGetC_dictInsert_eq _ _ _ _ hg
    · rw [if_neg h]; exact DictGetC_dictInsert_ne _ _ _ _ _ h
  | some t0 =>
    by_cases h : id' = id
    · subst h; rw [if_pos rfl, DictGetC_dictUpdate_eq, hg]; rfl
    · rw [if_neg h]; exact DictGetC_dictUpdate_ne _ _ _ _ h

theorem nodup_trackerSet {tracker : Tracker} (id : Int) (t : TrackerId)
    (h : (dictKeys tracker).Nodup) : (dictKeys (trackerSet tracker id t)).Nodup := by
  unfold trackerSet DictReplaceC
  cases hg : DictGetC tracker id with
  | none => exact nodup_dictKeys_dictInsert _ _ _ _ h ((DictGetC_eq_none_iff _ _).1 hg)
  | some t0 => simp only; rw [dictKeys_dictUpdate]; exact h

theorem minPos_singleton (p : Nat) : MinPos (toI32 p) [p % 2 ^ 32] := by
  refine ⟨p % 2 ^ 32, List.mem_singleton.2 rfl, ?_, ?_⟩
  · intro q hq; rw [List.mem_singleton.1 hq]
  · unfold toI32; rw [Nat.mod_mod]

theorem minPos_snoc {pos : Int} {w : List Nat} (p : Nat) (h : MinPos pos w)
    (hw : ∀ q ∈ w, q < 2 ^ 32) :
    MinPos (if p % 2 ^ 32 < toU32 pos then toI32 p else pos) (w ++ [p % 2 ^ 32]) := by
  obtain ⟨m, hm, hle, rfl⟩ := h
  have hm32 : m % 2 ^ 32 = m := Nat.mod_eq_of_lt (hw m hm)
  rw [toU32_toI32, hm32]
  by_cases hlt : p % 2 ^ 32 < m
  · rw [if_pos hlt]
    refine ⟨p % 2 ^ 32, by simp, ?_, ?_⟩
    · intro q hq
      rcases List.mem_append.1 hq with hq | hq
      · exact le_trans (le_of_lt hlt) (hle q hq)
      · rw [List.mem_singleton.1 hq]
    · unfold toI32; rw [Nat.mod_mod]
  · rw [if_neg hlt]
    refine ⟨m, List.mem_append_left _ hm, ?_, rfl⟩
    intro q hq
    rcases List.mem_append.1 hq with hq | hq
    · exact hle q hq
    · rw [List.mem_singleton.1 hq]; exact Nat.le_of_not_lt hlt

theorem Watched.set {threshold : ℚ} {tracker : Tracker} {seen : Int → List Nat}
    (hw : Watched threshold tracker seen) (id : Int) (t2 : TrackerId) (w : List Nat)
    (h1 : ¬ crosses threshold t2) (h2 : MinPos t2.pos w) (h3 : ∀ p ∈ w, p < 2 ^ 32) :
    Watched threshold (trackerSet tracker id t2) (Function.update seen id w) := by
  refine ⟨nodup_trackerSet id t2 hw.1, ?_⟩
  intro id' t ht
  rw [DictGetC_trackerSet] at ht
  by_cases h : id' = id
  · subst h
    rw [if_pos rfl] at ht
    cases ht
    rw [Function.update_same]
    exact ⟨h1, h2, h3⟩
  · rw [if_neg h] at ht
    rw [Function.update_noteq h]
    exact hw.2 id' t ht

theorem Watched.erase {threshold : ℚ} {tracker : Tracker} {seen : Int → List Nat}
    (hw : Watched threshold tracker seen) (id : Int) (w : List Nat) :
    Watched threshold (dictErase id tracker) (Function.update seen id w) := by
  refine ⟨nodup_dictKeys_dictErase _ _ hw.1, ?_⟩
  intro id' t ht
  by_cases h : id' = id
  · subst h
    rw [DictGetC_dictErase_eq _ _ hw.1] at ht
    exact Option.noConfusion ht
  · rw [DictGetC_dictErase_ne _ _ _ h] at ht
    rw [Function.update_noteq h]
    exact hw.2 id' t ht

theorem not_crosses_fresh (threshold : ℚ) (current pos : Int) :
    ¬ crosses threshold ⟨current, current, pos, 1⟩ := by
  intro hc
  have := hc.1
  simp only [window_length, LOOKUP_BLOCK] at this
  omega

/-- One entry of the loop keeps the tracker and the ghost state in agreement, and a result
it emits reports the least position seen in the window of its id. -/
theorem lookup_entry_watched {current : Int} {threshold : ℚ} (e : Entry) {tracker : Tracker}
    (results : List FoundId) {seen : Int → List Nat} (hw : Watched threshold tracker seen) :
    Watched threshold (lookup_entry current threshold e tracker results).1
      (seen_entry current e tracker seen) ∧
    ((lookup_entry current threshold e tracker results).2.2 = true →
      ∃ r, (lookup_entry current threshold e tracker results).2.1 = results ++ [r] ∧
        Reported r (e.id, seen_entry current e tracker seen e.id)) ∧
    ((lookup_entry current threshold e tracker results).2.2 = false →
      (lookup_entry current threshold e tracker results).2.1 = results) := by
  have hp : e.pos % 2 ^ 32 < 2 ^ 32 := Nat.mod_lt _ (by norm_num)
  have hsingle : ∀ p ∈ [e.pos % 2 ^ 32], p < 2 ^ 32 := by
    intro p hp'; rw [List.mem_singleton.1 hp']; exact hp
  cases hg : DictGetC tracker e.id with
  | none =>
    rw [lookup_entry_untracked results hg]
    have hs : seen_entry current e tracker seen =
        Function.update seen e.id [e.pos % 2 ^ 32] := by
      unfold seen_entry; rw [hg]
    rw [hs]
    refine ⟨hw.set _ _ _ (not_crosses_fresh _ _ _) (minPos_singleton _) hsingle, ?_, fun _ => rfl⟩
    intro h; simp at h
  | some t =>
    obtain ⟨hnc, hmin, hlt⟩ := hw.2 e.id t hg
    have hsnoc : ∀ p ∈ seen e.id ++ [e.pos % 2 ^ 32], p < 2 ^ 32 := by
      intro p hp'
      rcases List.mem_append.1 hp' with h | h
      · exact hlt p h
      · exact hsingle p h
    rw [lookup_entry_tracked results hg]
    by_cases hr : current ≤ t.last_index + LOOKUP_STEPS
    · have hs : seen_entry current e tracker seen =
          Function.update seen e.id (seen e.id ++ [e.pos % 2 ^ 32]) := by
        unfold seen_entry; rw [hg]; simp only [if_pos hr]
      have hpos : (window_update current e t).pos =
          if e.pos % 2 ^ 32 < toU32 t.pos then toI32 e.pos else t.pos := by
        unfold window_update; rw [if_pos hr]
      have hlast : (window_update current e t).last_index = current := by
        unfold window_update; rw [if_pos hr]
      have hmin' : MinPos (window_update current e t).pos (seen e.id ++ [e.pos % 2 ^ 32]) := by
        rw [hpos]; exact minPos_snoc e.pos hmin hlt
      rw [hs]
      by_cases hc : crosses threshold (window_update current e t)
      · rw [if_pos hc]
        refine ⟨hw.erase _ _, fun _ => ⟨_, rfl, rfl, ?_⟩, fun h => by simp at h⟩
        rw [Function.update_same]
        exact hmin'
      · rw [if_neg hc]
        have hng : ¬ current > (window_update current e t).last_index + LOOKUP_STEPS := by
          rw [hlast]; simp only [LOOKUP_STEPS]; omega
        rw [if_neg hng]
        exact ⟨hw.set _ _ _ hc hmin' hsnoc, fun h => by simp at h, fun _ => rfl⟩
    · have hs : seen_entry current e tracker seen =
          Function.update seen e.id [e.pos % 2 ^ 32] := by
        unfold seen_entry; rw [hg]; simp only [if_neg hr]
      have hwu : window_update current e t = t := by
        unfold window_update; rw [if_neg hr]
      rw [hs, hwu, if_neg hnc, if_pos (by omega)]
      exact ⟨hw.set _ _ _ (not_crosses_fresh _ _ _) (minPos_singleton _) hsingle,
        fun h => by simp at h, fun _ => rfl⟩

theorem forall2_snoc {α β : Type} {R : α → β → Prop} {l1 : List α} {l2 : List β} {a : α}
    {b : β} (h : List.Forall₂ R l1 l2) (hab : R a b) :
    List.Forall₂ R (l1 ++ [a]) (l2 ++ [b]) := by
  induction h with
  | nil => exact List.Forall₂.cons hab List.Forall₂.nil
  | cons h1 _ ih => exact List.Forall₂.cons h1 ih

theorem lookup_keys_watched (current : Int) (threshold : ℚ) :
    ∀ (l : List (Int × Nat × Nat)) (tracker : Tracker) (results : List FoundId)
      (seen : Int → List Nat) (wins : List (Int × List Nat)),
    Watched threshold tracker seen → List.Forall₂ Reported results wins →
    Watched threshold (lookup_keys current threshold l tracker results).1
      (lookup_keys_seen current threshold l tracker results seen wins).1 ∧
    List.Forall₂ Reported (lookup_keys current threshold l tracker results).2.1
      (lookup_keys_seen current threshold l tracker results seen wins).2
  | [], _, _, _, _, hw, hr => ⟨hw, hr⟩
  | k :: ks, tracker, results, seen, wins, hw, hr => by
    obtain ⟨h1, h2, h3⟩ := lookup_entry_watched (entryOfKey k) results hw
    unfold lookup_keys lookup_keys_seen
    cases hf : (lookup_entry current threshold (entryOfKey k) tracker results).2.2 with
    | true =>
      simp only [if_true]
      obtain ⟨r, hres, hrep⟩ := h2 hf
      refine ⟨h1, ?_⟩
      rw [hres]
      exact forall2_snoc hr hrep
    | false =>
      simp only [Bool.false_eq_true, if_false]
      exact lookup_keys_watched current threshold ks _ _ _ _ h1 (by rw [h3 hf]; exact hr)

theorem lookup_candidates_watched (current : Int) (threshold : ℚ)
    (post : Nat → List (Int × Nat × Nat)) :
    ∀ (keys : List Nat) (tracker : Tracker) (results : List FoundId)
      (seen : Int → List Nat) (wins : List (Int × List Nat)),
    Watched threshold tracker seen → List.Forall₂ Reported results wins →
    Watched threshold (lookup_candidates_keys current threshold post keys tracker results).1
      (lookup_candidates_seen current threshold post keys tracker results seen wins).1 ∧
    List.Forall₂ Reported (lookup_candidates_keys current threshold post keys tracker results).2
      (lookup_candidates_seen current threshold post keys tracker results seen wins).2
  | [], _, _, _, _, hw, hr => ⟨hw, hr⟩
  | key :: keys, tracker, results, seen, wins, hw, hr => by
    obtain ⟨h1, h2⟩ := lookup_keys_watched current threshold (post key) tracker results seen wins
      hw hr
    unfold lookup_candidates_keys lookup_candidates_seen
    exact lookup_candidates_watched current threshold post keys _ _ _ _ h1 h2

theorem lookup_frames_watched (threshold : ℚ) (post : Nat → List (Int × Nat × Nat)) :
    ∀ (frames : List (Nat × Nat)) (i : Int) (tracker : Tracker) (results : List FoundId)
      (seen : Int → List Nat) (wins : List (Int × List Nat)),
    Watched threshold tracker seen → List.Forall₂ Reported results wins →
    ∃ res, lookup_frames_keys threshold post frames i tracker results = some res ∧
      List.Forall₂ Reported res
        (lookup_frames_seen threshold post frames i tracker results seen wins)
  | [], _, _, results, _, _, _, hr => ⟨results, rfl, hr⟩
  | (frame, toggle) :: rest, i, tracker, results, seen, wins, hw, hr => by
    obtain ⟨h1, h2⟩ := lookup_candidates_watched i threshold post
      (hashvalue_candidates frame toggle) tracker results seen wins hw hr
    simp only [lookup_frames_keys, lookup_frames_seen, get_candidates_total]
    by_cases hpos : (lookup_candidates_keys i threshold post (hashvalue_candidates frame toggle)
        tracker results).2.length > 0
    · rw [if_pos hpos, if_pos hpos]
      exact ⟨_, rfl, h2⟩
    · rw [if_neg hpos, if_neg hpos]
      exact lookup_frames_watched threshold post rest (i + 1) _ _ _ _ h1 h2

/-- C16 (reported position). On an index built by `add` and `del`, every result
`(id, pos, score)` that `lookup` returns has for `pos` the least entry position among the
entries of that id examined since the start of the emitting window, the emitting entry
included (read as a C `int`, so the position itself when it is below `2^31`). -/
theorem lookup_reported_pos (s : ASIndex) (hs : Reachable s) (threshold : ℚ)
    (frames : List (Nat × Nat)) :
    ∃ res, lookup_frames threshold s frames 0 [] [] = some res ∧
      List.Forall₂
        (fun (r : FoundId) (w : Int × List Nat) => w.1 = r.id ∧
          ∃ m, m ∈ w.2 ∧ (∀ p ∈ w.2, m ≤ p) ∧ r.pos = toI32 m ∧ (m < 2 ^ 31 → r.pos = (m : Int)))
        res (lookup_frames_seen threshold (examined s) frames 0 [] [] (fun _ => []) []) := by
  obtain ⟨P, C, I⟩ := reachable_wf hs
  obtain ⟨res, h1, h2⟩ := lookup_frames_watched threshold (examined s) frames 0 [] []
    (fun _ => []) [] ⟨List.nodup_nil, fun id t h => by simp [DictGetC] at h⟩ List.Forall₂.nil
  refine ⟨res, by rw [lookup_frames_eq I.rep, h1], ?_⟩
  refine h2.imp ?_
  rintro r w ⟨hid, m, hm, hle, hpos⟩
  exact ⟨hid, m, hm, hle, hpos, fun h31 => by rw [hpos, toI32_of_lt h31]⟩

/-- C16 on the track `10, 20, 30` of id 7 and the probe `probe_30_20` with threshold 0: the
window of id 7 saw the positions `2, 1, 1, 1, 1, 1, 1, 1` and the result reports `pos = 1`. -/
theorem lookup_reported_pos_witness :
    lookup_frames 0 (index_of [([10, 20, 30], 7)]) probe_30_20 0 [] [] =
      some [⟨7, 1, 2 / 25⟩] ∧
    lookup_frames_seen 0 (examined (index_of [([10, 20, 30], 7)])) probe_30_20 0 [] []
      (fun _ => []) [] = [(7, [2, 1, 1, 1, 1, 1, 1, 1])] ∧
    ∃ res, lookup_frames 0 (index_of [([10, 20, 30], 7)]) probe_30_20 0 [] [] = some res ∧
      List.Forall₂
        (fun (r : FoundId) (w : Int × List Nat) => w.1 = r.id ∧
          ∃ m, m ∈ w.2 ∧ (∀ p ∈ w.2, m ≤ p) ∧ r.pos = toI32 m ∧ (m < 2 ^ 31 → r.pos = (m : Int)))
        res (lookup_frames_seen 0 (examined (index_of [([10, 20, 30], 7)])) probe_30_20 0 [] []
          (fun _ => []) []) :=
  ⟨by decide!, by decide!,
    lookup_reported_pos (index_of [([10, 20, 30], 7)]) (reachable_index_of _ (by decide)) 0
      probe_30_20⟩

/-- C21 (delkey removes the index). A `delkey` succeeds exactly on a key that holds an
index; it replies `OK` and leaves the key empty, so `count` and `size` then reply 0 and a
second `delkey` fails with "No such key". -/
theorem delkey_removes_index (key : KeyValue)
    (h : (AuscoutDelKey_RedisCmd key).status = REDISMODULE_OK) :
    (∃ s, key = .asindex s) ∧
    AuscoutDelKey_RedisCmd key = ⟨[Reply.simple "OK"], REDISMODULE_OK, .empty⟩ ∧
    GetIndex (AuscoutDelKey_RedisCmd key).key = some none ∧
    AuscoutCount_RedisCmd (AuscoutDelKey_RedisCmd key).key =
      ⟨[Reply.integer 0], REDISMODULE_OK, .empty⟩ ∧
    AuscoutSize_RedisCmd (AuscoutDelKey_RedisCmd key).key =
      ⟨[Reply.integer 0], REDISMODULE_OK, .empty⟩ ∧
    AuscoutDelKey_RedisCmd (AuscoutDelKey_RedisCmd key).key =
      ⟨[Reply.error "No such key"], REDISMODULE_ERR, .empty⟩ := by
  rcases key with _ | s | _
  · exact absurd h (by decide)
  · exact ⟨⟨s, rfl⟩, rfl, rfl, rfl, rfl, rfl⟩
  · exact absurd h (by decide)

/-- C21 after `add key [1, 2, 3] 7`: `delkey` succeeds, then `count` and `size` reply 0 and
`delkey` replies "No such key". -/
theorem delkey_removes_index_witness :
    AuscoutCount_RedisCmd (.asindex index_1_2_3) =
      ⟨[Reply.integer 1], REDISMODULE_OK, .asindex index_1_2_3⟩ ∧
    AuscoutCount_RedisCmd (AuscoutDelKey_RedisCmd (.asindex index_1_2_3)).key =
      ⟨[Reply.integer 0], REDISMODULE_OK, .empty⟩ ∧
    AuscoutSize_RedisCmd (AuscoutDelKey_RedisCmd (.asindex index_1_2_3)).key =
      ⟨[Reply.integer 0], REDISMODULE_OK, .empty⟩ ∧
    AuscoutDelKey_RedisCmd (AuscoutDelKey_RedisCmd (.asindex index_1_2_3)).key =
      ⟨[Reply.error "No such key"], REDISMODULE_ERR, .empty⟩ :=
  ⟨rfl, (delkey_removes_index (.asindex index_1_2_3) rfl).2.2.2.1,
    (delkey_removes_index (.asindex index_1_2_3) rfl).2.2.2.2.1,
    (delkey_removes_index (.asindex index_1_2_3) rfl).2.2.2.2.2⟩

/-! ## Candidate expansion completes -/

theorem toI32_pred_le (X : Nat) (hX : 0 < X) : (toI32 X - 1).toNat + 1 ≤ X := by
  unfold toI32
  have h1 : X % 2 ^ 32 ≤ X := Nat.mod_le _ _
  split <;> omega

/-- C22 (candidate expansion always completes). For every frame and every toggle,
`bitcount` returns the number of set bits of the 32-bit toggle and `get_candidates` returns
a vector of at least 1 and at most `2^popcount(toggle)` candidates, the loops ending within
33 iterations each; with `toggle = 0xFFFFFFFF` the `int` `1 << 32` is 0 and the vector is
the frame alone. -/
theorem get_candidates_completes (hashvalue toggle : Nat) :
    bitcount toggle = some (popcount (toggle % 2 ^ 32)) ∧
    (∃ cands, get_candidates hashvalue toggle = some cands ∧ 1 ≤ cands.length ∧
      cands.length ≤ 2 ^ popcount (toggle % 2 ^ 32) ∧ cands.head? = some (hashvalue % 2 ^ 32)) ∧
    bitcount 0xFFFFFFFF = some 32 ∧
    get_candidates hashvalue 0xFFFFFFFF = some [hashvalue % 2 ^ 32] := by
  refine ⟨bitcount_eq toggle, ⟨_, get_candidates_eq hashvalue toggle, ?_, ?_, rfl⟩, by decide, ?_⟩
  · simp only [List.length_cons]; omega
  · simp only [List.length_cons, List.length_map, List.length_range]
    exact toI32_pred_le _ (by positivity)
  · rw [get_candidates_eq]
    have hp : popcount (0xFFFFFFFF % 2 ^ 32) = 32 := by decide
    rw [hp]
    have h0 : (toI32 (2 ^ 32) - 1).toNat = 0 := by decide
    rw [h0]
    rfl

/-! ## Tracks without entries and failed id allocation -/

/-- C29, the code at `auscout.add key <one frame 0> 7` on an empty key: the add succeeds and
registers id 7 with an empty chain (`head` null); on that index `ASIndexTypeRdbSave` and
`ASIndexTypeAofRewrite` dereference the null head. -/
theorem empty_track_registered :
    auscoutadd_common ⟨0, 0, none⟩ .empty [0, 0, 0, 0] (some (some 7)) =
      some (.returned [] 7 (.asindex index_zero_frame)) ∧
    Reachable index_zero_frame ∧
    DictGetC index_zero_frame.id_dict 7 = some ⟨none, 0⟩ ∧
    trackChain index_zero_frame 7 = [] ∧
    ASIndexTypeRdbSave index_zero_frame = none ∧
    (∀ fuel : Nat, ASIndexTypeAofRewrite fuel index_zero_frame = Run.fault) :=
  ⟨by decide,
    Reachable.add ⟨0, 0, none⟩ [0, 0, 0, 0] (some (some 7)) [] 7 Reachable.empty
      (by intro v hv; cases hv; decide) (by decide),
    by decide, by decide, by decide, fun _ => rfl⟩

/-- C30, the code at `auscout.add key <frames 1, 2, 3>` without an id when `INCRBY` does not
reply an integer: `get_next_id` replies the error and returns `REDISMODULE_ERR = 1`, and
`auscoutadd_common` goes on with id 1: the track is registered with its three entries and the
command sends a second reply, the id 1, and returns `REDISMODULE_OK`. -/
theorem id_failure_still_adds :
    get_next_id ⟨0, 0, none⟩ = ([Reply.error "ERR - Unable to generate unique Id"], 1) ∧
    AuscoutAdd_RedisCmd ⟨0, 0, none⟩ (.asindex emptyIndex) (htonl_bytes [1, 2, 3]) none =
      some ⟨[Reply.error "ERR - Unable to generate unique Id", Reply.integer 1],
        REDISMODULE_OK, .asindex index_id_err⟩ ∧
    AuscoutCount_RedisCmd (.asindex index_id_err) =
      ⟨[Reply.integer 1], REDISMODULE_OK, .asindex index_id_err⟩ ∧
    AuscoutSize_RedisCmd (.asindex index_id_err) =
      ⟨[Reply.integer 3], REDISMODULE_OK, .asindex index_id_err⟩ := by
  decide

theorem window_update_pos {current : Int} {e : Entry} {t : TrackerId} (he : e.pos < 2 ^ 31)
    (h0 : 0 ≤ t.pos) (h1 : t.pos < 2 ^ 31) (hr : current ≤ t.last_index + LOOKUP_STEPS) :
    window_update current e t = ⟨t.start_index, current, min t.pos (e.pos : Int), t.count + 1⟩ := by
  unfold window_update
  rw [if_pos hr]
  have hm : e.pos % 2 ^ 32 = e.pos := Nat.mod_eq_of_lt (by omega)
  have hu : toU32 t.pos = t.pos.toNat := by
    unfold toU32
    rw [Int.emod_eq_of_lt h0 (by omega)]
  rw [hm, hu, toI32_of_lt he]
  by_cases hlt : e.pos < t.pos.toNat
  · rw [if_pos hlt, min_eq_right (by omega)]
  · rw [if_neg hlt, min_eq_left (by omega)]

theorem calm_of_reachable {threshold : ℚ} {tracker : Tracker}
    (h : TrackerReachable threshold tracker) : Calm threshold tracker := by
  induction h with
  | start => exact fun kv hkv => absurd hkv (List.not_mem_nil kv)
  | @step tracker current e results _ he ih =>
    cases hf : (lookup_entry current threshold e tracker results).2.2 with
    | false =>
      obtain ⟨_, t2, hset, _, hnc, hshape⟩ := lookup_entry_quiet hf
      rw [hset]
      intro kv hkv
      rcases mem_trackerSet hkv with rfl | hkv
      · refine ⟨hnc, ?_⟩
        rcases hshape with rfl | ⟨t, hg, hr, rfl⟩
        · simp only
          rw [toI32_of_lt he]
          omega
        · obtain ⟨_, h0, h1⟩ := ih _ (mem_of_DictGetC _ _ _ hg)
          rw [window_update_pos he h0 h1 hr]
          simp only
          constructor
          · exact le_min h0 (by omega)
          · exact lt_of_le_of_lt (min_le_left _ _) h1
      · exact ih kv hkv
    | true =>
      obtain ⟨t, _, _, hout⟩ := lookup_entry_emits hf
      rw [hout]
      exact fun kv hkv => ih kv (mem_of_mem_dictErase _ _ _ hkv)

/-- C23 (tracker step). On every tracker state a lookup can reach, for every frame index `i`
and every entry `e` examined (its `pos` fitting an `int`), the body of the loop of
`lookup_hashframe` does what the three-case rule says; in particular on a stale tracked id
the threshold test the code runs before the reset emits nothing and the id is reset. -/
theorem tracker_step_rule (threshold : ℚ) (tracker : Tracker)
    (hreach : TrackerReachable threshold tracker) (i : Int) (e : Entry) (he : e.pos < 2 ^ 31)
    (results : List FoundId) :
    lookup_entry i threshold e tracker results = tracker_rule i threshold e tracker results ∧
    (∀ t, DictGetC tracker e.id = some t → i > t.last_index + 16 →
      lookup_entry i threshold e tracker results =
        (trackerSet tracker e.id ⟨i, i, (e.pos : Int), 1⟩, results, false)) := by
  have hcalm := calm_of_reachable hreach
  have hstale : ∀ t, DictGetC tracker e.id = some t → i > t.last_index + 16 →
      lookup_entry i threshold e tracker results =
        (trackerSet tracker e.id ⟨i, i, (e.pos : Int), 1⟩, results, false) := by
    intro t hg hgt
    obtain ⟨hnc, _, _⟩ := hcalm _ (mem_of_DictGetC _ _ _ hg)
    have hr : ¬ i ≤ t.last_index + LOOKUP_STEPS := by
      simp only [LOOKUP_STEPS]; omega
    have hwu : window_update i e t = t := by
      unfold window_update; rw [if_neg hr]
    rw [lookup_entry_tracked results hg, hwu, if_neg hnc, if_pos (by
      simp only [LOOKUP_STEPS]; omega), toI32_of_lt he]
  refine ⟨?_, hstale⟩
  cases hg : DictGetC tracker e.id with
  | none =>
    rw [lookup_entry_untracked results hg, toI32_of_lt he]
    unfold tracker_rule
    rw [hg]
  | some t =>
    obtain ⟨hnc, h0, h1⟩ := hcalm _ (mem_of_DictGetC _ _ _ hg)
    by_cases hr : i ≤ t.last_index + 16
    · have hr' : i ≤ t.last_index + LOOKUP_STEPS := hr
      rw [lookup_entry_tracked results hg, window_update_pos he h0 h1 hr']
      unfold tracker_rule
      rw [hg]
      simp only [if_pos hr]
      have hng : ¬ i > i + LOOKUP_STEPS := by
        simp only [LOOKUP_STEPS]; omega
      simp only [crosses, window_length, LOOKUP_BLOCK, hng, if_false]
    · rw [hstale t hg (by omega)]
      unfold tracker_rule
      rw [hg]
      simp only [if_neg hr]

/-- C23 on the tracker left by an entry of id 7 (pos 5) at frame 0: an entry of id 7 (pos 3)
at frame 20 is stale and resets the window. -/
theorem tracker_step_rule_witness :
    (lookup_entry 0 (3 / 10) ⟨none, none, none, 7, 5, 1⟩ [] []).1 = [(7, ⟨0, 0, 5, 1⟩)] ∧
    lookup_entry 20 (3 / 10) ⟨none, none, none, 7, 3, 1⟩
        (lookup_entry 0 (3 / 10) ⟨none, none, none, 7, 5, 1⟩ [] []).1 [] =
      tracker_rule 20 (3 / 10) ⟨none, none, none, 7, 3, 1⟩
        (lookup_entry 0 (3 / 10) ⟨none, none, none, 7, 5, 1⟩ [] []).1 [] ∧
    tracker_rule 20 (3 / 10) ⟨none, none, none, 7, 3, 1⟩ [(7, ⟨0, 0, 5, 1⟩)] [] =
      ([(7, ⟨20, 20, 3, 1⟩)], [], false) :=
  ⟨by decide!,
    (tracker_step_rule (3 / 10) _
      (TrackerReachable.step 0 ⟨none, none, none, 7, 5, 1⟩ [] TrackerReachable.start (by decide))
      20 ⟨none, none, none, 7, 3, 1⟩ (by decide) []).1,
    by decide!⟩

theorem posting_addrs_eq {mem : Heap} : ∀ (l : List Addr) (q : Option Addr) (fuel : Nat),
    IsDll mem q l → l.length ≤ fuel → posting_addrs mem fuel l.head? = l
  | [], _, fuel, _, _ => by cases fuel <;> simp [posting_addrs]
  | a :: rest, q, 0, _, hf => by simp at hf
  | a :: rest, q, fuel + 1, hd, hf => by
    obtain ⟨_, h2, h3⟩ := hd
    obtain ⟨e, he, hn⟩ := load_of_nextOf h2
    have ih := posting_addrs_eq rest (some a) fuel h3 (by simp at hf; omega)
    simp only [List.head?_cons, posting_addrs, he]
    rw [hn, ih]

theorem chain_addrs_eq {mem : Heap} : ∀ (l : List Addr) (fuel : Nat),
    IsChain mem l → l.length ≤ fuel → chain_addrs mem fuel l.head? = l
  | [], fuel, _, _ => by cases fuel <;> simp [chain_addrs]
  | a :: rest, 0, _, hf => by simp at hf
  | a :: rest, fuel + 1, hc, hf => by
    obtain ⟨h2, h3⟩ := hc
    obtain ⟨e, he, hn⟩ := load_of_succOf h2
    have ih := chain_addrs_eq rest fuel h3 (by simp at hf; omega)
    simp only [List.head?_cons, chain_addrs, he]
    rw [hn, ih]

theorem Represents.postingAddrs_eq {s : ASIndex} {P : Nat → List Addr} {C : Int → List Addr}
    (W : Represents s P C) (h : Nat) : postingAddrs s h = P h := by
  unfold postingAddrs
  cases hg : DictGetC s.hash_dict h with
  | none => simp [W.1.hd_none h hg]
  | some l =>
    obtain ⟨_, hhead, _⟩ := W.1.hd_some h l hg
    simp only [hhead]
    apply posting_addrs_eq (P h) none _ (W.1.dll h)
    exact le_trans (length_le_of_live (W.1.p_nodup h) (fun a ha => W.1.p_live ha))
      (liveCount_le _)

theorem Represents.chainAddrs_eq {s : ASIndex} {P : Nat → List Addr} {C : Int → List Addr}
    (W : Represents s P C) (id : Int) : chainAddrs s id = C id := by
  unfold chainAddrs
  cases hg : DictGetC s.id_dict id with
  | none => simp [W.2.none id hg]
  | some l =>
    obtain ⟨hhead, _, _⟩ := W.2.some id l hg
    simp only [hhead]
    apply chain_addrs_eq (C id) _ (W.1.chain id)
    exact le_trans (length_le_of_live (W.1.c_nodup id) (fun a ha => W.1.c_live ha))
      (liveCount_le _)

theorem Represents.chain_perm_live {s : ASIndex} {P : Nat → List Addr} {C : Int → List Addr}
    (W : Represents s P C) : ((dictKeys s.id_dict).flatMap C).Perm (liveAddrs s.mem) := by
  rw [List.perm_ext_iff_of_nodup _ (nodup_liveAddrs _)]
  · intro a
    rw [mem_liveAddrs, List.mem_flatMap]
    constructor
    · rintro ⟨id, _, ha⟩
      exact W.1.c_live ha
    · intro ha
      obtain ⟨k, hk⟩ := Option.ne_none_iff_exists'.1 ha
      have hm := (W.1.live a k hk).2
      refine ⟨k.1, ?_, hm⟩
      rw [← DictGetC_isSome_iff]
      cases hg : DictGetC s.id_dict k.1 with
      | none =>
        have := W.2.none _ hg
        rw [this] at hm; simp at hm
      | some l => exact ⟨l, rfl⟩
  · rw [List.nodup_flatMap]
    refine ⟨fun id _ => W.1.c_nodup id, ?_⟩
    have hn : (dictKeys s.id_dict).Pairwise (· ≠ ·) := W.2.nodup
    apply hn.imp
    intro i j hij
    show List.Disjoint (C i) (C j)
    intro a ha hb
    exact hij (W.1.c_unique ha hb)

theorem Represents.posting_perm_live {s : ASIndex} {P : Nat → List Addr} {C : Int → List Addr}
    (W : Represents s P C) : ((dictKeys s.hash_dict).flatMap P).Perm (liveAddrs s.mem) := by
  rw [List.perm_ext_iff_of_nodup _ (nodup_liveAddrs _)]
  · intro a
    rw [mem_liveAddrs, List.mem_flatMap]
    constructor
    · rintro ⟨h, _, ha⟩
      exact W.1.p_live ha
    · intro ha
      obtain ⟨k, hk⟩ := Option.ne_none_iff_exists'.1 ha
      have hm := (W.1.live a k hk).1
      refine ⟨k.2.2, ?_, hm⟩
      rw [← DictGetC_isSome_iff]
      cases hg : DictGetC s.hash_dict k.2.2 with
      | none =>
        have := W.1.hd_none _ hg
        rw [this] at hm; simp at hm
      | some l => exact ⟨l, rfl⟩
  · rw [List.nodup_flatMap]
    refine ⟨fun h _ => W.1.p_nodup h, ?_⟩
    have hn : (dictKeys s.hash_dict).Pairwise (· ≠ ·) := W.1.hd_nodup
    apply hn.imp
    intro i j hij
    show List.Disjoint (P i) (P j)
    intro a ha hb
    exact hij (W.1.p_unique ha hb)

/-- C24 (dual membership). In every index built from the empty one by `add` and `del`,
every live entry occurs exactly once in the track chain of its own id and in no other
chain, exactly once in the posting list of its own `hash_value` and in no other posting
list; chains and posting lists hold live entries only, and together they hold the same
collection of entries (the live ones). -/
theorem dual_membership (s : ASIndex) (hs : Reachable s) :
    (∀ a e, load s.mem a = some e →
      (chainAddrs s e.id).count a = 1 ∧ (∀ id, a ∈ chainAddrs s id → id = e.id) ∧
      (postingAddrs s e.hash_value).count a = 1 ∧
      (∀ h, a ∈ postingAddrs s h → h = e.hash_value)) ∧
    (∀ id a, a ∈ chainAddrs s id → ∃ e, load s.mem a = some e ∧ e.id = id) ∧
    (∀ h a, a ∈ postingAddrs s h → ∃ e, load s.mem a = some e ∧ e.hash_value = h) ∧
    ((dictKeys s.id_dict).flatMap (chainAddrs s)).Perm
      ((dictKeys s.hash_dict).flatMap (postingAddrs s)) ∧
    ((dictKeys s.id_dict).flatMap (chainAddrs s)).Perm (liveAddrs s.mem) := by
  obtain ⟨P, C, I⟩ := reachable_wf hs
  have W := I.rep
  have hc : chainAddrs s = C := funext W.chainAddrs_eq
  have hp : postingAddrs s = P := funext W.postingAddrs_eq
  rw [hc, hp]
  have hckey : ∀ id a, a ∈ C id → ∃ e, load s.mem a = some e ∧ e.id = id := by
    intro id a ha
    obtain ⟨k, hk, hki⟩ := W.1.c_key id a ha
    obtain ⟨e, he, hkey⟩ := load_of_keyOf hk
    exact ⟨e, he, by rw [← hki, ← hkey]; rfl⟩
  have hpkey : ∀ h a, a ∈ P h → ∃ e, load s.mem a = some e ∧ e.hash_value = h := by
    intro h a ha
    obtain ⟨k, hk, hkh⟩ := W.1.p_key h a ha
    obtain ⟨e, he, hkey⟩ := load_of_keyOf hk
    exact ⟨e, he, by rw [← hkh, ← hkey]; rfl⟩
  refine ⟨?_, hckey, hpkey, W.chain_perm_live.trans W.posting_perm_live.symm, W.chain_perm_live⟩
  intro a e he
  have hk : keyOf s.mem a = some e.key := by simp [keyOf, he]
  obtain ⟨hP, hC⟩ := W.1.live a e.key hk
  refine ⟨List.count_eq_one_of_mem (W.1.c_nodup _) hC, ?_,
    List.count_eq_one_of_mem (W.1.p_nodup _) hP, ?_⟩
  · intro id ha
    obtain ⟨e', he', hid⟩ := hckey id a ha
    rw [he] at he'; cases he'; exact hid.symm
  · intro h ha
    obtain ⟨e', he', hh⟩ := hpkey h a ha
    rw [he] at he'; cases he'; exact hh.symm

/-- C24 after `add key [1, 2, 3] 7`: the entry at address 1 (pos 1, hash 2) is in the chain
of id 7 and in the posting list of hash 2, once each. -/
theorem dual_membership_witness :
    chainAddrs index_1_2_3 7 = [0, 1, 2] ∧ postingAddrs index_1_2_3 2 = [1] ∧
    (chainAddrs index_1_2_3 7).count 1 = 1 ∧ (postingAddrs index_1_2_3 2).count 1 = 1 ∧
    ((dictKeys index_1_2_3.id_dict).flatMap (chainAddrs index_1_2_3)).Perm
      ((dictKeys index_1_2_3.hash_dict).flatMap (postingAddrs index_1_2_3)) :=
  ⟨by decide, by decide,
    ((dual_membership index_1_2_3 reachable_index_1_2_3).1 1 ⟨none, none, some 2, 7, 1, 2⟩ rfl).1,
    ((dual_membership index_1_2_3 reachable_index_1_2_3).1 1
      ⟨none, none, some 2, 7, 1, 2⟩ rfl).2.2.1,
    (dual_membership index_1_2_3 reachable_index_1_2_3).2.2.2.1⟩

theorem sole_member_iff {mem : Heap} {l : List Addr} (hd : IsDll mem none l)
    {a : Addr} {e : Entry} (he : load mem a = some e) (ha : a ∈ l) :
    (e.prev = none ∧ e.next = none) ↔ l = [a] := by
  obtain ⟨pre, post, hl, hprev, hnext⟩ := IsDll_split l none hd ha
  have hp : e.prev = pre.getLast?.or none := by
    simpa [prevOf, he] using hprev
  have hx : e.next = post.head? := by
    simpa [nextOf, he] using hnext
  constructor
  · rintro ⟨h1, h2⟩
    rw [h1] at hp
    rw [h2] at hx
    have hpre : pre = [] := by
      cases hpl : pre.getLast? with
      | none => exact List.getLast?_eq_none_iff.1 hpl
      | some x => rw [hpl] at hp; simp at hp
    have hpost : post = [] := by
      cases post with
      | nil => rfl
      | cons y ys => simp at hx
    rw [hl, hpre, hpost]; rfl
  · intro h
    rw [h] at hl
    have hpre : pre = [] := by
      cases pre with
      | nil => rfl
      | cons y ys =>
        have := congrArg List.length hl
        simp at this
    rw [hpre] at hl hp
    have hpost : post = [] := by
      simp only [List.nil_append, List.cons.injEq, true_and] at hl
      exact hl.symm
    rw [hpost] at hx
    exact ⟨by simpa using hp, by simpa using hx⟩

/-- C25 (posting-list length). In every index built from the empty one by `add` and `del`,
for every hash in `hash_dict` the list is not empty, its `head` is the first entry, and its
`uint32_t` length counter is the number of entries reachable from the head along `next`
(modulo `2^32`, hence exactly that number, and at least 1, whenever fewer than `2^32` entries
share the hash); an entry is the sole member of its posting list exactly when its `prev` and
`next` are both null, and `remove_entry` on it erases the hash from `hash_dict`. -/
theorem posting_length_invariant (s : ASIndex) (hs : Reachable s) :
    (∀ h l, DictGetC s.hash_dict h = some l →
      1 ≤ (postingList s h).length ∧ l.head = (postingAddrs s h).head? ∧ l.head ≠ none ∧
      l.length = (postingList s h).length % 2 ^ 32 ∧
      ((postingList s h).length < 2 ^ 32 →
        l.length = (postingList s h).length ∧ 1 ≤ l.length)) ∧
    (∀ h, (postingList s h).length = (postingAddrs s h).length) ∧
    (∀ a e, load s.mem a = some e →
      ((e.prev = none ∧ e.next = none) ↔ postingAddrs s e.hash_value = [a])) ∧
    (∀ a e, load s.mem a = some e → postingAddrs s e.hash_value = [a] →
      remove_entry s.mem s.hash_dict e.hash_value a =
        some (s.mem, dictErase e.hash_value s.hash_dict) ∧
      DictGetC (dictErase e.hash_value s.hash_dict) e.hash_value = none) := by
  obtain ⟨P, C, I⟩ := reachable_wf hs
  have W := I.rep
  have hp : postingAddrs s = P := funext W.postingAddrs_eq
  have hlen : ∀ h, (postingList s h).length = (P h).length := W.length_postingList
  have hsole : ∀ a e, load s.mem a = some e →
      ((e.prev = none ∧ e.next = none) ↔ P e.hash_value = [a]) := by
    intro a e he
    have hk : keyOf s.mem a = some e.key := by simp [keyOf, he]
    exact sole_member_iff (W.1.dll _) he (W.1.live a e.key hk).1
  rw [hp]
  refine ⟨?_, hlen, hsole, ?_⟩
  · intro h l hg
    obtain ⟨hne, hhead, hl⟩ := W.1.hd_some h l hg
    have hpos : 1 ≤ (P h).length := by
      cases hP : P h with
      | nil => exact absurd hP hne
      | cons a rest => simp
    rw [hlen]
    refine ⟨hpos, hhead, ?_, hl, fun hlt => ?_⟩
    · rw [hhead]
      cases hP : P h with
      | nil => exact absurd hP hne
      | cons a rest => simp
    · rw [hl, Nat.mod_eq_of_lt hlt]
      exact ⟨rfl, hpos⟩
  · intro a e he hP
    obtain ⟨h1, h2⟩ := (hsole a e he).2 hP
    constructor
    · unfold remove_entry
      simp only [he, Option.bind_eq_bind, Option.some_bind, h1, h2]
    · exact DictGetC_dictErase_eq _ _ W.1.hd_nodup

/-- C25 after `add key [1, 2, 1] 7`: the posting list of hash 1 has length 2, that of hash 2
has the sole member at address 1, whose removal erases hash 2. -/
theorem posting_length_invariant_witness :
    DictGetC index_1_2_1.hash_dict 1 = some ⟨some 2, 2⟩ ∧
    (postingList index_1_2_1 1).length = 2 ∧
    postingAddrs index_1_2_1 2 = [1] ∧
    DictGetC (dictErase 2 index_1_2_1.hash_dict) 2 = none :=
  ⟨by decide, by decide,
    ((posting_length_invariant index_1_2_1 (reachable_index_of _ (by decide))).2.2.1 1
      ⟨none, none, some 2, 7, 1, 2⟩ (by decide)).1 ⟨rfl, rfl⟩,
    ((posting_length_invariant index_1_2_1 (reachable_index_of _ (by decide))).2.2.2 1
      ⟨none, none, some 2, 7, 1, 2⟩ (by decide) (by decide)).2⟩

/-! ## Posting order -/

theorem postAfter_sorted : ∀ (news : List (Nat × Nat)) (n : Nat) (P : Nat → List Addr),
    (∀ h, (P h).Pairwise (fun x y : Nat => y < x)) → (∀ h, ∀ a ∈ P h, a < n) →
    ∀ h, (postAfter news n P h).Pairwise (fun x y : Nat => y < x)
  | [], _, _, hs, _, h => hs h
  | (p, f) :: rest, n, P, hs, hb, h => by
    simp only [postAfter]
    apply postAfter_sorted rest (n + 1)
    · intro h'
      by_cases hf : h' = f
      · subst hf
        rw [Function.update_same]
        exact List.Pairwise.cons (fun a ha => hb h' a ha) (hs h')
      · rw [Function.update_noteq hf]
        exact hs h'
    · intro h' a ha
      by_cases hf : h' = f
      · subst hf
        rw [Function.update_same] at ha
        rcases List.mem_cons.1 ha with ha | ha
        · rw [ha]; exact Nat.lt_succ_self n
        · exact Nat.lt_succ_of_lt (hb h' a ha)
      · rw [Function.update_noteq hf] at ha
        exact Nat.lt_succ_of_lt (hb h' a ha)

/-- Reachable indexes are represented by posting lists in decreasing address order. -/
theorem reachable_sorted {s : ASIndex} (h : Reachable s) :
    ∃ P C, Inv s P C ∧ ∀ h, (P h).Pairwise (fun x y : Nat => y < x) := by
  induction h with
  | empty =>
    obtain ⟨hr, hc, hk⟩ : Inv emptyIndex (fun _ => []) (fun _ => []) :=
      ⟨represents_empty, by simp [emptyIndex, liveCount, liveAddrs],
        by intro a k h; simp [emptyIndex, keyOf, load] at h⟩
    exact ⟨_, _, ⟨hr, hc, hk⟩, fun _ => List.Pairwise.nil⟩
  | @add s s' host hashstr idarg replies id _ hv hadd ih =>
    obtain ⟨P, C, I, hsorted⟩ := ih
    obtain ⟨hid, hadd', hor⟩ := add_returned_inv hadd
    obtain ⟨s2, h1, h2, h3, _, h5, h6, _⟩ :=
      add_index_spec I.rep I.n_entries_lt host hashstr id hid
    rw [hadd'] at h1
    simp only [Option.some.injEq, AddOutcome.returned.injEq, KeyValue.asindex.injEq,
      true_and] at h1
    subst h1
    have hrange : isInt64 id := by
      rcases hor with h | ⟨_, h⟩
      · exact hv id h
      · rw [h]; exact get_next_id_isInt64 host
    refine ⟨_, _, I.add hrange h2 h3 h5 h6, ?_⟩
    exact postAfter_sorted _ _ P hsorted (fun h a ha => keyOf_lt (I.rep.1.p_live ha))
  | @del s s' idarg r _ hdel hkey ih =>
    obtain ⟨P, C, I, hsorted⟩ := ih
    rcases del_inv hdel with ⟨h, _⟩ | ⟨id, l, hi, hg, _⟩
    · rw [h] at hkey
      simp only [KeyValue.asindex.injEq] at hkey
      subst hkey
      exact ⟨P, C, I, hsorted⟩
    · subst hi
      obtain ⟨s2, h1, _, h3, h4, _, _, h7, _⟩ := del_index_spec I.rep I.count id l hg
      rw [hdel] at h1
      simp only [Option.some.injEq] at h1
      subst h1
      simp only [KeyValue.asindex.injEq] at hkey
      subst hkey
      refine ⟨_, _, ⟨h3, h4, ?_⟩, fun h => (hsorted h).filter _⟩
      intro a k hk
      rw [h7] at hk
      by_cases ha : a ∈ C id
      · rw [if_pos ha] at hk; exact Option.noConfusion hk
      · rw [if_neg ha] at hk; exact I.range a k hk

/-- C27 (posting order is reverse arrival). Entries get their addresses in increasing order
(the arena never hands an address out twice) and enter their hash slot when they are
created, so the address order is the arrival order. In every index built by `add` and `del`
each posting list, read head first, is in strictly decreasing address order: newest first;
an `add` puts its new entries in front of the old list, and a `del` leaves a sublist. -/
theorem posting_order (s : ASIndex) (hs : Reachable s) :
    (∀ h, (postingAddrs s h).Pairwise (fun x y : Nat => y < x)) ∧
    (∀ (host : Host) (hashstr : Bytes) (idarg : Option (Option Int)) (replies : List Reply)
      (id : Int) (s' : ASIndex),
      auscoutadd_common host (.asindex s) hashstr idarg =
        some (.returned replies id (.asindex s')) →
      ∀ h, ∃ news, postingAddrs s' h = news ++ postingAddrs s h ∧
        (∀ a ∈ news, s.mem.length ≤ a) ∧ ∀ a ∈ postingAddrs s h, a < s.mem.length) ∧
    (∀ (idarg : Option Int) (r : CmdResult) (s' : ASIndex),
      AuscoutDel_RedisCmd (.asindex s) idarg = some r → r.key = .asindex s' →
      ∀ h, (postingAddrs s' h).Sublist (postingAddrs s h)) := by
  obtain ⟨P, C, I, hsorted⟩ := reachable_sorted hs
  have hp : postingAddrs s = P := funext I.rep.postingAddrs_eq
  rw [hp]
  refine ⟨hsorted, ?_, ?_⟩
  · intro host hashstr idarg replies id s' hadd h
    obtain ⟨hid, hadd', _⟩ := add_returned_inv hadd
    obtain ⟨s2, h1, h2, _⟩ := add_index_spec I.rep I.n_entries_lt host hashstr id hid
    rw [hadd'] at h1
    simp only [Option.some.injEq, AddOutcome.returned.injEq, KeyValue.asindex.injEq,
      true_and] at h1
    subst h1
    rw [h2.postingAddrs_eq]
    obtain ⟨news, e1, e2⟩ := postAfter_split (dedup_frames 0 0 (add_input hashstr))
      s.mem.length P h
    exact ⟨news, e1, fun a ha => (e2 a ha).1, fun a ha => keyOf_lt (I.rep.1.p_live ha)⟩
  · intro idarg r s' hdel hkey h
    rcases del_inv hdel with ⟨hsame, _⟩ | ⟨id, l, hi, hg, _⟩
    · rw [hsame] at hkey
      simp only [KeyValue.asindex.injEq] at hkey
      subst hkey
      rw [hp]
    · subst hi
      obtain ⟨s2, h1, _, h3, _⟩ := del_index_spec I.rep I.count id l hg
      rw [hdel] at h1
      simp only [Option.some.injEq] at h1
      subst h1
      simp only [KeyValue.asindex.injEq] at hkey
      subst hkey
      rw [h3.postingAddrs_eq]
      exact List.filter_sublist _

/-- C27 after `add key [1, 2, 1] 7`: the posting list of hash 1 holds the entry created
third (address 2) before the entry created first (address 0). -/
theorem posting_order_witness :
    postingAddrs index_1_2_1 1 = [2, 0] ∧
    (postingList index_1_2_1 1).map Entry.pos = [2, 0] ∧
    (postingAddrs index_1_2_1 1).Pairwise (fun x y : Nat => y < x) :=
  ⟨by decide, by decide,
    (posting_order index_1_2_1 (reachable_index_of _ (by decide))).1 1⟩

/-! ## Track length and hash slots -/

/-- C26 as stated fails: the track `1, 2, 1` of id 7 has a chain of 3 entries (its stored
length is 3) and occupies 2 hash slots, the hashes 1 and 2. -/
theorem track_length_not_slots :
    Reachable index_1_2_1 ∧
    DictGetC index_1_2_1.id_dict 7 = some ⟨some 0, 3⟩ ∧
    (trackChain index_1_2_1 7).length = 3 ∧
    (trackChain index_1_2_1 7).map Entry.hash_value = [1, 2, 1] ∧
    hash_slots index_1_2_1 7 = 2 :=
  ⟨reachable_index_of _ (by decide), by decide, by decide, by decide, by decide⟩

theorem mem_postingList_chain {s : ASIndex} {P : Nat → List Addr} {C : Int → List Addr}
    (W : Represents s P C) {h : Nat} {e : Entry} (he : e ∈ postingList s h) :
    e.hash_value = h ∧ ∃ e2 ∈ trackChain s e.id, e2.key = e.key := by
  have h1 : e.key ∈ (postingList s h).map Entry.key := List.mem_map_of_mem _ he
  rw [W.postingList_key, List.mem_filterMap] at h1
  obtain ⟨a, ha, hk⟩ := h1
  obtain ⟨k, hk', hkh⟩ := W.1.p_key h a ha
  rw [hk] at hk'
  cases hk'
  refine ⟨hkh, ?_⟩
  have h2 : e.key ∈ (trackChain s e.id).map Entry.key := by
    rw [W.trackChain_key, List.mem_filterMap]
    exact ⟨a, (W.1.live a e.key hk).2, hk⟩
  obtain ⟨e2, he2, hkey⟩ := List.mem_map.1 h2
  exact ⟨e2, he2, hkey⟩

theorem mem_trackChain_posting {s : ASIndex} {P : Nat → List Addr} {C : Int → List Addr}
    (W : Represents s P C) {id : Int} {e : Entry} (he : e ∈ trackChain s id) :
    e.id = id ∧ e.hash_value ∈ dictKeys s.hash_dict ∧
      ∃ e2 ∈ postingList s e.hash_value, e2.key = e.key := by
  have h1 : e.key ∈ (trackChain s id).map Entry.key := List.mem_map_of_mem _ he
  rw [W.trackChain_key, List.mem_filterMap] at h1
  obtain ⟨a, ha, hk⟩ := h1
  obtain ⟨k, hk', hki⟩ := W.1.c_key id a ha
  rw [hk] at hk'
  cases hk'
  have haP : a ∈ P e.hash_value := (W.1.live a e.key hk).1
  refine ⟨hki, ?_, ?_⟩
  · rw [← DictGetC_isSome_iff]
    cases hg : DictGetC s.hash_dict e.hash_value with
    | none =>
      have := W.1.hd_none _ hg
      rw [this] at haP; simp at haP
    | some l => exact ⟨l, rfl⟩
  · have h2 : e.key ∈ (postingList s e.hash_value).map Entry.key := by
      rw [W.postingList_key, List.mem_filterMap]
      exact ⟨a, haP, hk⟩
    obtain ⟨e2, he2, hkey⟩ := List.mem_map.1 h2
    exact ⟨e2, he2, hkey⟩

theorem key_id {e e2 : Entry} (h : e2.key = e.key) : e2.id = e.id :=
  congrArg (fun k : Int × Nat × Nat => k.1) h

theorem key_hash {e e2 : Entry} (h : e2.key = e.key) : e2.hash_value = e.hash_value :=
  congrArg (fun k : Int × Nat × Nat => k.2.2) h

/-- C26, amended (track length and hash slots). In every index built by `add` and `del`, for
every id in `id_dict` the stored length is the number of entries reachable from the head
along `succ`; the number of hash slots in which the id occurs is the number of distinct hash
values of the chain, which is at most the length and equals it exactly when the hash values of
the chain are pairwise distinct. -/
theorem track_length_slots (s : ASIndex) (hs : Reachable s) (id : Int) (l : EntryList)
    (hg : DictGetC s.id_dict id = some l) :
    l.length = (trackChain s id).length ∧
    (trackChain s id).length = (chainAddrs s id).length ∧
    hash_slots s id = ((trackChain s id).map Entry.hash_value).dedup.length ∧
    hash_slots s id ≤ l.length ∧
    (hash_slots s id = l.length ↔ ((trackChain s id).map Entry.hash_value).Nodup) := by
  obtain ⟨P, C, I⟩ := reachable_wf hs
  have W := I.rep
  obtain ⟨_, hlen, _⟩ := W.2.some id l hg
  have hl : l.length = (trackChain s id).length := by rw [hlen, W.length_trackChain]
  have hslots : hash_slots s id = ((trackChain s id).map Entry.hash_value).dedup.length := by
    unfold hash_slots
    apply List.Perm.length_eq
    rw [List.perm_ext_iff_of_nodup (W.1.hd_nodup.filter _) (List.nodup_dedup _)]
    intro h
    simp only [List.mem_filter, List.any_eq_true, decide_eq_true_eq, List.mem_dedup, List.mem_map]
    constructor
    · rintro ⟨_, e, he, hid⟩
      obtain ⟨hh, e2, he2, hkey⟩ := mem_postingList_chain W he
      rw [hid] at he2
      exact ⟨e2, he2, by rw [key_hash hkey, hh]⟩
    · rintro ⟨e, he, hh⟩
      obtain ⟨hid, hk, e2, he2, hkey⟩ := mem_trackChain_posting W he
      rw [hh] at hk he2
      exact ⟨hk, e2, he2, by rw [key_id hkey, hid]⟩
  have hle : ((trackChain s id).map Entry.hash_value).dedup.length ≤ (trackChain s id).length := by
    have := (List.dedup_sublist ((trackChain s id).map Entry.hash_value)).length_le
    rwa [List.length_map] at this
  refine ⟨hl, by rw [W.length_trackChain, W.chainAddrs_eq], hslots, by rw [hslots, hl]; exact hle, ?_⟩
  rw [hslots, hl]
  constructor
  · intro heq
    have hsub := List.dedup_sublist ((trackChain s id).map Entry.hash_value)
    have := hsub.eq_of_length (by rw [heq, List.length_map])
    rw [← this]
    exact List.nodup_dedup _
  · intro hn
    rw [hn.dedup, List.length_map]

/-- C26, amended, on the tracks `1, 2, 1` and `1, 2, 3` of id 7: lengths 3 and 3, hash slots 2
and 3. -/
theorem track_length_slots_witness :
    hash_slots index_1_2_1 7 ≤ 3 ∧ hash_slots index_1_2_1 7 = 2 ∧
    hash_slots index_1_2_3 7 = 3 :=
  ⟨(track_length_slots index_1_2_1 (reachable_index_of _ (by decide)) 7 ⟨some 0, 3⟩
      (by decide)).2.2.2.1,
    by decide,
    (track_length_slots index_1_2_3 reachable_index_1_2_3 7 ⟨some 0, 3⟩ (by decide)).2.2.2.2.2
      (by decide)⟩

/-! ## The score -/

/-- C28 as stated fails: the track `1, 2, 1` of id 7 has two entries under hash 1, so each of
the 100 probe frames of hash 1 (zero toggles, default threshold) counts twice; at frame 99
the count is 199 for a window of 100 and `lookup` returns the score `199/100`. -/
theorem lookup_score_above_one :
    AuscoutLookup_RedisCmd (fun _ => none) (.asindex index_1_2_1)
        (htonl_bytes (List.replicate 100 1)) (htonl_bytes (List.replicate 100 0)) none =
      some ⟨[Reply.rows [⟨none, 7, 0, 199 / 100⟩]], REDISMODULE_OK, .asindex index_1_2_1⟩ ∧
    Reachable index_1_2_1 ∧ ¬ ((199 / 100 : ℚ) ≤ 1) :=
  ⟨by decide!, reachable_index_of _ (by decide), by norm_num⟩

theorem window_update_count_ge {current : Int} {e : Entry} {t : TrackerId} (h : 1 ≤ t.count) :
    1 ≤ (window_update current e t).count := by
  unfold window_update
  split
  · simp only; omega
  · exact h

theorem lookup_entry_counted (current : Int) (threshold : ℚ) (e : Entry) {tracker : Tracker}
    {results : List FoundId} (hc : Counted tracker) (hr : ∀ r ∈ results, GoodScore threshold r) :
    Counted (lookup_entry current threshold e tracker results).1 ∧
    ∀ r ∈ (lookup_entry current threshold e tracker results).2.1, GoodScore threshold r := by
  cases hf : (lookup_entry current threshold e tracker results).2.2 with
  | false =>
    obtain ⟨hres, t2, hset, _, _, hshape⟩ := lookup_entry_quiet hf
    rw [hres, hset]
    refine ⟨?_, hr⟩
    intro kv hkv
    rcases mem_trackerSet hkv with rfl | hkv
    · rcases hshape with rfl | ⟨t, hg, _, rfl⟩
      · exact le_refl _
      · exact window_update_count_ge (hc _ (mem_of_DictGetC _ _ _ hg))
    · exact hc kv hkv
  | true =>
    obtain ⟨t, hg, hcr, hout⟩ := lookup_entry_emits hf
    rw [hout]
    refine ⟨fun kv hkv => hc kv (mem_of_mem_dictErase _ _ _ hkv), ?_⟩
    intro r hrm
    rcases List.mem_append.1 hrm with hrm | hrm
    · exact hr r hrm
    · rw [List.mem_singleton.1 hrm]
      refine ⟨hcr.2, _, _, window_update_count_ge (hc _ (mem_of_DictGetC _ _ _ hg)), ?_, rfl⟩
      have := hcr.1
      simpa [LOOKUP_BLOCK] using this

theorem lookup_keys_counted (current : Int) (threshold : ℚ) :
    ∀ (l : List (Int × Nat × Nat)) (tracker : Tracker) (results : List FoundId),
    Counted tracker → (∀ r ∈ results, GoodScore threshold r) →
    Counted (lookup_keys current threshold l tracker results).1 ∧
    ∀ r ∈ (lookup_keys current threshold l tracker results).2.1, GoodScore threshold r
  | [], _, _, hc, hr => ⟨hc, hr⟩
  | k :: ks, tracker, results, hc, hr => by
    obtain ⟨h1, h2⟩ := lookup_entry_counted current threshold (entryOfKey k) hc hr
    unfold lookup_keys
    split
    · exact ⟨h1, h2⟩
    · exact lookup_keys_counted current threshold ks _ _ h1 h2

theorem lookup_candidates_counted (current : Int) (threshold : ℚ)
    (post : Nat → List (Int × Nat × Nat)) :
    ∀ (keys : List Nat) (tracker : Tracker) (results : List FoundId),
    Counted tracker → (∀ r ∈ results, GoodScore threshold r) →
    Counted (lookup_candidates_keys current threshold post keys tracker results).1 ∧
    ∀ r ∈ (lookup_candidates_keys current threshold post keys tracker results).2,
      GoodScore threshold r
  | [], _, _, hc, hr => ⟨hc, hr⟩
  | key :: keys, tracker, results, hc, hr => by
    obtain ⟨h1, h2⟩ := lookup_keys_counted current threshold (post key) tracker results hc hr
    unfold lookup_candidates_keys
    exact lookup_candidates_counted current threshold post keys _ _ h1 h2

theorem lookup_frames_counted (threshold : ℚ) (post : Nat → List (Int × Nat × Nat)) :
    ∀ (frames : List (Nat × Nat)) (i : Int) (tracker : Tracker) (results : List FoundId),
    Counted tracker → (∀ r ∈ results, GoodScore threshold r) →
    ∃ res, lookup_frames_keys threshold post frames i tracker results = some res ∧
      ∀ r ∈ res, GoodScore threshold r
  | [], _, _, results, _, hr => ⟨results, rfl, hr⟩
  | (frame, toggle) :: rest, i, tracker, results, hc, hr => by
    obtain ⟨h1, h2⟩ := lookup_candidates_counted i threshold post
      (hashvalue_candidates frame toggle) tracker results hc hr
    simp only [lookup_frames_keys, get_candidates_total]
    split
    · exact ⟨_, rfl, h2⟩
    · exact lookup_frames_counted threshold post rest (i + 1) _ _ h1 h2

theorem window_update_fit {i : Int} (e : Entry) {t : TrackerId}
    (h1 : t.count ≤ window_length t) (h2 : t.last_index < i) :
    (window_update i e t).count ≤ window_length (window_update i e t) ∧
    (window_update i e t).last_index ≤ i := by
  unfold window_update
  split
  · simp only [window_length] at h1 ⊢
    constructor <;> omega
  · exact ⟨h1, le_of_lt h2⟩

theorem lookup_entry_fit (i : Int) (threshold : ℚ) (e : Entry) {pending : List Int}
    {tracker : Tracker} {results : List FoundId} (hn : e.id ∉ pending)
    (hf : Fit i (e.id :: pending) tracker) (hr : ∀ r ∈ results, r.cs ≤ 1) :
    Fit i pending (lookup_entry i threshold e tracker results).1 ∧
    ∀ r ∈ (lookup_entry i threshold e tracker results).2.1, r.cs ≤ 1 := by
  have hold : ∀ kv ∈ tracker, kv.2.count ≤ window_length kv.2 ∧ kv.2.last_index ≤ i ∧
      (kv.1 ∈ pending → kv.2.last_index < i) :=
    fun kv hkv => ⟨(hf kv hkv).1, (hf kv hkv).2.1,
      fun hp => (hf kv hkv).2.2 (List.mem_cons_of_mem _ hp)⟩
  cases hfound : (lookup_entry i threshold e tracker results).2.2 with
  | false =>
    obtain ⟨hres, t2, hset, hlast, _, hshape⟩ := lookup_entry_quiet hfound
    rw [hres, hset]
    refine ⟨?_, hr⟩
    intro kv hkv
    rcases mem_trackerSet hkv with rfl | hkv
    · refine ⟨?_, le_of_eq hlast, fun hp => absurd hp hn⟩
      rcases hshape with rfl | ⟨t, hg, _, rfl⟩
      · simp [window_length]
      · have ht := hf _ (mem_of_DictGetC _ _ _ hg)
        exact (window_update_fit e ht.1 (ht.2.2 (List.mem_cons_self _ _))).1
    · exact hold kv hkv
  | true =>
    obtain ⟨t, hg, hcr, hout⟩ := lookup_entry_emits hfound
    rw [hout]
    refine ⟨fun kv hkv => hold kv (mem_of_mem_dictErase _ _ _ hkv), ?_⟩
    intro r hrm
    rcases List.mem_append.1 hrm with hrm | hrm
    · exact hr r hrm
    · rw [List.mem_singleton.1 hrm]
      have ht := hf _ (mem_of_DictGetC _ _ _ hg)
      have hfit := (window_update_fit e ht.1 (ht.2.2 (List.mem_cons_self _ _))).1
      have hw : (0 : ℚ) < (window_length (window_update i e t) : ℚ) := by
        have := hcr.1
        simp only [LOOKUP_BLOCK] at this
        have h0 : (0 : Int) < window_length (window_update i e t) := by omega
        exact_mod_cast h0
      simp only
      rw [div_le_one hw]
      exact_mod_cast hfit

theorem lookup_keys_fit (i : Int) (threshold : ℚ) :
    ∀ (l : List (Int × Nat × Nat)) (tracker : Tracker) (results : List FoundId),
    (l.map (fun k => k.1)).Nodup → Fit i (l.map (fun k => k.1)) tracker →
    (∀ r ∈ results, r.cs ≤ 1) →
    Fit i [] (lookup_keys i threshold l tracker results).1 ∧
    ∀ r ∈ (lookup_keys i threshold l tracker results).2.1, r.cs ≤ 1
  | [], _, _, _, hf, hr => ⟨hf, hr⟩
  | k :: ks, tracker, results, hnd, hf, hr => by
    simp only [List.map_cons, List.nodup_cons] at hnd
    obtain ⟨h1, h2⟩ := lookup_entry_fit i threshold (entryOfKey k) hnd.1 hf hr
    unfold lookup_keys
    split
    · exact ⟨fun kv hkv => ⟨(h1 kv hkv).1, (h1 kv hkv).2.1, fun hp => absurd hp (List.not_mem_nil _)⟩,
        h2⟩
    · exact lookup_keys_fit i threshold ks _ _ hnd.2 h1 h2

theorem lookup_frames_fit (threshold : ℚ) (post : Nat → List (Int × Nat × Nat)) :
    ∀ (frames : List (Nat × Nat)) (i : Int) (tracker : Tracker) (results : List FoundId),
    (∀ ft ∈ frames, ft.2 = 0 ∧ ((post (ft.1 % 2 ^ 32)).map (fun k => k.1)).Nodup) →
    (∀ kv ∈ tracker, kv.2.count ≤ window_length kv.2 ∧ kv.2.last_index < i) →
    (∀ r ∈ results, r.cs ≤ 1) →
    ∀ res, lookup_frames_keys threshold post frames i tracker results = some res →
      ∀ r ∈ res, r.cs ≤ 1
  | [], _, _, results, _, _, hr, res, h => by
    simp only [lookup_frames_keys, Option.some.injEq] at h
    subst h; exact hr
  | (frame, toggle) :: rest, i, tracker, results, hcond, hfit, hr, res, h => by
    obtain ⟨ht, hnd⟩ := hcond (frame, toggle) (List.mem_cons_self _ _)
    simp only at ht hnd
    subst ht
    have hF : Fit i ((post (frame % 2 ^ 32)).map (fun k => k.1)) tracker :=
      fun kv hkv => ⟨(hfit kv hkv).1, le_of_lt (hfit kv hkv).2, fun _ => (hfit kv hkv).2⟩
    obtain ⟨h1, h2⟩ := lookup_keys_fit i threshold (post (frame % 2 ^ 32)) tracker results
      hnd hF hr
    simp only [lookup_frames_keys, get_candidates_zero, lookup_candidates_keys] at h
    split at h
    · simp only [Option.some.injEq] at h
      subst h; exact h2
    · refine lookup_frames_fit threshold post rest (i + 1) _ _
        (fun ft hft => hcond ft (List.mem_cons_of_mem _ hft)) ?_ h2 res h
      intro kv hkv
      have := h1 kv hkv
      exact ⟨this.1, by omega⟩

/-- C28, amended (score). On an index built by `add` and `del`, every result that `lookup`
returns has a score `count / window` (an exact rational) with `threshold ≤ score`,
`count ≥ 1` and `window ≥ 100`; the count is incremented for every examined entry of the
id, so `score ≤ 1` holds when no frame examines two entries of one id: with zero toggles and
posting lists whose examined entries have pairwise distinct ids. -/
theorem lookup_score_bounds (s : ASIndex) (hs : Reachable s) (threshold : ℚ)
    (frames : List (Nat × Nat)) :
    ∃ res, lookup_frames threshold s frames 0 [] [] = some res ∧
      (∀ r ∈ res, threshold ≤ r.cs ∧
        ∃ count window : Int, 1 ≤ count ∧ 100 ≤ window ∧ r.cs = (count : ℚ) / (window : ℚ)) ∧
      ((∀ ft ∈ frames, ft.2 = 0 ∧ ((examined s (ft.1 % 2 ^ 32)).map (fun k => k.1)).Nodup) →
        ∀ r ∈ res, r.cs ≤ 1) := by
  obtain ⟨P, C, I⟩ := reachable_wf hs
  obtain ⟨res, h1, h2⟩ := lookup_frames_counted threshold (examined s) frames 0 [] []
    (fun kv hkv => absurd hkv (List.not_mem_nil kv)) (fun r hr => absurd hr (List.not_mem_nil r))
  refine ⟨res, by rw [lookup_frames_eq I.rep, h1], h2, ?_⟩
  intro hcond
  exact lookup_frames_fit threshold (examined s) frames 0 [] [] hcond
    (fun kv hkv => absurd hkv (List.not_mem_nil kv)) (fun r hr => absurd hr (List.not_mem_nil r))
    res h1

/-- C28, amended, on the tracks of `index_2_3` (one entry per hash): a probe of 100 frames of
hash 2 with zero toggles returns scores of at most 1. -/
theorem lookup_score_bounds_witness :
    lookup_frames (3 / 10) index_2_3 (List.replicate 100 (2, 0)) 0 [] [] = some [⟨7, 0, 1⟩] ∧
    ∃ res, lookup_frames (3 / 10) index_2_3 (List.replicate 100 (2, 0)) 0 [] [] = some res ∧
      ∀ r ∈ res, (3 / 10 : ℚ) ≤ r.cs ∧ r.cs ≤ 1 := by
  obtain ⟨res, h1, h2, h3⟩ :=
    lookup_score_bounds index_2_3 (reachable_index_of _ (by decide)) (3 / 10)
      (List.replicate 100 (2, 0))
  refine ⟨by decide!, res, h1, fun r hr => ⟨(h2 r hr).1, h3 ?_ r hr⟩⟩
  intro ft hft
  rw [List.eq_of_mem_replicate hft]
  exact ⟨rfl, by decide⟩

end AudioScout
